import Mathlib

/-
Verification of the ic-stable-memory repository: a shallow embedding of the
stable-memory allocator, the B-plus-tree map and the sector log, with proofs
of the specified properties.

Machine integers are modelled as Nat; all sizes in the source are small
enough that no overflow occurs on the traced paths, and where a width
matters (the persisted allocator header) reductions modulo 2 ^ 64 are
explicit.
-/

set_option maxHeartbeats 1000000

namespace ICStableMemory

/-! ## The sector log (src/collections/log/mod.rs)

The log keeps its elements in a linked list of sectors.  The push path is
embedded below: `get_or_create_current_sector` creates the first sector and
`move_to_next_sector_if_needed` creates each following one.  The model keeps
the list of created sector capacities (first sector first); the current
sector is always the last one because `move_to_prev_sector_if_needed`
destroys the sector it leaves, so the `next_sector_ptr != EMPTY_PTR` reuse
branch of `move_to_next_sector_if_needed` can never fire. -/

namespace SLog

/-- DEFAULT_CAPACITY from src/collections/log/mod.rs line 14. -/
def DEFAULT_CAPACITY : Nat := 2

/-- Sector layout offset of the previous-sector pointer. -/
def PREV_OFFSET : Nat := 0

/-- Sector layout offset of the next-sector pointer (u64::SIZE = 8). -/
def NEXT_OFFSET : Nat := PREV_OFFSET + 8

/-- Sector layout offset of the first element. -/
def ELEMENTS_OFFSET : Nat := NEXT_OFFSET + 8

/-- SLog::max_capacity: 2usize.pow(31) / T::SIZE. -/
def max_capacity (tSize : Nat) : Nat := 2 ^ 31 / tSize

/-- Size requested from the allocator by Sector::new:
u64::SIZE * 2 + cap * T::SIZE. -/
def sectorAllocSize (tSize cap : Nat) : Nat := 8 * 2 + cap * tSize

/-- Byte offset of element i inside a sector (Sector::get_element_ptr). -/
def elementOffset (tSize i : Nat) : Nat := ELEMENTS_OFFSET + i * tSize

/-- The push-relevant fields of SLog: the capacities of the created sectors
in creation order (the current sector is the last), the cur_sector_capacity
field and the cur_sector_len field. -/
structure LogState where
  caps : List Nat
  curCap : Nat
  curLen : Nat
deriving Repr, DecidableEq

/-- SLog::new: no sector yet, cur_sector_capacity = DEFAULT_CAPACITY. -/
def initial : LogState := { caps := [], curCap := DEFAULT_CAPACITY, curLen := 0 }

/-- SLog::get_or_create_current_sector: when no sector exists, double
cur_sector_capacity and create a sector of that capacity. -/
def get_or_create_current_sector (s : LogState) : LogState :=
  if s.caps = [] then
    { caps := [s.curCap * 2], curCap := s.curCap * 2, curLen := s.curLen }
  else s

/-- SLog::move_to_next_sector_if_needed: when the current sector is full,
double cur_sector_capacity unless it already reached max_capacity, and
create the next sector with the resulting capacity. -/
def move_to_next_sector_if_needed (tSize : Nat) (s : LogState) : LogState :=
  if s.curLen ≠ s.curCap then s
  else
    let cap := if s.curCap < max_capacity tSize then s.curCap * 2 else s.curCap
    { caps := s.caps ++ [cap], curCap := cap, curLen := 0 }

/-- SLog::push (sector bookkeeping only): ensure a current sector exists,
move to the next sector if the current one is full, then append. -/
def push (tSize : Nat) (s : LogState) : LogState :=
  let s1 := get_or_create_current_sector s
  let s2 := move_to_next_sector_if_needed tSize s1
  { caps := s2.caps, curCap := s2.curCap, curLen := s2.curLen + 1 }

/-- n pushes in sequence. -/
def pushN (tSize : Nat) : Nat → LogState → LogState
  | 0, s => s
  | n + 1, s => pushN tSize n (push tSize s)

/-- The capacity of the i-th created sector: 4 for the first, then doubling
while below max_capacity. -/
def capAt (tSize : Nat) : Nat → Nat
  | 0 => DEFAULT_CAPACITY * 2
  | i + 1 =>
    let c := capAt tSize i
    if c < max_capacity tSize then c * 2 else c

/-- The expected capacities of the first n created sectors. -/
def capList (tSize n : Nat) : List Nat := (List.range n).map (capAt tSize)

theorem capAt_pos (tSize i : Nat) : 0 < capAt tSize i := by
  induction i with
  | zero => simp [capAt, DEFAULT_CAPACITY]
  | succ n ih =>
    simp only [capAt]
    split
    · omega
    · exact ih

theorem capList_append (tSize n : Nat) :
    capList tSize (n + 1) = capList tSize n ++ [capAt tSize n] := by
  simp [capList, List.range_succ]

/-- The log-state invariant maintained by push: the created capacities are
exactly capList, cur_sector_capacity is the last created capacity (or
DEFAULT_CAPACITY before any creation), and the current fill level does not
exceed the current capacity. -/
def LogInv (tSize : Nat) (s : LogState) : Prop :=
  s.caps = capList tSize s.caps.length ∧
  (s.caps = [] → s.curCap = DEFAULT_CAPACITY ∧ s.curLen = 0) ∧
  (s.caps ≠ [] → s.curCap = capAt tSize (s.caps.length - 1)) ∧
  s.curLen ≤ s.curCap

theorem logInv_initial (tSize : Nat) : LogInv tSize initial := by
  refine ⟨rfl, fun _ => ⟨rfl, rfl⟩, fun h => absurd rfl h, by simp [initial, DEFAULT_CAPACITY]⟩

theorem logInv_push (tSize : Nat) (s : LogState) (h : LogInv tSize s) :
    LogInv tSize (push tSize s) := by
  obtain ⟨hcaps, hemp, hne, hlen⟩ := h
  by_cases h0 : s.caps = []
  · obtain ⟨hc, hl⟩ := hemp h0
    have hpush : push tSize s =
        { caps := [DEFAULT_CAPACITY * 2], curCap := DEFAULT_CAPACITY * 2,
          curLen := 1 } := by
      simp [push, get_or_create_current_sector, move_to_next_sector_if_needed,
        h0, hc, hl, DEFAULT_CAPACITY]
    rw [hpush]
    refine ⟨?_, by simp, fun _ => ?_, by simp [DEFAULT_CAPACITY]⟩
    · simp [capList, capAt, List.range_succ]
    · simp [capAt]
  · have hcc : s.curCap = capAt tSize (s.caps.length - 1) := hne h0
    have hg : get_or_create_current_sector s = s := by
      simp [get_or_create_current_sector, h0]
    by_cases hfull : s.curLen = s.curCap
    · have hlen1 : 1 ≤ s.caps.length := by
        cases hc2 : s.caps with
        | nil => exact absurd hc2 h0
        | cons a l => simp
      have hnext : capAt tSize s.caps.length =
          if s.curCap < max_capacity tSize then s.curCap * 2 else s.curCap := by
        have : s.caps.length = (s.caps.length - 1) + 1 := by omega
        rw [this, capAt, ← hcc]
      have hpush : push tSize s =
          { caps := s.caps ++ [capAt tSize s.caps.length],
            curCap := capAt tSize s.caps.length, curLen := 1 } := by
        simp only [push, hg, move_to_next_sector_if_needed, hfull]
        simp [hnext]
      rw [hpush]
      refine ⟨?_, by simp, fun _ => ?_, capAt_pos tSize _⟩
      · rw [List.length_append, List.length_singleton, capList_append]
        rw [hcaps]
        simp [capList]
      · simp
    · have hpush : push tSize s =
          { caps := s.caps, curCap := s.curCap, curLen := s.curLen + 1 } := by
        simp [push, hg, move_to_next_sector_if_needed, hfull]
      rw [hpush]
      have hle : s.curLen + 1 ≤ s.curCap := by omega
      exact ⟨hcaps, fun hc2 => absurd hc2 h0, fun _ => hcc, hle⟩

theorem logInv_pushN (tSize n : Nat) (s : LogState) (h : LogInv tSize s) :
    LogInv tSize (pushN tSize n s) := by
  induction n generalizing s with
  | zero => exact h
  | succ m ih => exact ih _ (logInv_push tSize s h)

theorem pushN_add (tSize a b : Nat) (s : LogState) :
    pushN tSize (a + b) s = pushN tSize b (pushN tSize a s) := by
  induction a generalizing s with
  | zero => rw [Nat.zero_add]; rfl
  | succ m ih =>
    have h1 : m + 1 + b = (m + b) + 1 := by omega
    rw [h1]
    show pushN tSize (m + b) (push tSize s) = _
    rw [ih (push tSize s)]
    rfl

theorem push_nonfull (tSize : Nat) (s : LogState) (h0 : s.caps ≠ [])
    (h1 : s.curLen < s.curCap) :
    push tSize s =
      { caps := s.caps, curCap := s.curCap, curLen := s.curLen + 1 } := by
  have hne : s.curLen ≠ s.curCap := Nat.ne_of_lt h1
  simp [push, get_or_create_current_sector, move_to_next_sector_if_needed, h0, hne]

theorem push_full (tSize : Nat) (s : LogState) (h0 : s.caps ≠ [])
    (h1 : s.curLen = s.curCap) :
    push tSize s =
      { caps := s.caps ++
          [if s.curCap < max_capacity tSize then s.curCap * 2 else s.curCap],
        curCap := if s.curCap < max_capacity tSize then s.curCap * 2 else s.curCap,
        curLen := 1 } := by
  simp [push, get_or_create_current_sector, move_to_next_sector_if_needed, h0, h1]

theorem pushN_fill (tSize : Nat) (m : Nat) (s : LogState) (h0 : s.caps ≠ [])
    (h1 : s.curLen + m ≤ s.curCap) :
    pushN tSize m s =
      { caps := s.caps, curCap := s.curCap, curLen := s.curLen + m } := by
  induction m generalizing s with
  | zero => cases s; rfl
  | succ k ih =>
    have hlt : s.curLen < s.curCap := by omega
    show pushN tSize k (push tSize s) = _
    rw [push_nonfull tSize s h0 hlt]
    rw [ih _ (by simpa using h0) (by simpa using by omega)]
    simp; omega

/-- Total number of pushes needed to fill the first k sectors completely. -/
def capSum (tSize k : Nat) : Nat := (capList tSize k).sum

theorem capSum_succ (tSize k : Nat) :
    capSum tSize (k + 1) = capSum tSize k + capAt tSize k := by
  simp [capSum, capList_append]

/-- After exactly capSum k pushes the log holds k sectors, all full, with the
capacities capList k. -/
theorem pushN_reach_full (tSize k : Nat) (hk : 1 ≤ k) :
    pushN tSize (capSum tSize k) initial =
      { caps := capList tSize k, curCap := capAt tSize (k - 1),
        curLen := capAt tSize (k - 1) } := by
  induction k with
  | zero => omega
  | succ n ih =>
    by_cases hn : n = 0
    · subst hn
      obtain ⟨m, hm⟩ : ∃ m, capAt tSize 0 = m + 1 :=
        ⟨capAt tSize 0 - 1, by have := capAt_pos tSize 0; omega⟩
      have hc4 : capSum tSize 1 = 1 + m := by
        simp [capSum, capList, List.range_succ]
        omega
      rw [hc4, pushN_add]
      have hstep : pushN tSize 1 initial =
          { caps := [capAt tSize 0], curCap := capAt tSize 0, curLen := 1 } := by
        show push tSize initial = _
        simp [push, get_or_create_current_sector, move_to_next_sector_if_needed,
          initial, capAt, DEFAULT_CAPACITY]
      rw [hstep]
      rw [pushN_fill tSize m _ (by simp) (by show 1 + m ≤ capAt tSize 0; omega)]
      simp [capList, List.range_succ, hm, Nat.add_comm]
    · have hn1 : 1 ≤ n := by omega
      have ihn := ih hn1
      rw [capSum_succ, pushN_add, ihn]
      have hne : capList tSize n ≠ [] := by
        simp [capList]
        omega
      have hcreated : (if capAt tSize (n - 1) < max_capacity tSize then
          capAt tSize (n - 1) * 2 else capAt tSize (n - 1)) = capAt tSize n := by
        have hsub : n = (n - 1) + 1 := by omega
        conv_rhs => rw [hsub]
        rfl
      obtain ⟨m, hm⟩ : ∃ m, capAt tSize n = m + 1 :=
        ⟨capAt tSize n - 1, by have := capAt_pos tSize n; omega⟩
      have hsplit : capAt tSize n = 1 + m := by omega
      rw [hsplit, pushN_add]
      have hfull := push_full tSize
        { caps := capList tSize n, curCap := capAt tSize (n - 1),
          curLen := capAt tSize (n - 1) } hne rfl
      simp only at hfull
      rw [show pushN tSize 1 = push tSize from rfl, hfull, hcreated]
      rw [pushN_fill tSize m _ (by simp) (by show 1 + m ≤ capAt tSize n; omega)]
      have hlist : capList tSize n ++ [capAt tSize n] = capList tSize (n + 1) :=
        (capList_append tSize n).symm
      simp only [hlist, Nat.add_sub_cancel]
      rw [hm]
      simp [Nat.add_comm]

end SLog

/-- C9 counterexample: with T_SIZE = 3 the sector capacity is not capped at
2 ^ 31 / T_SIZE = 715827882.  After 1073741821 pushes the log has created a
sector of capacity 1073741824 (doubling from 536870912, which was still below
the cap), exceeding the claimed cap. -/
theorem log_capacity_cap_counterexample :
    1073741824 ∈ (SLog.pushN 3 1073741821 SLog.initial).caps ∧
    SLog.max_capacity 3 < 1073741824 := by
  constructor
  · have hfull := SLog.pushN_reach_full 3 28 (by omega)
    have h1 : (1073741821 : Nat) = SLog.capSum 3 28 + 1 := by decide
    rw [h1, SLog.pushN_add, hfull]
    rw [show SLog.pushN 3 1 = SLog.push 3 from rfl]
    rw [SLog.push_full 3 _ (by simp [SLog.capList]) rfl]
    have hc : (if SLog.capAt 3 (28 - 1) < SLog.max_capacity 3 then
        SLog.capAt 3 (28 - 1) * 2 else SLog.capAt 3 (28 - 1)) = 1073741824 := by
      decide
    simp only [hc]
    exact List.mem_append_right _ (by simp)
  · decide

/-- C9 (amended): the log stores its elements in sectors created on demand;
the first created sector has capacity 4, each subsequently created sector
has double the previous capacity while the previous capacity is below
2 ^ 31 / T_SIZE, and the capacity stops doubling once it has reached at
least 2 ^ 31 / T_SIZE (it may overshoot that bound by less than a factor of
two when T_SIZE is not a power of two).  Every sector is laid out as
[prev_offset, next_offset, T elements] with an allocation of
16 + capacity * T_SIZE bytes. -/
theorem log_sector_capacities_and_layout (tSize n : Nat) :
    ((SLog.pushN tSize n SLog.initial).caps =
      SLog.capList tSize (SLog.pushN tSize n SLog.initial).caps.length) ∧
    SLog.capAt tSize 0 = 4 ∧
    (∀ i, SLog.capAt tSize i < SLog.max_capacity tSize →
      SLog.capAt tSize (i + 1) = 2 * SLog.capAt tSize i) ∧
    (∀ i, SLog.max_capacity tSize ≤ SLog.capAt tSize i →
      SLog.capAt tSize (i + 1) = SLog.capAt tSize i) ∧
    SLog.PREV_OFFSET = 0 ∧ SLog.NEXT_OFFSET = 8 ∧ SLog.ELEMENTS_OFFSET = 16 ∧
    (∀ cap, SLog.sectorAllocSize tSize cap =
      SLog.ELEMENTS_OFFSET + cap * tSize) := by
  refine ⟨?_, rfl, ?_, ?_, rfl, rfl, rfl, ?_⟩
  · exact (SLog.logInv_pushN tSize n SLog.initial (SLog.logInv_initial tSize)).1
  · intro i h
    show (let c := SLog.capAt tSize i;
      if c < SLog.max_capacity tSize then c * 2 else c) = _
    simp only [if_pos h]
    exact Nat.mul_comm _ 2
  · intro i h
    show (let c := SLog.capAt tSize i;
      if c < SLog.max_capacity tSize then c * 2 else c) = _
    simp only [if_neg (Nat.not_lt.mpr h)]
  · intro cap
    show 8 * 2 + cap * tSize = 8 + 8 + cap * tSize
    omega

/-- Closed instance of the amended C9 theorem with the hypotheses of its
inner implications discharged at T_SIZE = 8. -/
theorem log_sector_capacities_and_layout_witness :
    SLog.capAt 8 1 = 2 * SLog.capAt 8 0 ∧
    ((SLog.pushN 8 5 SLog.initial).caps =
      SLog.capList 8 (SLog.pushN 8 5 SLog.initial).caps.length) := by
  obtain ⟨h1, _, h3, _⟩ := log_sector_capacities_and_layout 8 5
  exact ⟨h3 0 (by decide), h1⟩

/-! ## The stable-memory allocator (src/mem/allocator.rs)

Constants from src/mem/s_slice.rs are not part of the sources; they are
modelled from the spec: BLOCK_META_SIZE = 4 (a 4-byte header and a matching
4-byte trailer per block), PTR_SIZE = 8, and BLOCK_MIN_TOTAL_SIZE = 24 =
2 * PTR_SIZE + 2 * BLOCK_META_SIZE, the smallest footprint that lets a freed
block store its two free-list pointers in its payload. -/

namespace Allocator

def BLOCK_META_SIZE : Nat := 4

def PTR_SIZE : Nat := 8

def BLOCK_MIN_TOTAL_SIZE : Nat := 2 * PTR_SIZE + 2 * BLOCK_META_SIZE

def PAGE_SIZE_BYTES : Nat := 65536

def EMPTY_PTR : Nat := 2 ^ 64 - 1

/-- SEG_CLASS_PTRS_COUNT = usize::BITS - 4 on a 64-bit target. -/
def SEG_CLASS_PTRS_COUNT : Nat := 60

def CUSTOM_DATA_PTRS_COUNT : Nat := 4

/-- The magic bytes "SMAM". -/
def MAGIC : List Nat := [83, 77, 65, 77]

/-- StableMemoryAllocator::pad_size: sizes below BLOCK_MIN_TOTAL_SIZE are
padded up to it; larger sizes are returned unchanged. -/
def pad_size (size : Nat) : Nat :=
  if size < BLOCK_MIN_TOTAL_SIZE then BLOCK_MIN_TOTAL_SIZE else size

/-- Floor log2 of a usize, by halving with 64 fuel steps (fast_log2 from the
missing utils/math.rs, modelled from the spec; a usize is below 2 ^ 64, so
the fuel never runs out on real inputs). -/
def log2floorAux : Nat → Nat → Nat
  | 0, _ => 0
  | fuel + 1, n => if n < 2 then 0 else log2floorAux fuel (n / 2) + 1

def fast_log2 (n : Nat) : Nat := log2floorAux 64 n

/-- get_seg_class_id from src/mem/allocator.rs: the ceiling of log2 of the
size, shifted down by 4 and clamped at 0 (fast_log2 is the floor log2). -/
def get_seg_class_id (size : Nat) : Nat :=
  let log := fast_log2 size
  let log := if 2 ^ log < size then log + 1 else log
  if log > 3 then log - 4 else 0

/-! ### The persisted allocator header (store / reinit)

store() serializes the in-memory allocator fields little-endian into the
prologue slice; reinit() parses them back.  Bytes are modelled as Nat values
below 256; write_word / read_word (from the missing s_slice.rs) are modelled
from the spec as little-endian u64 encoding. -/

/-- Little-endian encoding of a u64 word (SSlice::write_word, modelled from
the spec: prologue fields are little-endian u64). -/
def wordToBytes (w : Nat) : List Nat :=
  [w % 256, w / 2 ^ 8 % 256, w / 2 ^ 16 % 256, w / 2 ^ 24 % 256,
   w / 2 ^ 32 % 256, w / 2 ^ 40 % 256, w / 2 ^ 48 % 256, w / 2 ^ 56 % 256]

/-- Little-endian decoding of a u64 word (SSlice::read_word, modelled from
the spec). -/
def bytesToWord (bs : List Nat) : Nat :=
  match bs with
  | b0 :: b1 :: b2 :: b3 :: b4 :: b5 :: b6 :: b7 :: _ =>
    b0 + b1 * 2 ^ 8 + b2 * 2 ^ 16 + b3 * 2 ^ 24 + b4 * 2 ^ 32 + b5 * 2 ^ 40 +
      b6 * 2 ^ 48 + b7 * 2 ^ 56
  | _ => 0

theorem bytesToWord_wordToBytes (w : Nat) (rest : List Nat) (h : w < 2 ^ 64) :
    bytesToWord (wordToBytes w ++ rest) = w := by
  simp only [wordToBytes, List.cons_append, List.nil_append, bytesToWord]
  omega

/-- The fields of StableMemoryAllocator that store() persists and reinit()
restores.  Heads and tails are the per-class list end pointers; None stands
for an empty class and is serialized as EMPTY_PTR. -/
structure AllocHeader where
  heads : List (Option Nat)
  tails : List (Option Nat)
  free_size : Nat
  allocated_size : Nat
  max_allocation_pages : Nat
  max_grow_pages : Nat
  flag : Bool
  custom : List Nat
deriving Repr, DecidableEq

/-- StableMemoryAllocator::store: the exact byte image written to the
prologue, in the order the source writes it. -/
def storeBytes (h : AllocHeader) : List Nat :=
  MAGIC ++
  (h.heads.map (fun o => wordToBytes (o.getD EMPTY_PTR))).flatten ++
  (h.tails.map (fun o => wordToBytes (o.getD EMPTY_PTR))).flatten ++
  wordToBytes h.free_size ++
  wordToBytes h.allocated_size ++
  wordToBytes h.max_allocation_pages ++
  wordToBytes h.max_grow_pages ++
  [if h.flag then 1 else 0] ++
  (h.custom.map wordToBytes).flatten

/-- SSlice::read_word at a byte offset. -/
def readWord (bs : List Nat) (off : Nat) : Nat := bytesToWord (bs.drop off)

/-- StableMemoryAllocator::reinit: validate the magic, then read back the
heads, tails, counters, caps, flag and custom slots at the offsets the
source reads them from.  The max_allocation_pages word is truncated to u32
by the source's `as u32` cast. -/
def reinitHeader (bs : List Nat) : Option AllocHeader :=
  if bs.take 4 = MAGIC then
    some
      { heads := (List.range SEG_CLASS_PTRS_COUNT).map (fun i =>
          let p := readWord bs (4 + 8 * i)
          if p = EMPTY_PTR then none else some p),
        tails := (List.range SEG_CLASS_PTRS_COUNT).map (fun i =>
          let p := readWord bs (4 + 8 * (SEG_CLASS_PTRS_COUNT + i))
          if p = EMPTY_PTR then none else some p),
        free_size := readWord bs (4 + 8 * (2 * SEG_CLASS_PTRS_COUNT)),
        allocated_size := readWord bs (4 + 8 * (2 * SEG_CLASS_PTRS_COUNT + 1)),
        max_allocation_pages :=
          readWord bs (4 + 8 * (2 * SEG_CLASS_PTRS_COUNT + 2)) % 2 ^ 32,
        max_grow_pages := readWord bs (4 + 8 * (2 * SEG_CLASS_PTRS_COUNT + 3)),
        flag := (bs.drop (4 + 8 * (2 * SEG_CLASS_PTRS_COUNT + 4))).headD 0 = 1,
        custom := (List.range CUSTOM_DATA_PTRS_COUNT).map (fun i =>
          readWord bs (4 + 8 * (2 * SEG_CLASS_PTRS_COUNT + 4) + 1 + 8 * i)) }
  else none

theorem wordToBytes_length (w : Nat) : (wordToBytes w).length = 8 := rfl

theorem flatten_wordToBytes_length (ws : List Nat) :
    (ws.map wordToBytes).flatten.length = 8 * ws.length := by
  induction ws with
  | nil => simp
  | cons a l ih =>
    simp only [List.map_cons, List.flatten_cons, List.length_append, ih,
      wordToBytes_length, List.length_cons]
    omega

theorem readWord_flatten (ws rest : List Nat) (i : Nat) (h1 : i < ws.length)
    (h2 : ∀ w ∈ ws, w < 2 ^ 64) :
    readWord ((ws.map wordToBytes).flatten ++ rest) (8 * i) = ws.getD i 0 := by
  induction ws generalizing i rest with
  | nil => simp at h1
  | cons a l ih =>
    cases i with
    | zero =>
      simp only [List.map_cons, List.flatten_cons, Nat.mul_zero, readWord,
        List.drop_zero, List.append_assoc]
      rw [bytesToWord_wordToBytes a _ (h2 a (List.mem_cons_self a l))]
      rfl
    | succ j =>
      have h8 : 8 * (j + 1) = (wordToBytes a).length + 8 * j := by
        rw [wordToBytes_length]; omega
      simp only [List.map_cons, List.flatten_cons, readWord, List.append_assoc, h8,
        List.drop_append]
      have hj : j < l.length := by simpa using h1
      have := ih rest j hj (fun w hw => h2 w (List.mem_cons_of_mem a hw))
      simpa [readWord] using this

/-- Well-formedness of the in-memory allocator header: the arrays have their
fixed lengths, every persisted word fits in a u64, max_allocation_pages fits
in a u32 (its Rust type), and head/tail pointers of nonempty classes are
genuine offsets, distinct from the EMPTY_PTR sentinel. -/
def headerWF (h : AllocHeader) : Prop :=
  h.heads.length = SEG_CLASS_PTRS_COUNT ∧
  h.tails.length = SEG_CLASS_PTRS_COUNT ∧
  h.custom.length = CUSTOM_DATA_PTRS_COUNT ∧
  (∀ o ∈ h.heads, ∀ p, o = some p → p < EMPTY_PTR) ∧
  (∀ o ∈ h.tails, ∀ p, o = some p → p < EMPTY_PTR) ∧
  (∀ c ∈ h.custom, c < 2 ^ 64) ∧
  h.free_size < 2 ^ 64 ∧ h.allocated_size < 2 ^ 64 ∧
  h.max_allocation_pages < 2 ^ 32 ∧ h.max_grow_pages < 2 ^ 64

theorem readWord_append (l1 l2 : List Nat) (n k : Nat) (h : l1.length = n) :
    readWord (l1 ++ l2) (n + k) = readWord l2 k := by
  subst h
  simp [readWord, List.drop_append]

theorem readWord_word (w : Nat) (rest : List Nat) (h : w < 2 ^ 64) :
    readWord (wordToBytes w ++ rest) 0 = w := by
  simp only [readWord, List.drop_zero]
  exact bytesToWord_wordToBytes w rest h

/-- Decoding the i-th persisted head/tail pointer recovers the i-th Option
value: EMPTY_PTR round-trips to none and a genuine pointer to some. -/
theorem decode_optList (os : List (Option Nat)) (rest : List Nat) (i : Nat)
    (h1 : i < os.length)
    (hp : ∀ o ∈ os, ∀ p, o = some p → p < EMPTY_PTR) :
    (fun p => if p = EMPTY_PTR then (none : Option Nat) else some p)
      (readWord ((os.map (fun o => wordToBytes (o.getD EMPTY_PTR))).flatten ++ rest)
        (8 * i)) = os[i] := by
  have hcomp : os.map (fun o => wordToBytes (o.getD EMPTY_PTR)) =
      (os.map (fun o => o.getD EMPTY_PTR)).map wordToBytes := by
    rw [List.map_map]
    rfl
  have hws : ∀ w ∈ os.map (fun o => o.getD EMPTY_PTR), w < 2 ^ 64 := by
    intro w hw
    simp only [List.mem_map] at hw
    obtain ⟨o, ho, rfl⟩ := hw
    cases o with
    | none => simp [EMPTY_PTR]
    | some p =>
      have := hp _ ho p rfl
      simp only [EMPTY_PTR] at this
      simp only [Option.getD_some]
      omega
  have hlen : i < (os.map (fun o => o.getD EMPTY_PTR)).length := by simpa using h1
  rw [hcomp, readWord_flatten _ rest i hlen hws]
  rw [List.getD_eq_getElem _ 0 hlen, List.getElem_map]
  cases hoi : os[i] with
  | none => simp
  | some p =>
    have hlt := hp os[i] (List.getElem_mem h1) p hoi
    simp only [Option.getD_some]
    rw [if_neg (Nat.ne_of_lt hlt)]

theorem drop_append_len (l1 l2 : List Nat) (n k : Nat) (h : l1.length = n) :
    (l1 ++ l2).drop (n + k) = l2.drop k := by
  subst h
  exact List.drop_append k

/-- C3: store() followed by reinit() at the same offset reconstructs the
allocator header exactly: the segregated-class head and tail pointers, the
free and allocated byte counters, both caps, the low-memory-fired flag and
the four custom data slots all round-trip through the prologue bytes. -/
theorem store_reinit_roundtrip (h : AllocHeader) (hwf : headerWF h) :
    reinitHeader (storeBytes h) = some h := by
  obtain ⟨heads, tails, fs, als, mpg, mgp, fl, cu⟩ := h
  obtain ⟨hl1, hl2, hl3, hp1, hp2, hc, hf1, hf2, hf3, hf4⟩ := hwf
  simp only at hl1 hl2 hl3 hp1 hp2 hc hf1 hf2 hf3 hf4
  have hB1 : (heads.map (fun o => wordToBytes (o.getD EMPTY_PTR))).flatten.length
      = 480 := by
    rw [show heads.map (fun o => wordToBytes (o.getD EMPTY_PTR)) =
        (heads.map (fun o => o.getD EMPTY_PTR)).map wordToBytes by
      rw [List.map_map]; rfl]
    rw [flatten_wordToBytes_length]
    simp [hl1, SEG_CLASS_PTRS_COUNT]
  have hB2 : (tails.map (fun o => wordToBytes (o.getD EMPTY_PTR))).flatten.length
      = 480 := by
    rw [show tails.map (fun o => wordToBytes (o.getD EMPTY_PTR)) =
        (tails.map (fun o => o.getD EMPTY_PTR)).map wordToBytes by
      rw [List.map_map]; rfl]
    rw [flatten_wordToBytes_length]
    simp [hl2, SEG_CLASS_PTRS_COUNT]
  have hmagic : (storeBytes (AllocHeader.mk heads tails fs als mpg mgp fl cu)).take 4
      = MAGIC := by
    simp only [storeBytes, List.append_assoc]
    exact List.take_left MAGIC _
  have hdrop : ∀ k : Nat,
      (storeBytes (AllocHeader.mk heads tails fs als mpg mgp fl cu)).drop (4 + k) =
      ((heads.map (fun o => wordToBytes (o.getD EMPTY_PTR))).flatten ++
        ((tails.map (fun o => wordToBytes (o.getD EMPTY_PTR))).flatten ++
        (wordToBytes fs ++ (wordToBytes als ++ (wordToBytes mpg ++
        (wordToBytes mgp ++ ((if fl then 1 else 0) ::
          (cu.map wordToBytes).flatten))))))).drop k := by
    intro k
    simp only [storeBytes, List.append_assoc, List.singleton_append]
    exact drop_append_len MAGIC _ 4 k rfl
  have hdropc : ∀ k : Nat,
      (storeBytes (AllocHeader.mk heads tails fs als mpg mgp fl cu)).drop
        (4 + (480 + (480 + (8 + (8 + (8 + (8 + k))))))) =
      ((if fl then 1 else 0) :: (cu.map wordToBytes).flatten).drop k := by
    intro k
    rw [hdrop, drop_append_len _ _ 480 _ hB1, drop_append_len _ _ 480 _ hB2,
      drop_append_len _ _ 8 _ (wordToBytes_length fs),
      drop_append_len _ _ 8 _ (wordToBytes_length als),
      drop_append_len _ _ 8 _ (wordToBytes_length mpg),
      drop_append_len _ _ 8 _ (wordToBytes_length mgp)]
  rw [reinitHeader, if_pos hmagic]
  simp only [Option.some.injEq, AllocHeader.mk.injEq]
  refine ⟨?_, ?_, ?_, ?_, ?_, ?_, ?_, ?_⟩
  · refine List.ext_getElem (by simp [hl1]) (fun i hi1 hi2 => ?_)
    have hi3 : i < SEG_CLASS_PTRS_COUNT := by simpa using hi1
    have hi4 : i < heads.length := by omega
    rw [List.getElem_map, List.getElem_range]
    show (fun p => if p = EMPTY_PTR then (none : Option Nat) else some p)
        (readWord _ (4 + 8 * i)) = _
    rw [readWord, hdrop (8 * i)]
    exact decode_optList heads _ i hi4 hp1
  · refine List.ext_getElem (by simp [hl2]) (fun i hi1 hi2 => ?_)
    have hi3 : i < SEG_CLASS_PTRS_COUNT := by simpa using hi1
    have hi4 : i < tails.length := by omega
    rw [List.getElem_map, List.getElem_range]
    show (fun p => if p = EMPTY_PTR then (none : Option Nat) else some p)
        (readWord _ (4 + 8 * (SEG_CLASS_PTRS_COUNT + i))) = _
    rw [readWord, show 4 + 8 * (SEG_CLASS_PTRS_COUNT + i) = 4 + (480 + 8 * i) by
      simp [SEG_CLASS_PTRS_COUNT]; omega]
    rw [hdrop (480 + 8 * i), drop_append_len _ _ 480 _ hB1]
    exact decode_optList tails _ i hi4 hp2
  · rw [readWord, show 4 + 8 * (2 * SEG_CLASS_PTRS_COUNT) =
      4 + (480 + (480 + 0)) by simp [SEG_CLASS_PTRS_COUNT]]
    rw [hdrop _, drop_append_len _ _ 480 _ hB1, drop_append_len _ _ 480 _ hB2,
      List.drop_zero]
    exact bytesToWord_wordToBytes fs _ hf1
  · rw [readWord, show 4 + 8 * (2 * SEG_CLASS_PTRS_COUNT + 1) =
      4 + (480 + (480 + (8 + 0))) by simp [SEG_CLASS_PTRS_COUNT]]
    rw [hdrop _, drop_append_len _ _ 480 _ hB1, drop_append_len _ _ 480 _ hB2,
      drop_append_len _ _ 8 _ (wordToBytes_length fs), List.drop_zero]
    exact bytesToWord_wordToBytes als _ hf2
  · rw [readWord, show 4 + 8 * (2 * SEG_CLASS_PTRS_COUNT + 2) =
      4 + (480 + (480 + (8 + (8 + 0)))) by simp [SEG_CLASS_PTRS_COUNT]]
    rw [hdrop _, drop_append_len _ _ 480 _ hB1, drop_append_len _ _ 480 _ hB2,
      drop_append_len _ _ 8 _ (wordToBytes_length fs),
      drop_append_len _ _ 8 _ (wordToBytes_length als), List.drop_zero]
    rw [bytesToWord_wordToBytes mpg _ (by omega)]
    exact Nat.mod_eq_of_lt hf3
  · rw [readWord, show 4 + 8 * (2 * SEG_CLASS_PTRS_COUNT + 3) =
      4 + (480 + (480 + (8 + (8 + (8 + 0))))) by simp [SEG_CLASS_PTRS_COUNT]]
    rw [hdrop _, drop_append_len _ _ 480 _ hB1, drop_append_len _ _ 480 _ hB2,
      drop_append_len _ _ 8 _ (wordToBytes_length fs),
      drop_append_len _ _ 8 _ (wordToBytes_length als),
      drop_append_len _ _ 8 _ (wordToBytes_length mpg), List.drop_zero]
    exact bytesToWord_wordToBytes mgp _ hf4
  · rw [show 4 + 8 * (2 * SEG_CLASS_PTRS_COUNT + 4) =
      4 + (480 + (480 + (8 + (8 + (8 + (8 + 0)))))) by simp [SEG_CLASS_PTRS_COUNT]]
    rw [hdropc 0, List.drop_zero]
    cases fl <;> simp
  · refine List.ext_getElem (by simp [hl3]) (fun i hi1 hi2 => ?_)
    have hi4 : i < cu.length := by
      simp only [List.length_range] at hi1
      omega
    rw [List.getElem_map, List.getElem_range]
    show readWord _ (4 + 8 * (2 * SEG_CLASS_PTRS_COUNT + 4) + 1 + 8 * i) = _
    rw [readWord, show 4 + 8 * (2 * SEG_CLASS_PTRS_COUNT + 4) + 1 + 8 * i =
      4 + (480 + (480 + (8 + (8 + (8 + (8 + (8 * i + 1))))))) by
      simp [SEG_CLASS_PTRS_COUNT]; omega]
    rw [hdropc (8 * i + 1), List.drop_succ_cons]
    have := readWord_flatten cu [] i hi4 hc
    rw [List.append_nil] at this
    rw [show (cu.map wordToBytes).flatten.drop (8 * i) =
      ((cu.map wordToBytes).flatten).drop (8 * i) from rfl]
    have h2 : readWord (cu.map wordToBytes).flatten (8 * i) = cu.getD i 0 := this
    rw [readWord] at h2
    rw [h2, List.getD_eq_getElem cu 0 hi4]

/-- A concrete allocator header used to instantiate the round-trip theorem:
one nonempty size class, default caps, empty custom slots. -/
def headerExample : AllocHeader :=
  { heads := some 1024 :: List.replicate 59 none,
    tails := some 1024 :: List.replicate 59 none,
    free_size := 65536, allocated_size := 100, max_allocation_pages := 180,
    max_grow_pages := 0, flag := false,
    custom := [EMPTY_PTR, EMPTY_PTR, EMPTY_PTR, EMPTY_PTR] }

/-- Closed instance of the C3 round-trip theorem at a concrete header. -/
theorem store_reinit_roundtrip_witness :
    headerWF headerExample ∧
    reinitHeader (storeBytes headerExample) = some headerExample :=
  ⟨by unfold headerWF; decide, store_reinit_roundtrip headerExample
    (by unfold headerWF; decide)⟩

/-! ### The heap model

The region between min_ptr and max_ptr is a contiguous tiling of blocks;
each block records its payload address, payload size, free flag and payload
bytes.  The segregated free lists (intrusive doubly-linked lists whose
pointer plumbing lives in the missing free_block.rs) are modelled from the
spec as the sequences they represent: head first, tail last;
eject_from_freelist (all three positional cases of the source) removes an
address from its class sequence, and push appends at the tail.  Payload
bytes whose content the source leaves unspecified (block metadata absorbed
by a merge, newly grown pages) are modelled as zero. -/

/-- One block of the heap tiling. -/
structure Block where
  addr : Nat
  size : Nat
  free : Bool
  data : List Nat
deriving Repr, DecidableEq

/-- Total on-region footprint of a block: payload plus header and trailer. -/
def Block.total (b : Block) : Nat := b.size + 2 * BLOCK_META_SIZE

/-- The allocator state.  blocks is the tiling in address order; lists are
the SEG_CLASS_PTRS_COUNT segregated free lists of payload addresses;
pages is stable::size_pages(). -/
structure Alloc where
  blocks : List Block
  lists : List (List Nat)
  free_size : Nat
  allocated_size : Nat
  pages : Nat
  minPtr : Nat
deriving Repr, DecidableEq

/-- Split the tiling at the block with the given payload address. -/
def splitBlocks : List Block → Nat → Option (List Block × Block × List Block)
  | [], _ => none
  | b :: bs, a =>
    if b.addr = a then some ([], b, bs)
    else (splitBlocks bs a).map (fun t => (b :: t.1, t.2.1, t.2.2))

/-- StableMemoryAllocator::eject_from_freelist: unlink the block from its
class list (head, tail and middle cases all remove the address from the
sequence) and decrease free_size by the block total. -/
def eject_from_freelist (s : Alloc) (c : Nat) (a : Nat) (total : Nat) : Alloc :=
  { s with lists := s.lists.set c ((s.lists.getD c []).erase a),
           free_size := s.free_size - total }

/-- First half of maybe_merge_with_free_neighbors: if the previous neighbor
(the preceding block of the tiling; absent when the block starts at
min_ptr) is free, splice it out of its class and span the union. -/
def mergeStepPrev (s : Alloc) (pre : List Block) (b : Block) :
    Alloc × List Block × Block :=
  match pre.getLast? with
  | some p =>
    if p.free = true then
      (eject_from_freelist s (get_seg_class_id p.size) p.addr p.total,
       pre.dropLast,
       { addr := p.addr, size := p.size + b.size + 2 * BLOCK_META_SIZE,
         free := true,
         data := p.data ++ List.replicate (2 * BLOCK_META_SIZE) 0 ++ b.data })
    else (s, pre, b)
  | none => (s, pre, b)

/-- Second half of maybe_merge_with_free_neighbors: same for the next
neighbor (absent when the block ends at max_ptr). -/
def mergeStepNext (s : Alloc) (b : Block) (post : List Block) :
    Alloc × Block × List Block :=
  match post.head? with
  | some q =>
    if q.free = true then
      (eject_from_freelist s (get_seg_class_id q.size) q.addr q.total,
       { addr := b.addr, size := b.size + q.size + 2 * BLOCK_META_SIZE,
         free := true,
         data := b.data ++ List.replicate (2 * BLOCK_META_SIZE) 0 ++ q.data },
       post.tail)
    else (s, b, post)
  | none => (s, b, post)

/-- Append a free block to the tail of its class list and account its total
into free_size (the persist-and-enqueue tail of push_free_block). -/
def enqueue_free (s : Alloc) (b : Block) : Alloc :=
  let c := get_seg_class_id b.size
  { s with lists := s.lists.set c ((s.lists.getD c []) ++ [b.addr]),
           free_size := s.free_size + b.total }

/-- StableMemoryAllocator::deallocate: subtract the block total from
allocated_size, mark the block free, merge it with each free neighbor
(push_free_block with try_merge = true) and enqueue the result.  An address
that is not a block start is returned unchanged (the source would trap on
the corrupt metadata it reads there). -/
def deallocate (s : Alloc) (a : Nat) : Alloc :=
  match splitBlocks s.blocks a with
  | none => s
  | some (pre, b, post) =>
    let s1 := { s with
      allocated_size := s.allocated_size - b.total }
    let r1 := mergeStepPrev s1 pre { b with free := true }
    let r2 := mergeStepNext r1.1 r1.2.2 post
    let s2 := r2.1
    let fb := r2.2.1
    { blocks := r1.2.1 ++ fb :: r2.2.2,
      lists := (enqueue_free s2 fb).lists,
      free_size := (enqueue_free s2 fb).free_size,
      allocated_size := s2.allocated_size,
      pages := s2.pages, minPtr := s2.minPtr }

/-- The scan order of pop_free_block: the classes from class(size) upward,
each class sequence from its head. -/
def classScan (s : Alloc) (size : Nat) : List Nat :=
  ((List.range SEG_CLASS_PTRS_COUNT).drop (get_seg_class_id size)).flatMap
    (fun c => s.lists.getD c [])

/-- Payload size of the block at an address (0 when absent). -/
def sizeAt (s : Alloc) (a : Nat) : Nat :=
  match splitBlocks s.blocks a with
  | some t => t.2.1.size
  | none => 0

/-- The first block of the scan order whose payload fits the request. -/
def findFit (s : Alloc) (size : Nat) : Option Nat :=
  (classScan s size).find? (fun a => size ≤ sizeAt s a)

/-- Number of pages pop_free_block grows by on exhaustion:
ceil((size + 2 * META) / PAGE). -/
def pagesToGrow (size : Nat) : Nat :=
  let base := (size + 2 * BLOCK_META_SIZE) / PAGE_SIZE_BYTES
  if (size + 2 * BLOCK_META_SIZE) % PAGE_SIZE_BYTES = 0 then base else base + 1

/-- StableMemoryAllocator::pop_free_block.  The scan takes the first block of
classScan whose payload is at least size (a listed address is a free block
of the scanned class under the state invariant).  A fit with slack below
BLOCK_MIN_TOTAL_SIZE is ejected and allocated whole; a larger fit is split
into a leading allocated block of payload exactly size and a trailing free
block pushed back without merging.  On no fit the Region grows (the host's
answer is the growOk argument; on refusal the state is returned with none,
the OutOfMemory of the source) and the same split rule is applied to a free
block spanning the new pages. -/
def pop_free_block (growOk : Bool) (s : Alloc) (size : Nat) :
    Alloc × Option (Nat × Nat) :=
  match findFit s size with
  | some a =>
    match splitBlocks s.blocks a with
    | some (pre, b, post) =>
      let s1 := eject_from_freelist s (get_seg_class_id b.size) b.addr b.total
      if b.size < size + BLOCK_MIN_TOTAL_SIZE then
        ({ s1 with
           blocks := pre ++ ({ b with free := false }) :: post,
           allocated_size := s1.allocated_size + b.total },
         some (b.addr, b.size))
      else
        let b1 : Block :=
          { addr := b.addr, size := size, free := false,
            data := b.data.take size }
        let b2 : Block :=
          { addr := b.addr + size + 2 * BLOCK_META_SIZE,
            size := b.size - size - 2 * BLOCK_META_SIZE, free := true,
            data := b.data.drop (size + 2 * BLOCK_META_SIZE) }
        let s2 := enqueue_free s1 b2
        ({ blocks := pre ++ b1 :: b2 :: post,
           lists := s2.lists, free_size := s2.free_size,
           allocated_size := s2.allocated_size + b1.total,
           pages := s2.pages, minPtr := s2.minPtr },
         some (b1.addr, b1.size))
    | none => (s, none)
  | none =>
    if growOk then
      let delta := pagesToGrow size
      let nb : Block :=
        { addr := s.pages * PAGE_SIZE_BYTES,
          size := delta * PAGE_SIZE_BYTES - 2 * BLOCK_META_SIZE, free := true,
          data := List.replicate (delta * PAGE_SIZE_BYTES - 2 * BLOCK_META_SIZE) 0 }
      let s1 := { s with pages := s.pages + delta }
      if nb.size < size + BLOCK_MIN_TOTAL_SIZE then
        ({ s1 with
           blocks := s1.blocks ++ [{ nb with free := false }],
           allocated_size := s1.allocated_size + nb.total },
         some (nb.addr, nb.size))
      else
        let b1 : Block :=
          { addr := nb.addr, size := size, free := false,
            data := nb.data.take size }
        let b2 : Block :=
          { addr := nb.addr + size + 2 * BLOCK_META_SIZE,
            size := nb.size - size - 2 * BLOCK_META_SIZE, free := true,
            data := nb.data.drop (size + 2 * BLOCK_META_SIZE) }
        let s2 := enqueue_free s1 b2
        ({ blocks := s2.blocks ++ [b1, b2],
           lists := s2.lists, free_size := s2.free_size,
           allocated_size := s2.allocated_size + b1.total,
           pages := s2.pages, minPtr := s2.minPtr },
         some (b1.addr, b1.size))
    else (s, none)

/-- StableMemoryAllocator::allocate: pad the request and pop a free block;
the returned handle is (payload address, payload size).  none models the
isotrap on OutOfMemory. -/
def allocate (growOk : Bool) (s : Alloc) (n : Nat) : Alloc × Option (Nat × Nat) :=
  pop_free_block growOk s (pad_size n)

/-- SSlice::write_bytes at offset 0, modelled from the spec: overwrite the
payload prefix of the block with the given bytes (content beyond the
payload is not represented). -/
def writeBytes (s : Alloc) (a : Nat) (bytes : List Nat) : Alloc :=
  match splitBlocks s.blocks a with
  | none => s
  | some (pre, b, post) =>
    { s with
      blocks := pre ++
        ({ b with data := (bytes ++ b.data.drop bytes.length).take b.size }) :: post }

/-- StableMemoryAllocator::try_reallocate_inplace: if the forward neighbor
is free and the combined span covers new_size, splice the neighbor out and
either take the whole span (slack below BLOCK_MIN_TOTAL_SIZE) or split off
the trailing remainder as a new free block.  none is the Err(slice) of the
source. -/
def try_reallocate_inplace (s : Alloc) (a : Nat) (new_size : Nat) :
    Option (Alloc × Nat × Nat) :=
  match splitBlocks s.blocks a with
  | none => none
  | some (pre, b, post) =>
    match post.head? with
    | none => none
    | some q =>
      if q.free = true then
        let target := b.size + q.size + 2 * BLOCK_META_SIZE
        if new_size ≤ target ∧ target < new_size + BLOCK_MIN_TOTAL_SIZE then
          let s1 := eject_from_freelist s (get_seg_class_id q.size) q.addr q.total
          let nb : Block :=
            { addr := b.addr, size := target, free := false,
              data := b.data ++ List.replicate (2 * BLOCK_META_SIZE) 0 ++ q.data }
          some ({ s1 with
                  blocks := pre ++ nb :: post.tail,
                  allocated_size := s1.allocated_size + b.total },
            nb.addr, nb.size)
        else if new_size + BLOCK_MIN_TOTAL_SIZE ≤ target then
          let s1 := eject_from_freelist s (get_seg_class_id q.size) q.addr q.total
          let combined := b.data ++ List.replicate (2 * BLOCK_META_SIZE) 0 ++ q.data
          let b1 : Block :=
            { addr := b.addr, size := new_size, free := false,
              data := combined.take new_size }
          let b2 : Block :=
            { addr := b.addr + new_size + 2 * BLOCK_META_SIZE,
              size := target - new_size - 2 * BLOCK_META_SIZE, free := true,
              data := combined.drop (new_size + 2 * BLOCK_META_SIZE) }
          let s2 := enqueue_free s1 b2
          some ({ blocks := pre ++ b1 :: b2 :: post.tail,
                  lists := s2.lists, free_size := s2.free_size,
                  allocated_size := s2.allocated_size + b1.total,
                  pages := s2.pages, minPtr := s2.minPtr },
            b1.addr, b1.size)
        else none
      else none

/-- StableMemoryAllocator::reallocate: try in place; otherwise copy the
payload out, deallocate, allocate new_size and write the copy into the new
block.  none models the isotrap when the fallback allocation runs out of
memory (the trapped call leaves no state behind). -/
def reallocate (growOk : Bool) (s : Alloc) (a : Nat) (new_size : Nat) :
    Option (Alloc × Nat × Nat) :=
  match try_reallocate_inplace s a new_size with
  | some r => some r
  | none =>
    match splitBlocks s.blocks a with
    | none => none
    | some (_, b, _) =>
      let bytes := b.data
      let s1 := deallocate s a
      match allocate growOk s1 new_size with
      | (_, none) => none
      | (s2, some (a2, sz2)) => some (writeBytes s2 a2 bytes, a2, sz2)

/-! ### The heap invariant -/

/-- Sum of the block totals of a tiling. -/
def sumTotal (bs : List Block) : Nat := (bs.map Block.total).sum

/-- The blocks tile the region contiguously starting at the given address:
each block starts where the previous one ends. -/
def Chained : Nat → List Block → Prop
  | _, [] => True
  | a, b :: bs => b.addr = a ∧ Chained (a + b.total) bs

/-- No two adjacent free blocks (claim C4's invariant, stated on the
tiling: list adjacency is exactly trailer/header adjacency). -/
def NAF (bs : List Block) : Prop :=
  List.Chain' (fun x y => ¬(x.free = true ∧ y.free = true)) bs

/-- Every address on a segregated list is the address of a free block of
that class. -/
def listedOK (s : Alloc) : Prop :=
  ∀ c : Nat, ∀ a ∈ s.lists.getD c [], ∃ b ∈ s.blocks,
    b.addr = a ∧ b.free = true ∧ get_seg_class_id b.size = c

/-- No address appears twice across the segregated lists: each class list
is duplicate-free and no address sits in two classes. -/
def uniqueListed (ls : List (List Nat)) : Prop :=
  (∀ c : Nat, (ls.getD c []).Nodup) ∧
  (∀ c1 c2 : Nat, ∀ a : Nat, a ∈ ls.getD c1 [] → a ∈ ls.getD c2 [] → c1 = c2)

/-- The allocator state invariant: a contiguous tiling ending exactly at
the page boundary, no two adjacent free blocks, coherent free lists with no
duplicated address, full-length payload data, and the fixed number of
segregation classes. -/
def Inv (s : Alloc) : Prop :=
  Chained s.minPtr s.blocks ∧
  s.minPtr + sumTotal s.blocks = s.pages * PAGE_SIZE_BYTES ∧
  NAF s.blocks ∧
  listedOK s ∧
  uniqueListed s.lists ∧
  (∀ b ∈ s.blocks, b.data.length = b.size) ∧
  s.lists.length = SEG_CLASS_PTRS_COUNT

/-- StableMemoryAllocator::init: one free block spanning the whole region
between min_ptr and max_ptr, pushed onto its class. -/
def initAlloc (minPtr pages : Nat) : Alloc :=
  let size := pages * PAGE_SIZE_BYTES - minPtr - 2 * BLOCK_META_SIZE
  let b : Block :=
    { addr := minPtr, size := size, free := true,
      data := List.replicate size 0 }
  { blocks := [b],
    lists := (List.replicate SEG_CLASS_PTRS_COUNT []).set
      (get_seg_class_id size) [minPtr],
    free_size := size + 2 * BLOCK_META_SIZE,
    allocated_size := 0,
    pages := pages, minPtr := minPtr }

/-! ### splitBlocks and Chained lemmas -/

theorem splitBlocks_eq (bs : List Block) (a : Nat) (pre : List Block)
    (b : Block) (post : List Block)
    (h : splitBlocks bs a = some (pre, b, post)) :
    bs = pre ++ b :: post ∧ b.addr = a ∧ ∀ x ∈ pre, x.addr ≠ a := by
  induction bs generalizing pre with
  | nil => simp [splitBlocks] at h
  | cons x xs ih =>
    by_cases hx : x.addr = a
    · simp only [splitBlocks, if_pos hx, Option.some.injEq, Prod.mk.injEq] at h
      obtain ⟨h1, h2, h3⟩ := h
      subst h1; subst h2; subst h3
      exact ⟨rfl, hx, by simp⟩
    · simp only [splitBlocks, if_neg hx, Option.map_eq_some'] at h
      obtain ⟨⟨p2, b2, q2⟩, hsp, heq⟩ := h
      simp only [Prod.mk.injEq] at heq
      obtain ⟨h1, h2, h3⟩ := heq
      subst h1; subst h2; subst h3
      obtain ⟨e1, e2, e3⟩ := ih p2 hsp
      refine ⟨by rw [e1]; rfl, e2, ?_⟩
      intro y hy
      rcases List.mem_cons.mp hy with h | h
      · subst h; exact hx
      · exact e3 y h

theorem splitBlocks_of_mem (bs : List Block) (a : Nat)
    (h : ∃ b ∈ bs, b.addr = a) : (splitBlocks bs a).isSome := by
  induction bs with
  | nil => simp at h
  | cons x xs ih =>
    by_cases hx : x.addr = a
    · simp [splitBlocks, hx]
    · obtain ⟨b, hb, hba⟩ := h
      rcases List.mem_cons.mp hb with h1 | h1
      · subst h1; exact absurd hba hx
      · have := ih ⟨b, h1, hba⟩
        simp only [splitBlocks, if_neg hx]
        rcases Option.isSome_iff_exists.mp this with ⟨v, hv⟩
        simp [hv]

theorem splitBlocks_append_first (pre : List Block) (b : Block)
    (post : List Block) (hpre : ∀ x ∈ pre, x.addr ≠ b.addr) :
    splitBlocks (pre ++ b :: post) b.addr = some (pre, b, post) := by
  induction pre with
  | nil => simp [splitBlocks]
  | cons x xs ih =>
    have hx : x.addr ≠ b.addr := hpre x (List.mem_cons_self x xs)
    show (if x.addr = b.addr then _ else
      (splitBlocks (xs ++ b :: post) b.addr).map
        (fun t => (x :: t.1, t.2.1, t.2.2))) = _
    rw [if_neg hx, ih (fun y hy => hpre y (List.mem_cons_of_mem x hy))]
    rfl

theorem chained_append (a : Nat) (l1 l2 : List Block) :
    Chained a (l1 ++ l2) ↔ Chained a l1 ∧ Chained (a + sumTotal l1) l2 := by
  induction l1 generalizing a with
  | nil => simp [Chained, sumTotal]
  | cons x xs ih =>
    show (x.addr = a ∧ Chained (a + x.total) (xs ++ l2)) ↔ _
    rw [ih (a + x.total)]
    show _ ↔ (x.addr = a ∧ Chained (a + x.total) xs) ∧ _
    have hsum : sumTotal (x :: xs) = x.total + sumTotal xs := by
      simp [sumTotal]
    rw [hsum]
    constructor
    · rintro ⟨h1, h2, h3⟩
      refine ⟨⟨h1, h2⟩, ?_⟩
      rw [show a + (x.total + sumTotal xs) = a + x.total + sumTotal xs by omega]
      exact h3
    · rintro ⟨⟨h1, h2⟩, h3⟩
      refine ⟨h1, h2, ?_⟩
      rw [show a + (x.total + sumTotal xs) = a + x.total + sumTotal xs by omega] at h3
      exact h3

/-- Under a chained tiling, a member block's address determines its position:
all addresses are distinct. -/
theorem chained_addr_bounds (a : Nat) (bs : List Block) (h : Chained a bs) :
    ∀ b ∈ bs, a ≤ b.addr ∧ b.addr + b.total ≤ a + sumTotal bs := by
  induction bs generalizing a with
  | nil => simp
  | cons x xs ih =>
    obtain ⟨h1, h2⟩ := h
    intro b hb
    rcases List.mem_cons.mp hb with h3 | h3
    · subst h3
      simp only [sumTotal, List.map_cons, List.sum_cons]
      omega
    · have := ih (a + x.total) h2 b h3
      simp only [sumTotal, List.map_cons, List.sum_cons] at this ⊢
      have hpos : 0 < Block.total x := by
        simp [Block.total, BLOCK_META_SIZE]
      omega

/-! ### Free-list bookkeeping lemmas -/

theorem getD_set_self (ls : List (List Nat)) (c : Nat) (l : List Nat)
    (h : c < ls.length) : (ls.set c l).getD c [] = l := by
  simp [List.getD_eq_getElem?_getD, List.getElem?_set_self, h]

theorem getD_set_ne (ls : List (List Nat)) (c c2 : Nat) (l : List Nat)
    (h : c ≠ c2) : (ls.set c l).getD c2 [] = ls.getD c2 [] := by
  simp [List.getD_eq_getElem?_getD, List.getElem?_set_ne, h]

theorem mem_getD_set (ls : List (List Nat)) (c : Nat) (l : List Nat)
    (c2 a : Nat) (h : a ∈ (ls.set c l).getD c2 []) :
    (c2 = c ∧ a ∈ l) ∨ a ∈ ls.getD c2 [] := by
  by_cases hlen : c < ls.length
  · by_cases hc : c2 = c
    · subst hc
      rw [getD_set_self ls c2 l hlen] at h
      exact Or.inl ⟨rfl, h⟩
    · rw [getD_set_ne ls c c2 l (fun he => hc he.symm)] at h
      exact Or.inr h
  · rw [List.set_eq_of_length_le (Nat.le_of_not_lt hlen)] at h
    exact Or.inr h

theorem mem_after_eject (ls : List (List Nat)) (c a c2 a2 : Nat)
    (h : a2 ∈ (ls.set c ((ls.getD c []).erase a)).getD c2 []) :
    a2 ∈ ls.getD c2 [] := by
  rcases mem_getD_set ls c _ c2 a2 h with ⟨he, hm⟩ | hm
  · subst he
    exact List.mem_of_mem_erase hm
  · exact hm

theorem mem_getD_lt (ls : List (List Nat)) (c a : Nat)
    (h : a ∈ ls.getD c []) : c < ls.length := by
  by_contra hlen
  rw [List.getD_eq_getElem?_getD,
    List.getElem?_eq_none (Nat.le_of_not_lt hlen)] at h
  simp at h

theorem not_listed_after_eject (ls : List (List Nat)) (c a : Nat)
    (hu : uniqueListed ls) (ha : a ∈ ls.getD c []) :
    ∀ c2, a ∉ (ls.set c ((ls.getD c []).erase a)).getD c2 [] := by
  intro c2 hmem
  have hlen : c < ls.length := mem_getD_lt ls c a ha
  rcases mem_getD_set ls c _ c2 a hmem with ⟨he, hm⟩ | hm
  · exact (hu.1 c).not_mem_erase hm
  · have he : c2 = c := hu.2 c2 c a hm ha
    subst he
    rw [getD_set_self ls c2 _ hlen] at hmem
    exact (hu.1 c2).not_mem_erase hmem

theorem uniqueListed_eject (ls : List (List Nat)) (c a : Nat)
    (h : uniqueListed ls) :
    uniqueListed (ls.set c ((ls.getD c []).erase a)) := by
  obtain ⟨h1, h2⟩ := h
  constructor
  · intro c2
    by_cases hlen : c < ls.length
    · by_cases hc : c2 = c
      · subst hc
        rw [getD_set_self ls c2 _ hlen]
        exact (h1 c2).erase a
      · rw [getD_set_ne ls c c2 _ (fun he => hc he.symm)]
        exact h1 c2
    · rw [List.set_eq_of_length_le (Nat.le_of_not_lt hlen)]
      exact h1 c2
  · intro c1 c2 a2 hm1 hm2
    exact h2 c1 c2 a2 (mem_after_eject ls c a c1 a2 hm1)
      (mem_after_eject ls c a c2 a2 hm2)

theorem uniqueListed_enqueue (ls : List (List Nat)) (c x : Nat)
    (h : uniqueListed ls) (hx : ∀ c2, x ∉ ls.getD c2 []) :
    uniqueListed (ls.set c ((ls.getD c []) ++ [x])) := by
  obtain ⟨h1, h2⟩ := h
  constructor
  · intro c2
    by_cases hlen : c < ls.length
    · by_cases hc : c2 = c
      · subst hc
        rw [getD_set_self ls c2 _ hlen]
        refine List.Nodup.append (h1 c2) (List.nodup_singleton x) ?_
        intro y hy hy2
        rw [List.mem_singleton] at hy2
        subst hy2
        exact hx c2 hy
      · rw [getD_set_ne ls c c2 _ (fun he => hc he.symm)]
        exact h1 c2
    · rw [List.set_eq_of_length_le (Nat.le_of_not_lt hlen)]
      exact h1 c2
  · intro c1 c2 a2 hm1 hm2
    rcases mem_getD_set ls c _ c1 a2 hm1 with ⟨he1, hmm1⟩ | hmm1 <;>
      rcases mem_getD_set ls c _ c2 a2 hm2 with ⟨he2, hmm2⟩ | hmm2
    · rw [he1, he2]
    · rcases List.mem_append.mp hmm1 with hl | hr
      · exact h2 c1 c2 a2 (he1 ▸ hl) hmm2
      · rw [List.mem_singleton] at hr
        subst hr
        exact absurd hmm2 (hx c2)
    · rcases List.mem_append.mp hmm2 with hl | hr
      · exact h2 c1 c2 a2 hmm1 (he2 ▸ hl)
      · rw [List.mem_singleton] at hr
        subst hr
        exact absurd hmm1 (hx c1)
    · exact h2 c1 c2 a2 hmm1 hmm2

theorem mem_after_enqueue (ls : List (List Nat)) (c x c2 a2 : Nat)
    (h : a2 ∈ (ls.set c ((ls.getD c []) ++ [x])).getD c2 []) :
    (c2 = c ∧ a2 = x) ∨ a2 ∈ ls.getD c2 [] := by
  rcases mem_getD_set ls c _ c2 a2 h with ⟨he, hm⟩ | hm
  · rcases List.mem_append.mp hm with hl | hr
    · exact Or.inr (he ▸ hl)
    · rw [List.mem_singleton] at hr
      exact Or.inl ⟨he, hr⟩
  · exact Or.inr hm

theorem sumTotal_append (l1 l2 : List Block) :
    sumTotal (l1 ++ l2) = sumTotal l1 + sumTotal l2 := by
  simp [sumTotal]

theorem sumTotal_cons (b : Block) (l : List Block) :
    sumTotal (b :: l) = b.total + sumTotal l := by
  simp [sumTotal]

theorem block_total_pos (b : Block) : 0 < b.total := by
  simp [Block.total, BLOCK_META_SIZE]

/-- Distinct blocks of a chained tiling have distinct addresses. -/
theorem chained_addr_inj (n : Nat) (bs : List Block) (h : Chained n bs) :
    ∀ b1 ∈ bs, ∀ b2 ∈ bs, b1.addr = b2.addr → b1 = b2 := by
  induction bs generalizing n with
  | nil => simp
  | cons x xs ih =>
    obtain ⟨hx, hxs⟩ := h
    intro b1 hb1 b2 hb2 heq
    have hgt : ∀ y ∈ xs, x.addr < y.addr := by
      intro y hy
      have := (chained_addr_bounds _ xs hxs y hy).1
      have := block_total_pos x
      omega
    rcases List.mem_cons.mp hb1 with h1 | h1 <;>
      rcases List.mem_cons.mp hb2 with h2 | h2
    · rw [h1, h2]
    · subst h1
      exact absurd heq (Nat.ne_of_lt (hgt b2 h2))
    · subst h2
      exact absurd heq.symm (Nat.ne_of_lt (hgt b1 h1))
    · exact ih (n + x.total) hxs b1 h1 b2 h2 heq

/-- An address strictly inside a block's span is not a block address. -/
theorem addr_not_block (n : Nat) (pre post : List Block) (b : Block) (t : Nat)
    (h : Chained n (pre ++ b :: post)) (h1 : b.addr < t)
    (h2 : t < b.addr + b.total) :
    ∀ x ∈ pre ++ b :: post, x.addr ≠ t := by
  rw [chained_append] at h
  obtain ⟨hpre, hrest⟩ := h
  obtain ⟨hb, hpost⟩ := hrest
  intro x hx
  rcases List.mem_append.mp hx with hxp | hxb
  · have := chained_addr_bounds n pre hpre x hxp
    have := block_total_pos x
    omega
  · rcases List.mem_cons.mp hxb with hxe | hxq
    · subst hxe
      omega
    · have := (chained_addr_bounds _ post hpost x hxq).1
      omega


theorem chained_addr_lt_end (n : Nat) (bs : List Block) (h : Chained n bs) :
    ∀ x ∈ bs, x.addr < n + sumTotal bs := by
  intro x hx
  have := chained_addr_bounds n bs h x hx
  have := block_total_pos x
  omega

theorem inv_initAlloc (minPtr pages : Nat)
    (h : minPtr + BLOCK_MIN_TOTAL_SIZE ≤ pages * PAGE_SIZE_BYTES) :
    Inv (initAlloc minPtr pages) := by
  have hms : BLOCK_MIN_TOTAL_SIZE = 24 := rfl
  have hmeta : BLOCK_META_SIZE = 4 := rfl
  have hblocks : (initAlloc minPtr pages).blocks =
      [{ addr := minPtr,
         size := pages * PAGE_SIZE_BYTES - minPtr - 2 * BLOCK_META_SIZE,
         free := true,
         data := List.replicate
           (pages * PAGE_SIZE_BYTES - minPtr - 2 * BLOCK_META_SIZE) 0 }] := rfl
  have hlists : (initAlloc minPtr pages).lists =
      (List.replicate SEG_CLASS_PTRS_COUNT ([] : List Nat)).set
        (get_seg_class_id
          (pages * PAGE_SIZE_BYTES - minPtr - 2 * BLOCK_META_SIZE))
        [minPtr] := rfl
  have hrep : ∀ c : Nat, ((List.replicate SEG_CLASS_PTRS_COUNT
      ([] : List Nat))).getD c [] = [] := by
    intro c
    rw [List.getD_eq_getElem?_getD]
    rcases Nat.lt_or_ge c SEG_CLASS_PTRS_COUNT with hc2 | hc2
    · rw [List.getElem?_replicate, if_pos (by simpa using hc2)]
      simp
    · rw [List.getElem?_eq_none (by simpa using hc2)]
      simp
  refine ⟨⟨rfl, trivial⟩, ?_, ?_, ?_, ?_, ?_, ?_⟩
  · show minPtr + sumTotal (initAlloc minPtr pages).blocks =
      (initAlloc minPtr pages).pages * PAGE_SIZE_BYTES
    rw [hblocks]
    show minPtr + sumTotal [_] = pages * PAGE_SIZE_BYTES
    simp only [sumTotal, List.map_cons, List.map_nil, List.sum_cons,
      List.sum_nil, Block.total]
    omega
  · show NAF (initAlloc minPtr pages).blocks
    rw [hblocks]
    simp [NAF]
  · intro c a hmem
    rw [hlists] at hmem
    rw [hblocks]
    rcases mem_getD_set _ _ _ c a hmem with ⟨he, hm⟩ | hm
    · rw [List.mem_singleton] at hm
      subst hm
      subst he
      exact ⟨_, List.mem_singleton_self _, rfl, rfl, rfl⟩
    · rw [hrep c] at hm
      simp at hm
  · rw [hlists]
    constructor
    · intro c
      set idx := get_seg_class_id
        (pages * PAGE_SIZE_BYTES - minPtr - 2 * BLOCK_META_SIZE) with hidx
      by_cases hlen : idx < (List.replicate SEG_CLASS_PTRS_COUNT
          ([] : List Nat)).length
      · by_cases hc : c = idx
        · subst hc
          rw [getD_set_self _ _ _ hlen]
          exact List.nodup_singleton _
        · rw [getD_set_ne _ _ _ _ (fun he => hc he.symm), hrep c]
          exact List.nodup_nil
      · rw [List.set_eq_of_length_le (Nat.le_of_not_lt hlen), hrep c]
        exact List.nodup_nil
    · intro c1 c2 a hm1 hm2
      have key : ∀ c3 : Nat, a ∈ ((List.replicate SEG_CLASS_PTRS_COUNT
          ([] : List Nat)).set (get_seg_class_id
            (pages * PAGE_SIZE_BYTES - minPtr - 2 * BLOCK_META_SIZE))
          [minPtr]).getD c3 [] →
          c3 = get_seg_class_id
            (pages * PAGE_SIZE_BYTES - minPtr - 2 * BLOCK_META_SIZE) := by
        intro c3 hm
        rcases mem_getD_set _ _ _ c3 a hm with ⟨he, _⟩ | hm2b
        · exact he
        · rw [hrep c3] at hm2b
          simp at hm2b
      rw [key c1 hm1, key c2 hm2]
  · intro b hb
    rw [hblocks, List.mem_singleton] at hb
    subst hb
    simp
  · rw [hlists]
    simp


theorem chained_mid (n : Nat) (pre mid post : List Block) :
    Chained n (pre ++ mid ++ post) ↔
      Chained n pre ∧ Chained (n + sumTotal pre) mid ∧
      Chained (n + sumTotal pre + sumTotal mid) post := by
  rw [List.append_assoc, chained_append, chained_append]

theorem naf_decomp (pre mid post : List Block) (hne : mid ≠ [])
    (h : NAF (pre ++ mid ++ post)) :
    NAF pre ∧ NAF mid ∧ NAF post ∧
      (∀ x ∈ pre.getLast?, ∀ y ∈ mid.head?, ¬(x.free = true ∧ y.free = true)) ∧
      (∀ x ∈ mid.getLast?, ∀ y ∈ post.head?, ¬(x.free = true ∧ y.free = true)) := by
  rw [List.append_assoc] at h
  rw [NAF, List.chain'_append] at h
  obtain ⟨h1, h2, h3⟩ := h
  rw [List.chain'_append] at h2
  obtain ⟨h4, h5, h6⟩ := h2
  refine ⟨h1, h4, h5, ?_, h6⟩
  intro x hx y hy
  refine h3 x hx y ?_
  rw [List.head?_append_of_ne_nil _ hne]
  exact hy

theorem naf_compose (pre mid post : List Block) (hne : mid ≠ [])
    (hpre : NAF pre) (hmid : NAF mid) (hpost : NAF post)
    (hb1 : ∀ x ∈ pre.getLast?, ∀ y ∈ mid.head?, ¬(x.free = true ∧ y.free = true))
    (hb2 : ∀ x ∈ mid.getLast?, ∀ y ∈ post.head?, ¬(x.free = true ∧ y.free = true)) :
    NAF (pre ++ mid ++ post) := by
  rw [List.append_assoc, NAF, List.chain'_append]
  refine ⟨hpre, ?_, ?_⟩
  · rw [List.chain'_append]
    exact ⟨hmid, hpost, hb2⟩
  · intro x hx y hy
    rw [List.head?_append_of_ne_nil _ hne] at hy
    exact hb1 x hx y hy

theorem findFit_spec (s : Alloc) (size a : Nat) (hInv : Inv s)
    (h : findFit s size = some a) :
    ∃ pre b post, splitBlocks s.blocks a = some (pre, b, post) ∧
      b.free = true ∧ size ≤ b.size ∧
      a ∈ s.lists.getD (get_seg_class_id b.size) [] := by
  obtain ⟨hch, _, _, hlok, hu, _, _⟩ := hInv
  have hpred := List.find?_some h
  have hmem := List.mem_of_find?_eq_some h
  have hscan : ∃ c, a ∈ s.lists.getD c [] := by
    simp only [classScan, List.mem_flatMap] at hmem
    obtain ⟨c, _, hm⟩ := hmem
    exact ⟨c, hm⟩
  obtain ⟨c, hc⟩ := hscan
  obtain ⟨b0, hb0mem, hb0addr, hb0free, hb0class⟩ := hlok c a hc
  have hsp := splitBlocks_of_mem s.blocks a ⟨b0, hb0mem, hb0addr⟩
  rcases Option.isSome_iff_exists.mp hsp with ⟨⟨pre, b, post⟩, hspe⟩
  obtain ⟨hdecomp, hbaddr, _⟩ := splitBlocks_eq _ _ _ _ _ hspe
  have hbmem : b ∈ s.blocks := by
    rw [hdecomp]
    exact List.mem_append_right pre (List.mem_cons_self b post)
  have hbeq : b = b0 := chained_addr_inj s.minPtr s.blocks hch b hbmem b0 hb0mem
    (by rw [hbaddr, hb0addr])
  have hsz : sizeAt s a = b.size := by
    simp [sizeAt, hspe]
  refine ⟨pre, b, post, hspe, by rw [hbeq]; exact hb0free, ?_, ?_⟩
  · have h2 := of_decide_eq_true hpred
    rw [hsz] at h2
    exact h2
  · rw [hbeq, hb0class]
    exact hc

/-- C2: when pop_free_block (and hence allocate) fails with OutOfMemory —
no free block fits and the host refuses to grow — the allocator state is
returned unchanged: free lists, counters, page count and region tiling are
exactly the input ones. -/
theorem pop_oom_state_unchanged (growOk : Bool) (s : Alloc) (size n : Nat)
    (hpop : (pop_free_block growOk s size).2 = none)
    (halloc : (allocate growOk s n).2 = none) :
    (pop_free_block growOk s size).1 = s ∧ (allocate growOk s n).1 = s := by
  constructor
  · unfold pop_free_block at hpop ⊢
    cases hfit : findFit s size with
    | some a =>
      simp only [hfit] at hpop ⊢
      cases hsp : splitBlocks s.blocks a with
      | some t =>
        obtain ⟨pre, b, post⟩ := t
        simp only [hsp] at hpop
        by_cases hc : b.size < size + BLOCK_MIN_TOTAL_SIZE <;>
          simp [hc] at hpop
      | none => simp [hsp]
    | none =>
      simp only [hfit] at hpop ⊢
      cases growOk with
      | false => simp
      | true =>
        by_cases hc : (pagesToGrow size * PAGE_SIZE_BYTES - 2 * BLOCK_META_SIZE)
            < size + BLOCK_MIN_TOTAL_SIZE <;> simp [hc] at hpop
  · unfold allocate at halloc ⊢
    unfold pop_free_block at halloc ⊢
    cases hfit : findFit s (pad_size n) with
    | some a =>
      simp only [hfit] at halloc ⊢
      cases hsp : splitBlocks s.blocks a with
      | some t =>
        obtain ⟨pre, b, post⟩ := t
        simp only [hsp] at halloc
        by_cases hc : b.size < pad_size n + BLOCK_MIN_TOTAL_SIZE <;>
          simp [hc] at halloc
      | none => simp [hsp]
    | none =>
      simp only [hfit] at halloc ⊢
      cases growOk with
      | false => simp
      | true =>
        by_cases hc : (pagesToGrow (pad_size n) * PAGE_SIZE_BYTES -
            2 * BLOCK_META_SIZE) < pad_size n + BLOCK_MIN_TOTAL_SIZE <;>
          simp [hc] at halloc

/-- Closed instance of the C2 theorem: on a freshly initialized one-page
region whose host refuses to grow, a 100000-byte request is OutOfMemory
and the state is returned untouched. -/
theorem pop_oom_state_unchanged_witness :
    (pop_free_block false (initAlloc 1037 1) 100000).2 = none ∧
    (allocate false (initAlloc 1037 1) 100000).2 = none ∧
    (pop_free_block false (initAlloc 1037 1) 100000).1 = initAlloc 1037 1 ∧
    (allocate false (initAlloc 1037 1) 100000).1 = initAlloc 1037 1 := by
  have h := pop_oom_state_unchanged false (initAlloc 1037 1) 100000 100000
    (by decide) (by decide)
  exact ⟨by decide, by decide, h.1, h.2⟩

theorem pagesToGrow_pos (size : Nat) : 0 < pagesToGrow size := by
  simp only [pagesToGrow, BLOCK_META_SIZE, PAGE_SIZE_BYTES]
  split <;> omega

/-- Invariant preservation for the exact-fit branch of pop_free_block. -/
theorem inv_pop_exact (s : Alloc) (pre post : List Block) (b : Block)
    (hInv : Inv s) (hdec : s.blocks = pre ++ b :: post) (hfree : b.free = true)
    (hlisted : b.addr ∈ s.lists.getD (get_seg_class_id b.size) [])
    (fs2 as2 : Nat) :
    Inv { blocks := pre ++ ({ b with free := false }) :: post,
          lists := s.lists.set (get_seg_class_id b.size)
            ((s.lists.getD (get_seg_class_id b.size) []).erase b.addr),
          free_size := fs2,
          allocated_size := as2,
          pages := s.pages, minPtr := s.minPtr } := by
  obtain ⟨hch, hend, hnaf, hlok, hu, hdl, hll⟩ := hInv
  rw [hdec] at hch hend hnaf
  have hmid : (pre ++ b :: post) = pre ++ [b] ++ post := by simp
  rw [hmid] at hch hnaf
  set c := get_seg_class_id b.size with hc
  refine ⟨?_, ?_, ?_, ?_, ?_, ?_, ?_⟩
  · show Chained s.minPtr (pre ++ ({ b with free := false }) :: post)
    rw [show pre ++ ({ b with free := false }) :: post =
      pre ++ [{ b with free := false }] ++ post by simp]
    rw [chained_mid] at hch ⊢
    obtain ⟨h1, h2, h3⟩ := hch
    refine ⟨h1, ?_, ?_⟩
    · exact ⟨h2.1, trivial⟩
    · have : sumTotal [{ b with free := false }] = sumTotal [b] := rfl
      rw [this]
      exact h3
  · show s.minPtr + sumTotal (pre ++ ({ b with free := false }) :: post) =
      s.pages * PAGE_SIZE_BYTES
    rw [sumTotal_append, sumTotal_cons] at hend ⊢
    exact hend
  · show NAF (pre ++ ({ b with free := false }) :: post)
    rw [show pre ++ ({ b with free := false }) :: post =
      pre ++ [{ b with free := false }] ++ post by simp]
    obtain ⟨n1, _, n3, _, _⟩ := naf_decomp pre [b] post (by simp) hnaf
    refine naf_compose _ _ _ (by simp) n1 ?_ n3 ?_ ?_
    · simp [NAF]
    · intro x hx y hy
      simp only [List.head?_cons, Option.mem_some_iff] at hy
      subst hy
      simp
    · intro x hx y hy
      simp only [List.getLast?_singleton, Option.mem_some_iff] at hx
      subst hx
      simp
  · intro c2 a2 hmem
    have ha2old : a2 ∈ s.lists.getD c2 [] := mem_after_eject _ _ _ _ _ hmem
    have hnb : b.addr ∉ (s.lists.set c ((s.lists.getD c []).erase b.addr)).getD c2 [] :=
      not_listed_after_eject s.lists c b.addr hu hlisted c2
    have ha2ne : a2 ≠ b.addr := fun he => hnb (he ▸ hmem)
    obtain ⟨b0, hb0mem, hb0addr, hb0free, hb0class⟩ := hlok c2 a2 ha2old
    have hb0ne : b0 ≠ b := fun he => ha2ne (by rw [← hb0addr, he])
    rw [hdec] at hb0mem
    rcases List.mem_append.mp hb0mem with hbp | hbc
    · exact ⟨b0, List.mem_append_left _ hbp, hb0addr, hb0free, hb0class⟩
    · rcases List.mem_cons.mp hbc with he | hbq
      · exact absurd he hb0ne
      · exact ⟨b0, List.mem_append_right _ (List.mem_cons_of_mem _ hbq),
          hb0addr, hb0free, hb0class⟩
  · exact uniqueListed_eject s.lists c b.addr hu
  · intro b0 hb0
    have hbmem : b ∈ s.blocks := by
      rw [hdec]
      exact List.mem_append_right _ (List.mem_cons_self b post)
    rcases List.mem_append.mp hb0 with hbp | hbc
    · refine hdl b0 ?_
      rw [hdec]
      exact List.mem_append_left _ hbp
    · rcases List.mem_cons.mp hbc with he | hbq
      · subst he
        exact hdl b hbmem
      · refine hdl b0 ?_
        rw [hdec]
        exact List.mem_append_right _ (List.mem_cons_of_mem _ hbq)
  · show (s.lists.set c ((s.lists.getD c []).erase b.addr)).length =
      SEG_CLASS_PTRS_COUNT
    rw [List.length_set]
    exact hll

/-- Invariant preservation for the split branch of pop_free_block (and the
split branch of try_reallocate_inplace, which produces the same shape). -/
theorem inv_pop_split (s : Alloc) (pre post : List Block) (b : Block)
    (size : Nat) (hInv : Inv s) (hdec : s.blocks = pre ++ b :: post)
    (hfree : b.free = true)
    (hlisted : b.addr ∈ s.lists.getD (get_seg_class_id b.size) [])
    (hfit : size + BLOCK_MIN_TOTAL_SIZE ≤ b.size)
    (fs2 as2 : Nat) :
    Inv { blocks := pre ++
            ({ addr := b.addr, size := size, free := false,
               data := b.data.take size } : Block) ::
            ({ addr := b.addr + size + 2 * BLOCK_META_SIZE,
               size := b.size - size - 2 * BLOCK_META_SIZE, free := true,
               data := b.data.drop (size + 2 * BLOCK_META_SIZE) } : Block) :: post,
          lists := ((s.lists.set (get_seg_class_id b.size)
              ((s.lists.getD (get_seg_class_id b.size) []).erase b.addr))).set
            (get_seg_class_id (b.size - size - 2 * BLOCK_META_SIZE))
            ((((s.lists.set (get_seg_class_id b.size)
              ((s.lists.getD (get_seg_class_id b.size) []).erase b.addr))).getD
              (get_seg_class_id (b.size - size - 2 * BLOCK_META_SIZE)) []) ++
              [b.addr + size + 2 * BLOCK_META_SIZE]),
          free_size := fs2, allocated_size := as2,
          pages := s.pages, minPtr := s.minPtr } := by
  obtain ⟨hch, hend, hnaf, hlok, hu, hdl, hll⟩ := hInv
  have hmeta : BLOCK_META_SIZE = 4 := rfl
  have hmin : BLOCK_MIN_TOTAL_SIZE = 24 := rfl
  set b1 : Block := ⟨b.addr, size, false, b.data.take size⟩ with hb1
  set b2 : Block := ⟨b.addr + size + 2 * BLOCK_META_SIZE,
    b.size - size - 2 * BLOCK_META_SIZE, true,
    b.data.drop (size + 2 * BLOCK_META_SIZE)⟩ with hb2
  have htot : b1.total + b2.total = b.total := by
    simp only [Block.total, hb1, hb2, BLOCK_META_SIZE]
    omega
  have hb2addr : b2.addr = b1.addr + b1.total := by
    simp only [hb1, hb2, Block.total, BLOCK_META_SIZE]
    omega
  have hinner1 : b.addr < b2.addr := by
    simp only [hb2]
    omega
  have hinner2 : b2.addr < b.addr + b.total := by
    simp only [hb2, Block.total, BLOCK_META_SIZE]
    omega
  rw [hdec] at hch hend hnaf
  set c := get_seg_class_id b.size with hc
  set c2 := get_seg_class_id (b.size - size - 2 * BLOCK_META_SIZE) with hc2
  have hfresh : ∀ c3, (b.addr + size + 2 * BLOCK_META_SIZE) ∉
      (s.lists.set c ((s.lists.getD c []).erase b.addr)).getD c3 [] := by
    intro c3 hmem
    have hold : (b.addr + size + 2 * BLOCK_META_SIZE) ∈ s.lists.getD c3 [] :=
      mem_after_eject _ _ _ _ _ hmem
    obtain ⟨b0, hb0mem, hb0addr, _, _⟩ := hlok c3 _ hold
    rw [hdec] at hb0mem
    exact addr_not_block s.minPtr pre post b _ hch hinner1 hinner2 b0 hb0mem hb0addr
  refine ⟨?_, ?_, ?_, ?_, ?_, ?_, ?_⟩
  · show Chained s.minPtr (pre ++ b1 :: b2 :: post)
    rw [show pre ++ b1 :: b2 :: post = pre ++ [b1, b2] ++ post by simp]
    rw [show pre ++ b :: post = pre ++ [b] ++ post by simp] at hch
    rw [chained_mid] at hch ⊢
    obtain ⟨h1, h2, h3⟩ := hch
    refine ⟨h1, ?_, ?_⟩
    · refine ⟨?_, ?_, trivial⟩
      · simp only [hb1]
        exact h2.1
      · rw [hb2addr]
        congr 1
        exact h2.1.symm ▸ rfl
    · have hsum2 : sumTotal [b1, b2] = sumTotal [b] := by
        simp only [sumTotal, List.map_cons, List.map_nil, List.sum_cons,
          List.sum_nil]
        omega
      rw [hsum2]
      exact h3
  · show s.minPtr + sumTotal (pre ++ b1 :: b2 :: post) = s.pages * PAGE_SIZE_BYTES
    rw [sumTotal_append, sumTotal_cons] at hend
    rw [sumTotal_append, sumTotal_cons, sumTotal_cons]
    omega
  · show NAF (pre ++ b1 :: b2 :: post)
    rw [show pre ++ b1 :: b2 :: post = pre ++ [b1, b2] ++ post by simp]
    rw [show pre ++ b :: post = pre ++ [b] ++ post by simp] at hnaf
    obtain ⟨n1, _, n3, _, n5⟩ := naf_decomp pre [b] post (by simp) hnaf
    refine naf_compose _ _ _ (by simp) n1 ?_ n3 ?_ ?_
    · show List.Chain' _ [b1, b2]
      refine List.chain'_cons.mpr ⟨?_, ?_⟩
      · simp [hb1]
      · simp [NAF]
    · intro x hx y hy
      simp only [List.head?_cons, Option.mem_some_iff] at hy
      subst hy
      simp [hb1]
    · intro x hx y hy
      have hx2 : x = b2 := by
        simp only [List.getLast?_cons_cons, List.getLast?_singleton,
          Option.mem_some_iff] at hx
        exact hx.symm
      subst hx2
      have := n5 b (by simp) y hy
      intro hcon
      exact this ⟨hfree, hcon.2⟩
  · intro c3 a3 hmem
    rcases mem_after_enqueue _ _ _ _ _ hmem with ⟨hce, hae⟩ | hold
    · subst hae
      refine ⟨b2, ?_, rfl, rfl, ?_⟩
      · exact List.mem_append_right _ (List.mem_cons_of_mem _
          (List.mem_cons_self _ _))
      · rw [hce, hc2]
    · have ha3old : a3 ∈ s.lists.getD c3 [] := mem_after_eject _ _ _ _ _ hold
      have hnb : b.addr ∉ (s.lists.set c ((s.lists.getD c []).erase b.addr)).getD
          c3 [] := not_listed_after_eject s.lists c b.addr hu hlisted c3
      have ha3ne : a3 ≠ b.addr := fun he => hnb (he ▸ hold)
      obtain ⟨b0, hb0mem, hb0addr, hb0free, hb0class⟩ := hlok c3 a3 ha3old
      have hb0ne : b0 ≠ b := fun he => ha3ne (by rw [← hb0addr, he])
      rw [hdec] at hb0mem
      rcases List.mem_append.mp hb0mem with hbp | hbc
      · exact ⟨b0, List.mem_append_left _ hbp, hb0addr, hb0free, hb0class⟩
      · rcases List.mem_cons.mp hbc with he | hbq
        · exact absurd he hb0ne
        · exact ⟨b0, List.mem_append_right _ (List.mem_cons_of_mem _
            (List.mem_cons_of_mem _ hbq)), hb0addr, hb0free, hb0class⟩
  · exact uniqueListed_enqueue _ _ _ (uniqueListed_eject s.lists c b.addr hu) hfresh
  · intro b0 hb0
    have hbmem2 : b ∈ s.blocks := by
      rw [hdec]
      exact List.mem_append_right _ (List.mem_cons_self b post)
    have hdlb : b.data.length = b.size := hdl b hbmem2
    rcases List.mem_append.mp hb0 with hbp | hbc
    · refine hdl b0 ?_
      rw [hdec]
      exact List.mem_append_left _ hbp
    · rcases List.mem_cons.mp hbc with he | hbq
      · subst he
        simp only [hb1, List.length_take, hdlb]
        omega
      · rcases List.mem_cons.mp hbq with he2 | hbq2
        · subst he2
          simp only [hb2, List.length_drop, hdlb, hmeta]
          omega
        · refine hdl b0 ?_
          rw [hdec]
          exact List.mem_append_right _ (List.mem_cons_of_mem _ hbq2)
  · show ((s.lists.set c _).set c2 _).length = SEG_CLASS_PTRS_COUNT
    rw [List.length_set, List.length_set]
    exact hll


/-- Invariant preservation for the grow-and-use-whole branch of
pop_free_block. -/
theorem inv_pop_grow_exact (s : Alloc) (delta : Nat) (hInv : Inv s)
    (hd : 0 < delta) (fs2 as2 : Nat) :
    Inv { blocks := s.blocks ++
            [({ addr := s.pages * PAGE_SIZE_BYTES,
                size := delta * PAGE_SIZE_BYTES - 2 * BLOCK_META_SIZE,
                free := false,
                data := List.replicate
                  (delta * PAGE_SIZE_BYTES - 2 * BLOCK_META_SIZE) 0 } : Block)],
          lists := s.lists, free_size := fs2, allocated_size := as2,
          pages := s.pages + delta, minPtr := s.minPtr } := by
  obtain ⟨hch, hend, hnaf, hlok, hu, hdl, hll⟩ := hInv
  have hmeta : BLOCK_META_SIZE = 4 := rfl
  have hpage : PAGE_SIZE_BYTES = 65536 := rfl
  refine ⟨?_, ?_, ?_, ?_, hu, ?_, hll⟩
  · show Chained s.minPtr (s.blocks ++ [_])
    rw [chained_append]
    refine ⟨hch, ?_, trivial⟩
    show s.pages * PAGE_SIZE_BYTES = s.minPtr + sumTotal s.blocks
    omega
  · show s.minPtr + sumTotal (s.blocks ++ [_]) =
      (s.pages + delta) * PAGE_SIZE_BYTES
    rw [sumTotal_append, sumTotal_cons]
    show s.minPtr + (sumTotal s.blocks +
      ((delta * PAGE_SIZE_BYTES - 2 * BLOCK_META_SIZE) + 2 * BLOCK_META_SIZE +
        sumTotal [])) = _
    simp only [sumTotal, List.map_nil, List.sum_nil, hmeta, hpage] at hend ⊢
    omega
  · show NAF (s.blocks ++ [_])
    rw [NAF, List.chain'_append]
    refine ⟨hnaf, by simp [NAF], ?_⟩
    intro x hx y hy
    simp only [List.head?_cons, Option.mem_some_iff] at hy
    subst hy
    simp
  · intro c3 a3 hmem
    obtain ⟨b0, hb0mem, hrest⟩ := hlok c3 a3 hmem
    exact ⟨b0, List.mem_append_left _ hb0mem, hrest⟩
  · intro b0 hb0
    rcases List.mem_append.mp hb0 with hbp | hbc
    · exact hdl b0 hbp
    · rw [List.mem_singleton] at hbc
      subst hbc
      simp

/-- Invariant preservation for the grow-and-split branch of pop_free_block. -/
theorem inv_pop_grow_split (s : Alloc) (delta size : Nat) (hInv : Inv s)
    (hd : 0 < delta)
    (hfit : size + BLOCK_MIN_TOTAL_SIZE ≤
      delta * PAGE_SIZE_BYTES - 2 * BLOCK_META_SIZE)
    (fs2 as2 : Nat) :
    Inv { blocks := s.blocks ++
            [({ addr := s.pages * PAGE_SIZE_BYTES, size := size, free := false,
                data := (List.replicate
                  (delta * PAGE_SIZE_BYTES - 2 * BLOCK_META_SIZE) 0).take size }
              : Block),
             ({ addr := s.pages * PAGE_SIZE_BYTES + size + 2 * BLOCK_META_SIZE,
                size := delta * PAGE_SIZE_BYTES - 2 * BLOCK_META_SIZE - size -
                  2 * BLOCK_META_SIZE,
                free := true,
                data := (List.replicate
                  (delta * PAGE_SIZE_BYTES - 2 * BLOCK_META_SIZE) 0).drop
                  (size + 2 * BLOCK_META_SIZE) } : Block)],
          lists := s.lists.set
            (get_seg_class_id (delta * PAGE_SIZE_BYTES - 2 * BLOCK_META_SIZE -
              size - 2 * BLOCK_META_SIZE))
            ((s.lists.getD
              (get_seg_class_id (delta * PAGE_SIZE_BYTES - 2 * BLOCK_META_SIZE -
                size - 2 * BLOCK_META_SIZE)) []) ++
              [s.pages * PAGE_SIZE_BYTES + size + 2 * BLOCK_META_SIZE]),
          free_size := fs2, allocated_size := as2,
          pages := s.pages + delta, minPtr := s.minPtr } := by
  obtain ⟨hch, hend, hnaf, hlok, hu, hdl, hll⟩ := hInv
  have hmeta : BLOCK_META_SIZE = 4 := rfl
  have hmin : BLOCK_MIN_TOTAL_SIZE = 24 := rfl
  have hpage : PAGE_SIZE_BYTES = 65536 := rfl
  rw [hmin] at hfit
  have haddrbig : ∀ x ∈ s.blocks, x.addr < s.pages * PAGE_SIZE_BYTES := by
    intro x hx
    have := chained_addr_lt_end s.minPtr s.blocks hch x hx
    omega
  have hfresh : ∀ c3, (s.pages * PAGE_SIZE_BYTES + size + 2 * BLOCK_META_SIZE) ∉
      s.lists.getD c3 [] := by
    intro c3 hmem
    obtain ⟨b0, hb0mem, hb0addr, _, _⟩ := hlok c3 _ hmem
    have := haddrbig b0 hb0mem
    omega
  refine ⟨?_, ?_, ?_, ?_, ?_, ?_, ?_⟩
  · show Chained s.minPtr (s.blocks ++ [_, _])
    rw [chained_append]
    refine ⟨hch, ?_, ?_, trivial⟩
    · show s.pages * PAGE_SIZE_BYTES = s.minPtr + sumTotal s.blocks
      omega
    · show s.pages * PAGE_SIZE_BYTES + size + 2 * BLOCK_META_SIZE =
        s.minPtr + sumTotal s.blocks + (size + 2 * BLOCK_META_SIZE)
      omega
  · show s.minPtr + sumTotal (s.blocks ++ [_, _]) =
      (s.pages + delta) * PAGE_SIZE_BYTES
    rw [sumTotal_append, sumTotal_cons, sumTotal_cons]
    show s.minPtr + (sumTotal s.blocks + ((size + 2 * BLOCK_META_SIZE) +
      (((delta * PAGE_SIZE_BYTES - 2 * BLOCK_META_SIZE - size -
        2 * BLOCK_META_SIZE) + 2 * BLOCK_META_SIZE) + sumTotal []))) = _
    simp only [sumTotal, List.map_nil, List.sum_nil, hmeta, hpage] at hend hfit ⊢
    omega
  · show NAF (s.blocks ++ [_, _])
    rw [NAF, List.chain'_append]
    refine ⟨hnaf, ?_, ?_⟩
    · refine List.chain'_cons.mpr ⟨?_, ?_⟩
      · simp
      · simp [NAF]
    · intro x hx y hy
      simp only [List.head?_cons, Option.mem_some_iff] at hy
      subst hy
      simp
  · intro c3 a3 hmem
    rcases mem_after_enqueue _ _ _ _ _ hmem with ⟨hce, hae⟩ | hold
    · subst hae
      refine ⟨_, List.mem_append_right _ (List.mem_cons_of_mem _
        (List.mem_cons_self _ _)), rfl, rfl, ?_⟩
      rw [hce]
    · obtain ⟨b0, hb0mem, hrest⟩ := hlok c3 a3 hold
      exact ⟨b0, List.mem_append_left _ hb0mem, hrest⟩
  · exact uniqueListed_enqueue _ _ _ hu hfresh
  · intro b0 hb0
    rcases List.mem_append.mp hb0 with hbp | hbc
    · exact hdl b0 hbp
    · rcases List.mem_cons.mp hbc with he | hbq
      · subst he
        simp only [List.length_take, List.length_replicate]
        omega
      · rw [List.mem_singleton] at hbq
        subst hbq
        simp only [List.length_drop, List.length_replicate]
        omega
  · show (s.lists.set _ _).length = SEG_CLASS_PTRS_COUNT
    rw [List.length_set]
    exact hll

/-- Invariant preservation of pop_free_block across all four branches. -/
theorem inv_pop (growOk : Bool) (s : Alloc) (size : Nat) (hInv : Inv s) :
    Inv (pop_free_block growOk s size).1 := by
  unfold pop_free_block
  cases hfit : findFit s size with
  | some a =>
    obtain ⟨pre, b, post, hspe, hfree, hsz, hlisted⟩ :=
      findFit_spec s size a hInv hfit
    obtain ⟨hdec, hbaddr, _⟩ := splitBlocks_eq _ _ _ _ _ hspe
    simp only [hspe]
    by_cases hc : b.size < size + BLOCK_MIN_TOTAL_SIZE
    · rw [if_pos hc]
      exact inv_pop_exact s pre post b
        ⟨(by obtain ⟨h, _⟩ := hInv; exact h), (by
          obtain ⟨_, h, _⟩ := hInv; exact h), (by
          obtain ⟨_, _, h, _⟩ := hInv; exact h), (by
          obtain ⟨_, _, _, h, _⟩ := hInv; exact h), (by
          obtain ⟨_, _, _, _, h, _⟩ := hInv; exact h), (by
          obtain ⟨_, _, _, _, _, h, _⟩ := hInv; exact h), (by
          obtain ⟨_, _, _, _, _, _, h⟩ := hInv; exact h)⟩
        hdec hfree (hbaddr ▸ hlisted) _ _
    · rw [if_neg hc]
      exact inv_pop_split s pre post b size hInv hdec hfree
        (hbaddr ▸ hlisted) (by omega) _ _
  | none =>
    simp only
    cases growOk with
    | false => exact hInv
    | true =>
      simp only [if_true]
      by_cases hc : (pagesToGrow size * PAGE_SIZE_BYTES - 2 * BLOCK_META_SIZE)
          < size + BLOCK_MIN_TOTAL_SIZE
      · rw [if_pos hc]
        exact inv_pop_grow_exact s (pagesToGrow size) hInv
          (pagesToGrow_pos size) _ _
      · rw [if_neg hc]
        exact inv_pop_grow_split s (pagesToGrow size) size hInv
          (pagesToGrow_pos size) (by omega) _ _


theorem not_listed_after_eject2 (ls : List (List Nat)) (c a : Nat)
    (hu : uniqueListed ls)
    (honly : ∀ c3, a ∈ ls.getD c3 [] → c3 = c) :
    ∀ c2, a ∉ (ls.set c ((ls.getD c []).erase a)).getD c2 [] := by
  intro c2 hmem
  rcases mem_getD_set ls c _ c2 a hmem with ⟨he, hm⟩ | hm
  · exact (hu.1 c).not_mem_erase hm
  · have he := honly c2 hm
    subst he
    have hlen := mem_getD_lt ls c2 a hm
    rw [getD_set_self ls c2 _ hlen] at hmem
    exact (hu.1 c2).not_mem_erase hmem

/-- A member block's address can only be listed at the class of its size. -/
theorem listed_only_class (s : Alloc) (hch : Chained s.minPtr s.blocks)
    (hlok : listedOK s) (x : Block) (hx : x ∈ s.blocks) :
    ∀ c3, x.addr ∈ s.lists.getD c3 [] → c3 = get_seg_class_id x.size := by
  intro c3 hmem
  obtain ⟨b0, hb0mem, hb0addr, _, hb0class⟩ := hlok c3 _ hmem
  have : b0 = x := chained_addr_inj s.minPtr s.blocks hch b0 hb0mem x hx hb0addr
  rw [← hb0class, this]

/-- An allocated block's address is never on a free list. -/
theorem alloc_addr_not_listed (s : Alloc) (hch : Chained s.minPtr s.blocks)
    (hlok : listedOK s) (x : Block) (hx : x ∈ s.blocks) (hxf : x.free = false) :
    ∀ c3, x.addr ∉ s.lists.getD c3 [] := by
  intro c3 hmem
  obtain ⟨b0, hb0mem, hb0addr, hb0free, _⟩ := hlok c3 _ hmem
  have he : b0 = x := chained_addr_inj s.minPtr s.blocks hch b0 hb0mem x hx hb0addr
  rw [he, hxf] at hb0free
  exact Bool.false_ne_true hb0free

/-- Invariant of the final deallocate state: the merged free block FB sits
between P and Q in the tiling and is enqueued at the tail of its class. -/
theorem inv_push_merged (minPtr pages : Nat) (P Q : List Block) (FB : Block)
    (L2 : List (List Nat)) (fs2 as2 : Nat)
    (hch : Chained minPtr (P ++ FB :: Q))
    (hend : minPtr + sumTotal (P ++ FB :: Q) = pages * PAGE_SIZE_BYTES)
    (hnafP : NAF P) (hnafQ : NAF Q)
    (hfb : FB.free = true)
    (hbound1 : ∀ x ∈ P.getLast?, x.free = false)
    (hbound2 : ∀ y ∈ Q.head?, y.free = false)
    (hlok2 : ∀ c : Nat, ∀ a ∈ L2.getD c [], ∃ b0, (b0 ∈ P ∨ b0 ∈ Q) ∧
      b0.addr = a ∧ b0.free = true ∧ get_seg_class_id b0.size = c)
    (hu2 : uniqueListed L2)
    (hfresh : ∀ c, FB.addr ∉ L2.getD c [])
    (hdlPQ : ∀ b0 : Block, (b0 ∈ P ∨ b0 ∈ Q) → b0.data.length = b0.size)
    (hdlFB : FB.data.length = FB.size)
    (hlen2 : L2.length = SEG_CLASS_PTRS_COUNT) :
    Inv { blocks := P ++ FB :: Q,
          lists := L2.set (get_seg_class_id FB.size)
            ((L2.getD (get_seg_class_id FB.size) []) ++ [FB.addr]),
          free_size := fs2, allocated_size := as2,
          pages := pages, minPtr := minPtr } := by
  refine ⟨hch, hend, ?_, ?_, ?_, ?_, ?_⟩
  · show NAF (P ++ FB :: Q)
    rw [show P ++ FB :: Q = P ++ [FB] ++ Q by simp]
    refine naf_compose _ _ _ (by simp) hnafP (by simp [NAF]) hnafQ ?_ ?_
    · intro x hx y hy
      simp only [List.head?_cons, Option.mem_some_iff] at hy
      subst hy
      have := hbound1 x hx
      simp [this]
    · intro x hx y hy
      simp only [List.getLast?_singleton, Option.mem_some_iff] at hx
      subst hx
      have := hbound2 y hy
      simp [this]
  · intro c3 a3 hmem
    rcases mem_after_enqueue _ _ _ _ _ hmem with ⟨hce, hae⟩ | hold
    · subst hae
      exact ⟨FB, List.mem_append_right _ (List.mem_cons_self _ _), rfl, hfb,
        by rw [hce]⟩
    · obtain ⟨b0, hb0mem, hrest⟩ := hlok2 c3 a3 hold
      rcases hb0mem with h1 | h1
      · exact ⟨b0, List.mem_append_left _ h1, hrest⟩
      · exact ⟨b0, List.mem_append_right _ (List.mem_cons_of_mem _ h1), hrest⟩
  · exact uniqueListed_enqueue _ _ _ hu2 hfresh
  · intro b0 hb0
    rcases List.mem_append.mp hb0 with h1 | h1
    · exact hdlPQ b0 (Or.inl h1)
    · rcases List.mem_cons.mp h1 with h2 | h2
      · subst h2
        exact hdlFB
      · exact hdlPQ b0 (Or.inr h2)
  · show (L2.set _ _).length = SEG_CLASS_PTRS_COUNT
    rw [List.length_set]
    exact hlen2

theorem mergeStepPrev_none (s1 : Alloc) (pre : List Block) (b : Block)
    (h : ∀ p ∈ pre.getLast?, p.free = false) :
    mergeStepPrev s1 pre b = (s1, pre, b) := by
  unfold mergeStepPrev
  cases hgl : pre.getLast? with
  | none => rfl
  | some p =>
    have := h p (by rw [hgl]; rfl)
    simp [this]

theorem mergeStepPrev_merge (s1 : Alloc) (pre0 : List Block) (p b : Block)
    (hp : p.free = true) :
    mergeStepPrev s1 (pre0 ++ [p]) b =
      (eject_from_freelist s1 (get_seg_class_id p.size) p.addr p.total, pre0,
       { addr := p.addr, size := p.size + b.size + 2 * BLOCK_META_SIZE,
         free := true,
         data := p.data ++ List.replicate (2 * BLOCK_META_SIZE) 0 ++ b.data }) := by
  unfold mergeStepPrev
  rw [List.getLast?_concat]
  simp [hp, List.dropLast_concat]

theorem mergeStepNext_none (s1 : Alloc) (b : Block) (post : List Block)
    (h : ∀ q ∈ post.head?, q.free = false) :
    mergeStepNext s1 b post = (s1, b, post) := by
  unfold mergeStepNext
  cases hhd : post.head? with
  | none => rfl
  | some q =>
    have := h q (by rw [hhd]; rfl)
    simp [this]

theorem mergeStepNext_merge (s1 : Alloc) (b q : Block) (post1 : List Block)
    (hq : q.free = true) :
    mergeStepNext s1 b (q :: post1) =
      (eject_from_freelist s1 (get_seg_class_id q.size) q.addr q.total,
       { addr := b.addr, size := b.size + q.size + 2 * BLOCK_META_SIZE,
         free := true,
         data := b.data ++ List.replicate (2 * BLOCK_META_SIZE) 0 ++ q.data },
       post1) := by
  unfold mergeStepNext
  simp [hq]


/-- Invariant preservation of deallocate.  The deallocated handle must be
the address of an allocated block (the source requires this; a non-block
address is a no-op in the model). -/
theorem inv_deallocate (s : Alloc) (a : Nat) (hInv : Inv s)
    (hallocd : ∀ pre b post, splitBlocks s.blocks a = some (pre, b, post) →
      b.free = false) :
    Inv (deallocate s a) := by
  obtain ⟨hch, hend, hnaf, hlok, hu, hdl, hll⟩ := hInv
  unfold deallocate
  cases hsp : splitBlocks s.blocks a with
  | none => exact ⟨hch, hend, hnaf, hlok, hu, hdl, hll⟩
  | some t =>
    obtain ⟨pre, b, post⟩ := t
    obtain ⟨hdec, hbaddr, hprene⟩ := splitBlocks_eq _ _ _ _ _ hsp
    have hbfree : b.free = false := hallocd pre b post hsp
    have hbmem : b ∈ s.blocks := by
      rw [hdec]
      exact List.mem_append_right _ (List.mem_cons_self b post)
    have hbnotlisted : ∀ c3, b.addr ∉ s.lists.getD c3 [] :=
      alloc_addr_not_listed s hch hlok b hbmem hbfree
    rw [hdec] at hch hend hnaf
    obtain ⟨hnafpre, _, hnafpost, hbd1, hbd2⟩ :=
      naf_decomp pre [b] post (by simp)
        (by rw [show pre ++ [b] ++ post = pre ++ b :: post by simp]; exact hnaf)
    have hPrev : (∀ p ∈ pre.getLast?, p.free = false) ∨
        ∃ pre0 p, pre = pre0 ++ [p] ∧ p.free = true := by
      cases hgl : pre.getLast? with
      | none =>
        left
        intro p hp
        simp at hp
      | some p =>
        by_cases hpf : p.free = true
        · right
          obtain ⟨pre0, he⟩ := List.getLast?_eq_some_iff.mp hgl
          exact ⟨pre0, p, he, hpf⟩
        · left
          intro p2 hp2
          have he : p = p2 := by simpa using hp2
          subst he
          cases hf : p.free with
          | false => rfl
          | true => exact absurd hf hpf
    have hNext : (∀ q ∈ post.head?, q.free = false) ∨
        ∃ q post1, post = q :: post1 ∧ q.free = true := by
      cases post with
      | nil =>
        left
        intro q hq
        cases hq
      | cons q post1 =>
        by_cases hqf : q.free = true
        · right
          exact ⟨q, post1, rfl, hqf⟩
        · left
          intro q2 hq2
          rw [List.head?_cons] at hq2
          have he : q = q2 := by simpa using hq2
          subst he
          cases hf : q.free with
          | false => rfl
          | true => exact absurd hf hqf
    show Inv (let s1 : Alloc := { s with
        allocated_size := s.allocated_size - b.total }
      let r1 := mergeStepPrev s1 pre ({ b with free := true })
      let r2 := mergeStepNext r1.1 r1.2.2 post
      let s2 := r2.1
      let fb := r2.2.1
      { blocks := r1.2.1 ++ fb :: r2.2.2,
        lists := (enqueue_free s2 fb).lists,
        free_size := (enqueue_free s2 fb).free_size,
        allocated_size := s2.allocated_size,
        pages := s2.pages, minPtr := s2.minPtr })
    simp only
    rcases hPrev with hPn | ⟨pre0, p, hpre0, hpf⟩
    · rcases hNext with hQn | ⟨q, post1, hpost1, hqf⟩
      · -- no merge on either side
        rw [mergeStepPrev_none _ _ _ hPn]
        rw [mergeStepNext_none _ _ _ hQn]
        refine inv_push_merged s.minPtr s.pages pre post
          ({ b with free := true }) s.lists _ _ ?_ ?_ hnafpre hnafpost rfl
          hPn hQn ?_ hu ?_ ?_ ?_ hll
        · rw [show pre ++ ({ b with free := true }) :: post =
            pre ++ [{ b with free := true }] ++ post by simp]
          rw [show pre ++ b :: post = pre ++ [b] ++ post by simp] at hch
          rw [chained_mid] at hch ⊢
          exact ⟨hch.1, ⟨hch.2.1.1, trivial⟩, hch.2.2⟩
        · rw [sumTotal_append, sumTotal_cons] at hend ⊢
          exact hend
        · intro c3 a3 hmem
          obtain ⟨b0, hb0mem, hb0addr, hb0free, hb0class⟩ := hlok c3 a3 hmem
          have hb0ne : b0 ≠ b := fun he => by
            rw [he, hbfree] at hb0free
            exact Bool.false_ne_true hb0free
          rw [hdec] at hb0mem
          rcases List.mem_append.mp hb0mem with h1 | h1
          · exact ⟨b0, Or.inl h1, hb0addr, hb0free, hb0class⟩
          · rcases List.mem_cons.mp h1 with h2 | h2
            · exact absurd h2 hb0ne
            · exact ⟨b0, Or.inr h2, hb0addr, hb0free, hb0class⟩
        · intro c
          exact hbnotlisted c
        · intro b0 hb0
          rcases hb0 with h1 | h1
          · refine hdl b0 ?_
            rw [hdec]
            exact List.mem_append_left _ h1
          · refine hdl b0 ?_
            rw [hdec]
            exact List.mem_append_right _ (List.mem_cons_of_mem _ h1)
        · exact hdl b hbmem
      · -- merge with next only
        subst hpost1
        rw [mergeStepPrev_none _ _ _ hPn]
        rw [mergeStepNext_merge _ _ _ _ hqf]
        have hqmem : q ∈ s.blocks := by
          rw [hdec]
          exact List.mem_append_right _ (List.mem_cons_of_mem _
            (List.mem_cons_self q post1))
        have honlyq : ∀ c3, q.addr ∈ s.lists.getD c3 [] →
            c3 = get_seg_class_id q.size := by
          intro c3 hm
          exact listed_only_class s (by rw [hdec]; exact hch) hlok q hqmem c3 hm
        set FB : Block := ⟨b.addr, b.size + q.size + 2 * BLOCK_META_SIZE,
          true, b.data ++ List.replicate (2 * BLOCK_META_SIZE) 0 ++ q.data⟩
          with hFB
        refine inv_push_merged s.minPtr s.pages pre post1 FB
          (s.lists.set (get_seg_class_id q.size)
            ((s.lists.getD (get_seg_class_id q.size) []).erase q.addr)) _ _
          ?_ ?_ hnafpre ?_ rfl hPn ?_ ?_
          (uniqueListed_eject s.lists _ q.addr hu) ?_ ?_ ?_
          (by rw [List.length_set]; exact hll)
        · rw [show pre ++ FB :: post1 = pre ++ [FB] ++ post1 by simp]
          rw [show pre ++ b :: q :: post1 = pre ++ [b, q] ++ post1 by simp] at hch
          rw [chained_mid] at hch ⊢
          obtain ⟨c1, c2, c3⟩ := hch
          refine ⟨c1, ⟨c2.1, trivial⟩, ?_⟩
          have : sumTotal [FB] = sumTotal [b, q] := by
            simp only [hFB, sumTotal, List.map_cons, List.map_nil,
              List.sum_cons, List.sum_nil, Block.total]
            omega
          rw [this]
          exact c3
        · rw [sumTotal_append, sumTotal_cons] at hend
          rw [sumTotal_append, sumTotal_cons]
          rw [sumTotal_cons] at hend
          simp only [hFB, Block.total] at hend ⊢
          omega
        · exact (List.chain'_cons'.mp hnafpost).2
        · intro y hy
          have h3 := (List.chain'_cons'.mp hnafpost).1 y hy
          cases hyf : y.free with
          | false => rfl
          | true => exact absurd ⟨hqf, hyf⟩ h3
        · intro c3 a3 hmem
          have ha3old : a3 ∈ s.lists.getD c3 [] := mem_after_eject _ _ _ _ _ hmem
          have hqnl : q.addr ∉ (s.lists.set (get_seg_class_id q.size)
              ((s.lists.getD (get_seg_class_id q.size) []).erase q.addr)).getD
              c3 [] := not_listed_after_eject2 s.lists _ q.addr hu honlyq c3
          have ha3nq : a3 ≠ q.addr := fun he => hqnl (he ▸ hmem)
          have ha3nb : a3 ≠ b.addr := fun he => hbnotlisted c3 (he ▸ ha3old)
          obtain ⟨b0, hb0mem, hb0addr, hb0free, hb0class⟩ := hlok c3 a3 ha3old
          have hb0nb : b0 ≠ b := fun he => ha3nb (by rw [← hb0addr, he])
          have hb0nq : b0 ≠ q := fun he => ha3nq (by rw [← hb0addr, he])
          rw [hdec] at hb0mem
          rcases List.mem_append.mp hb0mem with h1 | h1
          · exact ⟨b0, Or.inl h1, hb0addr, hb0free, hb0class⟩
          · rcases List.mem_cons.mp h1 with h2 | h2
            · exact absurd h2 hb0nb
            · rcases List.mem_cons.mp h2 with h3 | h3
              · exact absurd h3 hb0nq
              · exact ⟨b0, Or.inr h3, hb0addr, hb0free, hb0class⟩
        · intro c
          intro hmem
          exact hbnotlisted c (mem_after_eject _ _ _ _ _ hmem)
        · intro b0 hb0
          rcases hb0 with h1 | h1
          · refine hdl b0 ?_
            rw [hdec]
            exact List.mem_append_left _ h1
          · refine hdl b0 ?_
            rw [hdec]
            exact List.mem_append_right _ (List.mem_cons_of_mem _
              (List.mem_cons_of_mem _ h1))
        · have h1 := hdl b hbmem
          have h2 := hdl q hqmem
          simp only [hFB, List.length_append, List.length_replicate, h1, h2]
          omega
    · -- merge with previous
      subst hpre0
      have hpmem : p ∈ s.blocks := by
        rw [hdec]
        exact List.mem_append_left _ (List.mem_append_right _
          (List.mem_singleton_self p))
      have honlyp : ∀ c3, p.addr ∈ s.lists.getD c3 [] →
          c3 = get_seg_class_id p.size := by
        intro c3 hm
        exact listed_only_class s (by rw [hdec]; exact hch) hlok p hpmem c3 hm
      have hpnl : ∀ c3, p.addr ∉ (s.lists.set (get_seg_class_id p.size)
          ((s.lists.getD (get_seg_class_id p.size) []).erase p.addr)).getD
          c3 [] := not_listed_after_eject2 s.lists _ p.addr hu honlyp
      have hbound1n : ∀ x ∈ pre0.getLast?, x.free = false := by
        have hdecn := (List.chain'_append.mp hnafpre).2.2
        intro x hx
        have h3 := hdecn x hx p (by rw [List.head?_cons]; rfl)
        cases hxf : x.free with
        | false => rfl
        | true => exact absurd ⟨hxf, hpf⟩ h3
      have hnafpre0 : NAF pre0 := (List.chain'_append.mp hnafpre).1
      rw [mergeStepPrev_merge _ _ _ _ hpf]
      rcases hNext with hQn | ⟨q, post1, hpost1, hqf⟩
      · -- merge with previous only
        rw [mergeStepNext_none _ _ _ hQn]
        set FB : Block := ⟨p.addr, p.size + b.size + 2 * BLOCK_META_SIZE,
          true, p.data ++ List.replicate (2 * BLOCK_META_SIZE) 0 ++ b.data⟩
          with hFB
        refine inv_push_merged s.minPtr s.pages pre0 post FB
          (s.lists.set (get_seg_class_id p.size)
            ((s.lists.getD (get_seg_class_id p.size) []).erase p.addr)) _ _
          ?_ ?_ hnafpre0 hnafpost rfl hbound1n hQn ?_
          (uniqueListed_eject s.lists _ p.addr hu) ?_ ?_ ?_
          (by rw [List.length_set]; exact hll)
        · rw [show pre0 ++ FB :: post = pre0 ++ [FB] ++ post by simp]
          rw [show pre0 ++ [p] ++ b :: post = pre0 ++ [p, b] ++ post by simp]
            at hch
          rw [chained_mid] at hch ⊢
          obtain ⟨c1, c2, c3⟩ := hch
          refine ⟨c1, ⟨c2.1, trivial⟩, ?_⟩
          have : sumTotal [FB] = sumTotal [p, b] := by
            simp only [hFB, sumTotal, List.map_cons, List.map_nil,
              List.sum_cons, List.sum_nil, Block.total]
            omega
          rw [this]
          exact c3
        · rw [sumTotal_append, sumTotal_append, sumTotal_cons,
            sumTotal_cons] at hend
          rw [sumTotal_append, sumTotal_cons]
          simp only [hFB, Block.total, sumTotal, List.map_cons, List.map_nil,
            List.sum_cons, List.sum_nil] at hend ⊢
          omega
        · intro c3 a3 hmem
          have ha3old : a3 ∈ s.lists.getD c3 [] :=
            mem_after_eject _ _ _ _ _ hmem
          have ha3np : a3 ≠ p.addr := fun he => hpnl c3 (he ▸ hmem)
          have ha3nb : a3 ≠ b.addr := fun he => hbnotlisted c3 (he ▸ ha3old)
          obtain ⟨b0, hb0mem, hb0addr, hb0free, hb0class⟩ := hlok c3 a3 ha3old
          have hb0nb : b0 ≠ b := fun he => ha3nb (by rw [← hb0addr, he])
          have hb0np : b0 ≠ p := fun he => ha3np (by rw [← hb0addr, he])
          rw [hdec] at hb0mem
          rcases List.mem_append.mp hb0mem with h1 | h1
          · rcases List.mem_append.mp h1 with h2 | h2
            · exact ⟨b0, Or.inl h2, hb0addr, hb0free, hb0class⟩
            · rw [List.mem_singleton] at h2
              exact absurd h2 hb0np
          · rcases List.mem_cons.mp h1 with h2 | h2
            · exact absurd h2 hb0nb
            · exact ⟨b0, Or.inr h2, hb0addr, hb0free, hb0class⟩
        · intro c
          exact hpnl c
        · intro b0 hb0
          rcases hb0 with h1 | h1
          · refine hdl b0 ?_
            rw [hdec]
            exact List.mem_append_left _ (List.mem_append_left _ h1)
          · refine hdl b0 ?_
            rw [hdec]
            exact List.mem_append_right _ (List.mem_cons_of_mem _ h1)
        · have h1 := hdl b hbmem
          have h2 := hdl p hpmem
          simp only [hFB, List.length_append, List.length_replicate, h1, h2]
          omega
      · -- merge with both neighbors
        subst hpost1
        rw [mergeStepNext_merge _ _ _ _ hqf]
        have hqmem : q ∈ s.blocks := by
          rw [hdec]
          exact List.mem_append_right _ (List.mem_cons_of_mem _
            (List.mem_cons_self q post1))
        have honlyq : ∀ c3, q.addr ∈ (s.lists.set (get_seg_class_id p.size)
            ((s.lists.getD (get_seg_class_id p.size) []).erase p.addr)).getD
            c3 [] → c3 = get_seg_class_id q.size := by
          intro c3 hm
          exact listed_only_class s (by rw [hdec]; exact hch) hlok q hqmem c3
            (mem_after_eject _ _ _ _ _ hm)
        have hqnl : ∀ c3, q.addr ∉ ((s.lists.set (get_seg_class_id p.size)
            ((s.lists.getD (get_seg_class_id p.size) []).erase p.addr)).set
            (get_seg_class_id q.size)
            (((s.lists.set (get_seg_class_id p.size)
              ((s.lists.getD (get_seg_class_id p.size) []).erase p.addr)).getD
              (get_seg_class_id q.size) []).erase q.addr)).getD c3 [] :=
          not_listed_after_eject2 _ _ q.addr
            (uniqueListed_eject s.lists _ p.addr hu) honlyq
        set FB : Block := ⟨p.addr,
          (p.size + b.size + 2 * BLOCK_META_SIZE) + q.size +
            2 * BLOCK_META_SIZE, true,
          (p.data ++ List.replicate (2 * BLOCK_META_SIZE) 0 ++ b.data)
            ++ List.replicate (2 * BLOCK_META_SIZE) 0 ++ q.data⟩ with hFB
        refine inv_push_merged s.minPtr s.pages pre0 post1 FB
          ((s.lists.set (get_seg_class_id p.size)
            ((s.lists.getD (get_seg_class_id p.size) []).erase p.addr)).set
            (get_seg_class_id q.size)
            (((s.lists.set (get_seg_class_id p.size)
              ((s.lists.getD (get_seg_class_id p.size) []).erase p.addr)).getD
              (get_seg_class_id q.size) []).erase q.addr)) _ _
          ?_ ?_ hnafpre0 ?_ rfl hbound1n ?_ ?_
          (uniqueListed_eject _ _ q.addr
            (uniqueListed_eject s.lists _ p.addr hu)) ?_ ?_ ?_
          (by rw [List.length_set, List.length_set]; exact hll)
        · rw [show pre0 ++ FB :: post1 = pre0 ++ [FB] ++ post1 by simp]
          rw [show pre0 ++ [p] ++ b :: q :: post1 =
            pre0 ++ [p, b, q] ++ post1 by simp] at hch
          rw [chained_mid] at hch ⊢
          obtain ⟨c1, c2, c3⟩ := hch
          refine ⟨c1, ⟨c2.1, trivial⟩, ?_⟩
          have : sumTotal [FB] = sumTotal [p, b, q] := by
            simp only [hFB, sumTotal, List.map_cons, List.map_nil,
              List.sum_cons, List.sum_nil, Block.total]
            omega
          rw [this]
          exact c3
        · rw [show pre0 ++ [p] ++ b :: q :: post1 =
            pre0 ++ [p, b, q] ++ post1 by simp] at hend
          rw [sumTotal_append, sumTotal_append] at hend
          rw [sumTotal_append, sumTotal_cons]
          simp only [hFB, Block.total, sumTotal, List.map_cons, List.map_nil,
            List.sum_cons, List.sum_nil] at hend ⊢
          omega
        · exact (List.chain'_cons'.mp hnafpost).2
        · intro y hy
          have h3 := (List.chain'_cons'.mp hnafpost).1 y hy
          cases hyf : y.free with
          | false => rfl
          | true => exact absurd ⟨hqf, hyf⟩ h3
        · intro c3 a3 hmem
          have ha3mid : a3 ∈ (s.lists.set (get_seg_class_id p.size)
              ((s.lists.getD (get_seg_class_id p.size) []).erase p.addr)).getD
              c3 [] := mem_after_eject _ _ _ _ _ hmem
          have ha3old : a3 ∈ s.lists.getD c3 [] :=
            mem_after_eject _ _ _ _ _ ha3mid
          have ha3np : a3 ≠ p.addr := fun he => hpnl c3 (he ▸ ha3mid)
          have ha3nq : a3 ≠ q.addr := fun he => hqnl c3 (he ▸ hmem)
          have ha3nb : a3 ≠ b.addr := fun he => hbnotlisted c3 (he ▸ ha3old)
          obtain ⟨b0, hb0mem, hb0addr, hb0free, hb0class⟩ := hlok c3 a3 ha3old
          have hb0nb : b0 ≠ b := fun he => ha3nb (by rw [← hb0addr, he])
          have hb0np : b0 ≠ p := fun he => ha3np (by rw [← hb0addr, he])
          have hb0nq : b0 ≠ q := fun he => ha3nq (by rw [← hb0addr, he])
          rw [hdec] at hb0mem
          rcases List.mem_append.mp hb0mem with h1 | h1
          · rcases List.mem_append.mp h1 with h2 | h2
            · exact ⟨b0, Or.inl h2, hb0addr, hb0free, hb0class⟩
            · rw [List.mem_singleton] at h2
              exact absurd h2 hb0np
          · rcases List.mem_cons.mp h1 with h2 | h2
            · exact absurd h2 hb0nb
            · rcases List.mem_cons.mp h2 with h3 | h3
              · exact absurd h3 hb0nq
              · exact ⟨b0, Or.inr h3, hb0addr, hb0free, hb0class⟩
        · intro c hmem
          exact hpnl c (mem_after_eject _ _ _ _ _ hmem)
        · intro b0 hb0
          rcases hb0 with h1 | h1
          · refine hdl b0 ?_
            rw [hdec]
            exact List.mem_append_left _ (List.mem_append_left _ h1)
          · refine hdl b0 ?_
            rw [hdec]
            exact List.mem_append_right _ (List.mem_cons_of_mem _
              (List.mem_cons_of_mem _ h1))
        · have h1 := hdl b hbmem
          have h2 := hdl p hpmem
          have h3 := hdl q hqmem
          simp only [hFB, List.length_append, List.length_replicate, h1, h2, h3]
          omega

/-- An address strictly inside the span of two adjacent blocks, other than
the second block's own start, is not a block address. -/
theorem addr_not_block2 (n : Nat) (pre post1 : List Block) (b q : Block)
    (t : Nat) (h : Chained n (pre ++ [b, q] ++ post1)) (h1 : b.addr < t)
    (h2 : t < b.addr + b.total + q.total) (h3 : t ≠ q.addr) :
    ∀ x ∈ pre ++ [b, q] ++ post1, x.addr ≠ t := by
  rw [chained_mid] at h
  obtain ⟨hpre, hmid, hpost⟩ := h
  obtain ⟨hb, hq, _⟩ := hmid
  intro x hx
  rcases List.mem_append.mp hx with hx1 | hx2
  · rcases List.mem_append.mp hx1 with hxp | hxm
    · have := chained_addr_bounds n pre hpre x hxp
      have := block_total_pos x
      omega
    · rcases List.mem_cons.mp hxm with he | hxm2
      · subst he
        omega
      · rw [List.mem_singleton] at hxm2
        subst hxm2
        exact h3.symm
  · have := (chained_addr_bounds _ post1 hpost x hx2).1
    have hsum : sumTotal [b, q] = b.total + q.total := by
      simp [sumTotal]
    rw [hsum] at this
    omega

/-- writeBytes only changes payload bytes: the invariant is preserved. -/
theorem inv_writeBytes (s : Alloc) (a : Nat) (bytes : List Nat)
    (hInv : Inv s) : Inv (writeBytes s a bytes) := by
  obtain ⟨hch, hend, hnaf, hlok, hu, hdl, hll⟩ := hInv
  unfold writeBytes
  cases hsp : splitBlocks s.blocks a with
  | none => exact ⟨hch, hend, hnaf, hlok, hu, hdl, hll⟩
  | some t =>
    obtain ⟨pre, b, post⟩ := t
    obtain ⟨hdec, hbaddr, hprene⟩ := splitBlocks_eq _ _ _ _ _ hsp
    rw [hdec] at hch hend hnaf
    set nb : Block := { b with
      data := (bytes ++ b.data.drop bytes.length).take b.size } with hnb
    have hnbtot : nb.total = b.total := rfl
    refine ⟨?_, ?_, ?_, ?_, hu, ?_, hll⟩
    · show Chained s.minPtr (pre ++ nb :: post)
      rw [show pre ++ nb :: post = pre ++ [nb] ++ post by simp]
      rw [show pre ++ b :: post = pre ++ [b] ++ post by simp] at hch
      rw [chained_mid] at hch ⊢
      obtain ⟨c1, c2, c3⟩ := hch
      refine ⟨c1, ⟨c2.1, trivial⟩, ?_⟩
      have : sumTotal [nb] = sumTotal [b] := by
        simp [sumTotal, Block.total]
      rw [this]
      exact c3
    · show s.minPtr + sumTotal (pre ++ nb :: post) = s.pages * PAGE_SIZE_BYTES
      rw [sumTotal_append, sumTotal_cons] at hend ⊢
      exact hend
    · show NAF (pre ++ nb :: post)
      rw [show pre ++ nb :: post = pre ++ [nb] ++ post by simp]
      rw [show pre ++ b :: post = pre ++ [b] ++ post by simp] at hnaf
      obtain ⟨n1, _, n3, n4, n5⟩ := naf_decomp pre [b] post (by simp) hnaf
      refine naf_compose _ _ _ (by simp) n1 (by simp [NAF]) n3 ?_ ?_
      · intro x hx y hy
        simp only [List.head?_cons, Option.mem_some_iff] at hy
        subst hy
        exact n4 x hx b (by rw [List.head?_cons]; rfl)
      · intro x hx y hy
        simp only [List.getLast?_singleton, Option.mem_some_iff] at hx
        subst hx
        exact n5 b (by simp) y hy
    · intro c3 a3 hmem
      obtain ⟨b0, hb0mem, hb0addr, hb0free, hb0class⟩ := hlok c3 a3 hmem
      rw [hdec] at hb0mem
      rcases List.mem_append.mp hb0mem with h1 | h1
      · exact ⟨b0, List.mem_append_left _ h1, hb0addr, hb0free, hb0class⟩
      · rcases List.mem_cons.mp h1 with h2 | h2
        · subst h2
          exact ⟨nb, List.mem_append_right _ (List.mem_cons_self _ _),
            hb0addr, hb0free, hb0class⟩
        · exact ⟨b0, List.mem_append_right _ (List.mem_cons_of_mem _ h2),
            hb0addr, hb0free, hb0class⟩
    · intro b0 hb0
      have hdlb : b.data.length = b.size := hdl b (by
        rw [hdec]
        exact List.mem_append_right _ (List.mem_cons_self b post))
      rcases List.mem_append.mp hb0 with h1 | h1
      · refine hdl b0 ?_
        rw [hdec]
        exact List.mem_append_left _ h1
      · rcases List.mem_cons.mp h1 with h2 | h2
        · subst h2
          show ((bytes ++ b.data.drop bytes.length).take b.size).length = b.size
          rw [List.length_take, List.length_append, List.length_drop, hdlb]
          omega
        · refine hdl b0 ?_
          rw [hdec]
          exact List.mem_append_right _ (List.mem_cons_of_mem _ h2)


/-- Invariant preservation for the take-whole branch of
try_reallocate_inplace: the allocated block absorbs its free forward
neighbor entirely. -/
theorem inv_inplace_exact (s : Alloc) (pre post1 : List Block) (b q : Block)
    (hInv : Inv s) (hdec : s.blocks = pre ++ b :: q :: post1)
    (hbfree : b.free = false) (hqfree : q.free = true) (fs2 as2 : Nat) :
    Inv { blocks := pre ++
            ({ addr := b.addr, size := b.size + q.size + 2 * BLOCK_META_SIZE,
               free := false,
               data := b.data ++ List.replicate (2 * BLOCK_META_SIZE) 0 ++
                 q.data } : Block) :: post1,
          lists := s.lists.set (get_seg_class_id q.size)
            ((s.lists.getD (get_seg_class_id q.size) []).erase q.addr),
          free_size := fs2, allocated_size := as2,
          pages := s.pages, minPtr := s.minPtr } := by
  obtain ⟨hch, hend, hnaf, hlok, hu, hdl, hll⟩ := hInv
  have hbmem : b ∈ s.blocks := by
    rw [hdec]
    exact List.mem_append_right _ (List.mem_cons_self _ _)
  have hqmem : q ∈ s.blocks := by
    rw [hdec]
    exact List.mem_append_right _ (List.mem_cons_of_mem _ (List.mem_cons_self _ _))
  have honlyq : ∀ c3, q.addr ∈ s.lists.getD c3 [] →
      c3 = get_seg_class_id q.size := fun c3 hm =>
    listed_only_class s hch hlok q hqmem c3 hm
  have hqnl := not_listed_after_eject2 s.lists _ q.addr hu honlyq
  have hbnl := alloc_addr_not_listed s hch hlok b hbmem hbfree
  rw [hdec] at hch hend hnaf
  set nb : Block := ⟨b.addr, b.size + q.size + 2 * BLOCK_META_SIZE, false,
    b.data ++ List.replicate (2 * BLOCK_META_SIZE) 0 ++ q.data⟩ with hnb
  refine ⟨?_, ?_, ?_, ?_, uniqueListed_eject s.lists _ q.addr hu, ?_, ?_⟩
  · show Chained s.minPtr (pre ++ nb :: post1)
    rw [show pre ++ nb :: post1 = pre ++ [nb] ++ post1 by simp]
    rw [show pre ++ b :: q :: post1 = pre ++ [b, q] ++ post1 by simp] at hch
    rw [chained_mid] at hch ⊢
    obtain ⟨c1, c2, c3⟩ := hch
    refine ⟨c1, ⟨c2.1, trivial⟩, ?_⟩
    have : sumTotal [nb] = sumTotal [b, q] := by
      simp only [hnb, sumTotal, List.map_cons, List.map_nil, List.sum_cons,
        List.sum_nil, Block.total]
      omega
    rw [this]
    exact c3
  · show s.minPtr + sumTotal (pre ++ nb :: post1) = s.pages * PAGE_SIZE_BYTES
    rw [sumTotal_append, sumTotal_cons, sumTotal_cons] at hend
    rw [sumTotal_append, sumTotal_cons]
    simp only [hnb, Block.total] at hend ⊢
    omega
  · show NAF (pre ++ nb :: post1)
    rw [show pre ++ nb :: post1 = pre ++ [nb] ++ post1 by simp]
    rw [show pre ++ b :: q :: post1 = pre ++ [b, q] ++ post1 by simp] at hnaf
    obtain ⟨n1, _, n3, _, _⟩ := naf_decomp pre [b, q] post1 (by simp) hnaf
    refine naf_compose _ _ _ (by simp) n1 (by simp [NAF]) n3 ?_ ?_
    · intro x hx y hy
      simp only [List.head?_cons, Option.mem_some_iff] at hy
      subst hy
      simp [hnb]
    · intro x hx y hy
      simp only [List.getLast?_singleton, Option.mem_some_iff] at hx
      subst hx
      simp [hnb]
  · intro c3 a3 hmem
    have ha3old : a3 ∈ s.lists.getD c3 [] := mem_after_eject _ _ _ _ _ hmem
    have ha3nq : a3 ≠ q.addr := fun he => hqnl c3 (he ▸ hmem)
    have ha3nb : a3 ≠ b.addr := fun he => hbnl c3 (he ▸ ha3old)
    obtain ⟨b0, hb0mem, hb0addr, hb0free, hb0class⟩ := hlok c3 a3 ha3old
    have hb0nb : b0 ≠ b := fun he => ha3nb (by rw [← hb0addr, he])
    have hb0nq : b0 ≠ q := fun he => ha3nq (by rw [← hb0addr, he])
    rw [hdec] at hb0mem
    rcases List.mem_append.mp hb0mem with h1 | h1
    · exact ⟨b0, List.mem_append_left _ h1, hb0addr, hb0free, hb0class⟩
    · rcases List.mem_cons.mp h1 with h2 | h2
      · exact absurd h2 hb0nb
      · rcases List.mem_cons.mp h2 with h3 | h3
        · exact absurd h3 hb0nq
        · exact ⟨b0, List.mem_append_right _ (List.mem_cons_of_mem _ h3),
            hb0addr, hb0free, hb0class⟩
  · intro b0 hb0
    have h1 := hdl b hbmem
    have h2 := hdl q hqmem
    rcases List.mem_append.mp hb0 with hp1 | hp1
    · refine hdl b0 ?_
      rw [hdec]
      exact List.mem_append_left _ hp1
    · rcases List.mem_cons.mp hp1 with hp2 | hp2
      · subst hp2
        simp only [hnb, List.length_append, List.length_replicate, h1, h2]
        omega
      · refine hdl b0 ?_
        rw [hdec]
        exact List.mem_append_right _ (List.mem_cons_of_mem _
          (List.mem_cons_of_mem _ hp2))
  · show (s.lists.set _ _).length = SEG_CLASS_PTRS_COUNT
    rw [List.length_set]
    exact hll

/-- Invariant preservation for the split branch of try_reallocate_inplace:
the allocated block absorbs its free forward neighbor and the trailing
remainder becomes a new free block. -/
theorem inv_inplace_split (s : Alloc) (pre post1 : List Block) (b q : Block)
    (new_size : Nat) (hInv : Inv s) (hdec : s.blocks = pre ++ b :: q :: post1)
    (hbfree : b.free = false) (hqfree : q.free = true)
    (hfit : new_size + BLOCK_MIN_TOTAL_SIZE ≤
      b.size + q.size + 2 * BLOCK_META_SIZE) (fs2 as2 : Nat) :
    Inv { blocks := pre ++
            ({ addr := b.addr, size := new_size, free := false,
               data := (b.data ++ List.replicate (2 * BLOCK_META_SIZE) 0 ++
                 q.data).take new_size } : Block) ::
            ({ addr := b.addr + new_size + 2 * BLOCK_META_SIZE,
               size := (b.size + q.size + 2 * BLOCK_META_SIZE) - new_size -
                 2 * BLOCK_META_SIZE,
               free := true,
               data := (b.data ++ List.replicate (2 * BLOCK_META_SIZE) 0 ++
                 q.data).drop (new_size + 2 * BLOCK_META_SIZE) } : Block) ::
            post1,
          lists := (s.lists.set (get_seg_class_id q.size)
              ((s.lists.getD (get_seg_class_id q.size) []).erase q.addr)).set
            (get_seg_class_id ((b.size + q.size + 2 * BLOCK_META_SIZE) -
              new_size - 2 * BLOCK_META_SIZE))
            (((s.lists.set (get_seg_class_id q.size)
              ((s.lists.getD (get_seg_class_id q.size) []).erase q.addr)).getD
              (get_seg_class_id ((b.size + q.size + 2 * BLOCK_META_SIZE) -
                new_size - 2 * BLOCK_META_SIZE)) []) ++
              [b.addr + new_size + 2 * BLOCK_META_SIZE]),
          free_size := fs2, allocated_size := as2,
          pages := s.pages, minPtr := s.minPtr } := by
  obtain ⟨hch, hend, hnaf, hlok, hu, hdl, hll⟩ := hInv
  have hmeta : BLOCK_META_SIZE = 4 := rfl
  have hmin : BLOCK_MIN_TOTAL_SIZE = 24 := rfl
  have hbmem : b ∈ s.blocks := by
    rw [hdec]
    exact List.mem_append_right _ (List.mem_cons_self _ _)
  have hqmem : q ∈ s.blocks := by
    rw [hdec]
    exact List.mem_append_right _ (List.mem_cons_of_mem _ (List.mem_cons_self _ _))
  have honlyq : ∀ c3, q.addr ∈ s.lists.getD c3 [] →
      c3 = get_seg_class_id q.size := fun c3 hm =>
    listed_only_class s hch hlok q hqmem c3 hm
  have hqnl := not_listed_after_eject2 s.lists _ q.addr hu honlyq
  have hbnl := alloc_addr_not_listed s hch hlok b hbmem hbfree
  rw [hdec] at hch hend hnaf
  set b1 : Block := ⟨b.addr, new_size, false,
    (b.data ++ List.replicate (2 * BLOCK_META_SIZE) 0 ++ q.data).take new_size⟩
    with hb1
  set b2 : Block := ⟨b.addr + new_size + 2 * BLOCK_META_SIZE,
    (b.size + q.size + 2 * BLOCK_META_SIZE) - new_size - 2 * BLOCK_META_SIZE,
    true,
    (b.data ++ List.replicate (2 * BLOCK_META_SIZE) 0 ++ q.data).drop
      (new_size + 2 * BLOCK_META_SIZE)⟩ with hb2
  have hchm : Chained s.minPtr (pre ++ [b, q] ++ post1) := by
    rw [show pre ++ [b, q] ++ post1 = pre ++ b :: q :: post1 by simp]
    exact hch
  have hfresh : ∀ c3, b2.addr ∉ (s.lists.set (get_seg_class_id q.size)
      ((s.lists.getD (get_seg_class_id q.size) []).erase q.addr)).getD c3 [] := by
    intro c3 hmem
    by_cases heq : b2.addr = q.addr
    · exact hqnl c3 (heq ▸ hmem)
    · have hold : b2.addr ∈ s.lists.getD c3 [] := mem_after_eject _ _ _ _ _ hmem
      obtain ⟨b0, hb0mem, hb0addr, _, _⟩ := hlok c3 _ hold
      rw [hdec] at hb0mem
      refine addr_not_block2 s.minPtr pre post1 b q b2.addr hchm ?_ ?_ heq b0
        (by rw [show pre ++ [b, q] ++ post1 = pre ++ b :: q :: post1 by simp]
            exact hb0mem) hb0addr
      · simp only [hb2]
        omega
      · simp only [hb2, Block.total, hmeta]
        omega
  refine ⟨?_, ?_, ?_, ?_, ?_, ?_, ?_⟩
  · show Chained s.minPtr (pre ++ b1 :: b2 :: post1)
    rw [show pre ++ b1 :: b2 :: post1 = pre ++ [b1, b2] ++ post1 by simp]
    rw [chained_mid] at hchm ⊢
    obtain ⟨c1, c2, c3⟩ := hchm
    refine ⟨c1, ⟨?_, ?_, trivial⟩, ?_⟩
    · simp only [hb1]
      exact c2.1
    · have e1 : b.addr = s.minPtr + sumTotal pre := c2.1
      simp only [hb1, hb2, Block.total]
      omega
    · have : sumTotal [b1, b2] = sumTotal [b, q] := by
        simp only [hb1, hb2, sumTotal, List.map_cons, List.map_nil,
          List.sum_cons, List.sum_nil, Block.total, hmeta]
        omega
      rw [this]
      exact c3
  · show s.minPtr + sumTotal (pre ++ b1 :: b2 :: post1) = s.pages * PAGE_SIZE_BYTES
    rw [sumTotal_append, sumTotal_cons, sumTotal_cons] at hend
    rw [sumTotal_append, sumTotal_cons, sumTotal_cons]
    simp only [hb1, hb2, Block.total, hmeta] at hend ⊢
    omega
  · show NAF (pre ++ b1 :: b2 :: post1)
    rw [show pre ++ b1 :: b2 :: post1 = pre ++ [b1, b2] ++ post1 by simp]
    rw [show pre ++ b :: q :: post1 = pre ++ [b, q] ++ post1 by simp] at hnaf
    obtain ⟨n1, _, n3, _, n5⟩ := naf_decomp pre [b, q] post1 (by simp) hnaf
    refine naf_compose _ _ _ (by simp) n1 ?_ n3 ?_ ?_
    · refine List.chain'_cons.mpr ⟨?_, ?_⟩
      · simp [hb1]
      · simp [NAF]
    · intro x hx y hy
      simp only [List.head?_cons, Option.mem_some_iff] at hy
      subst hy
      simp [hb1]
    · intro x hx y hy
      have hx2 : x = b2 := by
        simp only [List.getLast?_cons_cons, List.getLast?_singleton,
          Option.mem_some_iff] at hx
        exact hx.symm
      subst hx2
      have hq5 := n5 q (by simp) y hy
      intro hcon
      exact hq5 ⟨hqfree, hcon.2⟩
  · intro c3 a3 hmem
    rcases mem_after_enqueue _ _ _ _ _ hmem with ⟨hce, hae⟩ | hold
    · subst hae
      refine ⟨b2, List.mem_append_right _ (List.mem_cons_of_mem _
        (List.mem_cons_self _ _)), rfl, rfl, ?_⟩
      rw [hce]
    · have ha3mid := hold
      have ha3old : a3 ∈ s.lists.getD c3 [] := mem_after_eject _ _ _ _ _ ha3mid
      have ha3nq : a3 ≠ q.addr := fun he => hqnl c3 (he ▸ ha3mid)
      have ha3nb : a3 ≠ b.addr := fun he => hbnl c3 (he ▸ ha3old)
      obtain ⟨b0, hb0mem, hb0addr, hb0free, hb0class⟩ := hlok c3 a3 ha3old
      have hb0nb : b0 ≠ b := fun he => ha3nb (by rw [← hb0addr, he])
      have hb0nq : b0 ≠ q := fun he => ha3nq (by rw [← hb0addr, he])
      rw [hdec] at hb0mem
      rcases List.mem_append.mp hb0mem with h1 | h1
      · exact ⟨b0, List.mem_append_left _ h1, hb0addr, hb0free, hb0class⟩
      · rcases List.mem_cons.mp h1 with h2 | h2
        · exact absurd h2 hb0nb
        · rcases List.mem_cons.mp h2 with h3 | h3
          · exact absurd h3 hb0nq
          · exact ⟨b0, List.mem_append_right _ (List.mem_cons_of_mem _
              (List.mem_cons_of_mem _ h3)), hb0addr, hb0free, hb0class⟩
  · exact uniqueListed_enqueue _ _ _
      (uniqueListed_eject s.lists _ q.addr hu) hfresh
  · intro b0 hb0
    have h1 := hdl b hbmem
    have h2 := hdl q hqmem
    rcases List.mem_append.mp hb0 with hp1 | hp1
    · refine hdl b0 ?_
      rw [hdec]
      exact List.mem_append_left _ hp1
    · rcases List.mem_cons.mp hp1 with hp2 | hp2
      · subst hp2
        simp only [hb1, List.length_take, List.length_append,
          List.length_replicate, h1, h2, hmeta]
        omega
      · rcases List.mem_cons.mp hp2 with hp3 | hp3
        · subst hp3
          simp only [hb2, List.length_drop, List.length_append,
            List.length_replicate, h1, h2, hmeta]
          omega
        · refine hdl b0 ?_
          rw [hdec]
          exact List.mem_append_right _ (List.mem_cons_of_mem _
            (List.mem_cons_of_mem _ hp3))
  · show ((s.lists.set _ _).set _ _).length = SEG_CLASS_PTRS_COUNT
    rw [List.length_set, List.length_set]
    exact hll


/-- Dispatcher: any successful try_reallocate_inplace on an allocated
address preserves the invariant. -/
theorem inv_inplace (s : Alloc) (a new_size : Nat) (s2 : Alloc) (a2 sz2 : Nat)
    (hInv : Inv s)
    (hallocd : ∀ pre b post, splitBlocks s.blocks a = some (pre, b, post) →
      b.free = false)
    (h : try_reallocate_inplace s a new_size = some (s2, a2, sz2)) :
    Inv s2 := by
  unfold try_reallocate_inplace at h
  cases hsp : splitBlocks s.blocks a with
  | none => rw [hsp] at h; exact absurd h (by simp)
  | some t =>
    obtain ⟨pre, b, post⟩ := t
    have hbfree : b.free = false := hallocd pre b post hsp
    simp only [hsp] at h
    cases hhd : post.head? with
    | none => rw [hhd] at h; exact absurd h (by simp)
    | some q =>
      simp only [hhd] at h
      have hpost : q :: post.tail = post :=
        List.cons_head?_tail (by rw [hhd]; rfl)
      obtain ⟨hdec0, _, _⟩ := splitBlocks_eq _ _ _ _ _ hsp
      have hdec : s.blocks = pre ++ b :: q :: post.tail := by
        rw [hdec0]
        exact congrArg (fun l => pre ++ b :: l) hpost.symm
      by_cases hqf : q.free = true
      · rw [if_pos hqf] at h
        by_cases hc1 : new_size ≤ b.size + q.size + 2 * BLOCK_META_SIZE ∧
            b.size + q.size + 2 * BLOCK_META_SIZE <
              new_size + BLOCK_MIN_TOTAL_SIZE
        · rw [if_pos hc1] at h
          simp only [eject_from_freelist, Option.some_inj, Prod.mk.injEq] at h
          obtain ⟨h1, _, _⟩ := h
          rw [← h1]
          exact inv_inplace_exact s pre post.tail b q hInv hdec hbfree hqf _ _
        · rw [if_neg hc1] at h
          by_cases hc2 : new_size + BLOCK_MIN_TOTAL_SIZE ≤
              b.size + q.size + 2 * BLOCK_META_SIZE
          · rw [if_pos hc2] at h
            simp only [eject_from_freelist, enqueue_free, Option.some_inj,
              Prod.mk.injEq] at h
            obtain ⟨h1, _, _⟩ := h
            rw [← h1]
            exact inv_inplace_split s pre post.tail b q new_size hInv hdec
              hbfree hqf hc2 _ _
          · rw [if_neg hc2] at h
            exact absurd h (by simp)
      · rw [if_neg hqf] at h
        exact absurd h (by simp)

/-- allocate preserves the invariant (it is pop_free_block after
pad_size). -/
theorem inv_allocate (growOk : Bool) (s : Alloc) (n : Nat) (hInv : Inv s) :
    Inv (allocate growOk s n).1 :=
  inv_pop growOk s (pad_size n) hInv

/-- Dispatcher: any successful reallocate on an allocated address preserves
the invariant (in place, or deallocate; allocate; write back). -/
theorem inv_reallocate (growOk : Bool) (s : Alloc) (a new_size : Nat)
    (s2 : Alloc) (a2 sz2 : Nat) (hInv : Inv s)
    (hallocd : ∀ pre b post, splitBlocks s.blocks a = some (pre, b, post) →
      b.free = false)
    (h : reallocate growOk s a new_size = some (s2, a2, sz2)) : Inv s2 := by
  unfold reallocate at h
  cases hin : try_reallocate_inplace s a new_size with
  | some r =>
    rw [hin] at h
    simp only [Option.some_inj] at h
    rw [h] at hin
    exact inv_inplace s a new_size s2 a2 sz2 hInv hallocd hin
  | none =>
    rw [hin] at h
    cases hsp : splitBlocks s.blocks a with
    | none => rw [hsp] at h; exact absurd h (by simp)
    | some t =>
      obtain ⟨pre, b, post⟩ := t
      simp only [hsp] at h
      have hd : Inv (deallocate s a) := inv_deallocate s a hInv hallocd
      cases hal : allocate growOk (deallocate s a) new_size with
      | mk s1 r1 =>
        cases r1 with
        | none => rw [hal] at h; exact absurd h (by simp)
        | some p =>
          obtain ⟨a3, sz3⟩ := p
          rw [hal] at h
          simp only [Option.some_inj, Prod.mk.injEq] at h
          obtain ⟨h1, _, _⟩ := h
          rw [← h1]
          have hs1 : Inv s1 := by
            have := inv_allocate growOk (deallocate s a) new_size hd
            rw [hal] at this
            exact this
          exact inv_writeBytes s1 a3 b.data hs1


/-- C4: after every completed allocate, deallocate, or reallocate on a
state satisfying the allocator invariant, no two adjacent free blocks exist
in the tiling (adjacency in the address-ordered block list is exactly the
trailer-of-previous / header-of-next neighbor relation); deallocate
establishes this by merging the released block with each free neighbor
before enqueueing it. -/
theorem no_adjacent_free_after_ops (growOk : Bool) (s : Alloc)
    (n a new_size : Nat) (hInv : Inv s)
    (hallocd : ∀ pre b post, splitBlocks s.blocks a = some (pre, b, post) →
      b.free = false) :
    NAF (allocate growOk s n).1.blocks ∧
    NAF (deallocate s a).blocks ∧
    ∀ s2 a2 sz2, reallocate growOk s a new_size = some (s2, a2, sz2) →
      NAF s2.blocks := by
  refine ⟨?_, ?_, ?_⟩
  · obtain ⟨_, _, h, _⟩ := inv_allocate growOk s n hInv
    exact h
  · obtain ⟨_, _, h, _⟩ := inv_deallocate s a hInv hallocd
    exact h
  · intro s2 a2 sz2 hre
    obtain ⟨_, _, h, _⟩ :=
      inv_reallocate growOk s a new_size s2 a2 sz2 hInv hallocd hre
    exact h

theorem no_adjacent_free_after_ops_witness :
    NAF (allocate true (initAlloc 8 2) 100).1.blocks ∧
    NAF (deallocate (initAlloc 8 2) 0).blocks ∧
    ∀ s2 a2 sz2, reallocate true (initAlloc 8 2) 0 50 = some (s2, a2, sz2) →
      NAF s2.blocks :=
  no_adjacent_free_after_ops true (initAlloc 8 2) 100 0 50
    (inv_initAlloc 8 2 (by decide))
    (fun pre b post h => by
      rw [show splitBlocks (initAlloc 8 2).blocks 0 = none from rfl] at h
      exact absurd h (by simp))


/-- find? returns the first satisfying element: the list splits around the
result with every earlier element failing the predicate. -/
theorem findq_decomp {α : Type} (p : α → Bool) (l : List α) (a : α)
    (h : l.find? p = some a) :
    ∃ l1 l2, l = l1 ++ a :: l2 ∧ ∀ x ∈ l1, p x = false := by
  induction l with
  | nil => simp [List.find?] at h
  | cons x xs ih =>
    cases hp : p x with
    | true =>
      rw [List.find?_cons_of_pos _ hp] at h
      simp only [Option.some_inj] at h
      refine ⟨[], xs, ?_, by simp⟩
      rw [h]
      rfl
    | false =>
      rw [List.find?_cons_of_neg _ (by simp [hp])] at h
      obtain ⟨l1, l2, hdec, hall⟩ := ih h
      refine ⟨x :: l1, l2, by rw [hdec]; rfl, ?_⟩
      intro y hy
      rcases List.mem_cons.mp hy with h1 | h1
      · rw [h1]
        exact hp
      · exact hall y h1

/-- C5: pop_free_block takes the first address of the upward class scan
whose block fits, detaches-and-allocates it whole when the slack is below
BLOCK_MIN_TOTAL_SIZE, and otherwise splits it into a leading allocated
block of payload exactly size and a trailing free block of payload
b.size − size − 2·BLOCK_META_SIZE appended to the tail of its class list
with the rest of the tiling untouched (no coalescing). -/
theorem pop_first_fit_spec (growOk : Bool) (s : Alloc) (size a : Nat)
    (hInv : Inv s) (hfit : findFit s size = some a) :
    ∃ pre b post, splitBlocks s.blocks a = some (pre, b, post) ∧
      b.free = true ∧ size ≤ b.size ∧
      (∃ l1 l2, classScan s size = l1 ++ a :: l2 ∧
        ∀ x ∈ l1, sizeAt s x < size) ∧
      (if b.size < size + BLOCK_MIN_TOTAL_SIZE then
        (pop_free_block growOk s size).1.blocks =
            pre ++ ({ b with free := false }) :: post ∧
        (pop_free_block growOk s size).2 = some (b.addr, b.size) ∧
        ∀ c, b.addr ∉ (pop_free_block growOk s size).1.lists.getD c []
      else
        (pop_free_block growOk s size).1.blocks =
            pre ++ ({ addr := b.addr, size := size, free := false,
                      data := b.data.take size }) ::
              ({ addr := b.addr + size + 2 * BLOCK_META_SIZE,
                 size := b.size - size - 2 * BLOCK_META_SIZE, free := true,
                 data := b.data.drop (size + 2 * BLOCK_META_SIZE) }) :: post ∧
        (pop_free_block growOk s size).2 = some (b.addr, size) ∧
        (pop_free_block growOk s size).1.lists =
          (s.lists.set (get_seg_class_id b.size)
              ((s.lists.getD (get_seg_class_id b.size) []).erase b.addr)).set
            (get_seg_class_id (b.size - size - 2 * BLOCK_META_SIZE))
            (((s.lists.set (get_seg_class_id b.size)
                ((s.lists.getD (get_seg_class_id b.size) []).erase
                  b.addr)).getD
                (get_seg_class_id (b.size - size - 2 * BLOCK_META_SIZE)) []) ++
              [b.addr + size + 2 * BLOCK_META_SIZE])) := by
  obtain ⟨pre, b, post, hspe, hfree, hsz, hlisted⟩ :=
    findFit_spec s size a hInv hfit
  obtain ⟨hch, hend, hnaf, hlok, hu, hdl, hll⟩ := hInv
  obtain ⟨hdecomp, hbaddr, _⟩ := splitBlocks_eq _ _ _ _ _ hspe
  have hbmem : b ∈ s.blocks := by
    rw [hdecomp]
    exact List.mem_append_right pre (List.mem_cons_self b post)
  have honly : ∀ c3, b.addr ∈ s.lists.getD c3 [] →
      c3 = get_seg_class_id b.size := listed_only_class s hch hlok b hbmem
  obtain ⟨l1, l2, hscan, hall⟩ := findq_decomp _ _ _ hfit
  refine ⟨pre, b, post, hspe, hfree, hsz, ⟨l1, l2, hscan, ?_⟩, ?_⟩
  · intro x hx
    have := hall x hx
    have hnp : ¬ (size ≤ sizeAt s x) := of_decide_eq_false this
    omega
  · by_cases hc : b.size < size + BLOCK_MIN_TOTAL_SIZE
    · rw [if_pos hc]
      refine ⟨?_, ?_, ?_⟩
      · unfold pop_free_block
        simp only [hfit, hspe, eject_from_freelist]
        rw [if_pos hc]
      · unfold pop_free_block
        simp only [hfit, hspe, eject_from_freelist]
        rw [if_pos hc]
      · intro c
        have hlists : (pop_free_block growOk s size).1.lists =
            s.lists.set (get_seg_class_id b.size)
              ((s.lists.getD (get_seg_class_id b.size) []).erase b.addr) := by
          unfold pop_free_block
          simp only [hfit, hspe, eject_from_freelist]
          rw [if_pos hc]
        rw [hbaddr] at honly hlists ⊢
        rw [hlists]
        exact not_listed_after_eject2 s.lists _ a hu honly c
    · rw [if_neg hc]
      refine ⟨?_, ?_, ?_⟩
      · unfold pop_free_block
        simp only [hfit, hspe, eject_from_freelist, enqueue_free]
        rw [if_neg hc]
      · unfold pop_free_block
        simp only [hfit, hspe, eject_from_freelist, enqueue_free]
        rw [if_neg hc]
      · unfold pop_free_block
        simp only [hfit, hspe, eject_from_freelist, enqueue_free]
        rw [if_neg hc]


theorem pop_first_fit_spec_witness :
    ∃ pre b post,
      splitBlocks (initAlloc 8 2).blocks 8 = some (pre, b, post) ∧
      b.free = true ∧ 100 ≤ b.size ∧
      (∃ l1 l2, classScan (initAlloc 8 2) 100 = l1 ++ 8 :: l2 ∧
        ∀ x ∈ l1, sizeAt (initAlloc 8 2) x < 100) ∧
      (if b.size < 100 + BLOCK_MIN_TOTAL_SIZE then
        (pop_free_block true (initAlloc 8 2) 100).1.blocks =
            pre ++ ({ b with free := false }) :: post ∧
        (pop_free_block true (initAlloc 8 2) 100).2 = some (b.addr, b.size) ∧
        ∀ c, b.addr ∉ (pop_free_block true (initAlloc 8 2) 100).1.lists.getD c []
      else
        (pop_free_block true (initAlloc 8 2) 100).1.blocks =
            pre ++ ({ addr := b.addr, size := 100, free := false,
                      data := b.data.take 100 }) ::
              ({ addr := b.addr + 100 + 2 * BLOCK_META_SIZE,
                 size := b.size - 100 - 2 * BLOCK_META_SIZE, free := true,
                 data := b.data.drop (100 + 2 * BLOCK_META_SIZE) }) :: post ∧
        (pop_free_block true (initAlloc 8 2) 100).2 = some (b.addr, 100) ∧
        (pop_free_block true (initAlloc 8 2) 100).1.lists =
          ((initAlloc 8 2).lists.set (get_seg_class_id b.size)
              (((initAlloc 8 2).lists.getD (get_seg_class_id b.size) []).erase
                b.addr)).set
            (get_seg_class_id (b.size - 100 - 2 * BLOCK_META_SIZE))
            ((((initAlloc 8 2).lists.set (get_seg_class_id b.size)
                (((initAlloc 8 2).lists.getD
                  (get_seg_class_id b.size) []).erase b.addr)).getD
                (get_seg_class_id (b.size - 100 - 2 * BLOCK_META_SIZE)) []) ++
              [b.addr + 100 + 2 * BLOCK_META_SIZE])) :=
  pop_first_fit_spec true (initAlloc 8 2) 100 8
    (inv_initAlloc 8 2 (by decide)) (by decide)


/-- pad_size never shrinks a request. -/
theorem pad_size_ge (n : Nat) : n ≤ pad_size n := by
  unfold pad_size
  by_cases h : n < BLOCK_MIN_TOTAL_SIZE
  · rw [if_pos h]
    omega
  · rw [if_neg h]

/-- The grown pages cover the request plus both metas. -/
theorem pagesToGrow_ge (size : Nat) :
    size + 2 * BLOCK_META_SIZE ≤ pagesToGrow size * PAGE_SIZE_BYTES := by
  have hmeta : BLOCK_META_SIZE = 4 := rfl
  have hpage : PAGE_SIZE_BYTES = 65536 := rfl
  unfold pagesToGrow
  simp only [hmeta, hpage]
  by_cases hmod : (size + 2 * 4) % 65536 = 0
  · rw [if_pos hmod]
    omega
  · rw [if_neg hmod]
    omega

/-- The block returned by a successful pop_free_block: it sits in the
result state at the returned address, it is allocated, and its payload is
the returned size, which covers the request. -/
theorem pop_result_spec (growOk : Bool) (s : Alloc) (size : Nat)
    (s2 : Alloc) (a2 sz2 : Nat) (hInv : Inv s)
    (h : pop_free_block growOk s size = (s2, some (a2, sz2))) :
    size ≤ sz2 ∧ ∃ pre2 b2 post2,
      splitBlocks s2.blocks a2 = some (pre2, b2, post2) ∧
      b2.size = sz2 ∧ b2.free = false := by
  unfold pop_free_block at h
  cases hfit : findFit s size with
  | some a =>
    obtain ⟨pre, b, post, hspe, hfree, hsz, hlisted⟩ :=
      findFit_spec s size a hInv hfit
    obtain ⟨hdecomp, hbaddr, hprene⟩ := splitBlocks_eq _ _ _ _ _ hspe
    simp only [hfit, hspe, eject_from_freelist, enqueue_free] at h
    by_cases hc : b.size < size + BLOCK_MIN_TOTAL_SIZE
    · rw [if_pos hc] at h
      simp only [Prod.mk.injEq, Option.some_inj] at h
      obtain ⟨h1, h2, h3⟩ := h
      refine ⟨by omega, pre, { b with free := false }, post, ?_, ?_, rfl⟩
      · rw [← h1, ← h2]
        exact splitBlocks_append_first pre ({ b with free := false }) post
          (fun x hx => by simpa [hbaddr] using hprene x hx)
      · exact h3
    · rw [if_neg hc] at h
      simp only [Prod.mk.injEq, Option.some_inj] at h
      obtain ⟨h1, h2, h3⟩ := h
      refine ⟨by omega, pre,
        { addr := b.addr, size := size, free := false,
          data := b.data.take size },
        ({ addr := b.addr + size + 2 * BLOCK_META_SIZE,
           size := b.size - size - 2 * BLOCK_META_SIZE, free := true,
           data := b.data.drop (size + 2 * BLOCK_META_SIZE) } : Block) :: post,
        ?_, ?_, rfl⟩
      · rw [← h1, ← h2]
        exact splitBlocks_append_first pre _ _
          (fun x hx => by simpa [hbaddr] using hprene x hx)
      · exact h3
  | none =>
    obtain ⟨hch, hend, _, _, _, _, _⟩ := hInv
    have hlt : ∀ x ∈ s.blocks, x.addr < s.pages * PAGE_SIZE_BYTES := by
      intro x hx
      have := chained_addr_lt_end s.minPtr s.blocks hch x hx
      omega
    rw [hfit] at h
    cases growOk with
    | false => simp at h
    | true =>
      simp only [if_true] at h
      by_cases hg : pagesToGrow size * PAGE_SIZE_BYTES - 2 * BLOCK_META_SIZE
          < size + BLOCK_MIN_TOTAL_SIZE
      · rw [if_pos hg] at h
        simp only [Prod.mk.injEq, Option.some_inj] at h
        obtain ⟨h1, h2, h3⟩ := h
        have hge := pagesToGrow_ge size
        refine ⟨by omega, s.blocks,
          { addr := s.pages * PAGE_SIZE_BYTES,
            size := pagesToGrow size * PAGE_SIZE_BYTES - 2 * BLOCK_META_SIZE,
            free := false,
            data := List.replicate
              (pagesToGrow size * PAGE_SIZE_BYTES - 2 * BLOCK_META_SIZE) 0 },
          [], ?_, ?_, rfl⟩
        · rw [← h1, ← h2]
          exact splitBlocks_append_first s.blocks _ []
            (fun x hx => by
              have := hlt x hx
              simp only []
              omega)
        · exact h3
      · rw [if_neg hg] at h
        simp only [Prod.mk.injEq, Option.some_inj] at h
        obtain ⟨h1, h2, h3⟩ := h
        refine ⟨by omega, s.blocks,
          { addr := s.pages * PAGE_SIZE_BYTES, size := size, free := false,
            data := (List.replicate
              (pagesToGrow size * PAGE_SIZE_BYTES - 2 * BLOCK_META_SIZE)
              0).take size },
          [({ addr := s.pages * PAGE_SIZE_BYTES + size + 2 * BLOCK_META_SIZE,
              size := pagesToGrow size * PAGE_SIZE_BYTES -
                2 * BLOCK_META_SIZE - size - 2 * BLOCK_META_SIZE,
              free := true,
              data := (List.replicate
                (pagesToGrow size * PAGE_SIZE_BYTES - 2 * BLOCK_META_SIZE)
                0).drop (size + 2 * BLOCK_META_SIZE) } : Block)],
          ?_, ?_, rfl⟩
        · rw [← h1, ← h2]
          exact splitBlocks_append_first s.blocks _ _
            (fun x hx => by
              have := hlt x hx
              simp only []
              omega)
        · exact h3


/-- C1: reallocate on an allocated block b returns a block whose payload
size is at least the requested n and whose first min(old_size, n) bytes
equal the bytes previously written to b — in the in-place take-whole
branch, the in-place split branch, and the allocate-new + copy +
deallocate-old fallback. -/
theorem realloc_preserves_prefix (growOk : Bool) (s : Alloc) (a n : Nat)
    (s2 : Alloc) (a2 sz2 : Nat) (pre : List Block) (b : Block)
    (post : List Block) (hInv : Inv s)
    (hspe : splitBlocks s.blocks a = some (pre, b, post))
    (hbfree : b.free = false)
    (h : reallocate growOk s a n = some (s2, a2, sz2)) :
    n ≤ sz2 ∧ ∃ pre2 b2 post2,
      splitBlocks s2.blocks a2 = some (pre2, b2, post2) ∧
      b2.size = sz2 ∧ b2.free = false ∧
      b2.data.take (min b.size n) = b.data.take (min b.size n) := by
  have hInv2 := hInv
  obtain ⟨hch, hend, hnaf, hlok, hu, hdl, hll⟩ := hInv2
  obtain ⟨hdecomp, hbaddr, hprene⟩ := splitBlocks_eq _ _ _ _ _ hspe
  have hbmem : b ∈ s.blocks := by
    rw [hdecomp]
    exact List.mem_append_right pre (List.mem_cons_self b post)
  have hlen : b.data.length = b.size := hdl b hbmem
  unfold reallocate at h
  cases hin : try_reallocate_inplace s a n with
  | some r =>
    rw [hin] at h
    simp only [Option.some_inj] at h
    rw [h] at hin
    unfold try_reallocate_inplace at hin
    simp only [hspe] at hin
    cases hhd : post.head? with
    | none => rw [hhd] at hin; exact absurd hin (by simp)
    | some q =>
      simp only [hhd] at hin
      by_cases hqf : q.free = true
      · rw [if_pos hqf] at hin
        by_cases hc1 : n ≤ b.size + q.size + 2 * BLOCK_META_SIZE ∧
            b.size + q.size + 2 * BLOCK_META_SIZE < n + BLOCK_MIN_TOTAL_SIZE
        · rw [if_pos hc1] at hin
          simp only [eject_from_freelist, Option.some_inj,
            Prod.mk.injEq] at hin
          obtain ⟨h1, h2, h3⟩ := hin
          refine ⟨by omega, pre,
            { addr := b.addr, size := b.size + q.size + 2 * BLOCK_META_SIZE,
              free := false,
              data := b.data ++ List.replicate (2 * BLOCK_META_SIZE) 0 ++
                q.data }, post.tail, ?_, ?_, rfl, ?_⟩
          · rw [← h1, ← h2]
            exact splitBlocks_append_first pre _ _
              (fun x hx => by simpa [hbaddr] using hprene x hx)
          · exact h3
          · show ((b.data ++ List.replicate (2 * BLOCK_META_SIZE) 0) ++
                q.data).take (min b.size n) = b.data.take (min b.size n)
            rw [List.take_append_of_le_length
              (by rw [List.length_append]; omega :
                min b.size n ≤ (b.data ++
                  List.replicate (2 * BLOCK_META_SIZE) 0).length)]
            exact List.take_append_of_le_length (by omega)
        · rw [if_neg hc1] at hin
          by_cases hc2 : n + BLOCK_MIN_TOTAL_SIZE ≤
              b.size + q.size + 2 * BLOCK_META_SIZE
          · rw [if_pos hc2] at hin
            simp only [eject_from_freelist, enqueue_free, Option.some_inj,
              Prod.mk.injEq] at hin
            obtain ⟨h1, h2, h3⟩ := hin
            refine ⟨by omega, pre,
              { addr := b.addr, size := n, free := false,
                data := (b.data ++ List.replicate (2 * BLOCK_META_SIZE) 0 ++
                  q.data).take n },
              ({ addr := b.addr + n + 2 * BLOCK_META_SIZE,
                 size := (b.size + q.size + 2 * BLOCK_META_SIZE) - n -
                   2 * BLOCK_META_SIZE,
                 free := true,
                 data := (b.data ++ List.replicate (2 * BLOCK_META_SIZE) 0 ++
                   q.data).drop (n + 2 * BLOCK_META_SIZE) } : Block) ::
                post.tail, ?_, ?_, rfl, ?_⟩
            · rw [← h1, ← h2]
              exact splitBlocks_append_first pre _ _
                (fun x hx => by simpa [hbaddr] using hprene x hx)
            · exact h3
            · show ((((b.data ++ List.replicate (2 * BLOCK_META_SIZE) 0) ++
                  q.data).take n).take (min b.size n)) =
                b.data.take (min b.size n)
              rw [List.take_take]
              rw [Nat.min_eq_left (Nat.min_le_right b.size n)]
              rw [List.take_append_of_le_length
                (by rw [List.length_append]; omega :
                  min b.size n ≤ (b.data ++
                    List.replicate (2 * BLOCK_META_SIZE) 0).length)]
              exact List.take_append_of_le_length (by omega)
          · rw [if_neg hc2] at hin
            exact absurd hin (by simp)
      · rw [if_neg hqf] at hin
        exact absurd hin (by simp)
  | none =>
    rw [hin] at h
    simp only [hspe] at h
    have hallocd : ∀ pre1 b1 post1,
        splitBlocks s.blocks a = some (pre1, b1, post1) →
        b1.free = false := by
      intro pre1 b1 post1 hx
      rw [hspe] at hx
      simp only [Option.some_inj, Prod.mk.injEq] at hx
      obtain ⟨_, h2, _⟩ := hx
      rw [← h2]
      exact hbfree
    have hInvD : Inv (deallocate s a) := inv_deallocate s a hInv hallocd
    cases hal : allocate growOk (deallocate s a) n with
    | mk s1 r1 =>
      cases r1 with
      | none => rw [hal] at h; exact absurd h (by simp)
      | some p =>
        obtain ⟨a3, sz3⟩ := p
        rw [hal] at h
        simp only [Option.some_inj, Prod.mk.injEq] at h
        obtain ⟨h1, h2, h3⟩ := h
        obtain ⟨hpad, pre2, b2, post2, hsp2, hb2sz, hb2free⟩ :=
          pop_result_spec growOk (deallocate s a) (pad_size n) s1 a3 sz3
            hInvD hal
        obtain ⟨hdec2, hb2addr, hpre2⟩ := splitBlocks_eq _ _ _ _ _ hsp2
        have hnle : n ≤ sz3 := le_trans (pad_size_ge n) hpad
        refine ⟨by omega, pre2,
          { b2 with
            data := (b.data ++ b2.data.drop b.data.length).take b2.size },
          post2, ?_, ?_, ?_, ?_⟩
        · rw [← h1, ← h2]
          unfold writeBytes
          simp only [hsp2]
          rw [← hb2addr]
          exact splitBlocks_append_first pre2 _ post2
            (fun x hx => by simpa [hb2addr] using hpre2 x hx)
        · rw [← h3]
          exact hb2sz
        · exact hb2free
        · show ((b.data ++ b2.data.drop b.data.length).take b2.size).take
              (min b.size n) = b.data.take (min b.size n)
          rw [List.take_take]
          rw [Nat.min_eq_left (by omega : min b.size n ≤ b2.size)]
          exact List.take_append_of_le_length (by omega)


theorem realloc_preserves_prefix_witness :
    200 ≤ ((reallocate true (allocate true (initAlloc 8 2) 100).1 8 200).getD
      (initAlloc 8 2, 0, 0)).2.2 ∧
    ∃ pre2 b2 post2,
      splitBlocks ((reallocate true (allocate true (initAlloc 8 2) 100).1 8
          200).getD (initAlloc 8 2, 0, 0)).1.blocks
        ((reallocate true (allocate true (initAlloc 8 2) 100).1 8 200).getD
          (initAlloc 8 2, 0, 0)).2.1 = some (pre2, b2, post2) ∧
      b2.size = ((reallocate true (allocate true (initAlloc 8 2) 100).1 8
          200).getD (initAlloc 8 2, 0, 0)).2.2 ∧
      b2.free = false ∧
      b2.data.take (min 100 200) =
        ((List.replicate 131056 0).take 100).take (min 100 200) :=
  realloc_preserves_prefix true (allocate true (initAlloc 8 2) 100).1 8 200
    ((reallocate true (allocate true (initAlloc 8 2) 100).1 8 200).getD
      (initAlloc 8 2, 0, 0)).1
    ((reallocate true (allocate true (initAlloc 8 2) 100).1 8 200).getD
      (initAlloc 8 2, 0, 0)).2.1
    ((reallocate true (allocate true (initAlloc 8 2) 100).1 8 200).getD
      (initAlloc 8 2, 0, 0)).2.2
    []
    ({ addr := 8, size := 100, free := false,
       data := (List.replicate 131056 0).take 100 })
    [{ addr := 116, size := 130948, free := true,
       data := (List.replicate 131056 0).drop 108 }]
    (inv_allocate true (initAlloc 8 2) 100 (inv_initAlloc 8 2 (by decide)))
    rfl rfl rfl


end Allocator

/-! ## The B+-tree map (collections/b_plus_tree_map/mod.rs)

The orchestration (walk down to a leaf recording the path, operate on the
leaf, walk the recorded stack back up) is transcribed from mod.rs as
structural recursion on the tree: the explicit _stack of the source is the
call stack of the recursion, and every loop is bounded by the tree height,
modelled by a fuel argument (the fuel-exhaustion defaults are dead on any
tree whose height is below the fuel).  The node primitives
(LeafBTreeNode/InternalBTreeNode in the missing leaf_node.rs and
internal_node.rs) are modelled from the spec: a leaf is its sorted
key-value list, an internal node its sorted separator list plus children,
binary_search returns Ok(position) for a present key and Err(insertion
point) otherwise, split_max_len keeps B (respectively MIN_LEN_AFTER_SPLIT)
entries on the side the new entry does not go to, and
steal_from_left/steal_from_right/merge_min_len rotate or concatenate
neighbor contents through the parent separator. -/
namespace BTreeMap

def B : Nat := 6

def CAPACITY : Nat := 2 * B - 1

def MIN_LEN_AFTER_SPLIT : Nat := B - 1

def CHILDREN_CAPACITY : Nat := 2 * B

def CHILDREN_MIN_LEN_AFTER_SPLIT : Nat := B

/-- A node: a leaf holds key-value pairs, an internal node holds separator
keys and children (children = keys + 1 on well-formed trees). -/
inductive BT where
  | leaf (kvs : List (Nat × Nat))
  | internal (keys : List Nat) (children : List BT)

/-- SBTreeMap: the optional root and the cached length. -/
structure SMap where
  root : Option BT
  len : Nat

def empty : SMap := { root := none, len := 0 }

/-- Modelled from the spec: binary_search on a node's sorted key sequence,
Ok(index of the key) when present, Err(insertion point) otherwise. -/
def binary_search (keys : List Nat) (k : Nat) : Sum Nat Nat :=
  let idx := keys.countP (fun x => decide (x < k))
  if keys.getD idx (k + 1) = k then Sum.inl idx else Sum.inr idx

/-- The child index a search key routes to in an internal node (Ok hits
descend right of the equal separator). -/
def routeIdx (keys : List Nat) (k : Nat) : Nat :=
  match binary_search keys k with
  | Sum.inl idx => idx + 1
  | Sum.inr idx => idx

/-- get_or_create_root: an empty map gets a fresh empty leaf root. -/
def get_or_create_root (m : SMap) : BT × SMap :=
  match m.root with
  | some r => (r, m)
  | none => (BT.leaf [], { m with root := some (BT.leaf []) })

/-- The lookup loop of SBTreeMap::lookup / get_copy. -/
def lookupRec : Nat → BT → Nat → Option (List (Nat × Nat) × Nat)
  | 0, _, _ => none
  | fuel+1, BT.leaf kvs, k =>
    match binary_search (kvs.map Prod.fst) k with
    | Sum.inl idx => some (kvs, idx)
    | Sum.inr _ => none
  | fuel+1, BT.internal keys cs, k =>
    lookupRec fuel (cs.getD (routeIdx keys k) (BT.leaf [])) k

/-- SBTreeMap::get_copy. -/
def get_copy (fuel : Nat) (m : SMap) (k : Nat) : Option Nat :=
  match m.root with
  | none => none
  | some r => (lookupRec fuel r k).map (fun t => (t.1.getD t.2 (0, 0)).2)

/-- The outcome of inserting below a node: value replaced in place, entry
inserted without splitting, or the node split around a separator. -/
inductive InsRes where
  | replaced (t : BT) (old : Nat)
  | inserted (t : BT)
  | split (l r : BT) (sep : Nat)

/-- The insert walk of SBTreeMap::insert / insert_leaf / insert_internal:
replace on an existing key; plain insert below CAPACITY; a full leaf splits
so both sides hold B entries after the insert, the side chosen by the
insert index (< B left, else right at index − B), propagating the right
leaf's key 0; a full internal node splits around its middle key with the
separator inserted on the side of the routed child. -/
def insRec : Nat → BT → Nat → Nat → InsRes
  | 0, t, _, _ => InsRes.inserted t
  | fuel+1, BT.leaf kvs, k, v =>
    match binary_search (kvs.map Prod.fst) k with
    | Sum.inl idx =>
      InsRes.replaced (BT.leaf (kvs.set idx (k, v))) (kvs.getD idx (0, 0)).2
    | Sum.inr idx =>
      if kvs.length < CAPACITY then
        InsRes.inserted (BT.leaf (kvs.insertIdx idx (k, v)))
      else
        if idx < B then
          InsRes.split
            (BT.leaf ((kvs.take MIN_LEN_AFTER_SPLIT).insertIdx idx (k, v)))
            (BT.leaf (kvs.drop MIN_LEN_AFTER_SPLIT))
            (((kvs.drop MIN_LEN_AFTER_SPLIT).headD (0, 0)).1)
        else
          InsRes.split
            (BT.leaf (kvs.take B))
            (BT.leaf ((kvs.drop B).insertIdx (idx - B) (k, v)))
            ((((kvs.drop B).insertIdx (idx - B) (k, v)).headD (0, 0)).1)
  | fuel+1, BT.internal keys cs, k, v =>
    let i := routeIdx keys k
    match insRec fuel (cs.getD i (BT.leaf [])) k v with
    | InsRes.replaced c old =>
      InsRes.replaced (BT.internal keys (cs.set i c)) old
    | InsRes.inserted c =>
      InsRes.inserted (BT.internal keys (cs.set i c))
    | InsRes.split l r sep =>
      let cs1 := cs.set i l
      if keys.length < CAPACITY then
        InsRes.inserted (BT.internal (keys.insertIdx i sep)
          (cs1.insertIdx (i + 1) r))
      else
        if i ≤ MIN_LEN_AFTER_SPLIT then
          InsRes.split
            (BT.internal ((keys.take MIN_LEN_AFTER_SPLIT).insertIdx i sep)
              ((cs1.take B).insertIdx (i + 1) r))
            (BT.internal (keys.drop B) (cs1.drop B))
            (keys.getD MIN_LEN_AFTER_SPLIT 0)
        else
          InsRes.split
            (BT.internal (keys.take MIN_LEN_AFTER_SPLIT) (cs1.take B))
            (BT.internal ((keys.drop B).insertIdx (i - B) sep)
              ((cs1.drop B).insertIdx (i - B + 1) r))
            (keys.getD MIN_LEN_AFTER_SPLIT 0)

/-- SBTreeMap::insert: descend, insert at the leaf, push splits upward; a
split of the root grows the tree by a new one-key root.  This embeds a
call entered with an empty pending `_stack`: the source's stack is a
persistent field (mod.rs 29), and a call entered on a stale stack behaves
differently - see the pointer-level model below
(btree_stale_stack_breaks_insert_get). -/
def insert (fuel : Nat) (m : SMap) (k v : Nat) : SMap × Option Nat :=
  let rm := get_or_create_root m
  match insRec fuel rm.1 k v with
  | InsRes.replaced t old => ({ root := some t, len := rm.2.len }, some old)
  | InsRes.inserted t => ({ root := some t, len := rm.2.len + 1 }, none)
  | InsRes.split l r sep =>
    ({ root := some (BT.internal [sep] [l, r]), len := rm.2.len + 1 }, none)

/-- Key-value list of a leaf (spec-modelled sibling access; an internal
node never stands where the source reads a LeafBTreeNode). -/
def leafKvs : BT → List (Nat × Nat)
  | BT.leaf kvs => kvs
  | BT.internal _ _ => []

/-- Separator list of an internal node. -/
def intKeys : BT → List Nat
  | BT.leaf _ => []
  | BT.internal ks _ => ks

/-- Children of an internal node. -/
def intChildren : BT → List BT
  | BT.leaf _ => []
  | BT.internal _ cs => cs

/-- The outcome of a removal below a non-root node: key absent (state
untouched), subtree done with its top inside [MIN_LEN_AFTER_SPLIT,
CAPACITY], or the top underflowed to MIN_LEN_AFTER_SPLIT − 1 entries and
awaits the caller's steal-or-merge; key0 is the pending
found_internal_node fix (the updated leaf's key 0), consumed by the
deepest ancestor whose binary_search hit Ok. -/
inductive RemRes where
  | notFound
  | ok (t : BT) (v : Nat) (key0 : Option Nat)
  | under (t : BT) (v : Nat) (key0 : Option Nat)

/-- Apply the pending found_internal_node key rewrite at an Ok-hit node. -/
def applyFin (finHit : Option Nat) (key0 : Option Nat) (keys : List Nat) :
    List Nat × Option Nat :=
  match finHit, key0 with
  | some fidx, some k0 => (keys.set fidx k0, none)
  | _, _ => (keys, key0)

/-- The removal walk of SBTreeMap::remove / handle_stack_after_merge on a
non-root subtree.  A leaf above MIN_LEN_AFTER_SPLIT removes in place; a
leaf at the minimum removes and reports underflow; a parent fixes an
underflowed child in the order of the source — steal from the left sibling
if it is above the minimum, else (when parent_idx < parent_len − 1) steal
from or merge with the right sibling, else merge with the left sibling
(skipping the found_internal_node fix); with no left sibling the right
sibling is used.  A merge removes the separator and the absorbed child
from the parent, which reports its own underflow at the minimum.  The
contents are written erase-first, which the in-source order (steal or
merge first, then remove at the shifted index) produces byte for byte. -/
def removeRec : Nat → BT → Nat → RemRes
  | 0, _, _ => RemRes.notFound
  | _+1, BT.leaf kvs, k =>
    match binary_search (kvs.map Prod.fst) k with
    | Sum.inr _ => RemRes.notFound
    | Sum.inl idx =>
      let v := (kvs.getD idx (0, 0)).2
      if MIN_LEN_AFTER_SPLIT < kvs.length then
        RemRes.ok (BT.leaf (kvs.eraseIdx idx)) v
          (some (((kvs.eraseIdx idx).headD (0, 0)).1))
      else
        RemRes.under (BT.leaf (kvs.eraseIdx idx)) v none
  | fuel+1, BT.internal keys cs, k =>
    let finHit : Option Nat :=
      match binary_search keys k with
      | Sum.inl idx => some idx
      | Sum.inr _ => none
    let i := routeIdx keys k
    match removeRec fuel (cs.getD i (BT.leaf [])) k with
    | RemRes.notFound => RemRes.notFound
    | RemRes.ok c v key0 =>
      let fk := applyFin finHit key0 keys
      RemRes.ok (BT.internal fk.1 (cs.set i c)) v fk.2
    | RemRes.under c v key0 =>
      match c with
      | BT.leaf kvs4 =>
        if 0 < i then
          let L := leafKvs (cs.getD (i - 1) (BT.leaf []))
          if MIN_LEN_AFTER_SPLIT < L.length then
            let newChild := L.getLastD (0, 0) :: kvs4
            let fk := applyFin finHit (some ((newChild.headD (0, 0)).1))
              (keys.set (i - 1) (L.getLastD (0, 0)).1)
            RemRes.ok (BT.internal fk.1
              ((cs.set (i - 1) (BT.leaf L.dropLast)).set i
                (BT.leaf newChild))) v fk.2
          else if i < keys.length - 1 then
            let R := leafKvs (cs.getD (i + 1) (BT.leaf []))
            if MIN_LEN_AFTER_SPLIT < R.length then
              let newChild := kvs4 ++ [R.headD (0, 0)]
              let fk := applyFin finHit (some ((newChild.headD (0, 0)).1))
                (keys.set i ((R.tail.headD (0, 0)).1))
              RemRes.ok (BT.internal fk.1
                ((cs.set i (BT.leaf newChild)).set (i + 1)
                  (BT.leaf R.tail))) v fk.2
            else
              let merged := kvs4 ++ R
              let fk := applyFin finHit (some ((merged.headD (0, 0)).1)) keys
              let t2 := BT.internal (fk.1.eraseIdx i)
                (((cs.set i (BT.leaf merged)).eraseIdx (i + 1)))
              if MIN_LEN_AFTER_SPLIT < keys.length then RemRes.ok t2 v fk.2
              else RemRes.under t2 v fk.2
          else
            let merged := L ++ kvs4
            let t2 := BT.internal (keys.eraseIdx (i - 1))
              (((cs.set (i - 1) (BT.leaf merged)).eraseIdx i))
            if MIN_LEN_AFTER_SPLIT < keys.length then RemRes.ok t2 v key0
            else RemRes.under t2 v key0
        else
          let R := leafKvs (cs.getD 1 (BT.leaf []))
          if MIN_LEN_AFTER_SPLIT < R.length then
            let newChild := kvs4 ++ [R.headD (0, 0)]
            let fk := applyFin finHit (some ((newChild.headD (0, 0)).1))
              (keys.set 0 ((R.tail.headD (0, 0)).1))
            RemRes.ok (BT.internal fk.1
              ((cs.set 0 (BT.leaf newChild)).set 1 (BT.leaf R.tail))) v fk.2
          else
            let merged := kvs4 ++ R
            let fk := applyFin finHit (some ((merged.headD (0, 0)).1)) keys
            let t2 := BT.internal (fk.1.eraseIdx 0)
              (((cs.set 0 (BT.leaf merged)).eraseIdx 1))
            if MIN_LEN_AFTER_SPLIT < keys.length then RemRes.ok t2 v fk.2
            else RemRes.under t2 v fk.2
      | BT.internal ck cc =>
        if 0 < i then
          let Lk := intKeys (cs.getD (i - 1) (BT.leaf []))
          let Lc := intChildren (cs.getD (i - 1) (BT.leaf []))
          if MIN_LEN_AFTER_SPLIT < Lk.length then
            let fk := applyFin finHit key0
              (keys.set (i - 1) (Lk.getLastD 0))
            RemRes.ok (BT.internal fk.1
              ((cs.set (i - 1) (BT.internal Lk.dropLast Lc.dropLast)).set i
                (BT.internal (keys.getD (i - 1) 0 :: ck)
                  (Lc.getLastD (BT.leaf []) :: cc)))) v fk.2
          else if i < keys.length - 1 then
            let Rk := intKeys (cs.getD (i + 1) (BT.leaf []))
            let Rc := intChildren (cs.getD (i + 1) (BT.leaf []))
            if MIN_LEN_AFTER_SPLIT < Rk.length then
              let fk := applyFin finHit key0 (keys.set i (Rk.headD 0))
              RemRes.ok (BT.internal fk.1
                ((cs.set i (BT.internal (ck ++ [keys.getD i 0])
                    (cc ++ [Rc.headD (BT.leaf [])]))).set (i + 1)
                  (BT.internal Rk.tail Rc.tail))) v fk.2
            else
              let fk := applyFin finHit key0 keys
              let merged := BT.internal (ck ++ keys.getD i 0 :: Rk) (cc ++ Rc)
              let t2 := BT.internal (fk.1.eraseIdx i)
                (((cs.set i merged).eraseIdx (i + 1)))
              if MIN_LEN_AFTER_SPLIT < keys.length then RemRes.ok t2 v fk.2
              else RemRes.under t2 v fk.2
          else
            let fk := applyFin finHit key0 keys
            let merged := BT.internal (Lk ++ keys.getD (i - 1) 0 :: ck)
              (Lc ++ cc)
            let t2 := BT.internal (fk.1.eraseIdx (i - 1))
              (((cs.set (i - 1) merged).eraseIdx i))
            if MIN_LEN_AFTER_SPLIT < keys.length then RemRes.ok t2 v fk.2
            else RemRes.under t2 v fk.2
        else
          let Rk := intKeys (cs.getD 1 (BT.leaf []))
          let Rc := intChildren (cs.getD 1 (BT.leaf []))
          if MIN_LEN_AFTER_SPLIT < Rk.length then
            let fk := applyFin finHit key0 (keys.set 0 (Rk.headD 0))
            RemRes.ok (BT.internal fk.1
              ((cs.set 0 (BT.internal (ck ++ [keys.getD 0 0])
                  (cc ++ [Rc.headD (BT.leaf [])]))).set 1
                (BT.internal Rk.tail Rc.tail))) v fk.2
          else
            let fk := applyFin finHit key0 keys
            let merged := BT.internal (ck ++ keys.getD 0 0 :: Rk) (cc ++ Rc)
            let t2 := BT.internal (fk.1.eraseIdx 0)
              (((cs.set 0 merged).eraseIdx 1))
            if MIN_LEN_AFTER_SPLIT < keys.length then RemRes.ok t2 v fk.2
            else RemRes.under t2 v fk.2

/-- SBTreeMap::remove: get_or_create_root first (an empty map gains an
empty leaf root as a side effect), then remove; a root leaf removes
unconditionally; a root internal node that loses its last separator to a
child merge hands the merged child over as the new root.  Like insert,
this embeds a call entered with an empty pending `_stack` (the source's
remove of an absent key returns with frames still pushed, mod.rs 74; see
the pointer-level model below). -/
def remove (fuel : Nat) (m : SMap) (k : Nat) : SMap × Option Nat :=
  let rm := get_or_create_root m
  let m1 := rm.2
  match rm.1 with
  | BT.leaf kvs =>
    match binary_search (kvs.map Prod.fst) k with
    | Sum.inr _ => (m1, none)
    | Sum.inl idx =>
      ({ root := some (BT.leaf (kvs.eraseIdx idx)), len := m1.len - 1 },
       some ((kvs.getD idx (0, 0)).2))
  | BT.internal keys cs =>
    match removeRec fuel (BT.internal keys cs) k with
    | RemRes.notFound => (m1, none)
    | RemRes.ok t v _ =>
      ({ root := some t, len := m1.len - 1 }, some v)
    | RemRes.under t v _ =>
      match t with
      | BT.internal [] cs2 =>
        ({ root := some (cs2.getD 0 (BT.leaf [])), len := m1.len - 1 },
         some v)
      | t2 => ({ root := some t2, len := m1.len - 1 }, some v)

theorem binary_search_inr (keys : List Nat) (k idx : Nat)
    (h : binary_search keys k = Sum.inr idx) :
    idx = keys.countP (fun x => decide (x < k)) ∧ idx ≤ keys.length := by
  unfold binary_search at h
  by_cases hc : keys.getD (keys.countP (fun x => decide (x < k))) (k + 1) = k
  · rw [if_pos hc] at h
    exact absurd h (by simp)
  · rw [if_neg hc] at h
    simp only [Sum.inr.injEq] at h
    exact ⟨h.symm, h ▸ List.countP_le_length _⟩

theorem binary_search_inl (keys : List Nat) (k idx : Nat)
    (h : binary_search keys k = Sum.inl idx) :
    idx < keys.length ∧ keys.getD idx (k + 1) = k := by
  unfold binary_search at h
  by_cases hc : keys.getD (keys.countP (fun x => decide (x < k))) (k + 1) = k
  · rw [if_pos hc] at h
    simp only [Sum.inl.injEq] at h
    subst h
    refine ⟨?_, hc⟩
    by_contra hge
    rw [List.getD_eq_default _ _ (by omega)] at hc
    omega
  · rw [if_neg hc] at h
    exact absurd h (by simp)

theorem routeIdx_le (keys : List Nat) (k : Nat) :
    routeIdx keys k ≤ keys.length := by
  unfold routeIdx
  cases hb : binary_search keys k with
  | inl idx => exact (binary_search_inl keys k idx hb).1
  | inr idx => exact (binary_search_inr keys k idx hb).2

theorem insertIdx_append_left {α : Type} (l1 l2 : List α) (n : Nat) (x : α)
    (h : n ≤ l1.length) :
    (l1 ++ l2).insertIdx n x = l1.insertIdx n x ++ l2 := by
  induction l1 generalizing n with
  | nil =>
    simp only [List.length_nil, Nat.le_zero] at h
    subst h
    simp [List.insertIdx]
  | cons a as ih =>
    cases n with
    | zero => rfl
    | succ m =>
      have hm := ih m (by simpa using h)
      show a :: (as ++ l2).insertIdx m x = a :: (as.insertIdx m x ++ l2)
      rw [hm]

theorem insertIdx_append_right {α : Type} (l1 l2 : List α) (n : Nat) (x : α)
    (h : l1.length ≤ n) :
    (l1 ++ l2).insertIdx n x = l1 ++ l2.insertIdx (n - l1.length) x := by
  induction l1 generalizing n with
  | nil => simp
  | cons a as ih =>
    cases n with
    | zero => exact absurd h (by simp)
    | succ m =>
      have hm := ih m (by simpa using h)
      have he : m + 1 - (a :: as).length = m - as.length := by
        simp only [List.length_cons]
        omega
      rw [he]
      show a :: (as ++ l2).insertIdx m x = a :: (as ++ l2.insertIdx (m - as.length) x)
      rw [hm]

/-- C10: remove(k) on an empty map (root = None) returns None and keeps
len() at 0, but installs a fresh empty leaf as the root, so the map loses
the no-root shape of an empty map. -/
theorem remove_empty_map_creates_root (fuel k : Nat) :
    (remove fuel empty k).2 = none ∧
    (remove fuel empty k).1.len = 0 ∧
    (remove fuel empty k).1.root = some (BT.leaf []) ∧
    empty.root = none := by
  refine ⟨?_, ?_, ?_, rfl⟩ <;>
    simp [remove, get_or_create_root, empty, binary_search, Nat.succ_ne_self]

/-- C8: inserting a fresh key into a full leaf (CAPACITY entries) splits
it so that both leaves hold exactly B entries, together they hold the old
entries with the new one inserted in order, the side receiving the new
entry is chosen by the insert index (index < B left, else right at
index − B), and the separator handed to the parent is the right leaf's
key 0. -/
theorem insert_full_leaf_split (kvs : List (Nat × Nat)) (k v : Nat)
    (fuel idx : Nat) (hful : kvs.length = CAPACITY)
    (hbs : binary_search (kvs.map Prod.fst) k = Sum.inr idx) :
    ∃ left right : List (Nat × Nat),
      insRec (fuel + 1) (BT.leaf kvs) k v =
        InsRes.split (BT.leaf left) (BT.leaf right)
          ((right.headD (0, 0)).1) ∧
      left.length = B ∧ right.length = B ∧
      left ++ right = kvs.insertIdx idx (k, v) ∧
      (idx < B → left = (kvs.take MIN_LEN_AFTER_SPLIT).insertIdx idx (k, v)) ∧
      (B ≤ idx → right = (kvs.drop B).insertIdx (idx - B) (k, v)) := by
  have hidx : idx ≤ kvs.length := by
    have := (binary_search_inr _ k idx hbs).2
    simpa using this
  have hcap : CAPACITY = 11 := rfl
  have hB : B = 6 := rfl
  have hmin : MIN_LEN_AFTER_SPLIT = 5 := rfl
  by_cases hlt : idx < B
  · refine ⟨(kvs.take MIN_LEN_AFTER_SPLIT).insertIdx idx (k, v),
      kvs.drop MIN_LEN_AFTER_SPLIT, ?_, ?_, ?_, ?_, fun _ => rfl,
      fun hge => absurd hge (by omega)⟩
    · unfold insRec
      simp only [hbs]
      rw [if_neg (by omega), if_pos hlt]
    · rw [List.length_insertIdx _ _
        (by rw [List.length_take]; omega : idx ≤ (kvs.take MIN_LEN_AFTER_SPLIT).length)]
      rw [List.length_take]
      omega
    · rw [List.length_drop]
      omega
    · rw [← insertIdx_append_left _ _ _ _
        (by rw [List.length_take]; omega : idx ≤ (kvs.take MIN_LEN_AFTER_SPLIT).length)]
      rw [List.take_append_drop]
  · refine ⟨kvs.take B, (kvs.drop B).insertIdx (idx - B) (k, v), ?_, ?_, ?_,
      ?_, fun hc => absurd hc hlt, fun _ => rfl⟩
    · unfold insRec
      simp only [hbs]
      rw [if_neg (by omega), if_neg hlt]
    · rw [List.length_take]
      omega
    · rw [List.length_insertIdx _ _
        (by rw [List.length_drop]; omega : idx - B ≤ (kvs.drop B).length)]
      rw [List.length_drop]
      omega
    · have hlen6 : (kvs.take B).length = B := by
        rw [List.length_take]
        omega
      rw [show idx - B = idx - (kvs.take B).length by rw [hlen6]]
      rw [← insertIdx_append_right _ _ _ _ (by rw [hlen6]; omega)]
      rw [List.take_append_drop]

theorem insert_full_leaf_split_witness :
    ∃ left right : List (Nat × Nat),
      insRec (0 + 1) (BT.leaf [(0, 10), (2, 10), (4, 10), (6, 10), (8, 10),
        (10, 10), (12, 10), (14, 10), (16, 10), (18, 10), (20, 10)]) 5 99 =
        InsRes.split (BT.leaf left) (BT.leaf right)
          ((right.headD (0, 0)).1) ∧
      left.length = B ∧ right.length = B ∧
      left ++ right = ([(0, 10), (2, 10), (4, 10), (6, 10), (8, 10),
        (10, 10), (12, 10), (14, 10), (16, 10), (18, 10),
        (20, 10)] : List (Nat × Nat)).insertIdx 3 (5, 99) ∧
      (3 < B → left = (([(0, 10), (2, 10), (4, 10), (6, 10), (8, 10),
        (10, 10), (12, 10), (14, 10), (16, 10), (18, 10),
        (20, 10)] : List (Nat × Nat)).take MIN_LEN_AFTER_SPLIT).insertIdx 3
          (5, 99)) ∧
      (B ≤ 3 → right = (([(0, 10), (2, 10), (4, 10), (6, 10), (8, 10),
        (10, 10), (12, 10), (14, 10), (16, 10), (18, 10),
        (20, 10)] : List (Nat × Nat)).drop B).insertIdx (3 - B) (5, 99)) :=
  insert_full_leaf_split [(0, 10), (2, 10), (4, 10), (6, 10), (8, 10),
    (10, 10), (12, 10), (14, 10), (16, 10), (18, 10), (20, 10)] 5 99 0 3
    (by decide) (by decide)

/-- The root can be left holding zero keys: inserting one entry into the
empty map and removing it again leaves a root leaf with no entries, so the
root is not confined to 1..CAPACITY keys after a remove. -/
theorem btree_root_zero_keys :
    (remove 1 (insert 1 empty 1 1).1 1).1.root = some (BT.leaf []) ∧
    (insert 1 empty 1 1).1.root = some (BT.leaf [(1, 1)]) ∧
    (remove 1 (insert 1 empty 1 1).1 1).2 = some 1 :=
  ⟨rfl, rfl, rfl⟩


/-- Exact-height balance of a non-root subtree: at height 1 a leaf with
MIN_LEN_AFTER_SPLIT..CAPACITY entries, above that an internal node with
that many separators and one more child, every child balanced at the
height below. -/
def balH : Nat → BT → Bool
  | 0, _ => false
  | 1, BT.leaf kvs =>
    decide (MIN_LEN_AFTER_SPLIT ≤ kvs.length ∧ kvs.length ≤ CAPACITY)
  | 1, BT.internal _ _ => false
  | _+2, BT.leaf _ => false
  | h+2, BT.internal ks cs =>
    decide (MIN_LEN_AFTER_SPLIT ≤ ks.length ∧ ks.length ≤ CAPACITY ∧
      cs.length = ks.length + 1) && cs.all (balH (h + 1))

/-- A node that just underflowed: exactly MIN_LEN_AFTER_SPLIT − 1 entries,
children still balanced. -/
def underH : Nat → BT → Bool
  | 1, BT.leaf kvs => decide (kvs.length = MIN_LEN_AFTER_SPLIT - 1)
  | h+2, BT.internal ks cs =>
    decide (ks.length = MIN_LEN_AFTER_SPLIT - 1 ∧ cs.length = ks.length + 1)
      && cs.all (balH (h + 1))
  | _, _ => false

/-- Balance of the whole map with the corrected root bound: a root leaf may
hold 0..CAPACITY entries, a root internal node 1..CAPACITY separators with
balanced children. -/
def balRootH (h : Nat) (m : SMap) : Bool :=
  match m.root with
  | none => true
  | some (BT.leaf kvs) => decide (kvs.length ≤ CAPACITY)
  | some (BT.internal ks cs) =>
    decide (1 ≤ ks.length ∧ ks.length ≤ CAPACITY ∧
      cs.length = ks.length + 1) && cs.all (balH (h - 1))

theorem balH_all_mem {h : Nat} {cs : List BT} (hall : cs.all (balH h) = true)
    {c : BT} (hc : c ∈ cs) : balH h c = true := by
  rw [List.all_eq_true] at hall
  exact hall c hc

theorem balH_leaf_one {h : Nat} {kvs : List (Nat × Nat)}
    (hb : balH h (BT.leaf kvs) = true) :
    h = 1 ∧ MIN_LEN_AFTER_SPLIT ≤ kvs.length ∧ kvs.length ≤ CAPACITY := by
  match h with
  | 0 => simp [balH] at hb
  | 1 =>
    simp only [balH, decide_eq_true_eq] at hb
    exact ⟨rfl, hb⟩
  | _+2 => simp [balH] at hb

theorem balH_internal {h : Nat} {ks : List Nat} {cs : List BT}
    (hb : balH h (BT.internal ks cs) = true) :
    ∃ h2, h = h2 + 2 ∧ MIN_LEN_AFTER_SPLIT ≤ ks.length ∧
      ks.length ≤ CAPACITY ∧ cs.length = ks.length + 1 ∧
      cs.all (balH (h2 + 1)) = true := by
  match h with
  | 0 => simp [balH] at hb
  | 1 => simp [balH] at hb
  | h2+2 =>
    simp only [balH, Bool.and_eq_true, decide_eq_true_eq] at hb
    exact ⟨h2, rfl, hb.1.1, hb.1.2.1, hb.1.2.2, hb.2⟩

/-- insRec keeps exact-height balance: a replaced or plainly inserted
result stays balanced at the same height, the two halves of a split are
each balanced at the same height. -/
theorem insRec_balH (k v : Nat) : ∀ fuel h t, h ≤ fuel → balH h t = true →
    (∀ t2 old, insRec fuel t k v = InsRes.replaced t2 old →
      balH h t2 = true) ∧
    (∀ t2, insRec fuel t k v = InsRes.inserted t2 → balH h t2 = true) ∧
    (∀ l r sep, insRec fuel t k v = InsRes.split l r sep →
      balH h l = true ∧ balH h r = true) := by
  intro fuel
  induction fuel with
  | zero =>
    intro h t hle hbal
    interval_cases h
    simp [balH] at hbal
  | succ f ih =>
    intro h t hle hbal
    match t with
    | BT.leaf kvs =>
      obtain ⟨h1, hlo, hhi⟩ := balH_leaf_one hbal
      subst h1
      have hcap : CAPACITY = 11 := rfl
      have hmin : MIN_LEN_AFTER_SPLIT = 5 := rfl
      have hB : B = 6 := rfl
      refine ⟨?_, ?_, ?_⟩
      · intro t2 old he
        unfold insRec at he
        cases hbs : binary_search (kvs.map Prod.fst) k with
        | inl idx =>
          simp only [hbs, InsRes.replaced.injEq] at he
          rw [← he.1]
          simp only [balH, decide_eq_true_eq, List.length_set]
          omega
        | inr idx =>
          simp only [hbs] at he
          by_cases hc : kvs.length < CAPACITY
          · rw [if_pos hc] at he
            exact absurd he (by simp)
          · rw [if_neg hc] at he
            by_cases hi : idx < B
            · rw [if_pos hi] at he
              exact absurd he (by simp)
            · rw [if_neg hi] at he
              exact absurd he (by simp)
      · intro t2 he
        unfold insRec at he
        cases hbs : binary_search (kvs.map Prod.fst) k with
        | inl idx =>
          simp only [hbs] at he
          exact absurd he (by simp)
        | inr idx =>
          have hidx : idx ≤ kvs.length := by
            have := (binary_search_inr _ k idx hbs).2
            simpa using this
          simp only [hbs] at he
          by_cases hc : kvs.length < CAPACITY
          · rw [if_pos hc] at he
            simp only [InsRes.inserted.injEq] at he
            rw [← he]
            simp only [balH, decide_eq_true_eq]
            rw [List.length_insertIdx _ _ hidx]
            omega
          · rw [if_neg hc] at he
            by_cases hi : idx < B
            · rw [if_pos hi] at he
              exact absurd he (by simp)
            · rw [if_neg hi] at he
              exact absurd he (by simp)
      · intro l r sep he
        unfold insRec at he
        cases hbs : binary_search (kvs.map Prod.fst) k with
        | inl idx =>
          simp only [hbs] at he
          exact absurd he (by simp)
        | inr idx =>
          have hidx : idx ≤ kvs.length := by
            have := (binary_search_inr _ k idx hbs).2
            simpa using this
          simp only [hbs] at he
          by_cases hc : kvs.length < CAPACITY
          · rw [if_pos hc] at he
            exact absurd he (by simp)
          · rw [if_neg hc] at he
            by_cases hi : idx < B
            · rw [if_pos hi] at he
              simp only [InsRes.split.injEq] at he
              obtain ⟨hl, hr, _⟩ := he
              constructor
              · rw [← hl]
                simp only [balH, decide_eq_true_eq]
                rw [List.length_insertIdx _ _
                  (by rw [List.length_take]; omega)]
                rw [List.length_take]
                omega
              · rw [← hr]
                simp only [balH, decide_eq_true_eq]
                rw [List.length_drop]
                omega
            · rw [if_neg hi] at he
              simp only [InsRes.split.injEq] at he
              obtain ⟨hl, hr, _⟩ := he
              constructor
              · rw [← hl]
                simp only [balH, decide_eq_true_eq]
                rw [List.length_take]
                omega
              · rw [← hr]
                simp only [balH, decide_eq_true_eq]
                rw [List.length_insertIdx _ _
                  (by rw [List.length_drop]; omega)]
                rw [List.length_drop]
                omega
    | BT.internal keys cs =>
      obtain ⟨h2, hh, hlo, hhi, hlen, hall⟩ := balH_internal hbal
      subst hh
      have hcap : CAPACITY = 11 := rfl
      have hmin : MIN_LEN_AFTER_SPLIT = 5 := rfl
      have hB : B = 6 := rfl
      have hile : routeIdx keys k ≤ keys.length := routeIdx_le keys k
      have hcmem : cs.getD (routeIdx keys k) (BT.leaf []) ∈ cs := by
        rw [List.getD_eq_getElem _ _ (by omega)]
        exact List.getElem_mem _
      have hcbal : balH (h2 + 1) (cs.getD (routeIdx keys k) (BT.leaf [])) =
          true := balH_all_mem hall hcmem
      have ihc := ih (h2 + 1) (cs.getD (routeIdx keys k) (BT.leaf []))
        (by omega) hcbal
      -- helper: all children of a set stay balanced
      have hset : ∀ c : BT, balH (h2 + 1) c = true →
          (cs.set (routeIdx keys k) c).all (balH (h2 + 1)) = true := by
        intro c hcb
        rw [List.all_eq_true]
        intro x hx
        rcases List.mem_or_eq_of_mem_set hx with hx1 | hx1
        · exact balH_all_mem hall hx1
        · rw [hx1]
          exact hcb
      refine ⟨?_, ?_, ?_⟩
      · intro t2 old he
        unfold insRec at he
        cases hrec : insRec f (cs.getD (routeIdx keys k) (BT.leaf [])) k v with
        | replaced c old2 =>
          simp only [hrec, InsRes.replaced.injEq] at he
          rw [← he.1]
          simp only [balH, Bool.and_eq_true, decide_eq_true_eq]
          refine ⟨⟨hlo, hhi, by rw [List.length_set]; omega⟩, ?_⟩
          exact hset c (ihc.1 c old2 hrec)
        | inserted c =>
          simp only [hrec] at he
          by_cases hc : keys.length < CAPACITY <;> simp [hc] at he
        | split l r sep =>
          simp only [hrec] at he
          by_cases hc : keys.length < CAPACITY
          · rw [if_pos hc] at he
            exact absurd he (by simp)
          · rw [if_neg hc] at he
            by_cases hi : routeIdx keys k ≤ MIN_LEN_AFTER_SPLIT
            · rw [if_pos hi] at he
              exact absurd he (by simp)
            · rw [if_neg hi] at he
              exact absurd he (by simp)
      · intro t2 he
        unfold insRec at he
        cases hrec : insRec f (cs.getD (routeIdx keys k) (BT.leaf [])) k v with
        | replaced c old2 =>
          simp only [hrec] at he
          exact absurd he (by simp)
        | inserted c =>
          simp only [hrec, InsRes.inserted.injEq] at he
          rw [← he]
          simp only [balH, Bool.and_eq_true, decide_eq_true_eq]
          refine ⟨⟨hlo, hhi, by rw [List.length_set]; omega⟩, ?_⟩
          exact hset c (ihc.2.1 c hrec)
        | split l r sep =>
          obtain ⟨hbl, hbr⟩ := ihc.2.2 l r sep hrec
          simp only [hrec] at he
          by_cases hc : keys.length < CAPACITY
          · rw [if_pos hc] at he
            simp only [InsRes.inserted.injEq] at he
            rw [← he]
            simp only [balH, Bool.and_eq_true, decide_eq_true_eq]
            have hlen1 : (keys.insertIdx (routeIdx keys k) sep).length =
                keys.length + 1 := List.length_insertIdx _ _ hile
            have hlen2 : ((cs.set (routeIdx keys k) l).insertIdx
                (routeIdx keys k + 1) r).length = cs.length + 1 := by
              rw [List.length_insertIdx _ _ (by rw [List.length_set]; omega)]
              rw [List.length_set]
            refine ⟨⟨by omega, by omega, by omega⟩, ?_⟩
            rw [List.all_eq_true]
            intro x hx
            rcases (List.mem_insertIdx (by rw [List.length_set]; omega)).mp
              hx with hx1 | hx1
            · rw [hx1]
              exact hbr
            · rcases List.mem_or_eq_of_mem_set hx1 with hx2 | hx2
              · exact balH_all_mem hall hx2
              · rw [hx2]
                exact hbl
          · rw [if_neg hc] at he
            by_cases hi : routeIdx keys k ≤ MIN_LEN_AFTER_SPLIT
            · rw [if_pos hi] at he
              exact absurd he (by simp)
            · rw [if_neg hi] at he
              exact absurd he (by simp)
      · intro l2 r2 sep2 he
        unfold insRec at he
        cases hrec : insRec f (cs.getD (routeIdx keys k) (BT.leaf [])) k v with
        | replaced c old2 =>
          simp only [hrec] at he
          exact absurd he (by simp)
        | inserted c =>
          simp only [hrec] at he
          exact absurd he (by simp)
        | split l r sep =>
          obtain ⟨hbl, hbr⟩ := ihc.2.2 l r sep hrec
          simp only [hrec] at he
          by_cases hc : keys.length < CAPACITY
          · rw [if_pos hc] at he
            exact absurd he (by simp)
          · rw [if_neg hc] at he
            have hk11 : keys.length = 11 := by omega
            have hcs12 : cs.length = 12 := by omega
            have hmemset : ∀ x, x ∈ cs.set (routeIdx keys k) l →
                balH (h2 + 1) x = true := by
              intro x hx
              rcases List.mem_or_eq_of_mem_set hx with hx1 | hx1
              · exact balH_all_mem hall hx1
              · rw [hx1]
                exact hbl
            by_cases hi : routeIdx keys k ≤ MIN_LEN_AFTER_SPLIT
            · rw [if_pos hi] at he
              simp only [InsRes.split.injEq] at he
              obtain ⟨hl2, hr2, _⟩ := he
              constructor
              · rw [← hl2]
                simp only [balH, Bool.and_eq_true, decide_eq_true_eq]
                have e1 : ((keys.take MIN_LEN_AFTER_SPLIT).insertIdx
                    (routeIdx keys k) sep).length = 6 := by
                  rw [List.length_insertIdx _ _
                    (by rw [List.length_take]; omega)]
                  rw [List.length_take]
                  omega
                have e2 : (((cs.set (routeIdx keys k) l).take B).insertIdx
                    (routeIdx keys k + 1) r).length = 7 := by
                  rw [List.length_insertIdx _ _
                    (by rw [List.length_take, List.length_set]; omega)]
                  rw [List.length_take, List.length_set]
                  omega
                refine ⟨⟨by omega, by omega, by omega⟩, ?_⟩
                rw [List.all_eq_true]
                intro x hx
                rcases (List.mem_insertIdx
                  (by rw [List.length_take, List.length_set]; omega)).mp
                  hx with hx1 | hx1
                · rw [hx1]
                  exact hbr
                · exact hmemset x (List.mem_of_mem_take hx1)
              · rw [← hr2]
                simp only [balH, Bool.and_eq_true, decide_eq_true_eq]
                have e1 : (keys.drop B).length = 5 := by
                  rw [List.length_drop]
                  omega
                have e2 : ((cs.set (routeIdx keys k) l).drop B).length = 6 := by
                  rw [List.length_drop, List.length_set]
                  omega
                refine ⟨⟨by omega, by omega, by omega⟩, ?_⟩
                rw [List.all_eq_true]
                intro x hx
                exact hmemset x (List.mem_of_mem_drop hx)
            · rw [if_neg hi] at he
              simp only [InsRes.split.injEq] at he
              obtain ⟨hl2, hr2, _⟩ := he
              constructor
              · rw [← hl2]
                simp only [balH, Bool.and_eq_true, decide_eq_true_eq]
                have e1 : (keys.take MIN_LEN_AFTER_SPLIT).length = 5 := by
                  rw [List.length_take]
                  omega
                have e2 : ((cs.set (routeIdx keys k) l).take B).length = 6 := by
                  rw [List.length_take, List.length_set]
                  omega
                refine ⟨⟨by omega, by omega, by omega⟩, ?_⟩
                rw [List.all_eq_true]
                intro x hx
                exact hmemset x (List.mem_of_mem_take hx)
              · rw [← hr2]
                simp only [balH, Bool.and_eq_true, decide_eq_true_eq]
                have e1 : ((keys.drop B).insertIdx (routeIdx keys k - B)
                    sep).length = 6 := by
                  rw [List.length_insertIdx _ _
                    (by rw [List.length_drop]; omega)]
                  rw [List.length_drop]
                  omega
                have e2 : (((cs.set (routeIdx keys k) l).drop B).insertIdx
                    (routeIdx keys k - B + 1) r).length = 7 := by
                  rw [List.length_insertIdx _ _
                    (by rw [List.length_drop, List.length_set]; omega)]
                  rw [List.length_drop, List.length_set]
                  omega
                refine ⟨⟨by omega, by omega, by omega⟩, ?_⟩
                rw [List.all_eq_true]
                intro x hx
                rcases (List.mem_insertIdx
                  (by rw [List.length_drop, List.length_set]; omega)).mp
                  hx with hx1 | hx1
                · rw [hx1]
                  exact hbr
                · exact hmemset x (List.mem_of_mem_drop hx1)


theorem getLastD_mem {α : Type} (l : List α) (d : α) (h : l ≠ []) :
    l.getLastD d ∈ l := by
  cases l with
  | nil => exact absurd rfl h
  | cons a as =>
    rw [List.getLastD_eq_getLast?]
    rw [List.getLast?_eq_getLast (a :: as) (by simp)]
    simp only [Option.getD_some]
    exact List.getLast_mem _

theorem headD_mem {α : Type} (l : List α) (d : α) (h : l ≠ []) :
    l.headD d ∈ l := by
  cases l with
  | nil => exact absurd rfl h
  | cons a as => exact List.mem_cons_self a as

theorem applyFin_length (fh k0 : Option Nat) (ks : List Nat) :
    (applyFin fh k0 ks).1.length = ks.length := by
  cases fh <;> cases k0 <;> simp [applyFin, List.length_set]

theorem balH_one_leaf {t : BT} (hb : balH 1 t = true) :
    ∃ kvs, t = BT.leaf kvs ∧ MIN_LEN_AFTER_SPLIT ≤ kvs.length ∧
      kvs.length ≤ CAPACITY := by
  match t with
  | BT.leaf kvs =>
    simp only [balH, decide_eq_true_eq] at hb
    exact ⟨kvs, rfl, hb⟩
  | BT.internal _ _ => simp [balH] at hb

theorem balH_two_internal {h : Nat} {t : BT} (hb : balH (h + 2) t = true) :
    ∃ ks cs, t = BT.internal ks cs ∧ MIN_LEN_AFTER_SPLIT ≤ ks.length ∧
      ks.length ≤ CAPACITY ∧ cs.length = ks.length + 1 ∧
      cs.all (balH (h + 1)) = true := by
  match t with
  | BT.leaf _ => simp [balH] at hb
  | BT.internal ks cs =>
    simp only [balH, Bool.and_eq_true, decide_eq_true_eq] at hb
    exact ⟨ks, cs, rfl, hb.1.1, hb.1.2.1, hb.1.2.2, hb.2⟩

theorem underH_shape {h : Nat} {t : BT} (hu : underH h t = true) :
    (∃ kvs, h = 1 ∧ t = BT.leaf kvs ∧
      kvs.length = MIN_LEN_AFTER_SPLIT - 1) ∨
    (∃ h3 ks cs, h = h3 + 2 ∧ t = BT.internal ks cs ∧
      ks.length = MIN_LEN_AFTER_SPLIT - 1 ∧ cs.length = ks.length + 1 ∧
      cs.all (balH (h3 + 1)) = true) := by
  match h, t with
  | 0, t => simp [underH] at hu
  | 1, BT.leaf kvs =>
    left
    simp only [underH, decide_eq_true_eq] at hu
    exact ⟨kvs, rfl, rfl, hu⟩
  | 1, BT.internal _ _ => simp [underH] at hu
  | h3+2, BT.leaf _ => simp [underH] at hu
  | h3+2, BT.internal ks cs =>
    right
    simp only [underH, Bool.and_eq_true, decide_eq_true_eq] at hu
    exact ⟨h3, ks, cs, rfl, rfl, hu.1.1, hu.1.2, hu.2⟩

theorem all_balH_set2 (h : Nat) (cs : List BT) (i j : Nat) (x y : BT)
    (hall : cs.all (balH h) = true) (hx : balH h x = true)
    (hy : balH h y = true) :
    ((cs.set i x).set j y).all (balH h) = true := by
  rw [List.all_eq_true]
  intro z hz
  rcases List.mem_or_eq_of_mem_set hz with hz1 | hz1
  · rcases List.mem_or_eq_of_mem_set hz1 with hz2 | hz2
    · exact balH_all_mem hall hz2
    · rw [hz2]
      exact hx
  · rw [hz1]
    exact hy

theorem all_balH_set_erase (h : Nat) (cs : List BT) (i j : Nat) (x : BT)
    (hall : cs.all (balH h) = true) (hx : balH h x = true) :
    ((cs.set i x).eraseIdx j).all (balH h) = true := by
  rw [List.all_eq_true]
  intro z hz
  rcases List.mem_or_eq_of_mem_set (List.mem_of_mem_eraseIdx hz) with hz2 | hz2
  · exact balH_all_mem hall hz2
  · rw [hz2]
    exact hx

/-- resOK: the result of a removal below a non-root node is length-sound:
an untouched state, a balanced subtree, or an underflowed-by-one top. -/
def resOK (h : Nat) : RemRes → Bool
  | RemRes.notFound => true
  | RemRes.ok t _ _ => balH h t
  | RemRes.under t _ _ => underH h t

theorem removeRec_resOK (k : Nat) : ∀ fuel h t, h ≤ fuel →
    balH h t = true → resOK h (removeRec fuel t k) = true := by
  intro fuel
  induction fuel with
  | zero =>
    intro h t hle hbal
    interval_cases h
    simp [balH] at hbal
  | succ f ih =>
    intro h t hle hbal
    have hcap : CAPACITY = 11 := rfl
    have hmin : MIN_LEN_AFTER_SPLIT = 5 := rfl
    match t with
    | BT.leaf kvs =>
      obtain ⟨h1, hlo, hhi⟩ := balH_leaf_one hbal
      subst h1
      unfold removeRec
      cases hbs : binary_search (kvs.map Prod.fst) k with
      | inr idx => simp only [hbs, resOK]
      | inl idx =>
        have hidx : idx < kvs.length := by
          have := (binary_search_inl _ k idx hbs).1
          simpa using this
        simp only [hbs]
        by_cases hc : MIN_LEN_AFTER_SPLIT < kvs.length
        · rw [if_pos hc]
          simp only [resOK, balH, decide_eq_true_eq, List.length_eraseIdx]
          split_ifs <;> omega
        · rw [if_neg hc]
          simp only [resOK, underH, decide_eq_true_eq, List.length_eraseIdx]
          split_ifs <;> omega
    | BT.internal keys cs =>
      obtain ⟨h2, hh, hlo, hhi, hlen, hall⟩ := balH_internal hbal
      subst hh
      have hile : routeIdx keys k ≤ keys.length := routeIdx_le keys k
      have hcmem : cs.getD (routeIdx keys k) (BT.leaf []) ∈ cs := by
        rw [List.getD_eq_getElem _ _ (by omega)]
        exact List.getElem_mem _
      have hcbal : balH (h2 + 1) (cs.getD (routeIdx keys k) (BT.leaf [])) =
          true := balH_all_mem hall hcmem
      have ihc := ih (h2 + 1) (cs.getD (routeIdx keys k) (BT.leaf []))
        (by omega) hcbal
      unfold removeRec
      cases hrec : removeRec f (cs.getD (routeIdx keys k) (BT.leaf [])) k with
      | notFound => simp only [hrec, resOK]
      | ok c v key0 =>
        rw [hrec] at ihc
        simp only [resOK] at ihc
        simp only [hrec, resOK, balH, Bool.and_eq_true, decide_eq_true_eq]
        refine ⟨⟨?_, ?_, ?_⟩, ?_⟩
        · rw [applyFin_length]
          omega
        · rw [applyFin_length]
          omega
        · rw [List.length_set, applyFin_length]
          omega
        · rw [List.all_eq_true]
          intro z hz
          rcases List.mem_or_eq_of_mem_set hz with hz1 | hz1
          · exact balH_all_mem hall hz1
          · rw [hz1]
            exact ihc
      | under c v key0 =>
        rw [hrec] at ihc
        simp only [resOK] at ihc
        simp only [hrec]
        rcases underH_shape ihc with ⟨kvs4, hh1, hcs, hlen4⟩ |
          ⟨h3, ck, cc, hh2, hcs, hck, hcc, hccall⟩
        · have h20 : h2 = 0 := by omega
          subst h20
          subst hcs
          simp only []
          by_cases hi0 : 0 < routeIdx keys k
          · have hLmem : cs.getD (routeIdx keys k - 1) (BT.leaf []) ∈ cs := by
              rw [List.getD_eq_getElem _ _ (by omega)]
              exact List.getElem_mem _
            obtain ⟨Lkvs, hLs, hLlo, hLhi⟩ :=
              balH_one_leaf (balH_all_mem hall hLmem)
            rw [if_pos hi0, hLs]
            simp only [leafKvs]
            by_cases hsl : MIN_LEN_AFTER_SPLIT < Lkvs.length
            · rw [if_pos hsl]
              simp only [resOK, balH, Bool.and_eq_true, decide_eq_true_eq]
              refine ⟨⟨?_, ?_, ?_⟩, ?_⟩
              · simp only [List.length_eraseIdx, applyFin_length, List.length_set,
                  List.length_append, List.length_cons, List.length_nil,
                  List.length_tail, List.length_dropLast]
                first
                | (split_ifs <;> omega)
                | omega
              · simp only [List.length_eraseIdx, applyFin_length, List.length_set,
                  List.length_append, List.length_cons, List.length_nil,
                  List.length_tail, List.length_dropLast]
                first
                | (split_ifs <;> omega)
                | omega
              · simp only [List.length_eraseIdx, applyFin_length, List.length_set,
                  List.length_append, List.length_cons, List.length_nil,
                  List.length_tail, List.length_dropLast]
                first
                | (split_ifs <;> omega)
                | omega
              · refine all_balH_set2 _ _ _ _ _ _ hall ?_ ?_ <;>
                  simp only [balH, decide_eq_true_eq] <;>
                  · simp only [List.length_eraseIdx, applyFin_length, List.length_set,
                      List.length_append, List.length_cons, List.length_nil,
                      List.length_tail, List.length_dropLast]
                    first
                    | (split_ifs <;> omega)
                    | omega
            · rw [if_neg hsl]
              by_cases hir : routeIdx keys k < keys.length - 1
              · have hRmem : cs.getD (routeIdx keys k + 1) (BT.leaf [])
                    ∈ cs := by
                  rw [List.getD_eq_getElem _ _ (by omega)]
                  exact List.getElem_mem _
                obtain ⟨Rkvs, hRs, hRlo, hRhi⟩ :=
                  balH_one_leaf (balH_all_mem hall hRmem)
                rw [if_pos hir, hRs]
                simp only [leafKvs]
                by_cases hsr : MIN_LEN_AFTER_SPLIT < Rkvs.length
                · rw [if_pos hsr]
                  simp only [resOK, balH, Bool.and_eq_true, decide_eq_true_eq]
                  refine ⟨⟨?_, ?_, ?_⟩, ?_⟩
                  · simp only [List.length_eraseIdx, applyFin_length, List.length_set,
                      List.length_append, List.length_cons, List.length_nil,
                      List.length_tail, List.length_dropLast]
                    first
                    | (split_ifs <;> omega)
                    | omega
                  · simp only [List.length_eraseIdx, applyFin_length, List.length_set,
                      List.length_append, List.length_cons, List.length_nil,
                      List.length_tail, List.length_dropLast]
                    first
                    | (split_ifs <;> omega)
                    | omega
                  · simp only [List.length_eraseIdx, applyFin_length, List.length_set,
                      List.length_append, List.length_cons, List.length_nil,
                      List.length_tail, List.length_dropLast]
                    first
                    | (split_ifs <;> omega)
                    | omega
                  · refine all_balH_set2 _ _ _ _ _ _ hall ?_ ?_ <;>
                      simp only [balH, decide_eq_true_eq] <;>
                      · simp only [List.length_eraseIdx, applyFin_length, List.length_set,
                          List.length_append, List.length_cons, List.length_nil,
                          List.length_tail, List.length_dropLast]
                        first
                        | (split_ifs <;> omega)
                        | omega
                · rw [if_neg hsr]
                  by_cases hkl : MIN_LEN_AFTER_SPLIT < keys.length
                  · rw [if_pos hkl]
                    simp only [resOK, balH, Bool.and_eq_true,
                      decide_eq_true_eq]
                    refine ⟨⟨?_, ?_, ?_⟩, ?_⟩
                    · simp only [List.length_eraseIdx, applyFin_length, List.length_set,
                        List.length_append, List.length_cons, List.length_nil,
                        List.length_tail, List.length_dropLast]
                      first
                      | (split_ifs <;> omega)
                      | omega
                    · simp only [List.length_eraseIdx, applyFin_length, List.length_set,
                        List.length_append, List.length_cons, List.length_nil,
                        List.length_tail, List.length_dropLast]
                      first
                      | (split_ifs <;> omega)
                      | omega
                    · simp only [List.length_eraseIdx, applyFin_length, List.length_set,
                        List.length_append, List.length_cons, List.length_nil,
                        List.length_tail, List.length_dropLast]
                      first
                      | (split_ifs <;> omega)
                      | omega
                    · refine all_balH_set_erase _ _ _ _ _ hall ?_
                      simp only [balH, decide_eq_true_eq]
                      simp only [List.length_eraseIdx, applyFin_length, List.length_set,
                        List.length_append, List.length_cons, List.length_nil,
                        List.length_tail, List.length_dropLast]
                      first
                      | (split_ifs <;> omega)
                      | omega
                  · rw [if_neg hkl]
                    simp only [resOK, underH, Bool.and_eq_true,
                      decide_eq_true_eq]
                    refine ⟨⟨?_, ?_⟩, ?_⟩
                    · simp only [List.length_eraseIdx, applyFin_length, List.length_set,
                        List.length_append, List.length_cons, List.length_nil,
                        List.length_tail, List.length_dropLast]
                      first
                      | (split_ifs <;> omega)
                      | omega
                    · simp only [List.length_eraseIdx, applyFin_length, List.length_set,
                        List.length_append, List.length_cons, List.length_nil,
                        List.length_tail, List.length_dropLast]
                      first
                      | (split_ifs <;> omega)
                      | omega
                    · refine all_balH_set_erase _ _ _ _ _ hall ?_
                      simp only [balH, decide_eq_true_eq]
                      simp only [List.length_eraseIdx, applyFin_length, List.length_set,
                        List.length_append, List.length_cons, List.length_nil,
                        List.length_tail, List.length_dropLast]
                      first
                      | (split_ifs <;> omega)
                      | omega
              · rw [if_neg hir]
                by_cases hkl : MIN_LEN_AFTER_SPLIT < keys.length
                · rw [if_pos hkl]
                  simp only [resOK, balH, Bool.and_eq_true, decide_eq_true_eq]
                  refine ⟨⟨?_, ?_, ?_⟩, ?_⟩
                  · simp only [List.length_eraseIdx, applyFin_length, List.length_set,
                      List.length_append, List.length_cons, List.length_nil,
                      List.length_tail, List.length_dropLast]
                    first
                    | (split_ifs <;> omega)
                    | omega
                  · simp only [List.length_eraseIdx, applyFin_length, List.length_set,
                      List.length_append, List.length_cons, List.length_nil,
                      List.length_tail, List.length_dropLast]
                    first
                    | (split_ifs <;> omega)
                    | omega
                  · simp only [List.length_eraseIdx, applyFin_length, List.length_set,
                      List.length_append, List.length_cons, List.length_nil,
                      List.length_tail, List.length_dropLast]
                    first
                    | (split_ifs <;> omega)
                    | omega
                  · refine all_balH_set_erase _ _ _ _ _ hall ?_
                    simp only [balH, decide_eq_true_eq]
                    simp only [List.length_eraseIdx, applyFin_length, List.length_set,
                      List.length_append, List.length_cons, List.length_nil,
                      List.length_tail, List.length_dropLast]
                    first
                    | (split_ifs <;> omega)
                    | omega
                · rw [if_neg hkl]
                  simp only [resOK, underH, Bool.and_eq_true,
                    decide_eq_true_eq]
                  refine ⟨⟨?_, ?_⟩, ?_⟩
                  · simp only [List.length_eraseIdx, applyFin_length, List.length_set,
                      List.length_append, List.length_cons, List.length_nil,
                      List.length_tail, List.length_dropLast]
                    first
                    | (split_ifs <;> omega)
                    | omega
                  · simp only [List.length_eraseIdx, applyFin_length, List.length_set,
                      List.length_append, List.length_cons, List.length_nil,
                      List.length_tail, List.length_dropLast]
                    first
                    | (split_ifs <;> omega)
                    | omega
                  · refine all_balH_set_erase _ _ _ _ _ hall ?_
                    simp only [balH, decide_eq_true_eq]
                    simp only [List.length_eraseIdx, applyFin_length, List.length_set,
                      List.length_append, List.length_cons, List.length_nil,
                      List.length_tail, List.length_dropLast]
                    first
                    | (split_ifs <;> omega)
                    | omega
          · have hRmem : cs.getD 1 (BT.leaf []) ∈ cs := by
              rw [List.getD_eq_getElem _ _ (by omega)]
              exact List.getElem_mem _
            obtain ⟨Rkvs, hRs, hRlo, hRhi⟩ :=
              balH_one_leaf (balH_all_mem hall hRmem)
            rw [if_neg hi0, hRs]
            simp only [leafKvs]
            by_cases hsr : MIN_LEN_AFTER_SPLIT < Rkvs.length
            · rw [if_pos hsr]
              simp only [resOK, balH, Bool.and_eq_true, decide_eq_true_eq]
              refine ⟨⟨?_, ?_, ?_⟩, ?_⟩
              · simp only [List.length_eraseIdx, applyFin_length, List.length_set,
                  List.length_append, List.length_cons, List.length_nil,
                  List.length_tail, List.length_dropLast]
                first
                | (split_ifs <;> omega)
                | omega
              · simp only [List.length_eraseIdx, applyFin_length, List.length_set,
                  List.length_append, List.length_cons, List.length_nil,
                  List.length_tail, List.length_dropLast]
                first
                | (split_ifs <;> omega)
                | omega
              · simp only [List.length_eraseIdx, applyFin_length, List.length_set,
                  List.length_append, List.length_cons, List.length_nil,
                  List.length_tail, List.length_dropLast]
                first
                | (split_ifs <;> omega)
                | omega
              · refine all_balH_set2 _ _ _ _ _ _ hall ?_ ?_ <;>
                  simp only [balH, decide_eq_true_eq] <;>
                  · simp only [List.length_eraseIdx, applyFin_length, List.length_set,
                      List.length_append, List.length_cons, List.length_nil,
                      List.length_tail, List.length_dropLast]
                    first
                    | (split_ifs <;> omega)
                    | omega
            · rw [if_neg hsr]
              by_cases hkl : MIN_LEN_AFTER_SPLIT < keys.length
              · rw [if_pos hkl]
                simp only [resOK, balH, Bool.and_eq_true, decide_eq_true_eq]
                refine ⟨⟨?_, ?_, ?_⟩, ?_⟩
                · simp only [List.length_eraseIdx, applyFin_length, List.length_set,
                    List.length_append, List.length_cons, List.length_nil,
                    List.length_tail, List.length_dropLast]
                  first
                  | (split_ifs <;> omega)
                  | omega
                · simp only [List.length_eraseIdx, applyFin_length, List.length_set,
                    List.length_append, List.length_cons, List.length_nil,
                    List.length_tail, List.length_dropLast]
                  first
                  | (split_ifs <;> omega)
                  | omega
                · simp only [List.length_eraseIdx, applyFin_length, List.length_set,
                    List.length_append, List.length_cons, List.length_nil,
                    List.length_tail, List.length_dropLast]
                  first
                  | (split_ifs <;> omega)
                  | omega
                · refine all_balH_set_erase _ _ _ _ _ hall ?_
                  simp only [balH, decide_eq_true_eq]
                  simp only [List.length_eraseIdx, applyFin_length, List.length_set,
                    List.length_append, List.length_cons, List.length_nil,
                    List.length_tail, List.length_dropLast]
                  first
                  | (split_ifs <;> omega)
                  | omega
              · rw [if_neg hkl]
                simp only [resOK, underH, Bool.and_eq_true, decide_eq_true_eq]
                refine ⟨⟨?_, ?_⟩, ?_⟩
                · simp only [List.length_eraseIdx, applyFin_length, List.length_set,
                    List.length_append, List.length_cons, List.length_nil,
                    List.length_tail, List.length_dropLast]
                  first
                  | (split_ifs <;> omega)
                  | omega
                · simp only [List.length_eraseIdx, applyFin_length, List.length_set,
                    List.length_append, List.length_cons, List.length_nil,
                    List.length_tail, List.length_dropLast]
                  first
                  | (split_ifs <;> omega)
                  | omega
                · refine all_balH_set_erase _ _ _ _ _ hall ?_
                  simp only [balH, decide_eq_true_eq]
                  simp only [List.length_eraseIdx, applyFin_length, List.length_set,
                    List.length_append, List.length_cons, List.length_nil,
                    List.length_tail, List.length_dropLast]
                  first
                  | (split_ifs <;> omega)
                  | omega
        · have h23 : h2 = h3 + 1 := by omega
          subst h23
          subst hcs
          simp only []
          have hccne : cc ≠ [] := by
            intro hc2
            rw [hc2] at hcc
            simp at hcc
          by_cases hi0 : 0 < routeIdx keys k
          · have hLmem : cs.getD (routeIdx keys k - 1) (BT.leaf []) ∈ cs := by
              rw [List.getD_eq_getElem _ _ (by omega)]
              exact List.getElem_mem _
            obtain ⟨Lk, Lc, hLs, hLlo, hLhi, hLcc, hLall⟩ :=
              balH_two_internal (balH_all_mem hall hLmem)
            have hLcne : Lc ≠ [] := by
              intro hc2
              rw [hc2] at hLcc
              simp at hLcc
            rw [if_pos hi0, hLs]
            simp only [intKeys, intChildren]
            by_cases hsl : MIN_LEN_AFTER_SPLIT < Lk.length
            · rw [if_pos hsl]
              simp only [resOK, balH, Bool.and_eq_true, decide_eq_true_eq]
              refine ⟨⟨?_, ?_, ?_⟩, ?_⟩
              · simp only [List.length_eraseIdx, applyFin_length, List.length_set,
                  List.length_append, List.length_cons, List.length_nil,
                  List.length_tail, List.length_dropLast]
                first
                | (split_ifs <;> omega)
                | omega
              · simp only [List.length_eraseIdx, applyFin_length, List.length_set,
                  List.length_append, List.length_cons, List.length_nil,
                  List.length_tail, List.length_dropLast]
                first
                | (split_ifs <;> omega)
                | omega
              · simp only [List.length_eraseIdx, applyFin_length, List.length_set,
                  List.length_append, List.length_cons, List.length_nil,
                  List.length_tail, List.length_dropLast]
                first
                | (split_ifs <;> omega)
                | omega
              · refine all_balH_set2 _ _ _ _ _ _ hall ?_ ?_
                · simp only [balH, Bool.and_eq_true, decide_eq_true_eq]
                  refine ⟨⟨?_, ?_, ?_⟩, ?_⟩
                  · simp only [List.length_eraseIdx, applyFin_length, List.length_set,
                      List.length_append, List.length_cons, List.length_nil,
                      List.length_tail, List.length_dropLast]
                    first
                    | (split_ifs <;> omega)
                    | omega
                  · simp only [List.length_eraseIdx, applyFin_length, List.length_set,
                      List.length_append, List.length_cons, List.length_nil,
                      List.length_tail, List.length_dropLast]
                    first
                    | (split_ifs <;> omega)
                    | omega
                  · simp only [List.length_eraseIdx, applyFin_length, List.length_set,
                      List.length_append, List.length_cons, List.length_nil,
                      List.length_tail, List.length_dropLast]
                    first
                    | (split_ifs <;> omega)
                    | omega
                  · rw [List.all_eq_true]
                    intro z hz
                    exact balH_all_mem hLall (List.mem_of_mem_dropLast hz)
                · simp only [balH, Bool.and_eq_true, decide_eq_true_eq]
                  refine ⟨⟨?_, ?_, ?_⟩, ?_⟩
                  · simp only [List.length_eraseIdx, applyFin_length, List.length_set,
                      List.length_append, List.length_cons, List.length_nil,
                      List.length_tail, List.length_dropLast]
                    first
                    | (split_ifs <;> omega)
                    | omega
                  · simp only [List.length_eraseIdx, applyFin_length, List.length_set,
                      List.length_append, List.length_cons, List.length_nil,
                      List.length_tail, List.length_dropLast]
                    first
                    | (split_ifs <;> omega)
                    | omega
                  · simp only [List.length_eraseIdx, applyFin_length, List.length_set,
                      List.length_append, List.length_cons, List.length_nil,
                      List.length_tail, List.length_dropLast]
                    first
                    | (split_ifs <;> omega)
                    | omega
                  · rw [List.all_eq_true]
                    intro z hz
                    rcases List.mem_cons.mp hz with hz1 | hz1
                    · rw [hz1]
                      exact balH_all_mem hLall (getLastD_mem _ _ hLcne)
                    · exact balH_all_mem hccall hz1
            · rw [if_neg hsl]
              by_cases hir : routeIdx keys k < keys.length - 1
              · have hRmem : cs.getD (routeIdx keys k + 1) (BT.leaf [])
                    ∈ cs := by
                  rw [List.getD_eq_getElem _ _ (by omega)]
                  exact List.getElem_mem _
                obtain ⟨Rk, Rc, hRs, hRlo, hRhi, hRcc, hRall⟩ :=
                  balH_two_internal (balH_all_mem hall hRmem)
                have hRcne : Rc ≠ [] := by
                  intro hc2
                  rw [hc2] at hRcc
                  simp at hRcc
                rw [if_pos hir, hRs]
                simp only [intKeys, intChildren]
                by_cases hsr : MIN_LEN_AFTER_SPLIT < Rk.length
                · rw [if_pos hsr]
                  simp only [resOK, balH, Bool.and_eq_true, decide_eq_true_eq]
                  refine ⟨⟨?_, ?_, ?_⟩, ?_⟩
                  · simp only [List.length_eraseIdx, applyFin_length, List.length_set,
                      List.length_append, List.length_cons, List.length_nil,
                      List.length_tail, List.length_dropLast]
                    first
                    | (split_ifs <;> omega)
                    | omega
                  · simp only [List.length_eraseIdx, applyFin_length, List.length_set,
                      List.length_append, List.length_cons, List.length_nil,
                      List.length_tail, List.length_dropLast]
                    first
                    | (split_ifs <;> omega)
                    | omega
                  · simp only [List.length_eraseIdx, applyFin_length, List.length_set,
                      List.length_append, List.length_cons, List.length_nil,
                      List.length_tail, List.length_dropLast]
                    first
                    | (split_ifs <;> omega)
                    | omega
                  · refine all_balH_set2 _ _ _ _ _ _ hall ?_ ?_
                    · simp only [balH, Bool.and_eq_true, decide_eq_true_eq]
                      refine ⟨⟨?_, ?_, ?_⟩, ?_⟩
                      · simp only [List.length_eraseIdx, applyFin_length, List.length_set,
                          List.length_append, List.length_cons, List.length_nil,
                          List.length_tail, List.length_dropLast]
                        first
                        | (split_ifs <;> omega)
                        | omega
                      · simp only [List.length_eraseIdx, applyFin_length, List.length_set,
                          List.length_append, List.length_cons, List.length_nil,
                          List.length_tail, List.length_dropLast]
                        first
                        | (split_ifs <;> omega)
                        | omega
                      · simp only [List.length_eraseIdx, applyFin_length, List.length_set,
                          List.length_append, List.length_cons, List.length_nil,
                          List.length_tail, List.length_dropLast]
                        first
                        | (split_ifs <;> omega)
                        | omega
                      · rw [List.all_eq_true]
                        intro z hz
                        rcases List.mem_append.mp hz with hz1 | hz1
                        · exact balH_all_mem hccall hz1
                        · rcases List.mem_cons.mp hz1 with hz2 | hz2
                          · rw [hz2]
                            exact balH_all_mem hRall (headD_mem _ _ hRcne)
                          · simp at hz2
                    · simp only [balH, Bool.and_eq_true, decide_eq_true_eq]
                      refine ⟨⟨?_, ?_, ?_⟩, ?_⟩
                      · simp only [List.length_eraseIdx, applyFin_length, List.length_set,
                          List.length_append, List.length_cons, List.length_nil,
                          List.length_tail, List.length_dropLast]
                        first
                        | (split_ifs <;> omega)
                        | omega
                      · simp only [List.length_eraseIdx, applyFin_length, List.length_set,
                          List.length_append, List.length_cons, List.length_nil,
                          List.length_tail, List.length_dropLast]
                        first
                        | (split_ifs <;> omega)
                        | omega
                      · simp only [List.length_eraseIdx, applyFin_length, List.length_set,
                          List.length_append, List.length_cons, List.length_nil,
                          List.length_tail, List.length_dropLast]
                        first
                        | (split_ifs <;> omega)
                        | omega
                      · rw [List.all_eq_true]
                        intro z hz
                        exact balH_all_mem hRall (List.mem_of_mem_tail hz)
                · rw [if_neg hsr]
                  have hmerged : balH (h3 + 2)
                      (BT.internal (ck ++ keys.getD (routeIdx keys k) 0 :: Rk)
                        (cc ++ Rc)) = true := by
                    simp only [balH, Bool.and_eq_true, decide_eq_true_eq]
                    refine ⟨⟨?_, ?_, ?_⟩, ?_⟩
                    · simp only [List.length_eraseIdx, applyFin_length, List.length_set,
                        List.length_append, List.length_cons, List.length_nil,
                        List.length_tail, List.length_dropLast]
                      first
                      | (split_ifs <;> omega)
                      | omega
                    · simp only [List.length_eraseIdx, applyFin_length, List.length_set,
                        List.length_append, List.length_cons, List.length_nil,
                        List.length_tail, List.length_dropLast]
                      first
                      | (split_ifs <;> omega)
                      | omega
                    · simp only [List.length_eraseIdx, applyFin_length, List.length_set,
                        List.length_append, List.length_cons, List.length_nil,
                        List.length_tail, List.length_dropLast]
                      first
                      | (split_ifs <;> omega)
                      | omega
                    · rw [List.all_eq_true]
                      intro z hz
                      rcases List.mem_append.mp hz with hz1 | hz1
                      · exact balH_all_mem hccall hz1
                      · exact balH_all_mem hRall hz1
                  by_cases hkl : MIN_LEN_AFTER_SPLIT < keys.length
                  · rw [if_pos hkl]
                    simp only [resOK, balH, Bool.and_eq_true,
                      decide_eq_true_eq]
                    refine ⟨⟨?_, ?_, ?_⟩, ?_⟩
                    · simp only [List.length_eraseIdx, applyFin_length, List.length_set,
                        List.length_append, List.length_cons, List.length_nil,
                        List.length_tail, List.length_dropLast]
                      first
                      | (split_ifs <;> omega)
                      | omega
                    · simp only [List.length_eraseIdx, applyFin_length, List.length_set,
                        List.length_append, List.length_cons, List.length_nil,
                        List.length_tail, List.length_dropLast]
                      first
                      | (split_ifs <;> omega)
                      | omega
                    · simp only [List.length_eraseIdx, applyFin_length, List.length_set,
                        List.length_append, List.length_cons, List.length_nil,
                        List.length_tail, List.length_dropLast]
                      first
                      | (split_ifs <;> omega)
                      | omega
                    · exact all_balH_set_erase _ _ _ _ _ hall hmerged
                  · rw [if_neg hkl]
                    simp only [resOK, underH, Bool.and_eq_true,
                      decide_eq_true_eq]
                    refine ⟨⟨?_, ?_⟩, ?_⟩
                    · simp only [List.length_eraseIdx, applyFin_length, List.length_set,
                        List.length_append, List.length_cons, List.length_nil,
                        List.length_tail, List.length_dropLast]
                      first
                      | (split_ifs <;> omega)
                      | omega
                    · simp only [List.length_eraseIdx, applyFin_length, List.length_set,
                        List.length_append, List.length_cons, List.length_nil,
                        List.length_tail, List.length_dropLast]
                      first
                      | (split_ifs <;> omega)
                      | omega
                    · exact all_balH_set_erase _ _ _ _ _ hall hmerged
              · rw [if_neg hir]
                have hmerged : balH (h3 + 2)
                    (BT.internal
                      (Lk ++ keys.getD (routeIdx keys k - 1) 0 :: ck)
                      (Lc ++ cc)) = true := by
                  simp only [balH, Bool.and_eq_true, decide_eq_true_eq]
                  refine ⟨⟨?_, ?_, ?_⟩, ?_⟩
                  · simp only [List.length_eraseIdx, applyFin_length, List.length_set,
                      List.length_append, List.length_cons, List.length_nil,
                      List.length_tail, List.length_dropLast]
                    first
                    | (split_ifs <;> omega)
                    | omega
                  · simp only [List.length_eraseIdx, applyFin_length, List.length_set,
                      List.length_append, List.length_cons, List.length_nil,
                      List.length_tail, List.length_dropLast]
                    first
                    | (split_ifs <;> omega)
                    | omega
                  · simp only [List.length_eraseIdx, applyFin_length, List.length_set,
                      List.length_append, List.length_cons, List.length_nil,
                      List.length_tail, List.length_dropLast]
                    first
                    | (split_ifs <;> omega)
                    | omega
                  · rw [List.all_eq_true]
                    intro z hz
                    rcases List.mem_append.mp hz with hz1 | hz1
                    · exact balH_all_mem hLall hz1
                    · exact balH_all_mem hccall hz1
                by_cases hkl : MIN_LEN_AFTER_SPLIT < keys.length
                · rw [if_pos hkl]
                  simp only [resOK, balH, Bool.and_eq_true, decide_eq_true_eq]
                  refine ⟨⟨?_, ?_, ?_⟩, ?_⟩
                  · simp only [List.length_eraseIdx, applyFin_length, List.length_set,
                      List.length_append, List.length_cons, List.length_nil,
                      List.length_tail, List.length_dropLast]
                    first
                    | (split_ifs <;> omega)
                    | omega
                  · simp only [List.length_eraseIdx, applyFin_length, List.length_set,
                      List.length_append, List.length_cons, List.length_nil,
                      List.length_tail, List.length_dropLast]
                    first
                    | (split_ifs <;> omega)
                    | omega
                  · simp only [List.length_eraseIdx, applyFin_length, List.length_set,
                      List.length_append, List.length_cons, List.length_nil,
                      List.length_tail, List.length_dropLast]
                    first
                    | (split_ifs <;> omega)
                    | omega
                  · exact all_balH_set_erase _ _ _ _ _ hall hmerged
                · rw [if_neg hkl]
                  simp only [resOK, underH, Bool.and_eq_true,
                    decide_eq_true_eq]
                  refine ⟨⟨?_, ?_⟩, ?_⟩
                  · simp only [List.length_eraseIdx, applyFin_length, List.length_set,
                      List.length_append, List.length_cons, List.length_nil,
                      List.length_tail, List.length_dropLast]
                    first
                    | (split_ifs <;> omega)
                    | omega
                  · simp only [List.length_eraseIdx, applyFin_length, List.length_set,
                      List.length_append, List.length_cons, List.length_nil,
                      List.length_tail, List.length_dropLast]
                    first
                    | (split_ifs <;> omega)
                    | omega
                  · exact all_balH_set_erase _ _ _ _ _ hall hmerged
          · have hRmem : cs.getD 1 (BT.leaf []) ∈ cs := by
              rw [List.getD_eq_getElem _ _ (by omega)]
              exact List.getElem_mem _
            obtain ⟨Rk, Rc, hRs, hRlo, hRhi, hRcc, hRall⟩ :=
              balH_two_internal (balH_all_mem hall hRmem)
            have hRcne : Rc ≠ [] := by
              intro hc2
              rw [hc2] at hRcc
              simp at hRcc
            rw [if_neg hi0, hRs]
            simp only [intKeys, intChildren]
            by_cases hsr : MIN_LEN_AFTER_SPLIT < Rk.length
            · rw [if_pos hsr]
              simp only [resOK, balH, Bool.and_eq_true, decide_eq_true_eq]
              refine ⟨⟨?_, ?_, ?_⟩, ?_⟩
              · simp only [List.length_eraseIdx, applyFin_length, List.length_set,
                  List.length_append, List.length_cons, List.length_nil,
                  List.length_tail, List.length_dropLast]
                first
                | (split_ifs <;> omega)
                | omega
              · simp only [List.length_eraseIdx, applyFin_length, List.length_set,
                  List.length_append, List.length_cons, List.length_nil,
                  List.length_tail, List.length_dropLast]
                first
                | (split_ifs <;> omega)
                | omega
              · simp only [List.length_eraseIdx, applyFin_length, List.length_set,
                  List.length_append, List.length_cons, List.length_nil,
                  List.length_tail, List.length_dropLast]
                first
                | (split_ifs <;> omega)
                | omega
              · refine all_balH_set2 _ _ _ _ _ _ hall ?_ ?_
                · simp only [balH, Bool.and_eq_true, decide_eq_true_eq]
                  refine ⟨⟨?_, ?_, ?_⟩, ?_⟩
                  · simp only [List.length_eraseIdx, applyFin_length, List.length_set,
                      List.length_append, List.length_cons, List.length_nil,
                      List.length_tail, List.length_dropLast]
                    first
                    | (split_ifs <;> omega)
                    | omega
                  · simp only [List.length_eraseIdx, applyFin_length, List.length_set,
                      List.length_append, List.length_cons, List.length_nil,
                      List.length_tail, List.length_dropLast]
                    first
                    | (split_ifs <;> omega)
                    | omega
                  · simp only [List.length_eraseIdx, applyFin_length, List.length_set,
                      List.length_append, List.length_cons, List.length_nil,
                      List.length_tail, List.length_dropLast]
                    first
                    | (split_ifs <;> omega)
                    | omega
                  · rw [List.all_eq_true]
                    intro z hz
                    rcases List.mem_append.mp hz with hz1 | hz1
                    · exact balH_all_mem hccall hz1
                    · rcases List.mem_cons.mp hz1 with hz2 | hz2
                      · rw [hz2]
                        exact balH_all_mem hRall (headD_mem _ _ hRcne)
                      · simp at hz2
                · simp only [balH, Bool.and_eq_true, decide_eq_true_eq]
                  refine ⟨⟨?_, ?_, ?_⟩, ?_⟩
                  · simp only [List.length_eraseIdx, applyFin_length, List.length_set,
                      List.length_append, List.length_cons, List.length_nil,
                      List.length_tail, List.length_dropLast]
                    first
                    | (split_ifs <;> omega)
                    | omega
                  · simp only [List.length_eraseIdx, applyFin_length, List.length_set,
                      List.length_append, List.length_cons, List.length_nil,
                      List.length_tail, List.length_dropLast]
                    first
                    | (split_ifs <;> omega)
                    | omega
                  · simp only [List.length_eraseIdx, applyFin_length, List.length_set,
                      List.length_append, List.length_cons, List.length_nil,
                      List.length_tail, List.length_dropLast]
                    first
                    | (split_ifs <;> omega)
                    | omega
                  · rw [List.all_eq_true]
                    intro z hz
                    exact balH_all_mem hRall (List.mem_of_mem_tail hz)
            · rw [if_neg hsr]
              have hmerged : balH (h3 + 2)
                  (BT.internal (ck ++ keys.getD 0 0 :: Rk) (cc ++ Rc)) =
                    true := by
                simp only [balH, Bool.and_eq_true, decide_eq_true_eq]
                refine ⟨⟨?_, ?_, ?_⟩, ?_⟩
                · simp only [List.length_eraseIdx, applyFin_length, List.length_set,
                    List.length_append, List.length_cons, List.length_nil,
                    List.length_tail, List.length_dropLast]
                  first
                  | (split_ifs <;> omega)
                  | omega
                · simp only [List.length_eraseIdx, applyFin_length, List.length_set,
                    List.length_append, List.length_cons, List.length_nil,
                    List.length_tail, List.length_dropLast]
                  first
                  | (split_ifs <;> omega)
                  | omega
                · simp only [List.length_eraseIdx, applyFin_length, List.length_set,
                    List.length_append, List.length_cons, List.length_nil,
                    List.length_tail, List.length_dropLast]
                  first
                  | (split_ifs <;> omega)
                  | omega
                · rw [List.all_eq_true]
                  intro z hz
                  rcases List.mem_append.mp hz with hz1 | hz1
                  · exact balH_all_mem hccall hz1
                  · exact balH_all_mem hRall hz1
              by_cases hkl : MIN_LEN_AFTER_SPLIT < keys.length
              · rw [if_pos hkl]
                simp only [resOK, balH, Bool.and_eq_true, decide_eq_true_eq]
                refine ⟨⟨?_, ?_, ?_⟩, ?_⟩
                · simp only [List.length_eraseIdx, applyFin_length, List.length_set,
                    List.length_append, List.length_cons, List.length_nil,
                    List.length_tail, List.length_dropLast]
                  first
                  | (split_ifs <;> omega)
                  | omega
                · simp only [List.length_eraseIdx, applyFin_length, List.length_set,
                    List.length_append, List.length_cons, List.length_nil,
                    List.length_tail, List.length_dropLast]
                  first
                  | (split_ifs <;> omega)
                  | omega
                · simp only [List.length_eraseIdx, applyFin_length, List.length_set,
                    List.length_append, List.length_cons, List.length_nil,
                    List.length_tail, List.length_dropLast]
                  first
                  | (split_ifs <;> omega)
                  | omega
                · exact all_balH_set_erase _ _ _ _ _ hall hmerged
              · rw [if_neg hkl]
                simp only [resOK, underH, Bool.and_eq_true, decide_eq_true_eq]
                refine ⟨⟨?_, ?_⟩, ?_⟩
                · simp only [List.length_eraseIdx, applyFin_length, List.length_set,
                    List.length_append, List.length_cons, List.length_nil,
                    List.length_tail, List.length_dropLast]
                  first
                  | (split_ifs <;> omega)
                  | omega
                · simp only [List.length_eraseIdx, applyFin_length, List.length_set,
                    List.length_append, List.length_cons, List.length_nil,
                    List.length_tail, List.length_dropLast]
                  first
                  | (split_ifs <;> omega)
                  | omega
                · exact all_balH_set_erase _ _ _ _ _ hall hmerged

/-- The bound a ROOT node obeys (the amended root rule): a root leaf holds
0..CAPACITY entries, a root internal node 1..CAPACITY separators, its
children balanced at the given height. -/
def rootBal (hc : Nat) : BT → Bool
  | BT.leaf kvs => decide (kvs.length ≤ CAPACITY)
  | BT.internal ks cs =>
    decide (1 ≤ ks.length ∧ ks.length ≤ CAPACITY ∧
      cs.length = ks.length + 1) && cs.all (balH hc)

/-- A root internal node that just lost a separator to a child merge and
fell below 1 + MIN_LEN_AFTER_SPLIT − 1 separators. -/
def underRoot (hc : Nat) : BT → Bool
  | BT.internal ks cs =>
    decide (ks.length ≤ MIN_LEN_AFTER_SPLIT - 1 ∧
      cs.length = ks.length + 1) && cs.all (balH hc)
  | _ => false

/-- Balance of the whole map. -/
def balRoot (hc : Nat) (m : SMap) : Bool :=
  match m.root with
  | none => true
  | some t => rootBal hc t

/-- Removal outcome soundness at the root. -/
def resRootOK (hc : Nat) : RemRes → Bool
  | RemRes.notFound => true
  | RemRes.ok t _ _ => rootBal hc t
  | RemRes.under t _ _ => underRoot hc t

/-- Insert outcome soundness at the root. -/
def insRootOK (hc : Nat) : InsRes → Bool
  | InsRes.replaced t _ => rootBal hc t
  | InsRes.inserted t => rootBal hc t
  | InsRes.split l r _ => balH (hc + 1) l && balH (hc + 1) r

theorem balH_rootBal {h hc : Nat} {t : BT} (hb : balH h t = true)
    (hhc : h = hc + 1 ∨ ∃ kvs, t = BT.leaf kvs) : rootBal hc t = true := by
  match t with
  | BT.leaf kvs =>
    obtain ⟨_, _, hhi⟩ := balH_leaf_one hb
    simp only [rootBal, decide_eq_true_eq]
    exact hhi
  | BT.internal ks cs =>
    obtain ⟨h2, hh, hlo, hhi, hlen, hall⟩ := balH_internal hb
    rcases hhc with hhc | ⟨kvs, hk⟩
    · have : hc = h2 + 1 := by omega
      subst this
      subst hh
      simp only [rootBal, Bool.and_eq_true, decide_eq_true_eq]
      have hm : MIN_LEN_AFTER_SPLIT = 5 := rfl
      exact ⟨⟨by omega, hhi, hlen⟩, hall⟩
    · exact absurd hk (by simp)

theorem insRec_root_leaf (k v f : Nat) (kvs : List (Nat × Nat))
    (hle : kvs.length ≤ CAPACITY) :
    insRootOK 0 (insRec (f + 1) (BT.leaf kvs) k v) = true := by
  have hcap : CAPACITY = 11 := rfl
  have hmin : MIN_LEN_AFTER_SPLIT = 5 := rfl
  have hB : B = 6 := rfl
  unfold insRec
  cases hbs : binary_search (kvs.map Prod.fst) k with
  | inl idx =>
    simp only [hbs, insRootOK, rootBal, decide_eq_true_eq, List.length_set]
    omega
  | inr idx =>
    have hidx : idx ≤ kvs.length := by
      have := (binary_search_inr _ k idx hbs).2
      simpa using this
    simp only [hbs]
    by_cases hc : kvs.length < CAPACITY
    · rw [if_pos hc]
      simp only [insRootOK, rootBal, decide_eq_true_eq]
      rw [List.length_insertIdx _ _ hidx]
      omega
    · rw [if_neg hc]
      by_cases hi : idx < B
      · rw [if_pos hi]
        simp only [insRootOK, Bool.and_eq_true, balH, decide_eq_true_eq]
        constructor
        · rw [List.length_insertIdx _ _ (by
            rw [List.length_take]; omega), List.length_take]
          omega
        · rw [List.length_drop]
          omega
      · rw [if_neg hi]
        simp only [insRootOK, Bool.and_eq_true, balH, decide_eq_true_eq]
        constructor
        · rw [List.length_take]
          omega
        · rw [List.length_insertIdx _ _ (by
            rw [List.length_drop]; omega), List.length_drop]
          omega

theorem insRec_root_internal (k v : Nat) (f hc : Nat) (keys : List Nat)
    (cs : List BT) (hhc : hc ≤ f) (hlo : 1 ≤ keys.length)
    (hhi : keys.length ≤ CAPACITY) (hlen : cs.length = keys.length + 1)
    (hall : cs.all (balH hc) = true) :
    insRootOK hc (insRec (f + 1) (BT.internal keys cs) k v) = true := by
  have hcap : CAPACITY = 11 := rfl
  have hmin : MIN_LEN_AFTER_SPLIT = 5 := rfl
  have hB : B = 6 := rfl
  have hile : routeIdx keys k ≤ keys.length := routeIdx_le keys k
  have hcmem : cs.getD (routeIdx keys k) (BT.leaf []) ∈ cs := by
    rw [List.getD_eq_getElem _ _ (by omega)]
    exact List.getElem_mem _
  have hcbal : balH hc (cs.getD (routeIdx keys k) (BT.leaf [])) = true :=
    balH_all_mem hall hcmem
  have hc1 : 1 ≤ hc := by
    by_contra hcon
    have : hc = 0 := by omega
    rw [this] at hcbal
    simp [balH] at hcbal
  have ihc := insRec_balH k v f hc (cs.getD (routeIdx keys k) (BT.leaf []))
    hhc hcbal
  unfold insRec
  cases hrec : insRec f (cs.getD (routeIdx keys k) (BT.leaf [])) k v with
  | replaced c old =>
    simp only [hrec, insRootOK, rootBal, Bool.and_eq_true, decide_eq_true_eq]
    refine ⟨⟨hlo, hhi, by rw [List.length_set]; omega⟩, ?_⟩
    rw [List.all_eq_true]
    intro z hz
    rcases List.mem_or_eq_of_mem_set hz with hz1 | hz1
    · exact balH_all_mem hall hz1
    · rw [hz1]
      exact ihc.1 c old hrec
  | inserted c =>
    simp only [hrec, insRootOK, rootBal, Bool.and_eq_true, decide_eq_true_eq]
    refine ⟨⟨hlo, hhi, by rw [List.length_set]; omega⟩, ?_⟩
    rw [List.all_eq_true]
    intro z hz
    rcases List.mem_or_eq_of_mem_set hz with hz1 | hz1
    · exact balH_all_mem hall hz1
    · rw [hz1]
      exact ihc.2.1 c hrec
  | split l r sep =>
    obtain ⟨hbl, hbr⟩ := ihc.2.2 l r sep hrec
    have hmemset : ∀ x, x ∈ cs.set (routeIdx keys k) l →
        balH hc x = true := by
      intro x hx
      rcases List.mem_or_eq_of_mem_set hx with hx1 | hx1
      · exact balH_all_mem hall hx1
      · rw [hx1]
        exact hbl
    simp only [hrec]
    by_cases hck : keys.length < CAPACITY
    · rw [if_pos hck]
      simp only [insRootOK, rootBal, Bool.and_eq_true, decide_eq_true_eq]
      have e1 : (keys.insertIdx (routeIdx keys k) sep).length =
          keys.length + 1 := List.length_insertIdx _ _ hile
      have e2 : ((cs.set (routeIdx keys k) l).insertIdx
          (routeIdx keys k + 1) r).length = cs.length + 1 := by
        rw [List.length_insertIdx _ _ (by rw [List.length_set]; omega)]
        rw [List.length_set]
      refine ⟨⟨by omega, by omega, by omega⟩, ?_⟩
      rw [List.all_eq_true]
      intro z hz
      rcases (List.mem_insertIdx (by rw [List.length_set]; omega)).mp hz with
        hz1 | hz1
      · rw [hz1]
        exact hbr
      · exact hmemset z hz1
    · rw [if_neg hck]
      obtain ⟨hcm, rfl⟩ : ∃ hcm, hc = hcm + 1 := ⟨hc - 1, by omega⟩
      by_cases hi : routeIdx keys k ≤ MIN_LEN_AFTER_SPLIT
      · rw [if_pos hi]
        simp only [insRootOK, Bool.and_eq_true]
        constructor
        · simp only [balH, Bool.and_eq_true, decide_eq_true_eq]
          have e1 : ((keys.take MIN_LEN_AFTER_SPLIT).insertIdx
              (routeIdx keys k) sep).length = 6 := by
            rw [List.length_insertIdx _ _ (by rw [List.length_take]; omega),
              List.length_take]
            omega
          have e2 : (((cs.set (routeIdx keys k) l).take B).insertIdx
              (routeIdx keys k + 1) r).length = 7 := by
            rw [List.length_insertIdx _ _
              (by rw [List.length_take, List.length_set]; omega),
              List.length_take, List.length_set]
            omega
          refine ⟨⟨by omega, by omega, by omega⟩, ?_⟩
          rw [List.all_eq_true]
          intro z hz
          rcases (List.mem_insertIdx
            (by rw [List.length_take, List.length_set]; omega)).mp hz with
            hz1 | hz1
          · rw [hz1]
            exact hbr
          · exact hmemset z (List.mem_of_mem_take hz1)
        · simp only [balH, Bool.and_eq_true, decide_eq_true_eq]
          have e1 : (keys.drop B).length = 5 := by
            rw [List.length_drop]
            omega
          have e2 : ((cs.set (routeIdx keys k) l).drop B).length = 6 := by
            rw [List.length_drop, List.length_set]
            omega
          refine ⟨⟨by omega, by omega, by omega⟩, ?_⟩
          rw [List.all_eq_true]
          intro z hz
          exact hmemset z (List.mem_of_mem_drop hz)
      · rw [if_neg hi]
        simp only [insRootOK, Bool.and_eq_true]
        constructor
        · simp only [balH, Bool.and_eq_true, decide_eq_true_eq]
          have e1 : (keys.take MIN_LEN_AFTER_SPLIT).length = 5 := by
            rw [List.length_take]
            omega
          have e2 : ((cs.set (routeIdx keys k) l).take B).length = 6 := by
            rw [List.length_take, List.length_set]
            omega
          refine ⟨⟨by omega, by omega, by omega⟩, ?_⟩
          rw [List.all_eq_true]
          intro z hz
          exact hmemset z (List.mem_of_mem_take hz)
        · simp only [balH, Bool.and_eq_true, decide_eq_true_eq]
          have e1 : ((keys.drop B).insertIdx (routeIdx keys k - B)
              sep).length = 6 := by
            rw [List.length_insertIdx _ _ (by rw [List.length_drop]; omega),
              List.length_drop]
            omega
          have e2 : (((cs.set (routeIdx keys k) l).drop B).insertIdx
              (routeIdx keys k - B + 1) r).length = 7 := by
            rw [List.length_insertIdx _ _
              (by rw [List.length_drop, List.length_set]; omega),
              List.length_drop, List.length_set]
            omega
          refine ⟨⟨by omega, by omega, by omega⟩, ?_⟩
          rw [List.all_eq_true]
          intro z hz
          rcases (List.mem_insertIdx
            (by rw [List.length_drop, List.length_set]; omega)).mp hz with
            hz1 | hz1
          · rw [hz1]
            exact hbr
          · exact hmemset z (List.mem_of_mem_drop hz1)


theorem removeRec_root (k : Nat) (f hc : Nat) (keys : List Nat)
    (cs : List BT) (hhc : hc ≤ f) (hlo : 1 ≤ keys.length)
    (hhi : keys.length ≤ CAPACITY) (hlen : cs.length = keys.length + 1)
    (hall : cs.all (balH hc) = true) :
    resRootOK hc (removeRec (f + 1) (BT.internal keys cs) k) = true := by
  have hcap : CAPACITY = 11 := rfl
  have hmin : MIN_LEN_AFTER_SPLIT = 5 := rfl
  have hile : routeIdx keys k ≤ keys.length := routeIdx_le keys k
  have hcmem : cs.getD (routeIdx keys k) (BT.leaf []) ∈ cs := by
    rw [List.getD_eq_getElem _ _ (by omega)]
    exact List.getElem_mem _
  have hcbal : balH hc (cs.getD (routeIdx keys k) (BT.leaf [])) = true :=
    balH_all_mem hall hcmem
  have ihc := removeRec_resOK k f hc (cs.getD (routeIdx keys k) (BT.leaf []))
    hhc hcbal
  unfold removeRec
  cases hrec : removeRec f (cs.getD (routeIdx keys k) (BT.leaf [])) k with
  | notFound => simp only [hrec, resRootOK]
  | ok c v key0 =>
    rw [hrec] at ihc
    simp only [resOK] at ihc
    simp only [hrec, resRootOK, rootBal, Bool.and_eq_true, decide_eq_true_eq]
    refine ⟨⟨?_, ?_, ?_⟩, ?_⟩
    · rw [applyFin_length]
      omega
    · rw [applyFin_length]
      omega
    · rw [List.length_set, applyFin_length]
      omega
    · rw [List.all_eq_true]
      intro z hz
      rcases List.mem_or_eq_of_mem_set hz with hz1 | hz1
      · exact balH_all_mem hall hz1
      · rw [hz1]
        exact ihc
  | under c v key0 =>
    rw [hrec] at ihc
    simp only [resOK] at ihc
    simp only [hrec]
    rcases underH_shape ihc with ⟨kvs4, hh1, hcs, hlen4⟩ |
      ⟨h3, ck, cc, hh2, hcs, hck, hcc, hccall⟩
    · subst hh1
      subst hcs
      simp only []
      by_cases hi0 : 0 < routeIdx keys k
      · have hLmem : cs.getD (routeIdx keys k - 1) (BT.leaf []) ∈ cs := by
          rw [List.getD_eq_getElem _ _ (by omega)]
          exact List.getElem_mem _
        obtain ⟨Lkvs, hLs, hLlo, hLhi⟩ :=
          balH_one_leaf (balH_all_mem hall hLmem)
        rw [if_pos hi0, hLs]
        simp only [leafKvs]
        by_cases hsl : MIN_LEN_AFTER_SPLIT < Lkvs.length
        · rw [if_pos hsl]
          simp only [resRootOK, rootBal, Bool.and_eq_true, decide_eq_true_eq]
          refine ⟨⟨?_, ?_, ?_⟩, ?_⟩
          · simp only [List.length_eraseIdx, applyFin_length, List.length_set,
              List.length_append, List.length_cons, List.length_nil,
              List.length_tail, List.length_dropLast]
            first
            | (split_ifs <;> omega)
            | omega
          · simp only [List.length_eraseIdx, applyFin_length, List.length_set,
              List.length_append, List.length_cons, List.length_nil,
              List.length_tail, List.length_dropLast]
            first
            | (split_ifs <;> omega)
            | omega
          · simp only [List.length_eraseIdx, applyFin_length, List.length_set,
              List.length_append, List.length_cons, List.length_nil,
              List.length_tail, List.length_dropLast]
            first
            | (split_ifs <;> omega)
            | omega
          · refine all_balH_set2 _ _ _ _ _ _ hall ?_ ?_ <;>
              simp only [balH, decide_eq_true_eq] <;>
              · simp only [List.length_eraseIdx, applyFin_length, List.length_set,
                  List.length_append, List.length_cons, List.length_nil,
                  List.length_tail, List.length_dropLast]
                first
                | (split_ifs <;> omega)
                | omega
        · rw [if_neg hsl]
          by_cases hir : routeIdx keys k < keys.length - 1
          · have hRmem : cs.getD (routeIdx keys k + 1) (BT.leaf []) ∈ cs := by
              rw [List.getD_eq_getElem _ _ (by omega)]
              exact List.getElem_mem _
            obtain ⟨Rkvs, hRs, hRlo, hRhi⟩ :=
              balH_one_leaf (balH_all_mem hall hRmem)
            rw [if_pos hir, hRs]
            simp only [leafKvs]
            by_cases hsr : MIN_LEN_AFTER_SPLIT < Rkvs.length
            · rw [if_pos hsr]
              simp only [resRootOK, rootBal, Bool.and_eq_true,
                decide_eq_true_eq]
              refine ⟨⟨?_, ?_, ?_⟩, ?_⟩
              · simp only [List.length_eraseIdx, applyFin_length, List.length_set,
                  List.length_append, List.length_cons, List.length_nil,
                  List.length_tail, List.length_dropLast]
                first
                | (split_ifs <;> omega)
                | omega
              · simp only [List.length_eraseIdx, applyFin_length, List.length_set,
                  List.length_append, List.length_cons, List.length_nil,
                  List.length_tail, List.length_dropLast]
                first
                | (split_ifs <;> omega)
                | omega
              · simp only [List.length_eraseIdx, applyFin_length, List.length_set,
                  List.length_append, List.length_cons, List.length_nil,
                  List.length_tail, List.length_dropLast]
                first
                | (split_ifs <;> omega)
                | omega
              · refine all_balH_set2 _ _ _ _ _ _ hall ?_ ?_ <;>
                  simp only [balH, decide_eq_true_eq] <;>
                  · simp only [List.length_eraseIdx, applyFin_length, List.length_set,
                      List.length_append, List.length_cons, List.length_nil,
                      List.length_tail, List.length_dropLast]
                    first
                    | (split_ifs <;> omega)
                    | omega
            · rw [if_neg hsr]
              by_cases hkl : MIN_LEN_AFTER_SPLIT < keys.length
              · rw [if_pos hkl]
                simp only [resRootOK, rootBal, Bool.and_eq_true,
                  decide_eq_true_eq]
                refine ⟨⟨?_, ?_, ?_⟩, ?_⟩
                · simp only [List.length_eraseIdx, applyFin_length, List.length_set,
                    List.length_append, List.length_cons, List.length_nil,
                    List.length_tail, List.length_dropLast]
                  first
                  | (split_ifs <;> omega)
                  | omega
                · simp only [List.length_eraseIdx, applyFin_length, List.length_set,
                    List.length_append, List.length_cons, List.length_nil,
                    List.length_tail, List.length_dropLast]
                  first
                  | (split_ifs <;> omega)
                  | omega
                · simp only [List.length_eraseIdx, applyFin_length, List.length_set,
                    List.length_append, List.length_cons, List.length_nil,
                    List.length_tail, List.length_dropLast]
                  first
                  | (split_ifs <;> omega)
                  | omega
                · refine all_balH_set_erase _ _ _ _ _ hall ?_
                  simp only [balH, decide_eq_true_eq]
                  simp only [List.length_eraseIdx, applyFin_length, List.length_set,
                    List.length_append, List.length_cons, List.length_nil,
                    List.length_tail, List.length_dropLast]
                  first
                  | (split_ifs <;> omega)
                  | omega
              · rw [if_neg hkl]
                simp only [resRootOK, underRoot, Bool.and_eq_true,
                  decide_eq_true_eq]
                refine ⟨⟨?_, ?_⟩, ?_⟩
                · simp only [List.length_eraseIdx, applyFin_length, List.length_set,
                    List.length_append, List.length_cons, List.length_nil,
                    List.length_tail, List.length_dropLast]
                  first
                  | (split_ifs <;> omega)
                  | omega
                · simp only [List.length_eraseIdx, applyFin_length, List.length_set,
                    List.length_append, List.length_cons, List.length_nil,
                    List.length_tail, List.length_dropLast]
                  first
                  | (split_ifs <;> omega)
                  | omega
                · refine all_balH_set_erase _ _ _ _ _ hall ?_
                  simp only [balH, decide_eq_true_eq]
                  simp only [List.length_eraseIdx, applyFin_length, List.length_set,
                    List.length_append, List.length_cons, List.length_nil,
                    List.length_tail, List.length_dropLast]
                  first
                  | (split_ifs <;> omega)
                  | omega
          · rw [if_neg hir]
            by_cases hkl : MIN_LEN_AFTER_SPLIT < keys.length
            · rw [if_pos hkl]
              simp only [resRootOK, rootBal, Bool.and_eq_true,
                decide_eq_true_eq]
              refine ⟨⟨?_, ?_, ?_⟩, ?_⟩
              · simp only [List.length_eraseIdx, applyFin_length, List.length_set,
                  List.length_append, List.length_cons, List.length_nil,
                  List.length_tail, List.length_dropLast]
                first
                | (split_ifs <;> omega)
                | omega
              · simp only [List.length_eraseIdx, applyFin_length, List.length_set,
                  List.length_append, List.length_cons, List.length_nil,
                  List.length_tail, List.length_dropLast]
                first
                | (split_ifs <;> omega)
                | omega
              · simp only [List.length_eraseIdx, applyFin_length, List.length_set,
                  List.length_append, List.length_cons, List.length_nil,
                  List.length_tail, List.length_dropLast]
                first
                | (split_ifs <;> omega)
                | omega
              · refine all_balH_set_erase _ _ _ _ _ hall ?_
                simp only [balH, decide_eq_true_eq]
                simp only [List.length_eraseIdx, applyFin_length, List.length_set,
                  List.length_append, List.length_cons, List.length_nil,
                  List.length_tail, List.length_dropLast]
                first
                | (split_ifs <;> omega)
                | omega
            · rw [if_neg hkl]
              simp only [resRootOK, underRoot, Bool.and_eq_true,
                decide_eq_true_eq]
              refine ⟨⟨?_, ?_⟩, ?_⟩
              · simp only [List.length_eraseIdx, applyFin_length, List.length_set,
                  List.length_append, List.length_cons, List.length_nil,
                  List.length_tail, List.length_dropLast]
                first
                | (split_ifs <;> omega)
                | omega
              · simp only [List.length_eraseIdx, applyFin_length, List.length_set,
                  List.length_append, List.length_cons, List.length_nil,
                  List.length_tail, List.length_dropLast]
                first
                | (split_ifs <;> omega)
                | omega
              · refine all_balH_set_erase _ _ _ _ _ hall ?_
                simp only [balH, decide_eq_true_eq]
                simp only [List.length_eraseIdx, applyFin_length, List.length_set,
                  List.length_append, List.length_cons, List.length_nil,
                  List.length_tail, List.length_dropLast]
                first
                | (split_ifs <;> omega)
                | omega
      · have hRmem : cs.getD 1 (BT.leaf []) ∈ cs := by
          rw [List.getD_eq_getElem _ _ (by omega)]
          exact List.getElem_mem _
        obtain ⟨Rkvs, hRs, hRlo, hRhi⟩ :=
          balH_one_leaf (balH_all_mem hall hRmem)
        rw [if_neg hi0, hRs]
        simp only [leafKvs]
        by_cases hsr : MIN_LEN_AFTER_SPLIT < Rkvs.length
        · rw [if_pos hsr]
          simp only [resRootOK, rootBal, Bool.and_eq_true, decide_eq_true_eq]
          refine ⟨⟨?_, ?_, ?_⟩, ?_⟩
          · simp only [List.length_eraseIdx, applyFin_length, List.length_set,
              List.length_append, List.length_cons, List.length_nil,
              List.length_tail, List.length_dropLast]
            first
            | (split_ifs <;> omega)
            | omega
          · simp only [List.length_eraseIdx, applyFin_length, List.length_set,
              List.length_append, List.length_cons, List.length_nil,
              List.length_tail, List.length_dropLast]
            first
            | (split_ifs <;> omega)
            | omega
          · simp only [List.length_eraseIdx, applyFin_length, List.length_set,
              List.length_append, List.length_cons, List.length_nil,
              List.length_tail, List.length_dropLast]
            first
            | (split_ifs <;> omega)
            | omega
          · refine all_balH_set2 _ _ _ _ _ _ hall ?_ ?_ <;>
              simp only [balH, decide_eq_true_eq] <;>
              · simp only [List.length_eraseIdx, applyFin_length, List.length_set,
                  List.length_append, List.length_cons, List.length_nil,
                  List.length_tail, List.length_dropLast]
                first
                | (split_ifs <;> omega)
                | omega
        · rw [if_neg hsr]
          by_cases hkl : MIN_LEN_AFTER_SPLIT < keys.length
          · rw [if_pos hkl]
            simp only [resRootOK, rootBal, Bool.and_eq_true,
              decide_eq_true_eq]
            refine ⟨⟨?_, ?_, ?_⟩, ?_⟩
            · simp only [List.length_eraseIdx, applyFin_length, List.length_set,
                List.length_append, List.length_cons, List.length_nil,
                List.length_tail, List.length_dropLast]
              first
              | (split_ifs <;> omega)
              | omega
            · simp only [List.length_eraseIdx, applyFin_length, List.length_set,
                List.length_append, List.length_cons, List.length_nil,
                List.length_tail, List.length_dropLast]
              first
              | (split_ifs <;> omega)
              | omega
            · simp only [List.length_eraseIdx, applyFin_length, List.length_set,
                List.length_append, List.length_cons, List.length_nil,
                List.length_tail, List.length_dropLast]
              first
              | (split_ifs <;> omega)
              | omega
            · refine all_balH_set_erase _ _ _ _ _ hall ?_
              simp only [balH, decide_eq_true_eq]
              simp only [List.length_eraseIdx, applyFin_length, List.length_set,
                List.length_append, List.length_cons, List.length_nil,
                List.length_tail, List.length_dropLast]
              first
              | (split_ifs <;> omega)
              | omega
          · rw [if_neg hkl]
            simp only [resRootOK, underRoot, Bool.and_eq_true,
              decide_eq_true_eq]
            refine ⟨⟨?_, ?_⟩, ?_⟩
            · simp only [List.length_eraseIdx, applyFin_length, List.length_set,
                List.length_append, List.length_cons, List.length_nil,
                List.length_tail, List.length_dropLast]
              first
              | (split_ifs <;> omega)
              | omega
            · simp only [List.length_eraseIdx, applyFin_length, List.length_set,
                List.length_append, List.length_cons, List.length_nil,
                List.length_tail, List.length_dropLast]
              first
              | (split_ifs <;> omega)
              | omega
            · refine all_balH_set_erase _ _ _ _ _ hall ?_
              simp only [balH, decide_eq_true_eq]
              simp only [List.length_eraseIdx, applyFin_length, List.length_set,
                List.length_append, List.length_cons, List.length_nil,
                List.length_tail, List.length_dropLast]
              first
              | (split_ifs <;> omega)
              | omega
    · subst hh2
      subst hcs
      simp only []
      by_cases hi0 : 0 < routeIdx keys k
      · have hLmem : cs.getD (routeIdx keys k - 1) (BT.leaf []) ∈ cs := by
          rw [List.getD_eq_getElem _ _ (by omega)]
          exact List.getElem_mem _
        obtain ⟨Lk, Lc, hLs, hLlo, hLhi, hLcc, hLall⟩ :=
          balH_two_internal (balH_all_mem hall hLmem)
        have hLcne : Lc ≠ [] := by
          intro hc2
          rw [hc2] at hLcc
          simp at hLcc
        rw [if_pos hi0, hLs]
        simp only [intKeys, intChildren]
        by_cases hsl : MIN_LEN_AFTER_SPLIT < Lk.length
        · rw [if_pos hsl]
          simp only [resRootOK, rootBal, Bool.and_eq_true, decide_eq_true_eq]
          refine ⟨⟨?_, ?_, ?_⟩, ?_⟩
          · simp only [List.length_eraseIdx, applyFin_length, List.length_set,
              List.length_append, List.length_cons, List.length_nil,
              List.length_tail, List.length_dropLast]
            first
            | (split_ifs <;> omega)
            | omega
          · simp only [List.length_eraseIdx, applyFin_length, List.length_set,
              List.length_append, List.length_cons, List.length_nil,
              List.length_tail, List.length_dropLast]
            first
            | (split_ifs <;> omega)
            | omega
          · simp only [List.length_eraseIdx, applyFin_length, List.length_set,
              List.length_append, List.length_cons, List.length_nil,
              List.length_tail, List.length_dropLast]
            first
            | (split_ifs <;> omega)
            | omega
          · refine all_balH_set2 _ _ _ _ _ _ hall ?_ ?_
            · simp only [balH, Bool.and_eq_true, decide_eq_true_eq]
              refine ⟨⟨?_, ?_, ?_⟩, ?_⟩
              · simp only [List.length_eraseIdx, applyFin_length, List.length_set,
                  List.length_append, List.length_cons, List.length_nil,
                  List.length_tail, List.length_dropLast]
                first
                | (split_ifs <;> omega)
                | omega
              · simp only [List.length_eraseIdx, applyFin_length, List.length_set,
                  List.length_append, List.length_cons, List.length_nil,
                  List.length_tail, List.length_dropLast]
                first
                | (split_ifs <;> omega)
                | omega
              · simp only [List.length_eraseIdx, applyFin_length, List.length_set,
                  List.length_append, List.length_cons, List.length_nil,
                  List.length_tail, List.length_dropLast]
                first
                | (split_ifs <;> omega)
                | omega
              · rw [List.all_eq_true]
                intro z hz
                exact balH_all_mem hLall (List.mem_of_mem_dropLast hz)
            · simp only [balH, Bool.and_eq_true, decide_eq_true_eq]
              refine ⟨⟨?_, ?_, ?_⟩, ?_⟩
              · simp only [List.length_eraseIdx, applyFin_length, List.length_set,
                  List.length_append, List.length_cons, List.length_nil,
                  List.length_tail, List.length_dropLast]
                first
                | (split_ifs <;> omega)
                | omega
              · simp only [List.length_eraseIdx, applyFin_length, List.length_set,
                  List.length_append, List.length_cons, List.length_nil,
                  List.length_tail, List.length_dropLast]
                first
                | (split_ifs <;> omega)
                | omega
              · simp only [List.length_eraseIdx, applyFin_length, List.length_set,
                  List.length_append, List.length_cons, List.length_nil,
                  List.length_tail, List.length_dropLast]
                first
                | (split_ifs <;> omega)
                | omega
              · rw [List.all_eq_true]
                intro z hz
                rcases List.mem_cons.mp hz with hz1 | hz1
                · rw [hz1]
                  exact balH_all_mem hLall (getLastD_mem _ _ hLcne)
                · exact balH_all_mem hccall hz1
        · rw [if_neg hsl]
          by_cases hir : routeIdx keys k < keys.length - 1
          · have hRmem : cs.getD (routeIdx keys k + 1) (BT.leaf []) ∈ cs := by
              rw [List.getD_eq_getElem _ _ (by omega)]
              exact List.getElem_mem _
            obtain ⟨Rk, Rc, hRs, hRlo, hRhi, hRcc, hRall⟩ :=
              balH_two_internal (balH_all_mem hall hRmem)
            have hRcne : Rc ≠ [] := by
              intro hc2
              rw [hc2] at hRcc
              simp at hRcc
            rw [if_pos hir, hRs]
            simp only [intKeys, intChildren]
            by_cases hsr : MIN_LEN_AFTER_SPLIT < Rk.length
            · rw [if_pos hsr]
              simp only [resRootOK, rootBal, Bool.and_eq_true,
                decide_eq_true_eq]
              refine ⟨⟨?_, ?_, ?_⟩, ?_⟩
              · simp only [List.length_eraseIdx, applyFin_length, List.length_set,
                  List.length_append, List.length_cons, List.length_nil,
                  List.length_tail, List.length_dropLast]
                first
                | (split_ifs <;> omega)
                | omega
              · simp only [List.length_eraseIdx, applyFin_length, List.length_set,
                  List.length_append, List.length_cons, List.length_nil,
                  List.length_tail, List.length_dropLast]
                first
                | (split_ifs <;> omega)
                | omega
              · simp only [List.length_eraseIdx, applyFin_length, List.length_set,
                  List.length_append, List.length_cons, List.length_nil,
                  List.length_tail, List.length_dropLast]
                first
                | (split_ifs <;> omega)
                | omega
              · refine all_balH_set2 _ _ _ _ _ _ hall ?_ ?_
                · simp only [balH, Bool.and_eq_true, decide_eq_true_eq]
                  refine ⟨⟨?_, ?_, ?_⟩, ?_⟩
                  · simp only [List.length_eraseIdx, applyFin_length, List.length_set,
                      List.length_append, List.length_cons, List.length_nil,
                      List.length_tail, List.length_dropLast]
                    first
                    | (split_ifs <;> omega)
                    | omega
                  · simp only [List.length_eraseIdx, applyFin_length, List.length_set,
                      List.length_append, List.length_cons, List.length_nil,
                      List.length_tail, List.length_dropLast]
                    first
                    | (split_ifs <;> omega)
                    | omega
                  · simp only [List.length_eraseIdx, applyFin_length, List.length_set,
                      List.length_append, List.length_cons, List.length_nil,
                      List.length_tail, List.length_dropLast]
                    first
                    | (split_ifs <;> omega)
                    | omega
                  · rw [List.all_eq_true]
                    intro z hz
                    rcases List.mem_append.mp hz with hz1 | hz1
                    · exact balH_all_mem hccall hz1
                    · rcases List.mem_cons.mp hz1 with hz2 | hz2
                      · rw [hz2]
                        exact balH_all_mem hRall (headD_mem _ _ hRcne)
                      · simp at hz2
                · simp only [balH, Bool.and_eq_true, decide_eq_true_eq]
                  refine ⟨⟨?_, ?_, ?_⟩, ?_⟩
                  · simp only [List.length_eraseIdx, applyFin_length, List.length_set,
                      List.length_append, List.length_cons, List.length_nil,
                      List.length_tail, List.length_dropLast]
                    first
                    | (split_ifs <;> omega)
                    | omega
                  · simp only [List.length_eraseIdx, applyFin_length, List.length_set,
                      List.length_append, List.length_cons, List.length_nil,
                      List.length_tail, List.length_dropLast]
                    first
                    | (split_ifs <;> omega)
                    | omega
                  · simp only [List.length_eraseIdx, applyFin_length, List.length_set,
                      List.length_append, List.length_cons, List.length_nil,
                      List.length_tail, List.length_dropLast]
                    first
                    | (split_ifs <;> omega)
                    | omega
                  · rw [List.all_eq_true]
                    intro z hz
                    exact balH_all_mem hRall (List.mem_of_mem_tail hz)
            · rw [if_neg hsr]
              have hmerged : balH (h3 + 2)
                  (BT.internal (ck ++ keys.getD (routeIdx keys k) 0 :: Rk)
                    (cc ++ Rc)) = true := by
                simp only [balH, Bool.and_eq_true, decide_eq_true_eq]
                refine ⟨⟨?_, ?_, ?_⟩, ?_⟩
                · simp only [List.length_eraseIdx, applyFin_length, List.length_set,
                    List.length_append, List.length_cons, List.length_nil,
                    List.length_tail, List.length_dropLast]
                  first
                  | (split_ifs <;> omega)
                  | omega
                · simp only [List.length_eraseIdx, applyFin_length, List.length_set,
                    List.length_append, List.length_cons, List.length_nil,
                    List.length_tail, List.length_dropLast]
                  first
                  | (split_ifs <;> omega)
                  | omega
                · simp only [List.length_eraseIdx, applyFin_length, List.length_set,
                    List.length_append, List.length_cons, List.length_nil,
                    List.length_tail, List.length_dropLast]
                  first
                  | (split_ifs <;> omega)
                  | omega
                · rw [List.all_eq_true]
                  intro z hz
                  rcases List.mem_append.mp hz with hz1 | hz1
                  · exact balH_all_mem hccall hz1
                  · exact balH_all_mem hRall hz1
              by_cases hkl : MIN_LEN_AFTER_SPLIT < keys.length
              · rw [if_pos hkl]
                simp only [resRootOK, rootBal, Bool.and_eq_true,
                  decide_eq_true_eq]
                refine ⟨⟨?_, ?_, ?_⟩, ?_⟩
                · simp only [List.length_eraseIdx, applyFin_length, List.length_set,
                    List.length_append, List.length_cons, List.length_nil,
                    List.length_tail, List.length_dropLast]
                  first
                  | (split_ifs <;> omega)
                  | omega
                · simp only [List.length_eraseIdx, applyFin_length, List.length_set,
                    List.length_append, List.length_cons, List.length_nil,
                    List.length_tail, List.length_dropLast]
                  first
                  | (split_ifs <;> omega)
                  | omega
                · simp only [List.length_eraseIdx, applyFin_length, List.length_set,
                    List.length_append, List.length_cons, List.length_nil,
                    List.length_tail, List.length_dropLast]
                  first
                  | (split_ifs <;> omega)
                  | omega
                · exact all_balH_set_erase _ _ _ _ _ hall hmerged
              · rw [if_neg hkl]
                simp only [resRootOK, underRoot, Bool.and_eq_true,
                  decide_eq_true_eq]
                refine ⟨⟨?_, ?_⟩, ?_⟩
                · simp only [List.length_eraseIdx, applyFin_length, List.length_set,
                    List.length_append, List.length_cons, List.length_nil,
                    List.length_tail, List.length_dropLast]
                  first
                  | (split_ifs <;> omega)
                  | omega
                · simp only [List.length_eraseIdx, applyFin_length, List.length_set,
                    List.length_append, List.length_cons, List.length_nil,
                    List.length_tail, List.length_dropLast]
                  first
                  | (split_ifs <;> omega)
                  | omega
                · exact all_balH_set_erase _ _ _ _ _ hall hmerged
          · rw [if_neg hir]
            have hmerged : balH (h3 + 2)
                (BT.internal (Lk ++ keys.getD (routeIdx keys k - 1) 0 :: ck)
                  (Lc ++ cc)) = true := by
              simp only [balH, Bool.and_eq_true, decide_eq_true_eq]
              refine ⟨⟨?_, ?_, ?_⟩, ?_⟩
              · simp only [List.length_eraseIdx, applyFin_length, List.length_set,
                  List.length_append, List.length_cons, List.length_nil,
                  List.length_tail, List.length_dropLast]
                first
                | (split_ifs <;> omega)
                | omega
              · simp only [List.length_eraseIdx, applyFin_length, List.length_set,
                  List.length_append, List.length_cons, List.length_nil,
                  List.length_tail, List.length_dropLast]
                first
                | (split_ifs <;> omega)
                | omega
              · simp only [List.length_eraseIdx, applyFin_length, List.length_set,
                  List.length_append, List.length_cons, List.length_nil,
                  List.length_tail, List.length_dropLast]
                first
                | (split_ifs <;> omega)
                | omega
              · rw [List.all_eq_true]
                intro z hz
                rcases List.mem_append.mp hz with hz1 | hz1
                · exact balH_all_mem hLall hz1
                · exact balH_all_mem hccall hz1
            by_cases hkl : MIN_LEN_AFTER_SPLIT < keys.length
            · rw [if_pos hkl]
              simp only [resRootOK, rootBal, Bool.and_eq_true,
                decide_eq_true_eq]
              refine ⟨⟨?_, ?_, ?_⟩, ?_⟩
              · simp only [List.length_eraseIdx, applyFin_length, List.length_set,
                  List.length_append, List.length_cons, List.length_nil,
                  List.length_tail, List.length_dropLast]
                first
                | (split_ifs <;> omega)
                | omega
              · simp only [List.length_eraseIdx, applyFin_length, List.length_set,
                  List.length_append, List.length_cons, List.length_nil,
                  List.length_tail, List.length_dropLast]
                first
                | (split_ifs <;> omega)
                | omega
              · simp only [List.length_eraseIdx, applyFin_length, List.length_set,
                  List.length_append, List.length_cons, List.length_nil,
                  List.length_tail, List.length_dropLast]
                first
                | (split_ifs <;> omega)
                | omega
              · exact all_balH_set_erase _ _ _ _ _ hall hmerged
            · rw [if_neg hkl]
              simp only [resRootOK, underRoot, Bool.and_eq_true,
                decide_eq_true_eq]
              refine ⟨⟨?_, ?_⟩, ?_⟩
              · simp only [List.length_eraseIdx, applyFin_length, List.length_set,
                  List.length_append, List.length_cons, List.length_nil,
                  List.length_tail, List.length_dropLast]
                first
                | (split_ifs <;> omega)
                | omega
              · simp only [List.length_eraseIdx, applyFin_length, List.length_set,
                  List.length_append, List.length_cons, List.length_nil,
                  List.length_tail, List.length_dropLast]
                first
                | (split_ifs <;> omega)
                | omega
              · exact all_balH_set_erase _ _ _ _ _ hall hmerged
      · have hRmem : cs.getD 1 (BT.leaf []) ∈ cs := by
          rw [List.getD_eq_getElem _ _ (by omega)]
          exact List.getElem_mem _
        obtain ⟨Rk, Rc, hRs, hRlo, hRhi, hRcc, hRall⟩ :=
          balH_two_internal (balH_all_mem hall hRmem)
        have hRcne : Rc ≠ [] := by
          intro hc2
          rw [hc2] at hRcc
          simp at hRcc
        rw [if_neg hi0, hRs]
        simp only [intKeys, intChildren]
        by_cases hsr : MIN_LEN_AFTER_SPLIT < Rk.length
        · rw [if_pos hsr]
          simp only [resRootOK, rootBal, Bool.and_eq_true, decide_eq_true_eq]
          refine ⟨⟨?_, ?_, ?_⟩, ?_⟩
          · simp only [List.length_eraseIdx, applyFin_length, List.length_set,
              List.length_append, List.length_cons, List.length_nil,
              List.length_tail, List.length_dropLast]
            first
            | (split_ifs <;> omega)
            | omega
          · simp only [List.length_eraseIdx, applyFin_length, List.length_set,
              List.length_append, List.length_cons, List.length_nil,
              List.length_tail, List.length_dropLast]
            first
            | (split_ifs <;> omega)
            | omega
          · simp only [List.length_eraseIdx, applyFin_length, List.length_set,
              List.length_append, List.length_cons, List.length_nil,
              List.length_tail, List.length_dropLast]
            first
            | (split_ifs <;> omega)
            | omega
          · refine all_balH_set2 _ _ _ _ _ _ hall ?_ ?_
            · simp only [balH, Bool.and_eq_true, decide_eq_true_eq]
              refine ⟨⟨?_, ?_, ?_⟩, ?_⟩
              · simp only [List.length_eraseIdx, applyFin_length, List.length_set,
                  List.length_append, List.length_cons, List.length_nil,
                  List.length_tail, List.length_dropLast]
                first
                | (split_ifs <;> omega)
                | omega
              · simp only [List.length_eraseIdx, applyFin_length, List.length_set,
                  List.length_append, List.length_cons, List.length_nil,
                  List.length_tail, List.length_dropLast]
                first
                | (split_ifs <;> omega)
                | omega
              · simp only [List.length_eraseIdx, applyFin_length, List.length_set,
                  List.length_append, List.length_cons, List.length_nil,
                  List.length_tail, List.length_dropLast]
                first
                | (split_ifs <;> omega)
                | omega
              · rw [List.all_eq_true]
                intro z hz
                rcases List.mem_append.mp hz with hz1 | hz1
                · exact balH_all_mem hccall hz1
                · rcases List.mem_cons.mp hz1 with hz2 | hz2
                  · rw [hz2]
                    exact balH_all_mem hRall (headD_mem _ _ hRcne)
                  · simp at hz2
            · simp only [balH, Bool.and_eq_true, decide_eq_true_eq]
              refine ⟨⟨?_, ?_, ?_⟩, ?_⟩
              · simp only [List.length_eraseIdx, applyFin_length, List.length_set,
                  List.length_append, List.length_cons, List.length_nil,
                  List.length_tail, List.length_dropLast]
                first
                | (split_ifs <;> omega)
                | omega
              · simp only [List.length_eraseIdx, applyFin_length, List.length_set,
                  List.length_append, List.length_cons, List.length_nil,
                  List.length_tail, List.length_dropLast]
                first
                | (split_ifs <;> omega)
                | omega
              · simp only [List.length_eraseIdx, applyFin_length, List.length_set,
                  List.length_append, List.length_cons, List.length_nil,
                  List.length_tail, List.length_dropLast]
                first
                | (split_ifs <;> omega)
                | omega
              · rw [List.all_eq_true]
                intro z hz
                exact balH_all_mem hRall (List.mem_of_mem_tail hz)
        · rw [if_neg hsr]
          have hmerged : balH (h3 + 2)
              (BT.internal (ck ++ keys.getD 0 0 :: Rk) (cc ++ Rc)) = true := by
            simp only [balH, Bool.and_eq_true, decide_eq_true_eq]
            refine ⟨⟨?_, ?_, ?_⟩, ?_⟩
            · simp only [List.length_eraseIdx, applyFin_length, List.length_set,
                List.length_append, List.length_cons, List.length_nil,
                List.length_tail, List.length_dropLast]
              first
              | (split_ifs <;> omega)
              | omega
            · simp only [List.length_eraseIdx, applyFin_length, List.length_set,
                List.length_append, List.length_cons, List.length_nil,
                List.length_tail, List.length_dropLast]
              first
              | (split_ifs <;> omega)
              | omega
            · simp only [List.length_eraseIdx, applyFin_length, List.length_set,
                List.length_append, List.length_cons, List.length_nil,
                List.length_tail, List.length_dropLast]
              first
              | (split_ifs <;> omega)
              | omega
            · rw [List.all_eq_true]
              intro z hz
              rcases List.mem_append.mp hz with hz1 | hz1
              · exact balH_all_mem hccall hz1
              · exact balH_all_mem hRall hz1
          by_cases hkl : MIN_LEN_AFTER_SPLIT < keys.length
          · rw [if_pos hkl]
            simp only [resRootOK, rootBal, Bool.and_eq_true,
              decide_eq_true_eq]
            refine ⟨⟨?_, ?_, ?_⟩, ?_⟩
            · simp only [List.length_eraseIdx, applyFin_length, List.length_set,
                List.length_append, List.length_cons, List.length_nil,
                List.length_tail, List.length_dropLast]
              first
              | (split_ifs <;> omega)
              | omega
            · simp only [List.length_eraseIdx, applyFin_length, List.length_set,
                List.length_append, List.length_cons, List.length_nil,
                List.length_tail, List.length_dropLast]
              first
              | (split_ifs <;> omega)
              | omega
            · simp only [List.length_eraseIdx, applyFin_length, List.length_set,
                List.length_append, List.length_cons, List.length_nil,
                List.length_tail, List.length_dropLast]
              first
              | (split_ifs <;> omega)
              | omega
            · exact all_balH_set_erase _ _ _ _ _ hall hmerged
          · rw [if_neg hkl]
            simp only [resRootOK, underRoot, Bool.and_eq_true,
              decide_eq_true_eq]
            refine ⟨⟨?_, ?_⟩, ?_⟩
            · simp only [List.length_eraseIdx, applyFin_length, List.length_set,
                List.length_append, List.length_cons, List.length_nil,
                List.length_tail, List.length_dropLast]
              first
              | (split_ifs <;> omega)
              | omega
            · simp only [List.length_eraseIdx, applyFin_length, List.length_set,
                List.length_append, List.length_cons, List.length_nil,
                List.length_tail, List.length_dropLast]
              first
              | (split_ifs <;> omega)
              | omega
            · exact all_balH_set_erase _ _ _ _ _ hall hmerged


/-- C6 (amended): every insert and every remove performed on a map whose
pending rebalancing `_stack` is empty preserves the node-length
discipline — every non-root node keeps between MIN_LEN_AFTER_SPLIT and
CAPACITY entries, a root internal node keeps 1..CAPACITY separators,
while the root leaf of a small map may hold 0..CAPACITY entries (0 is
reachable, see the counterexample).  The empty-stack proviso matters: the
source keeps `_stack` across calls and several paths return with frames
still pushed, after which a later call consumes the stale frames and can
corrupt the tree (see btree_stale_stack_breaks_insert_get). -/
theorem btree_balance_after_ops (f hc k v k2 : Nat) (m : SMap)
    (hhc : hc ≤ f) (hbal : balRoot hc m = true) :
    (∃ hc2, balRoot hc2 (insert (f + 1) m k v).1 = true) ∧
    (∃ hc3, balRoot hc3 (remove (f + 1) m k2).1 = true) := by
  have hcap : CAPACITY = 11 := rfl
  have hmin : MIN_LEN_AFTER_SPLIT = 5 := rfl
  constructor
  · -- insert
    cases hroot : m.root with
    | none =>
      have hok := insRec_root_leaf k v f [] (by decide)
      unfold insert get_or_create_root
      rw [hroot]
      simp only []
      cases hres : insRec (f + 1) (BT.leaf []) k v with
      | replaced t old =>
        rw [hres] at hok
        simp only [insRootOK] at hok
        exact ⟨0, by simp only [balRoot]; exact hok⟩
      | inserted t =>
        rw [hres] at hok
        simp only [insRootOK] at hok
        exact ⟨0, by simp only [balRoot]; exact hok⟩
      | split l r sep =>
        rw [hres] at hok
        simp only [insRootOK, Bool.and_eq_true] at hok
        refine ⟨1, ?_⟩
        simp only [balRoot, rootBal, Bool.and_eq_true, decide_eq_true_eq,
          List.all_cons, List.all_nil, Bool.and_true, List.length_cons,
          List.length_nil]
        exact ⟨⟨by omega, by omega, trivial⟩, hok.1, hok.2⟩
    | some t0 =>
      match t0 with
      | BT.leaf kvs =>
        have hle : kvs.length ≤ CAPACITY := by
          rw [balRoot, hroot] at hbal
          simpa [rootBal] using hbal
        have hok := insRec_root_leaf k v f kvs hle
        unfold insert get_or_create_root
        rw [hroot]
        simp only []
        cases hres : insRec (f + 1) (BT.leaf kvs) k v with
        | replaced t old =>
          rw [hres] at hok
          simp only [insRootOK] at hok
          exact ⟨0, by simp only [balRoot]; exact hok⟩
        | inserted t =>
          rw [hres] at hok
          simp only [insRootOK] at hok
          exact ⟨0, by simp only [balRoot]; exact hok⟩
        | split l r sep =>
          rw [hres] at hok
          simp only [insRootOK, Bool.and_eq_true] at hok
          refine ⟨1, ?_⟩
          simp only [balRoot, rootBal, Bool.and_eq_true, decide_eq_true_eq,
            List.all_cons, List.all_nil, Bool.and_true, List.length_cons,
            List.length_nil]
          exact ⟨⟨by omega, by omega, trivial⟩, hok.1, hok.2⟩
      | BT.internal keys cs =>
        have hb2 : rootBal hc (BT.internal keys cs) = true := by
          rw [balRoot, hroot] at hbal
          exact hbal
        simp only [rootBal, Bool.and_eq_true, decide_eq_true_eq] at hb2
        have hok := insRec_root_internal k v f hc keys cs hhc hb2.1.1
          hb2.1.2.1 hb2.1.2.2 hb2.2
        unfold insert get_or_create_root
        rw [hroot]
        simp only []
        cases hres : insRec (f + 1) (BT.internal keys cs) k v with
        | replaced t old =>
          rw [hres] at hok
          simp only [insRootOK] at hok
          exact ⟨hc, by simp only [balRoot]; exact hok⟩
        | inserted t =>
          rw [hres] at hok
          simp only [insRootOK] at hok
          exact ⟨hc, by simp only [balRoot]; exact hok⟩
        | split l r sep =>
          rw [hres] at hok
          simp only [insRootOK, Bool.and_eq_true] at hok
          refine ⟨hc + 1, ?_⟩
          simp only [balRoot, rootBal, Bool.and_eq_true, decide_eq_true_eq,
            List.all_cons, List.all_nil, Bool.and_true, List.length_cons,
            List.length_nil]
          exact ⟨⟨by omega, by omega, trivial⟩, hok.1, hok.2⟩
  · -- remove
    cases hroot : m.root with
    | none =>
      unfold remove get_or_create_root
      rw [hroot]
      simp only []
      refine ⟨0, ?_⟩
      have hbs : binary_search (([] : List (Nat × Nat)).map Prod.fst) k2 =
          Sum.inr 0 := by
        simp [binary_search, Nat.succ_ne_self]
      rw [hbs]
      simp [balRoot, rootBal]
    | some t0 =>
      match t0 with
      | BT.leaf kvs =>
        have hle : kvs.length ≤ CAPACITY := by
          rw [balRoot, hroot] at hbal
          simpa [rootBal] using hbal
        unfold remove get_or_create_root
        rw [hroot]
        simp only []
        cases hbs : binary_search (kvs.map Prod.fst) k2 with
        | inr idx =>
          exact ⟨hc, by simp only [balRoot, hroot, rootBal,
            decide_eq_true_eq]; exact hle⟩
        | inl idx =>
          refine ⟨0, ?_⟩
          simp only [balRoot, rootBal, decide_eq_true_eq,
            List.length_eraseIdx]
          split_ifs <;> omega
      | BT.internal keys cs =>
        have hb2 : rootBal hc (BT.internal keys cs) = true := by
          rw [balRoot, hroot] at hbal
          exact hbal
        simp only [rootBal, Bool.and_eq_true, decide_eq_true_eq] at hb2
        have hok := removeRec_root k2 f hc keys cs hhc hb2.1.1 hb2.1.2.1
          hb2.1.2.2 hb2.2
        unfold remove get_or_create_root
        rw [hroot]
        simp only []
        cases hrem : removeRec (f + 1) (BT.internal keys cs) k2 with
        | notFound =>
          exact ⟨hc, by
            simp only [balRoot, hroot, rootBal, Bool.and_eq_true,
              decide_eq_true_eq]
            exact ⟨⟨hb2.1.1, hb2.1.2.1, hb2.1.2.2⟩, hb2.2⟩⟩
        | ok t2 v2 key02 =>
          rw [hrem] at hok
          simp only [resRootOK] at hok
          exact ⟨hc, by simp only [balRoot]; exact hok⟩
        | under t2 v2 key02 =>
          rw [hrem] at hok
          simp only [resRootOK] at hok
          match t2, hok with
          | BT.internal ks2 cs2, hok =>
            simp only [underRoot, Bool.and_eq_true, decide_eq_true_eq] at hok
            match ks2, hok with
            | [], hok =>
              simp only []
              refine ⟨hc - 1, ?_⟩
              have hcs2 : cs2.length = 1 := by
                have := hok.1.2
                simpa using this
              have hmem : cs2.getD 0 (BT.leaf []) ∈ cs2 := by
                rw [List.getD_eq_getElem _ _ (by omega)]
                exact List.getElem_mem _
              have hb3 : balH hc (cs2.getD 0 (BT.leaf [])) = true :=
                balH_all_mem hok.2 hmem
              have hc1 : 1 ≤ hc := by
                by_contra hcon
                have : hc = 0 := by omega
                rw [this] at hb3
                simp [balH] at hb3
              simp only [balRoot]
              exact balH_rootBal hb3 (Or.inl (by omega))
            | a :: ks3, hok =>
              simp only []
              refine ⟨hc, ?_⟩
              simp only [balRoot, rootBal, Bool.and_eq_true,
                decide_eq_true_eq]
              refine ⟨⟨by simp, ?_, hok.1.2⟩, hok.2⟩
              have := hok.1.1
              simp only [List.length_cons] at this ⊢
              omega


theorem btree_balance_after_ops_witness :
    (∃ hc2, balRoot hc2 (insert (2 + 1) (insert 1 empty 1 1).1 7 7).1 =
      true) ∧
    (∃ hc3, balRoot hc3 (remove (2 + 1) (insert 1 empty 1 1).1 1).1 =
      true) :=
  btree_balance_after_ops 2 1 7 7 1 (insert 1 empty 1 1).1 (by decide)
    (by decide)


/-- Upper search bound: none is unbounded. -/
def hiLt (hi : Option Nat) (x : Nat) : Prop := ∀ h2 ∈ hi, x < h2

/-- The lower search bound of the i-th child of an internal node (the
source comment: left child holds keys less than the separator, the right
child keys greater or equal). -/
def childLo (lo : Nat) (keys : List Nat) (i : Nat) : Nat :=
  if i = 0 then lo else keys.getD (i - 1) 0

/-- The upper search bound of the i-th child. -/
def childHi (hi : Option Nat) (keys : List Nat) (i : Nat) : Option Nat :=
  if i = keys.length then hi else some (keys.getD i 0)

/-- Search-tree well-formedness of a subtree within a key window
[lo, hi): keys of every node strictly increasing and inside the window,
each child inside the window cut at the neighboring separators; the fuel
bounds the height. -/
def WFB : Nat → Nat → Option Nat → BT → Prop
  | 0, _, _, _ => False
  | _+1, lo, hi, BT.leaf kvs =>
    List.Pairwise (· < ·) (kvs.map Prod.fst) ∧
    ∀ x ∈ kvs.map Prod.fst, lo ≤ x ∧ hiLt hi x
  | f+1, lo, hi, BT.internal keys cs =>
    keys ≠ [] ∧ cs.length = keys.length + 1 ∧
    List.Pairwise (· < ·) keys ∧
    (∀ x ∈ keys, lo ≤ x ∧ hiLt hi x) ∧
    ∀ i < cs.length, WFB f (childLo lo keys i) (childHi hi keys i)
      (cs.getD i (BT.leaf []))

/-- The value get_copy extracts from a lookup. -/
def getVal (f : Nat) (t : BT) (k : Nat) : Option Nat :=
  (lookupRec f t k).map (fun p => (p.1.getD p.2 (0, 0)).2)

theorem countP_eq_of_partition (p : Nat → Bool) :
    ∀ (keys : List Nat) (idx : Nat), idx ≤ keys.length →
    (∀ i (h : i < keys.length), i < idx → p keys[i] = true) →
    (∀ i (h : i < keys.length), idx ≤ i → p keys[i] = false) →
    keys.countP p = idx := by
  intro keys
  induction keys with
  | nil =>
    intro idx h1 _ _
    simp at h1
    simp [h1]
  | cons a l ih =>
    intro idx h1 h3 h4
    cases idx with
    | zero =>
      rw [List.countP_eq_zero]
      intro x hx
      obtain ⟨i, hi, he⟩ := List.mem_iff_getElem.mp hx
      have := h4 i hi (by omega)
      rw [he] at this
      simp [this]
    | succ idx2 =>
      rw [List.countP_cons, if_pos]
      · rw [ih idx2 (by simp at h1; omega) ?_ ?_]
        · intro i hi hlt
          have := h3 (i + 1) (by simp; omega) (by omega)
          simpa using this
        · intro i hi hge
          have := h4 (i + 1) (by simp; omega) (by omega)
          simpa using this
      · have := h3 0 (by simp) (by omega)
        simpa using this

theorem sorted_countP (keys : List Nat) (k : Nat)
    (hs : List.Pairwise (· < ·) keys) :
    keys.countP (fun x => decide (x < k)) ≤ keys.length ∧
    ∀ i (h : i < keys.length),
      (i < keys.countP (fun x => decide (x < k)) ↔ keys[i] < k) := by
  induction keys with
  | nil => simp
  | cons a l ih =>
    obtain ⟨ha, hl⟩ := List.pairwise_cons.mp hs
    obtain ⟨ih1, ih2⟩ := ih hl
    by_cases hak : a < k
    · rw [List.countP_cons, if_pos (by simpa using hak)]
      refine ⟨by simp; omega, ?_⟩
      intro i hi
      cases i with
      | zero => simpa using hak
      | succ i2 =>
        simp only [List.getElem_cons_succ]
        rw [← ih2 i2 (by simpa using hi)]
        omega
    · have hz : l.countP (fun x => decide (x < k)) = 0 := by
        rw [List.countP_eq_zero]
        intro x hx
        have := ha x hx
        simp only [decide_eq_true_eq]
        omega
      rw [List.countP_cons, if_neg (by simpa using hak), hz]
      refine ⟨by simp, ?_⟩
      intro i hi
      cases i with
      | zero => simpa using hak
      | succ i2 =>
        simp only [List.getElem_cons_succ]
        constructor
        · omega
        · intro hc
          have hi2 : i2 < l.length := by simpa using hi
          have := ha l[i2] (List.getElem_mem _)
          omega

theorem bs_at (keys : List Nat) (k idx : Nat)
    (h1 : idx < keys.length) (h2 : keys[idx] = k)
    (h3 : ∀ i (h : i < keys.length), i < idx → keys[i] < k)
    (h4 : ∀ i (h : i < keys.length), idx < i → k < keys[i]) :
    binary_search keys k = Sum.inl idx := by
  have hcp : keys.countP (fun x => decide (x < k)) = idx := by
    refine countP_eq_of_partition _ keys idx (by omega) ?_ ?_
    · intro i hi hlt
      simpa using h3 i hi hlt
    · intro i hi hge
      simp only [decide_eq_false_iff_not, not_lt]
      rcases Nat.eq_or_lt_of_le hge with he | hlt
      · subst he
        omega
      · have := h4 i hi hlt
        omega
  unfold binary_search
  rw [hcp, if_pos]
  rw [List.getD_eq_getElem _ _ h1]
  exact h2

theorem bs_absent_at (keys : List Nat) (k idx : Nat)
    (h1 : idx ≤ keys.length)
    (h3 : ∀ i (h : i < keys.length), i < idx → keys[i] < k)
    (h4 : ∀ i (h : i < keys.length), idx ≤ i → k < keys[i]) :
    binary_search keys k = Sum.inr idx := by
  have hcp : keys.countP (fun x => decide (x < k)) = idx := by
    refine countP_eq_of_partition _ keys idx h1 ?_ ?_
    · intro i hi hlt
      simpa using h3 i hi hlt
    · intro i hi hge
      simp only [decide_eq_false_iff_not, not_lt]
      have := h4 i hi hge
      omega
  unfold binary_search
  rw [hcp, if_neg]
  rcases Nat.eq_or_lt_of_le h1 with he | hlt
  · rw [List.getD_eq_default _ _ (by omega)]
    omega
  · rw [List.getD_eq_getElem _ _ hlt]
    have := h4 idx hlt (by omega)
    omega

theorem bs_inl_spec (keys : List Nat) (k idx : Nat)
    (hs : List.Pairwise (· < ·) keys)
    (h : binary_search keys k = Sum.inl idx) :
    idx < keys.length ∧ keys[idx]? = some k ∧
    (∀ i (hi : i < keys.length), i < idx → keys[i] < k) ∧
    (∀ i (hi : i < keys.length), idx < i → k < keys[i]) := by
  obtain ⟨hle, hiff⟩ := sorted_countP keys k hs
  unfold binary_search at h
  by_cases hc : keys.getD (keys.countP (fun x => decide (x < k))) (k + 1) = k
  · rw [if_pos hc] at h
    simp only [Sum.inl.injEq] at h
    rw [h] at hle hiff hc
    have hlt : idx < keys.length := by
      by_contra hge
      rw [List.getD_eq_default _ _ (by omega)] at hc
      omega
    rw [List.getD_eq_getElem _ _ hlt] at hc
    have hpw := List.pairwise_iff_getElem.mp hs
    refine ⟨hlt, by rw [List.getElem?_eq_getElem hlt, hc], ?_, ?_⟩
    · intro i hi hlti
      have := (hiff i hi).mp (by omega)
      exact this
    · intro i hi hgti
      have := hpw idx i hlt hi hgti
      omega
  · rw [if_neg hc] at h
    exact absurd h (by simp)

theorem bs_inr_spec (keys : List Nat) (k idx : Nat)
    (hs : List.Pairwise (· < ·) keys)
    (h : binary_search keys k = Sum.inr idx) :
    idx ≤ keys.length ∧
    (∀ i (hi : i < keys.length), i < idx → keys[i] < k) ∧
    (∀ i (hi : i < keys.length), idx ≤ i → k < keys[i]) := by
  obtain ⟨hle, hiff⟩ := sorted_countP keys k hs
  unfold binary_search at h
  by_cases hc : keys.getD (keys.countP (fun x => decide (x < k))) (k + 1) = k
  · rw [if_pos hc] at h
    exact absurd h (by simp)
  · rw [if_neg hc] at h
    simp only [Sum.inr.injEq] at h
    rw [h] at hle hiff hc
    refine ⟨hle, ?_, ?_⟩
    · intro i hi hlti
      exact (hiff i hi).mp hlti
    · intro i hi hgei
      have hnlt : ¬ keys[i] < k := by
        rw [← hiff i hi]
        omega
      rcases Nat.eq_or_lt_of_le hgei with he | hlt2
      · subst he
        rw [List.getD_eq_getElem _ _ hi] at hc
        omega
      · have hpw := List.pairwise_iff_getElem.mp hs
        have hidx : idx < keys.length := by omega
        have h5 : ¬ keys[idx] < k := by
          rw [← hiff idx hidx]
          omega
        have h6 : keys[idx] ≠ k := by
          rw [List.getD_eq_getElem _ _ hidx] at hc
          exact hc
        have := hpw idx i hidx hi hlt2
        omega

theorem route_spec (keys : List Nat) (k : Nat)
    (hs : List.Pairwise (· < ·) keys) :
    routeIdx keys k ≤ keys.length ∧
    (∀ i (hi : i < keys.length), i < routeIdx keys k → keys[i] ≤ k) ∧
    (∀ i (hi : i < keys.length), routeIdx keys k ≤ i → k < keys[i]) := by
  unfold routeIdx
  cases hb : binary_search keys k with
  | inl idx =>
    simp only []
    obtain ⟨h1, h2, h3, h4⟩ := bs_inl_spec keys k idx hs hb
    rw [List.getElem?_eq_getElem h1] at h2
    simp only [Option.some_inj] at h2
    refine ⟨by omega, ?_, ?_⟩
    · intro i hi hlt
      rcases Nat.lt_or_ge i idx with hc | hc
      · have := h3 i hi hc
        omega
      · have : i = idx := by omega
        subst this
        omega
    · intro i hi hge
      exact h4 i hi (by omega)
  | inr idx =>
    simp only []
    obtain ⟨h1, h3, h4⟩ := bs_inr_spec keys k idx hs hb
    refine ⟨h1, ?_, ?_⟩
    · intro i hi hlt
      have := h3 i hi hlt
      omega
    · exact h4

theorem map_fst_insertIdx (kvs : List (Nat × Nat)) (idx : Nat) (x : Nat × Nat) :
    ∀ h : idx ≤ kvs.length,
    (kvs.insertIdx idx x).map Prod.fst =
      (kvs.map Prod.fst).insertIdx idx x.1 := by
  induction kvs generalizing idx with
  | nil =>
    intro h
    simp at h
    subst h
    rfl
  | cons a l ih =>
    intro h
    cases idx with
    | zero => rfl
    | succ n =>
      have := ih n (by simpa using h)
      show (a :: (l.insertIdx n x)).map Prod.fst = _
      simp only [List.map_cons]
      rw [this]
      rfl

theorem map_fst_set (kvs : List (Nat × Nat)) (idx : Nat) (x : Nat × Nat) :
    (kvs.set idx x).map Prod.fst = (kvs.map Prod.fst).set idx x.1 := by
  induction kvs generalizing idx with
  | nil => rfl
  | cons a l ih =>
    cases idx with
    | zero => rfl
    | succ n =>
      show (a :: l.set n x).map Prod.fst = _
      simp only [List.map_cons]
      rw [ih n]
      rfl

theorem insertIdx_eq_take_cons_drop {α : Type} (l : List α) (idx : Nat)
    (x : α) (h : idx ≤ l.length) :
    l.insertIdx idx x = l.take idx ++ x :: l.drop idx := by
  induction l generalizing idx with
  | nil =>
    simp at h
    subst h
    rfl
  | cons a as ih =>
    cases idx with
    | zero => rfl
    | succ n =>
      show a :: as.insertIdx n x = a :: (as.take n ++ x :: as.drop n)
      rw [ih n (by simpa using h)]

theorem pairwise_insertIdx (keys : List Nat) (x : Nat) (idx : Nat)
    (hle : idx ≤ keys.length) (hs : List.Pairwise (· < ·) keys)
    (h3 : ∀ i (h : i < keys.length), i < idx → keys[i] < x)
    (h4 : ∀ i (h : i < keys.length), idx ≤ i → x < keys[i]) :
    List.Pairwise (· < ·) (keys.insertIdx idx x) := by
  rw [insertIdx_eq_take_cons_drop _ _ _ hle]
  have hpw2 : List.Pairwise (· < ·) (keys.take idx ++ keys.drop idx) := by
    rw [List.take_append_drop]
    exact hs
  rw [List.pairwise_append] at hpw2
  obtain ⟨hp1, hp2, hcross⟩ := hpw2
  rw [List.pairwise_append]
  refine ⟨hp1, List.pairwise_cons.mpr ⟨?_, hp2⟩, ?_⟩
  · intro b hb
    obtain ⟨j, hj, he⟩ := List.mem_iff_getElem.mp hb
    have hj2 : j < keys.length - idx := by
      rw [List.length_drop] at hj
      exact hj
    have hb2 : idx + j < keys.length := by omega
    have he2 : (keys.drop idx)[j] = keys[idx + j] := by
      rw [List.getElem_drop]
    rw [← he, he2]
    exact h4 (idx + j) (by omega) (by omega)
  · intro a ha b hb
    rcases List.mem_cons.mp hb with hb1 | hb1
    · subst hb1
      obtain ⟨j, hj, he⟩ := List.mem_iff_getElem.mp ha
      have hj2 : j < idx := by
        rw [List.length_take] at hj
        omega
      have hb2 : j < keys.length := by omega
      have he2 : (keys.take idx)[j] = keys[j] :=
        List.getElem_take _
      rw [← he, he2]
      exact h3 j (by omega) hj2
    · exact hcross a ha b hb1

theorem WFB_leaf_elim {f lo : Nat} {hi : Option Nat} {kvs : List (Nat × Nat)}
    (h : WFB (f + 1) lo hi (BT.leaf kvs)) :
    List.Pairwise (· < ·) (kvs.map Prod.fst) ∧
    ∀ x ∈ kvs.map Prod.fst, lo ≤ x ∧ hiLt hi x := h

theorem WFB_internal_elim {f lo : Nat} {hi : Option Nat} {keys : List Nat}
    {cs : List BT} (h : WFB (f + 1) lo hi (BT.internal keys cs)) :
    keys ≠ [] ∧ cs.length = keys.length + 1 ∧
    List.Pairwise (· < ·) keys ∧
    (∀ x ∈ keys, lo ≤ x ∧ hiLt hi x) ∧
    ∀ i < cs.length, WFB f (childLo lo keys i) (childHi hi keys i)
      (cs.getD i (BT.leaf [])) := h

theorem countP_insertIdx (p : Nat → Bool) (l : List Nat) (idx : Nat) (x : Nat)
    (h : idx ≤ l.length) :
    (l.insertIdx idx x).countP p =
      l.countP p + if p x then 1 else 0 := by
  rw [insertIdx_eq_take_cons_drop _ _ _ h, List.countP_append, List.countP_cons]
  have h2 : l.countP p = (l.take idx).countP p + (l.drop idx).countP p := by
    rw [← List.countP_append, List.take_append_drop]
  rw [h2]
  split_ifs <;> omega

theorem route_eq_countP (keys : List Nat) (k : Nat)
    (hs : List.Pairwise (· < ·) keys) :
    routeIdx keys k = keys.countP (fun x => decide (x ≤ k)) := by
  unfold routeIdx
  cases hb : binary_search keys k with
  | inl idx =>
    simp only []
    obtain ⟨h1, h2, h3, h4⟩ := bs_inl_spec keys k idx hs hb
    rw [List.getElem?_eq_getElem h1] at h2
    simp only [Option.some_inj] at h2
    symm
    refine countP_eq_of_partition _ keys (idx + 1) (by omega) ?_ ?_
    · intro i hi hlt
      simp only [decide_eq_true_eq]
      rcases Nat.lt_or_ge i idx with hc | hc
      · have := h3 i hi hc
        omega
      · have : i = idx := by omega
        subst this
        omega
    · intro i hi hge
      simp only [decide_eq_false_iff_not, not_le]
      exact h4 i hi (by omega)
  | inr idx =>
    simp only []
    obtain ⟨h1, h3, h4⟩ := bs_inr_spec keys k idx hs hb
    symm
    refine countP_eq_of_partition _ keys idx h1 ?_ ?_
    · intro i hi hlt
      simp only [decide_eq_true_eq]
      have := h3 i hi hlt
      omega
    · intro i hi hge
      simp only [decide_eq_false_iff_not, not_le]
      exact h4 i hi hge

theorem lookupRec_fuel_mono (k : Nat) : ∀ f f2 (lo : Nat) (hi : Option Nat)
    (t : BT), f ≤ f2 → WFB f lo hi t → lookupRec f2 t k = lookupRec f t k := by
  intro f
  induction f with
  | zero =>
    intro f2 lo hi t _ hwf
    exact absurd hwf (by simp [WFB])
  | succ f ih =>
    intro f2 lo hi t hle hwf
    match f2, t with
    | 0, t => omega
    | f2+1, BT.leaf kvs => rfl
    | f2+1, BT.internal keys cs =>
      obtain ⟨hne, hlen, hs, hbnd, hch⟩ := WFB_internal_elim hwf
      have hr : routeIdx keys k ≤ keys.length := (route_spec keys k hs).1
      show lookupRec f2 (cs.getD (routeIdx keys k) (BT.leaf [])) k =
        lookupRec f (cs.getD (routeIdx keys k) (BT.leaf [])) k
      exact ih f2 _ _ _ (by omega) (hch (routeIdx keys k) (by omega))

theorem getVal_leaf_at (kvs : List (Nat × Nat)) (k v : Nat) (f idx : Nat)
    (h1 : idx < kvs.length) (h2 : kvs[idx] = (k, v))
    (hs : List.Pairwise (· < ·) (kvs.map Prod.fst)) :
    getVal (f + 1) (BT.leaf kvs) k = some v := by
  have hpw := List.pairwise_iff_getElem.mp hs
  have hmget : ∀ i (h : i < kvs.length) (hm : i < (kvs.map Prod.fst).length),
      (kvs.map Prod.fst)[i] = kvs[i].1 := by
    intro i h hm
    rw [List.getElem_map]
  have hb : binary_search (kvs.map Prod.fst) k = Sum.inl idx := by
    refine bs_at _ _ _ (by rw [List.length_map]; omega) ?_ ?_ ?_
    · rw [hmget idx h1 (by rw [List.length_map]; omega), h2]
    · intro i hi hlt
      rw [List.length_map] at hi
      have := hpw i idx (by rw [List.length_map]; omega)
        (by rw [List.length_map]; omega) hlt
      rw [hmget i hi (by rw [List.length_map]; omega),
        hmget idx h1 (by rw [List.length_map]; omega), h2] at this
      rw [hmget i hi (by rw [List.length_map]; omega)]
      exact this
    · intro i hi hgt
      rw [List.length_map] at hi
      have := hpw idx i (by rw [List.length_map]; omega)
        (by rw [List.length_map]; omega) hgt
      rw [hmget i hi (by rw [List.length_map]; omega),
        hmget idx h1 (by rw [List.length_map]; omega), h2] at this
      rw [hmget i hi (by rw [List.length_map]; omega)]
      exact this
  unfold getVal lookupRec
  simp only [hb, Option.map_some']
  rw [List.getD_eq_getElem _ _ h1, h2]

theorem hiLt_some (x y : Nat) : hiLt (some x) y ↔ y < x := by
  simp [hiLt]

theorem hiLt_none (y : Nat) : hiLt none y := by
  simp [hiLt]

theorem hiLt_le (hi : Option Nat) (x y : Nat) (h : hiLt hi x) (h2 : y ≤ x) :
    hiLt hi y :=
  fun a ha => Nat.lt_of_le_of_lt h2 (h a ha)

theorem getD_set_eq {α : Type} (l : List α) (i : Nat) (x d : α)
    (h : i < l.length) : (l.set i x).getD i d = x := by
  rw [List.getD_eq_getElem _ _ (by rw [List.length_set]; omega)]
  exact List.getElem_set_eq _

theorem getD_set_other {α : Type} (l : List α) (i j : Nat) (x d : α)
    (h : i ≠ j) : (l.set i x).getD j d = l.getD j d := by
  by_cases hj : j < l.length
  · rw [List.getD_eq_getElem _ _ (by rw [List.length_set]; omega),
      List.getD_eq_getElem _ _ hj]
    exact List.getElem_set_ne h _
  · rw [List.getD_eq_default _ _ (by rw [List.length_set]; omega),
      List.getD_eq_default _ _ (by omega)]

theorem getD_insertIdx_lt {α : Type} (l : List α) (i j : Nat) (x d : α)
    (h : j < i) (h2 : i ≤ l.length) :
    (l.insertIdx i x).getD j d = l.getD j d := by
  have hj : j < l.length := by omega
  rw [List.getD_eq_getElem _ _ (by rw [List.length_insertIdx i l h2]; omega),
    List.getD_eq_getElem _ _ hj]
  exact List.getElem_insertIdx_of_lt _ _ _ _ h hj

theorem getD_insertIdx_self {α : Type} (l : List α) (i : Nat) (x d : α)
    (h : i ≤ l.length) : (l.insertIdx i x).getD i d = x := by
  rw [List.getD_eq_getElem _ _ (by rw [List.length_insertIdx i l h]; omega)]
  exact List.getElem_insertIdx_self _ _ _ h

theorem getD_insertIdx_gt {α : Type} (l : List α) (i j : Nat) (x d : α)
    (h : i < j) (h2 : i ≤ l.length) :
    (l.insertIdx i x).getD j d = l.getD (j - 1) d := by
  by_cases hj : j - 1 < l.length
  · rw [List.getD_eq_getElem _ _ (by rw [List.length_insertIdx i l h2]; omega),
      List.getD_eq_getElem _ _ hj]
    have he2 : i + (j - 1 - i) = j - 1 := by omega
    have he3 : j - 1 + 1 = j := by omega
    have hstep := List.getElem_insertIdx_add_succ l x i (j - 1 - i) (by omega)
    simp only [he2, he3] at hstep
    exact hstep
  · rw [List.getD_eq_default _ _ (by rw [List.length_insertIdx i l h2]; omega),
      List.getD_eq_default _ _ (by omega)]

theorem getD_take_eq {α : Type} (l : List α) (n j : Nat) (d : α)
    (h : j < n) : (l.take n).getD j d = l.getD j d := by
  by_cases hj : j < l.length
  · rw [List.getD_eq_getElem _ _ (by rw [List.length_take]; omega),
      List.getD_eq_getElem _ _ hj]
    exact List.getElem_take _
  · rw [List.getD_eq_default _ _ (by rw [List.length_take]; omega),
      List.getD_eq_default _ _ (by omega)]

theorem getD_drop_add {α : Type} (l : List α) (n j : Nat) (d : α) :
    (l.drop n).getD j d = l.getD (n + j) d := by
  by_cases hj : n + j < l.length
  · rw [List.getD_eq_getElem _ _ (by rw [List.length_drop]; omega),
      List.getD_eq_getElem _ _ hj]
    rw [List.getElem_drop]
  · rw [List.getD_eq_default _ _ (by rw [List.length_drop]; omega),
      List.getD_eq_default _ _ (by omega)]

theorem insertIdx_take_left {α : Type} (l : List α) (idx c : Nat) (x : α)
    (h1 : idx ≤ c) (h2 : c ≤ l.length) :
    (l.insertIdx idx x).take (c + 1) = (l.take c).insertIdx idx x := by
  rw [insertIdx_eq_take_cons_drop _ _ _ (by omega),
    insertIdx_eq_take_cons_drop _ _ _ (by rw [List.length_take]; omega),
    List.take_append_eq_append_take]
  have hlt : (l.take idx).length = idx := by rw [List.length_take]; omega
  rw [List.take_all_of_le (by omega), hlt]
  have he : c + 1 - idx = (c - idx) + 1 := by omega
  rw [he, List.take_succ_cons]
  have hm : min idx c = idx := by omega
  rw [List.take_take, hm, List.drop_take]

theorem insertIdx_drop_left {α : Type} (l : List α) (idx c : Nat) (x : α)
    (h1 : idx ≤ c) (h2 : idx ≤ l.length) :
    (l.insertIdx idx x).drop (c + 1) = l.drop c := by
  rw [insertIdx_eq_take_cons_drop _ _ _ h2, List.drop_append_eq_append_drop]
  have hlt : (l.take idx).length = idx := by rw [List.length_take]; omega
  rw [List.drop_eq_nil_of_le (by omega), hlt]
  have he : c + 1 - idx = (c - idx) + 1 := by omega
  rw [he, List.drop_succ_cons, List.drop_drop]
  simp only [List.nil_append]
  congr 1
  omega

theorem insertIdx_take_right {α : Type} (l : List α) (idx c : Nat) (x : α)
    (h1 : c ≤ idx) (h2 : idx ≤ l.length) :
    (l.insertIdx idx x).take c = l.take c := by
  rw [insertIdx_eq_take_cons_drop _ _ _ h2, List.take_append_eq_append_take]
  have hlt : (l.take idx).length = idx := by rw [List.length_take]; omega
  rw [hlt]
  have he : c - idx = 0 := by omega
  rw [he]
  simp only [List.take_zero, List.append_nil]
  rw [List.take_take]
  congr 1
  omega

theorem insertIdx_drop_right {α : Type} (l : List α) (idx c : Nat) (x : α)
    (h1 : c ≤ idx) (h2 : idx ≤ l.length) :
    (l.insertIdx idx x).drop c = (l.drop c).insertIdx (idx - c) x := by
  rw [insertIdx_eq_take_cons_drop _ _ _ h2,
    insertIdx_eq_take_cons_drop _ _ _ (by rw [List.length_drop]; omega),
    List.drop_append_eq_append_drop]
  have hlt : (l.take idx).length = idx := by rw [List.length_take]; omega
  rw [hlt]
  have he : c - idx = 0 := by omega
  rw [he]
  simp only [List.drop_zero]
  congr 1
  · rw [List.drop_take]
  · congr 1
    rw [List.drop_drop]
    congr 1
    omega

theorem WFB_fuel_mono : ∀ f f2 (lo : Nat) (hi : Option Nat) (t : BT),
    f ≤ f2 → WFB f lo hi t → WFB f2 lo hi t := by
  intro f
  induction f with
  | zero =>
    intro f2 lo hi t _ hwf
    exact absurd hwf (by simp [WFB])
  | succ f ih =>
    intro f2 lo hi t hle hwf
    match f2, t with
    | 0, t => omega
    | f2+1, BT.leaf kvs => exact hwf
    | f2+1, BT.internal keys cs =>
      obtain ⟨hne, hlen, hs, hbnd, hch⟩ := WFB_internal_elim hwf
      exact ⟨hne, hlen, hs, hbnd,
        fun i hi2 => ih f2 _ _ _ (by omega) (hch i hi2)⟩

theorem leaf_replace_ok (f lo : Nat) (hi : Option Nat)
    (kvs : List (Nat × Nat)) (k v idx : Nat)
    (hW : WFB (f + 1) lo hi (BT.leaf kvs))
    (hbs : binary_search (kvs.map Prod.fst) k = Sum.inl idx) :
    WFB (f + 1) lo hi (BT.leaf (kvs.set idx (k, v))) ∧
    getVal (f + 1) (BT.leaf (kvs.set idx (k, v))) k = some v := by
  obtain ⟨hs, hbnd⟩ := WFB_leaf_elim hW
  obtain ⟨h1, h2, _, _⟩ := bs_inl_spec _ k idx hs hbs
  have hmlen : (kvs.map Prod.fst).length = kvs.length := List.length_map _ _
  have hidx : idx < kvs.length := by omega
  rw [List.getElem?_eq_getElem h1] at h2
  simp only [Option.some_inj] at h2
  have hmap : (kvs.set idx (k, v)).map Prod.fst = kvs.map Prod.fst := by
    rw [map_fst_set]
    apply List.ext_getElem
    · rw [List.length_set]
    · intro j hja hjb
      by_cases hji : idx = j
      · subst hji
        rw [List.getElem_set_eq _]
        exact h2.symm
      · exact List.getElem_set_ne hji _
  refine ⟨⟨by rw [hmap]; exact hs, by rw [hmap]; exact hbnd⟩, ?_⟩
  refine getVal_leaf_at _ k v f idx (by rw [List.length_set]; omega) ?_ ?_
  · exact List.getElem_set_eq _
  · rw [hmap]
    exact hs

theorem leaf_insert_ok (f lo : Nat) (hi : Option Nat)
    (kvs : List (Nat × Nat)) (k v idx : Nat)
    (hW : WFB (f + 1) lo hi (BT.leaf kvs))
    (hbs : binary_search (kvs.map Prod.fst) k = Sum.inr idx)
    (hlok : lo ≤ k) (hhik : hiLt hi k) :
    WFB (f + 1) lo hi (BT.leaf (kvs.insertIdx idx (k, v))) ∧
    getVal (f + 1) (BT.leaf (kvs.insertIdx idx (k, v))) k = some v := by
  obtain ⟨hs, hbnd⟩ := WFB_leaf_elim hW
  obtain ⟨h1, h3, h4⟩ := bs_inr_spec _ k idx hs hbs
  have hmlen : (kvs.map Prod.fst).length = kvs.length := List.length_map _ _
  have hidx : idx ≤ kvs.length := by omega
  have hmap : (kvs.insertIdx idx (k, v)).map Prod.fst =
      (kvs.map Prod.fst).insertIdx idx k := map_fst_insertIdx kvs idx (k, v) hidx
  have hpw2 : List.Pairwise (· < ·) ((kvs.map Prod.fst).insertIdx idx k) :=
    pairwise_insertIdx _ k idx (by omega) hs h3 h4
  refine ⟨⟨by rw [hmap]; exact hpw2, ?_⟩, ?_⟩
  · intro x hx
    rw [hmap] at hx
    rcases (List.mem_insertIdx (by omega)).mp hx with he | hm
    · subst he
      exact ⟨hlok, hhik⟩
    · exact hbnd x hm
  · refine getVal_leaf_at _ k v f idx
      (by rw [List.length_insertIdx idx kvs hidx]; omega) ?_ ?_
    · exact List.getElem_insertIdx_self _ _ _ hidx
    · rw [hmap]
      exact hpw2

theorem sorted_getElem_le (l : List Nat) (hs : List.Pairwise (· < ·) l)
    (a b : Nat) (ha : a < l.length) (hb : b < l.length) (hab : a ≤ b) :
    l[a] ≤ l[b] := by
  rcases Nat.eq_or_lt_of_le hab with he | hlt
  · subst he
    exact Nat.le_refl _
  · exact Nat.le_of_lt (List.pairwise_iff_getElem.mp hs a b ha hb hlt)

theorem leaf_split_ok (f lo : Nat) (hi : Option Nat)
    (kvs full : List (Nat × Nat)) (k v idx sep : Nat)
    (hfull : full = kvs.insertIdx idx (k, v))
    (hsep : sep = ((full.drop B).headD (0, 0)).1)
    (hW : WFB (f + 1) lo hi (BT.leaf kvs))
    (hbs : binary_search (kvs.map Prod.fst) k = Sum.inr idx)
    (hlen6 : B ≤ kvs.length)
    (hlok : lo ≤ k) (hhik : hiLt hi k) :
    WFB (f + 1) lo (some sep) (BT.leaf (full.take B)) ∧
    WFB (f + 1) sep hi (BT.leaf (full.drop B)) ∧
    lo < sep ∧ hiLt hi sep ∧
    (k < sep → getVal (f + 1) (BT.leaf (full.take B)) k = some v) ∧
    (sep ≤ k → getVal (f + 1) (BT.leaf (full.drop B)) k = some v) := by
  obtain ⟨hs, hbnd⟩ := WFB_leaf_elim hW
  obtain ⟨h1, h3, h4⟩ := bs_inr_spec _ k idx hs hbs
  have hmlen : (kvs.map Prod.fst).length = kvs.length := List.length_map _ _
  have hidx : idx ≤ kvs.length := by omega
  have hflen : full.length = kvs.length + 1 := by
    rw [hfull, List.length_insertIdx idx kvs hidx]
  have hmap : full.map Prod.fst = (kvs.map Prod.fst).insertIdx idx k := by
    rw [hfull]
    exact map_fst_insertIdx kvs idx (k, v) hidx
  have hpw2 : List.Pairwise (· < ·) (full.map Prod.fst) := by
    rw [hmap]
    exact pairwise_insertIdx _ k idx (by omega) hs h3 h4
  have hFbnd : ∀ x ∈ full.map Prod.fst, lo ≤ x ∧ hiLt hi x := by
    intro x hx
    rw [hmap] at hx
    rcases (List.mem_insertIdx (by omega)).mp hx with he | hm
    · subst he
      exact ⟨hlok, hhik⟩
    · exact hbnd x hm
  have hpwg := List.pairwise_iff_getElem.mp hpw2
  have hFMlen : (full.map Prod.fst).length = full.length := List.length_map _ _
  have hBlt : B < full.length := by
    have : B ≤ kvs.length := hlen6
    omega
  have hBm : B < (full.map Prod.fst).length := by omega
  have hsepB : sep = (full.map Prod.fst)[B] := by
    rw [hsep, List.drop_eq_getElem_cons hBlt]
    simp only [List.headD_cons]
    rw [List.getElem_map]
  have hsepmem : sep ∈ full.map Prod.fst := by
    rw [hsepB]
    exact List.getElem_mem _
  have hsepbnd := hFbnd sep hsepmem
  have hidxf : idx < full.length := by omega
  have hatk : full[idx] = (k, v) := by
    subst hfull
    exact List.getElem_insertIdx_self _ _ _ hidx
  have hidxm : idx < (full.map Prod.fst).length := by omega
  have hkm : (full.map Prod.fst)[idx] = k := by
    rw [List.getElem_map, hatk]
  refine ⟨⟨?_, ?_⟩, ⟨?_, ?_⟩, ?_, hsepbnd.2, ?_, ?_⟩
  · rw [List.map_take]
    exact List.Pairwise.sublist (List.take_sublist _ _) hpw2
  · intro x hx
    rw [List.map_take] at hx
    obtain ⟨j, hj, he⟩ := List.mem_iff_getElem.mp hx
    have hjb : j < B := by
      rw [List.length_take] at hj
      omega
    have hjm : j < (full.map Prod.fst).length := by omega
    have he2 : ((full.map Prod.fst).take B)[j] = (full.map Prod.fst)[j] :=
      List.getElem_take _
    refine ⟨?_, ?_⟩
    · rw [← he, he2]
      exact (hFbnd _ (List.getElem_mem _)).1
    · rw [hiLt_some, ← he, he2, hsepB]
      exact hpwg j B (by omega) (by omega) hjb
  · rw [List.map_drop]
    exact List.Pairwise.sublist (List.drop_sublist _ _) hpw2
  · intro x hx
    rw [List.map_drop] at hx
    obtain ⟨j, hj, he⟩ := List.mem_iff_getElem.mp hx
    have hjb : B + j < (full.map Prod.fst).length := by
      rw [List.length_drop] at hj
      omega
    have he2 := @List.getElem_drop Nat (full.map Prod.fst) B j hj
    refine ⟨?_, ?_⟩
    · rw [← he, he2, hsepB]
      exact sorted_getElem_le _ hpw2 B (B + j) (by omega) (by omega) (by omega)
    · rw [← he, he2]
      exact (hFbnd _ (List.getElem_mem _)).2
  · have h0m : 0 < (full.map Prod.fst).length := by omega
    have h0 : lo ≤ (full.map Prod.fst)[0] :=
      (hFbnd _ (List.getElem_mem _)).1
    have hlt06 := hpwg 0 B (by omega) (by omega) (by decide)
    rw [hsepB]
    omega
  · intro hks
    have hik : idx < B := by
      by_contra hge
      have hle2 := sorted_getElem_le _ hpw2 B idx (by omega) (by omega)
        (by omega)
      rw [hkm] at hle2
      rw [hsepB] at hks
      omega
    refine getVal_leaf_at (full.take B) k v f idx
      (by rw [List.length_take]; omega) ?_ ?_
    · have hit : idx < (full.take B).length := by
        rw [List.length_take]
        omega
      have he2 : (full.take B)[idx] = full[idx] := List.getElem_take _
      rw [he2]
      exact hatk
    · rw [List.map_take]
      exact List.Pairwise.sublist (List.take_sublist _ _) hpw2
  · intro hks
    have hik : B ≤ idx := by
      by_contra hlt
      have hlt2 : (full.map Prod.fst)[idx] < (full.map Prod.fst)[B] :=
        hpwg idx B (by omega) (by omega) (by omega)
      rw [hkm] at hlt2
      rw [hsepB] at hks
      omega
    refine getVal_leaf_at (full.drop B) k v f (idx - B)
      (by rw [List.length_drop]; omega) ?_ ?_
    · have he3 : B + (idx - B) = idx := by omega
      have he2 := @List.getElem_drop (Nat × Nat) full B (idx - B)
        (by rw [List.length_drop]; omega)
      rw [he2]
      simp only [he3]
      exact hatk
    · rw [List.map_drop]
      exact List.Pairwise.sublist (List.drop_sublist _ _) hpw2


/-- The value lookup of an internal node routes into the child chosen by
routeIdx. -/
theorem getVal_internal (f : Nat) (keys : List Nat) (cs : List BT) (k : Nat) :
    getVal (f + 1) (BT.internal keys cs) k =
      getVal f (cs.getD (routeIdx keys k) (BT.leaf [])) k := rfl

/-- The per-node contract of the insert walk: the result keeps the
search-tree invariant inside the window and the inserted key looks up to
the inserted value (for a split, in the half the key routes to). -/
def insOK (f lo : Nat) (hi : Option Nat) (k v : Nat) : InsRes → Prop
  | InsRes.replaced t _ => WFB f lo hi t ∧ getVal f t k = some v
  | InsRes.inserted t => WFB f lo hi t ∧ getVal f t k = some v
  | InsRes.split l r sep =>
    WFB f lo (some sep) l ∧ WFB f sep hi r ∧ lo < sep ∧ hiLt hi sep ∧
    (k < sep → getVal f l k = some v) ∧
    (sep ≤ k → getVal f r k = some v)

theorem route_window (keys : List Nat) (k lo : Nat) (hi : Option Nat)
    (hs : List.Pairwise (· < ·) keys)
    (hlok : lo ≤ k) (hhik : hiLt hi k) :
    childLo lo keys (routeIdx keys k) ≤ k ∧
    hiLt (childHi hi keys (routeIdx keys k)) k := by
  obtain ⟨hr1, hr2, hr3⟩ := route_spec keys k hs
  constructor
  · unfold childLo
    split_ifs with h0
    · exact hlok
    · have hlt : routeIdx keys k - 1 < keys.length := by omega
      rw [List.getD_eq_getElem _ _ hlt]
      exact hr2 _ hlt (by omega)
  · unfold childHi
    split_ifs with hK
    · exact hhik
    · have hlt : routeIdx keys k < keys.length := by omega
      rw [List.getD_eq_getElem _ _ hlt, hiLt_some]
      exact hr3 _ hlt (Nat.le_refl _)

theorem set_child_ok (f lo : Nat) (hi : Option Nat) (keys : List Nat)
    (cs : List BT) (k v : Nat) (c2 : BT)
    (hW : WFB (f + 1) lo hi (BT.internal keys cs))
    (Wc : WFB f (childLo lo keys (routeIdx keys k))
      (childHi hi keys (routeIdx keys k)) c2)
    (hg : getVal f c2 k = some v) :
    WFB (f + 1) lo hi (BT.internal keys (cs.set (routeIdx keys k) c2)) ∧
    getVal (f + 1) (BT.internal keys (cs.set (routeIdx keys k) c2)) k
      = some v := by
  obtain ⟨hne, hlen, hs, hbnd, hch⟩ := WFB_internal_elim hW
  have hr1 := (route_spec keys k hs).1
  have hrcs : routeIdx keys k < cs.length := by omega
  refine ⟨⟨hne, by rw [List.length_set]; exact hlen, hs, hbnd, ?_⟩, ?_⟩
  · intro j hj
    rw [List.length_set] at hj
    by_cases he : j = routeIdx keys k
    · subst he
      rw [getD_set_eq _ _ _ _ hrcs]
      exact Wc
    · rw [getD_set_other _ _ _ _ _ (fun hc => he hc.symm)]
      exact hch j hj
  · rw [getVal_internal, getD_set_eq _ _ _ _ hrcs]
    exact hg

theorem internal_node_ok (f lo : Nat) (hi : Option Nat) (keys2 : List Nat)
    (cs2 : List BT) (k v : Nat)
    (hne : keys2 ≠ []) (hlen : cs2.length = keys2.length + 1)
    (hs : List.Pairwise (· < ·) keys2)
    (hbnd : ∀ x ∈ keys2, lo ≤ x ∧ hiLt hi x)
    (hch : ∀ j < cs2.length, WFB f (childLo lo keys2 j) (childHi hi keys2 j)
      (cs2.getD j (BT.leaf [])))
    (hget : getVal f (cs2.getD (routeIdx keys2 k) (BT.leaf [])) k = some v) :
    WFB (f + 1) lo hi (BT.internal keys2 cs2) ∧
    getVal (f + 1) (BT.internal keys2 cs2) k = some v := by
  refine ⟨⟨hne, hlen, hs, hbnd, hch⟩, ?_⟩
  rw [getVal_internal]
  exact hget

theorem split_child_components (f lo : Nat) (hi : Option Nat)
    (keys keys2 : List Nat) (cs cs2 : List BT) (k v sep i : Nat) (l2 r2 : BT)
    (hieq : i = routeIdx keys k)
    (hk2 : keys2 = keys.insertIdx i sep)
    (hc2 : cs2 = (cs.set i l2).insertIdx (i + 1) r2)
    (hW : WFB (f + 1) lo hi (BT.internal keys cs))
    (Wl : WFB f (childLo lo keys i) (some sep) l2)
    (Wr : WFB f sep (childHi hi keys i) r2)
    (hlos : childLo lo keys i < sep)
    (hhis : hiLt (childHi hi keys i) sep)
    (hgl : k < sep → getVal f l2 k = some v)
    (hgr : sep ≤ k → getVal f r2 k = some v)
    (hlok : lo ≤ k) (hhik : hiLt hi k) :
    keys2 ≠ [] ∧ cs2.length = keys2.length + 1 ∧
    List.Pairwise (· < ·) keys2 ∧
    (∀ x ∈ keys2, lo ≤ x ∧ hiLt hi x) ∧
    (∀ j < cs2.length, WFB f (childLo lo keys2 j) (childHi hi keys2 j)
      (cs2.getD j (BT.leaf []))) ∧
    getVal f (cs2.getD (routeIdx keys2 k) (BT.leaf [])) k = some v := by
  obtain ⟨hne, hlen, hs, hbnd, hch⟩ := WFB_internal_elim hW
  have hroute := route_spec keys k hs
  rw [← hieq] at hroute
  obtain ⟨hr1, hr2, hr3⟩ := hroute
  have hrcs : i < cs.length := by omega
  have hk2len : keys2.length = keys.length + 1 := by
    rw [hk2, List.length_insertIdx i keys hr1]
  have hc2len : cs2.length = cs.length + 1 := by
    rw [hc2, List.length_insertIdx (i + 1) _ (by rw [List.length_set]; omega),
      List.length_set]
  have hlosep : lo ≤ sep := by
    unfold childLo at hlos
    split_ifs at hlos with h0
    · omega
    · have hlt : i - 1 < keys.length := by omega
      rw [List.getD_eq_getElem _ _ hlt] at hlos
      have hb := (hbnd keys[i - 1] (List.getElem_mem _)).1
      omega
  have hhisep : hiLt hi sep := by
    unfold childHi at hhis
    split_ifs at hhis with hK
    · exact hhis
    · have hlt : i < keys.length := by omega
      rw [List.getD_eq_getElem _ _ hlt, hiLt_some] at hhis
      exact hiLt_le hi keys[i] sep (hbnd keys[i] (List.getElem_mem _)).2
        (Nat.le_of_lt hhis)
  have hbelow : ∀ j (hj : j < keys.length), j < i → keys[j] < sep := by
    intro j hj hji
    have h0 : ¬ i = 0 := by omega
    unfold childLo at hlos
    rw [if_neg h0] at hlos
    have hlt : i - 1 < keys.length := by omega
    rw [List.getD_eq_getElem _ _ hlt] at hlos
    have hle := sorted_getElem_le _ hs j (i - 1) hj hlt (by omega)
    omega
  have habove : ∀ j (hj : j < keys.length), i ≤ j → sep < keys[j] := by
    intro j hj hji
    have hK : ¬ i = keys.length := by omega
    unfold childHi at hhis
    rw [if_neg hK] at hhis
    have hlt : i < keys.length := by omega
    rw [List.getD_eq_getElem _ _ hlt, hiLt_some] at hhis
    have hle := sorted_getElem_le _ hs i j hlt hj hji
    omega
  have hpw2 : List.Pairwise (· < ·) keys2 := by
    rw [hk2]
    exact pairwise_insertIdx keys sep i hr1 hs hbelow habove
  have hgetl : cs2.getD i (BT.leaf []) = l2 := by
    rw [hc2,
      getD_insertIdx_lt _ _ _ _ _ (by omega) (by rw [List.length_set]; omega),
      getD_set_eq _ _ _ _ hrcs]
  have hgetr : cs2.getD (i + 1) (BT.leaf []) = r2 := by
    rw [hc2, getD_insertIdx_self _ _ _ _ (by rw [List.length_set]; omega)]
  refine ⟨?_, by omega, hpw2, ?_, ?_, ?_⟩
  · intro hcon
    rw [hcon] at hk2len
    simp at hk2len
  · intro x hx
    rw [hk2] at hx
    rcases (List.mem_insertIdx hr1).mp hx with he | hm
    · subst he
      exact ⟨hlosep, hhisep⟩
    · exact hbnd x hm
  · intro j hj
    rcases Nat.lt_or_ge j i with hji | hji
    · have e1 : cs2.getD j (BT.leaf []) = cs.getD j (BT.leaf []) := by
        rw [hc2,
          getD_insertIdx_lt _ _ _ _ _ (by omega)
            (by rw [List.length_set]; omega),
          getD_set_other _ _ _ _ _ (by omega)]
      have e2 : childLo lo keys2 j = childLo lo keys j := by
        unfold childLo
        split_ifs
        · rfl
        · rw [hk2, getD_insertIdx_lt _ _ _ _ _ (by omega) hr1]
      have e3 : childHi hi keys2 j = childHi hi keys j := by
        unfold childHi
        rw [if_neg (by omega), if_neg (by omega), hk2,
          getD_insertIdx_lt _ _ _ _ _ (by omega) hr1]
      rw [e1, e2, e3]
      exact hch j (by omega)
    · rcases Nat.eq_or_lt_of_le hji with he | hji2
      · rw [← he]
        have e2 : childLo lo keys2 i = childLo lo keys i := by
          unfold childLo
          split_ifs
          · rfl
          · rw [hk2, getD_insertIdx_lt _ _ _ _ _ (by omega) hr1]
        have e3 : childHi hi keys2 i = some sep := by
          unfold childHi
          rw [if_neg (by omega), hk2, getD_insertIdx_self _ _ _ _ hr1]
        rw [hgetl, e2, e3]
        exact Wl
      · rcases Nat.eq_or_lt_of_le hji2 with he2 | hji3
        · rw [← he2]
          have e2 : childLo lo keys2 (i + 1) = sep := by
            unfold childLo
            rw [if_neg (by omega), hk2,
              show i + 1 - 1 = i from rfl,
              getD_insertIdx_self _ _ _ _ hr1]
          have e3 : childHi hi keys2 (i + 1) = childHi hi keys i := by
            unfold childHi
            by_cases hK : i = keys.length
            · rw [if_pos (by omega), if_pos hK]
            · rw [if_neg (by omega), if_neg hK, hk2,
                getD_insertIdx_gt _ _ _ _ _ (by omega) hr1,
                show i + 1 - 1 = i from rfl]
          rw [hgetr, e2, e3]
          exact Wr
        · have e1 : cs2.getD j (BT.leaf []) = cs.getD (j - 1) (BT.leaf []) := by
            rw [hc2,
              getD_insertIdx_gt _ _ _ _ _ (by omega)
                (by rw [List.length_set]; omega),
              getD_set_other _ _ _ _ _ (by omega)]
          have e2 : childLo lo keys2 j = childLo lo keys (j - 1) := by
            unfold childLo
            rw [if_neg (by omega), if_neg (by omega), hk2,
              getD_insertIdx_gt _ _ _ _ _ (by omega) hr1]
          have e3 : childHi hi keys2 j = childHi hi keys (j - 1) := by
            unfold childHi
            by_cases hK : j = keys2.length
            · rw [if_pos hK, if_pos (by omega)]
            · rw [if_neg hK, if_neg (by omega), hk2,
                getD_insertIdx_gt _ _ _ _ _ (by omega) hr1]
          rw [e1, e2, e3]
          exact hch (j - 1) (by omega)
  · have hroute2 : routeIdx keys2 k = i + (if sep ≤ k then 1 else 0) := by
      rw [route_eq_countP _ _ hpw2, hk2,
        countP_insertIdx _ _ _ _ hr1, ← route_eq_countP _ _ hs, ← hieq]
      by_cases hsk : sep ≤ k
      · rw [if_pos (by simpa using hsk), if_pos hsk]
      · rw [if_neg (by simpa using hsk), if_neg hsk]
    by_cases hsk : sep ≤ k
    · rw [hroute2, if_pos hsk, hgetr]
      exact hgr hsk
    · rw [hroute2, if_neg hsk, Nat.add_zero, hgetl]
      exact hgl (by omega)


theorem internal_split_ok (f lo : Nat) (hi : Option Nat) (keys2 : List Nat)
    (cs2 : List BT) (k v j : Nat)
    (hlen : cs2.length = keys2.length + 1)
    (hs : List.Pairwise (· < ·) keys2)
    (hbnd : ∀ x ∈ keys2, lo ≤ x ∧ hiLt hi x)
    (hch : ∀ j2 < cs2.length, WFB f (childLo lo keys2 j2) (childHi hi keys2 j2)
      (cs2.getD j2 (BT.leaf [])))
    (hget : getVal f (cs2.getD (routeIdx keys2 k) (BT.leaf [])) k = some v)
    (hj : 0 < j) (hj2 : j + 1 < keys2.length) :
    WFB (f + 1) lo (some (keys2.getD j 0))
      (BT.internal (keys2.take j) (cs2.take (j + 1))) ∧
    WFB (f + 1) (keys2.getD j 0) hi
      (BT.internal (keys2.drop (j + 1)) (cs2.drop (j + 1))) ∧
    lo < keys2.getD j 0 ∧ hiLt hi (keys2.getD j 0) ∧
    (k < keys2.getD j 0 →
      getVal (f + 1) (BT.internal (keys2.take j) (cs2.take (j + 1))) k
        = some v) ∧
    (keys2.getD j 0 ≤ k →
      getVal (f + 1) (BT.internal (keys2.drop (j + 1)) (cs2.drop (j + 1))) k
        = some v) := by
  have hjlt : j < keys2.length := by omega
  have hm : keys2.getD j 0 = keys2[j] := List.getD_eq_getElem _ _ hjlt
  have hpwg := List.pairwise_iff_getElem.mp hs
  have hpwL : List.Pairwise (· < ·) (keys2.take j) :=
    List.Pairwise.sublist (List.take_sublist _ _) hs
  have hpwR : List.Pairwise (· < ·) (keys2.drop (j + 1)) :=
    List.Pairwise.sublist (List.drop_sublist _ _) hs
  refine ⟨⟨?_, ?_, hpwL, ?_, ?_⟩, ⟨?_, ?_, hpwR, ?_, ?_⟩, ?_, ?_, ?_, ?_⟩
  · intro hcon
    have hlcon := congrArg List.length hcon
    rw [List.length_take] at hlcon
    simp only [List.length_nil] at hlcon
    omega
  · rw [List.length_take, List.length_take]
    omega
  · intro x hx
    obtain ⟨i2, hi2, he⟩ := List.mem_iff_getElem.mp hx
    have hi2b : i2 < j := by
      rw [List.length_take] at hi2
      omega
    have hi2m : i2 < keys2.length := by omega
    have he2 : (keys2.take j)[i2] = keys2[i2] := List.getElem_take _
    refine ⟨?_, ?_⟩
    · rw [← he, he2]
      exact (hbnd _ (List.getElem_mem _)).1
    · rw [hiLt_some, ← he, he2, hm]
      exact hpwg i2 j (by omega) hjlt hi2b
  · intro i2 hi2
    rw [List.length_take] at hi2
    have hi2b : i2 < j + 1 := by omega
    have e1 : (cs2.take (j + 1)).getD i2 (BT.leaf []) =
        cs2.getD i2 (BT.leaf []) := getD_take_eq _ _ _ _ hi2b
    have e2 : childLo lo (keys2.take j) i2 = childLo lo keys2 i2 := by
      unfold childLo
      split_ifs
      · rfl
      · rw [getD_take_eq _ _ _ _ (by omega)]
    have e3 : childHi (some (keys2.getD j 0)) (keys2.take j) i2 =
        childHi hi keys2 i2 := by
      unfold childHi
      have hLlen : (keys2.take j).length = j := by
        rw [List.length_take]
        omega
      rw [hLlen]
      by_cases hK : i2 = j
      · rw [if_pos hK, if_neg (by omega), hK]
      · rw [if_neg hK, if_neg (by omega), getD_take_eq _ _ _ _ (by omega)]
    rw [e1, e2, e3]
    exact hch i2 (by omega)
  · intro hcon
    have hlcon := congrArg List.length hcon
    rw [List.length_drop] at hlcon
    simp only [List.length_nil] at hlcon
    omega
  · rw [List.length_drop, List.length_drop]
    omega
  · intro x hx
    obtain ⟨i2, hi2, he⟩ := List.mem_iff_getElem.mp hx
    have hi2b : i2 < keys2.length - (j + 1) := by
      have hi3 := hi2
      rw [List.length_drop] at hi3
      omega
    have he2 := @List.getElem_drop Nat keys2 (j + 1) i2 hi2
    refine ⟨?_, ?_⟩
    · rw [hm, ← he, he2]
      exact sorted_getElem_le _ hs j (j + 1 + i2) hjlt (by omega) (by omega)
    · rw [← he, he2]
      exact (hbnd _ (List.getElem_mem _)).2
  · intro i2 hi2
    have hi2b : i2 < cs2.length - (j + 1) := by
      have hi3 := hi2
      rw [List.length_drop] at hi3
      omega
    have e1 : (cs2.drop (j + 1)).getD i2 (BT.leaf []) =
        cs2.getD (j + 1 + i2) (BT.leaf []) := getD_drop_add _ _ _ _
    have e2 : childLo (keys2.getD j 0) (keys2.drop (j + 1)) i2 =
        childLo lo keys2 (j + 1 + i2) := by
      unfold childLo
      by_cases h0 : i2 = 0
      · subst h0
        rw [if_pos rfl, if_neg (by omega),
          show j + 1 + 0 - 1 = j from by omega]
      · rw [if_neg h0, if_neg (by omega), getD_drop_add,
          show j + 1 + (i2 - 1) = j + 1 + i2 - 1 from by omega]
    have e3 : childHi hi (keys2.drop (j + 1)) i2 =
        childHi hi keys2 (j + 1 + i2) := by
      unfold childHi
      have hRlen : (keys2.drop (j + 1)).length = keys2.length - (j + 1) := by
        rw [List.length_drop]
      rw [hRlen]
      by_cases hK : i2 = keys2.length - (j + 1)
      · rw [if_pos hK, if_pos (by omega)]
      · rw [if_neg hK, if_neg (by omega), getD_drop_add]
    rw [e1, e2, e3]
    exact hch (j + 1 + i2) (by omega)
  · have h0m : 0 < keys2.length := by omega
    have h0 : lo ≤ keys2[0] := (hbnd _ (List.getElem_mem _)).1
    have hlt := hpwg 0 j (by omega) hjlt (by omega)
    rw [hm]
    omega
  · rw [hm]
    exact (hbnd _ (List.getElem_mem _)).2
  · intro hkm2
    rw [hm] at hkm2
    have hcnt0 : (keys2.drop j).countP (fun x => decide (x ≤ k)) = 0 := by
      rw [List.countP_eq_zero]
      intro x hx
      obtain ⟨i2, hi2, he⟩ := List.mem_iff_getElem.mp hx
      have hi2b : i2 < keys2.length - j := by
        have hi3 := hi2
        rw [List.length_drop] at hi3
        omega
      have he2 := @List.getElem_drop Nat keys2 j i2 hi2
      have hge : keys2[j] ≤ keys2[j + i2] :=
        sorted_getElem_le _ hs j (j + i2) hjlt (by omega) (by omega)
      rw [he2] at he
      subst he
      simp only [decide_eq_true_eq]
      omega
    have hrL : routeIdx (keys2.take j) k = routeIdx keys2 k := by
      rw [route_eq_countP _ _ hpwL, route_eq_countP _ _ hs]
      conv_rhs => rw [← List.take_append_drop j keys2]
      rw [List.countP_append, hcnt0]
      omega
    have hrle : routeIdx keys2 k ≤ j := by
      rw [← hrL]
      have hrb := (route_spec (keys2.take j) k hpwL).1
      rw [List.length_take] at hrb
      omega
    rw [getVal_internal, hrL, getD_take_eq _ _ _ _ (by omega)]
    exact hget
  · intro hkm2
    rw [hm] at hkm2
    have hcall : (keys2.take (j + 1)).countP (fun x => decide (x ≤ k))
        = j + 1 := by
      have hlenT : (keys2.take (j + 1)).length = j + 1 := by
        rw [List.length_take]
        omega
      conv_rhs => rw [← hlenT]
      rw [List.countP_eq_length]
      intro x hx
      obtain ⟨i2, hi2, he⟩ := List.mem_iff_getElem.mp hx
      have hi2b : i2 < j + 1 := by
        have hi3 := hi2
        rw [List.length_take] at hi3
        omega
      have hi2m : i2 < keys2.length := by omega
      have he2 : (keys2.take (j + 1))[i2] = keys2[i2] := List.getElem_take _
      rw [he2] at he
      subst he
      simp only [decide_eq_true_eq]
      have hle := sorted_getElem_le _ hs i2 j (by omega) hjlt (by omega)
      omega
    have hsplitc : keys2.countP (fun x => decide (x ≤ k)) =
        (j + 1) + (keys2.drop (j + 1)).countP (fun x => decide (x ≤ k)) := by
      conv_lhs => rw [← List.take_append_drop (j + 1) keys2]
      rw [List.countP_append, hcall]
    have hrR : routeIdx (keys2.drop (j + 1)) k =
        routeIdx keys2 k - (j + 1) := by
      rw [route_eq_countP _ _ hpwR, route_eq_countP _ _ hs, hsplitc]
      omega
    have hge : j + 1 ≤ routeIdx keys2 k := by
      rw [route_eq_countP _ _ hs, hsplitc]
      omega
    rw [getVal_internal, hrR, getD_drop_add,
      show j + 1 + (routeIdx keys2 k - (j + 1)) = routeIdx keys2 k
        from by omega]
    exact hget


theorem ins_get (k v : Nat) : ∀ f lo (hi : Option Nat) (t : BT),
    WFB f lo hi t → lo ≤ k → hiLt hi k →
    insOK f lo hi k v (insRec f t k v) := by
  intro f
  induction f with
  | zero =>
    intro lo hi t hwf _ _
    exact absurd hwf (by simp [WFB])
  | succ f ih =>
    intro lo hi t hwf hlok hhik
    match t with
    | BT.leaf kvs =>
      obtain ⟨hs, hbnd⟩ := WFB_leaf_elim hwf
      cases hbs : binary_search (kvs.map Prod.fst) k with
      | inl idx =>
        simp only [insRec, hbs]
        exact leaf_replace_ok f lo hi kvs k v idx hwf hbs
      | inr idx =>
        simp only [insRec, hbs]
        by_cases hcap : kvs.length < CAPACITY
        · rw [if_pos hcap]
          exact leaf_insert_ok f lo hi kvs k v idx hwf hbs hlok hhik
        · rw [if_neg hcap]
          have hC : CAPACITY = 11 := rfl
          have hB6 : B = 6 := rfl
          have hM5 : MIN_LEN_AFTER_SPLIT = 5 := rfl
          have hMB : MIN_LEN_AFTER_SPLIT + 1 = B := rfl
          have hmlen : (kvs.map Prod.fst).length = kvs.length :=
            List.length_map _ _
          have hidxle : idx ≤ kvs.length := by
            have hb1 := (bs_inr_spec _ k idx hs hbs).1
            omega
          have hlen6 : B ≤ kvs.length := by omega
          by_cases hidx : idx < B
          · rw [if_pos hidx]
            have eL : (kvs.insertIdx idx (k, v)).take B =
                (kvs.take MIN_LEN_AFTER_SPLIT).insertIdx idx (k, v) := by
              rw [← hMB]
              exact insertIdx_take_left kvs idx MIN_LEN_AFTER_SPLIT (k, v)
                (by omega) (by omega)
            have eR : (kvs.insertIdx idx (k, v)).drop B =
                kvs.drop MIN_LEN_AFTER_SPLIT := by
              rw [← hMB]
              exact insertIdx_drop_left kvs idx MIN_LEN_AFTER_SPLIT (k, v)
                (by omega) (by omega)
            rw [← eL, ← eR]
            exact leaf_split_ok f lo hi kvs _ k v idx _ rfl rfl hwf hbs
              hlen6 hlok hhik
          · rw [if_neg hidx]
            have eL : (kvs.insertIdx idx (k, v)).take B = kvs.take B :=
              insertIdx_take_right kvs idx B (k, v) (by omega) hidxle
            have eR : (kvs.insertIdx idx (k, v)).drop B =
                (kvs.drop B).insertIdx (idx - B) (k, v) :=
              insertIdx_drop_right kvs idx B (k, v) (by omega) hidxle
            rw [← eL, ← eR]
            exact leaf_split_ok f lo hi kvs _ k v idx _ rfl rfl hwf hbs
              hlen6 hlok hhik
    | BT.internal keys cs =>
      obtain ⟨hne, hlen, hs, hbnd, hch⟩ := WFB_internal_elim hwf
      obtain ⟨hclo, hchi⟩ := route_window keys k lo hi hs hlok hhik
      have hr1 := (route_spec keys k hs).1
      have hIH := ih (childLo lo keys (routeIdx keys k))
        (childHi hi keys (routeIdx keys k))
        (cs.getD (routeIdx keys k) (BT.leaf []))
        (hch _ (by omega)) hclo hchi
      cases hres : insRec f (cs.getD (routeIdx keys k) (BT.leaf [])) k v with
      | replaced c2 old =>
        rw [hres] at hIH
        obtain ⟨Wc, hg⟩ := hIH
        simp only [insRec, hres]
        exact set_child_ok f lo hi keys cs k v c2 hwf Wc hg
      | inserted c2 =>
        rw [hres] at hIH
        obtain ⟨Wc, hg⟩ := hIH
        simp only [insRec, hres]
        exact set_child_ok f lo hi keys cs k v c2 hwf Wc hg
      | split l2 r2 sep =>
        rw [hres] at hIH
        obtain ⟨Wl, Wr, hlos, hhis, hgl, hgr⟩ := hIH
        obtain ⟨cne, clen, cpw, cbnd, cch, cget⟩ :=
          split_child_components f lo hi keys
            (keys.insertIdx (routeIdx keys k) sep) cs
            ((cs.set (routeIdx keys k) l2).insertIdx (routeIdx keys k + 1) r2)
            k v sep (routeIdx keys k) l2 r2 rfl rfl rfl hwf Wl Wr hlos hhis
            hgl hgr hlok hhik
        simp only [insRec, hres]
        by_cases hcap : keys.length < CAPACITY
        · rw [if_pos hcap]
          exact internal_node_ok f lo hi _ _ k v cne clen cpw cbnd cch cget
        · rw [if_neg hcap]
          have hC : CAPACITY = 11 := rfl
          have hB6 : B = 6 := rfl
          have hM5 : MIN_LEN_AFTER_SPLIT = 5 := rfl
          have hMB : MIN_LEN_AFTER_SPLIT + 1 = B := rfl
          have hcs1len : (cs.set (routeIdx keys k) l2).length = cs.length :=
            List.length_set _ _ _
          have hk2l : (keys.insertIdx (routeIdx keys k) sep).length =
              keys.length + 1 := List.length_insertIdx _ _ hr1
          by_cases hile : routeIdx keys k ≤ MIN_LEN_AFTER_SPLIT
          · rw [if_pos hile]
            have e1K : (keys.take MIN_LEN_AFTER_SPLIT).insertIdx
                (routeIdx keys k) sep =
                (keys.insertIdx (routeIdx keys k) sep).take B := by
              rw [← hMB]
              exact (insertIdx_take_left keys (routeIdx keys k)
                MIN_LEN_AFTER_SPLIT sep (by omega) (by omega)).symm
            have e1C : ((cs.set (routeIdx keys k) l2).take B).insertIdx
                (routeIdx keys k + 1) r2 =
                ((cs.set (routeIdx keys k) l2).insertIdx
                  (routeIdx keys k + 1) r2).take (B + 1) :=
              (insertIdx_take_left _ (routeIdx keys k + 1) B r2
                (by omega) (by rw [hcs1len]; omega)).symm
            have e1RK : keys.drop B =
                (keys.insertIdx (routeIdx keys k) sep).drop (B + 1) :=
              (insertIdx_drop_left keys (routeIdx keys k) B sep
                (by omega) hr1).symm
            have e1RC : (cs.set (routeIdx keys k) l2).drop B =
                ((cs.set (routeIdx keys k) l2).insertIdx
                  (routeIdx keys k + 1) r2).drop (B + 1) :=
              (insertIdx_drop_left _ (routeIdx keys k + 1) B r2
                (by omega) (by rw [hcs1len]; omega)).symm
            have e1S : keys.getD MIN_LEN_AFTER_SPLIT 0 =
                (keys.insertIdx (routeIdx keys k) sep).getD B 0 := by
              rw [getD_insertIdx_gt keys (routeIdx keys k) B sep 0
                (by omega) hr1,
                show B - 1 = MIN_LEN_AFTER_SPLIT from rfl]
            rw [e1K, e1C, e1RK, e1RC, e1S]
            exact internal_split_ok f lo hi _ _ k v B clen cpw cbnd cch cget
              (by omega) (by omega)
          · rw [if_neg hile]
            have e2K : keys.take MIN_LEN_AFTER_SPLIT =
                (keys.insertIdx (routeIdx keys k) sep).take
                  MIN_LEN_AFTER_SPLIT :=
              (insertIdx_take_right keys (routeIdx keys k)
                MIN_LEN_AFTER_SPLIT sep (by omega) hr1).symm
            have e2C : (cs.set (routeIdx keys k) l2).take B =
                ((cs.set (routeIdx keys k) l2).insertIdx
                  (routeIdx keys k + 1) r2).take
                  (MIN_LEN_AFTER_SPLIT + 1) := by
              rw [hMB]
              exact (insertIdx_take_right _ (routeIdx keys k + 1) B r2
                (by omega) (by rw [hcs1len]; omega)).symm
            have e2RK : (keys.drop B).insertIdx (routeIdx keys k - B) sep =
                (keys.insertIdx (routeIdx keys k) sep).drop
                  (MIN_LEN_AFTER_SPLIT + 1) := by
              rw [hMB]
              exact (insertIdx_drop_right keys (routeIdx keys k) B sep
                (by omega) hr1).symm
            have e2RC : ((cs.set (routeIdx keys k) l2).drop B).insertIdx
                (routeIdx keys k - B + 1) r2 =
                ((cs.set (routeIdx keys k) l2).insertIdx
                  (routeIdx keys k + 1) r2).drop
                  (MIN_LEN_AFTER_SPLIT + 1) := by
              rw [hMB, show routeIdx keys k - B + 1 = routeIdx keys k + 1 - B
                from by omega]
              exact (insertIdx_drop_right _ (routeIdx keys k + 1) B r2
                (by omega) (by rw [hcs1len]; omega)).symm
            have e2S : keys.getD MIN_LEN_AFTER_SPLIT 0 =
                (keys.insertIdx (routeIdx keys k) sep).getD
                  MIN_LEN_AFTER_SPLIT 0 :=
              (getD_insertIdx_lt keys (routeIdx keys k) MIN_LEN_AFTER_SPLIT
                sep 0 (by omega) hr1).symm
            rw [e2K, e2C, e2RK, e2RC, e2S]
            exact internal_split_ok f lo hi _ _ k v MIN_LEN_AFTER_SPLIT
              clen cpw cbnd cch cget (by omega) (by omega)


/-- C7 (amended): for every key k and value v, after insert(k, v)
performed on a map whose pending rebalancing `_stack` is empty and whose
root satisfies the search-tree invariant WFB (within the unbounded
window, at any height bound not exceeding the fuel), a subsequent
get_copy of k returns (a copy of) v.  On general reachable states the
claim fails: a stale `_stack` frame left by an earlier call (e.g. remove
of an absent key, mod.rs 74) is popped by insert's split-propagation loop
(mod.rs 416) and corrupts the root - see
btree_stale_stack_breaks_insert_get below for a concrete reachable state
on which insert-then-get returns none. -/
theorem insert_then_get_copy (f hc k v : Nat) (m : SMap)
    (hW : ∀ r ∈ m.root, WFB hc 0 none r) (hhc : hc ≤ f + 1) :
    get_copy (f + 2) (insert (f + 1) m k v).1 k = some v := by
  have hwf : WFB (f + 1) 0 none (get_or_create_root m).1 := by
    cases hm : m.root with
    | none =>
      simp only [get_or_create_root, hm]
      refine ⟨List.Pairwise.nil, ?_⟩
      intro x hx
      simp at hx
    | some r =>
      simp only [get_or_create_root, hm]
      exact WFB_fuel_mono hc (f + 1) 0 none r (by omega) (hW r (by rw [hm]; rfl))
  have hmain := ins_get k v (f + 1) 0 none (get_or_create_root m).1 hwf
    (Nat.zero_le k) (hiLt_none k)
  cases hres : insRec (f + 1) (get_or_create_root m).1 k v with
  | replaced t2 old =>
    rw [hres] at hmain
    obtain ⟨W2, hg⟩ := hmain
    unfold insert
    simp only [hres]
    show (lookupRec (f + 2) t2 k).map (fun t => (t.1.getD t.2 (0, 0)).2)
      = some v
    rw [lookupRec_fuel_mono k (f + 1) (f + 2) 0 none t2 (by omega) W2]
    exact hg
  | inserted t2 =>
    rw [hres] at hmain
    obtain ⟨W2, hg⟩ := hmain
    unfold insert
    simp only [hres]
    show (lookupRec (f + 2) t2 k).map (fun t => (t.1.getD t.2 (0, 0)).2)
      = some v
    rw [lookupRec_fuel_mono k (f + 1) (f + 2) 0 none t2 (by omega) W2]
    exact hg
  | split l2 r2 sep =>
    rw [hres] at hmain
    obtain ⟨Wl, Wr, hlos, hhis, hgl, hgr⟩ := hmain
    unfold insert
    simp only [hres]
    show (lookupRec (f + 1) ([l2, r2].getD (routeIdx [sep] k) (BT.leaf []))
        k).map (fun t => (t.1.getD t.2 (0, 0)).2) = some v
    have hrt : routeIdx [sep] k = if sep ≤ k then 1 else 0 := by
      rw [route_eq_countP [sep] k (by simp)]
      by_cases hsk : sep ≤ k
      · rw [if_pos hsk]
        simp [List.countP_cons, hsk]
      · rw [if_neg hsk]
        simp [List.countP_cons, hsk]
    by_cases hsk : sep ≤ k
    · rw [hrt, if_pos hsk]
      exact hgr hsk
    · rw [hrt, if_neg hsk]
      exact hgl (by omega)

theorem insert_then_get_copy_witness :
    get_copy 3 (insert 2 empty 5 7).1 5 = some 7 :=
  insert_then_get_copy 1 1 5 7 empty
    (by intro r hr; simp [empty] at hr) (by omega)




/- mod.rs keeps the rebalancing stack in a persistent field (`_stack`,
mod.rs 29) that survives from one public call into the next, and several
paths return with frames still pushed: remove of an absent key returns
through `.ok()?` (mod.rs 74) after the descent pushed a frame per
internal node (mod.rs 65), handle_stack_after_merge resolves and returns
leaving the deeper frames (mod.rs 241-247, 252-266, 280-291, 300-313,
346-355), and insert's absorb path returns mid-loop (mod.rs 423-427).
insert's split-propagation loop (mod.rs 416) pops whatever the stack
holds, so a call entered on a stale stack consumes frames of an earlier
call.  The value-level insert/remove above embed a single call entered
with an empty stack; the pointer-level model below carries the store of
physical node slabs and the persistent stack, to exhibit what happens on
a stale one. -/

/-- A plain slot write of the node slabs (write_key / write_value /
write_child_ptr): no shifting, no length change. -/
def writeSlot (l : List Nat) (idx x : Nat) : List Nat := l.set idx x

/-- insert_key / insert_value / insert_child_ptr of the node slabs:
shift the live slots idx..len-1 one slot to the right and write x at idx;
slots beyond the shifted live area keep their old bytes. -/
def insSlot (l : List Nat) (idx len x : Nat) : List Nat :=
  l.take idx ++ x :: ((l.drop idx).take (len - idx)) ++ l.drop (len + 1)

/-- remove_key / remove_value / remove_child_ptr: shift the live slots
idx+1..len-1 one slot to the left; the last live slot keeps its old byte
copy (only the separately stored length shrinks). -/
def remSlot (l : List Nat) (idx len : Nat) : List Nat :=
  l.take idx ++ ((l.drop (idx + 1)).take (len - 1 - idx)) ++ l.drop (len - 1)

/-- A freshly allocated slab region padded to its physical key capacity. -/
def padC (l : List Nat) : List Nat := l ++ List.replicate (CAPACITY - l.length) 0

/-- Padding to the physical child-pointer capacity of an internal slab. -/
def padCh (l : List Nat) : List Nat :=
  l ++ List.replicate (CHILDREN_CAPACITY - l.length) 0

/-- A physical node slab: the live length is a separate header field and
the key/value/child slots keep their bytes when the length shrinks - a
reader holding a stale length sees the old slot contents. -/
inductive NodeD where
  | leafD (len : Nat) (keys vals : List Nat)
  | intD (len : Nat) (keys children : List Nat)

/-- The stable-memory store of node slabs, addressed by pointer. -/
structure Store where
  nodes : List (Nat × NodeD)
  next : Nat

/-- Dereference a node pointer (BTreeNode::from_ptr). -/
def readN (s : Store) (p : Nat) : NodeD :=
  ((s.nodes.find? (fun e => e.1 == p)).map Prod.snd).getD (NodeD.leafD 0 [] [])

/-- Write a slab back at its pointer. -/
def writeN (s : Store) (p : Nat) (nd : NodeD) : Store :=
  { s with nodes := s.nodes.map (fun e => if e.1 == p then (p, nd) else e) }

/-- Allocate a fresh slab at the next free pointer. -/
def allocN (s : Store) (nd : NodeD) : Store × Nat :=
  ({ nodes := (s.next, nd) :: s.nodes, next := s.next + 1 }, s.next)

/-- InternalBTreeNode::create: a one-key internal slab over two children
(the new root of mod.rs 429-434). -/
def createInternal (k l r : Nat) : NodeD :=
  NodeD.intD 1 (padC [k]) (padCh [l, r])

/-- LeafBTreeNode::create: an empty leaf slab. -/
def freshLeaf : NodeD :=
  NodeD.leafD 0 (List.replicate CAPACITY 0) (List.replicate CAPACITY 0)

/-- SBTreeMap as stored (mod.rs 26-30): the root pointer, the cached
length, and the persistent rebalancing stack `_stack` of frames
(node pointer, node length as read at push time, routed child index).
The stack is a field: it survives from one public call into the next. -/
structure SMapF where
  store : Store
  root : Option Nat
  len : Nat
  stack : List (Nat × Nat × Nat)

/-- SBTreeMap::new. -/
def emptyF : SMapF := ⟨⟨[], 1⟩, none, 0, []⟩

/-- get_or_create_root (mod.rs 591-599) on the store. -/
def get_or_create_rootF (m : SMapF) : Nat × SMapF :=
  match m.root with
  | some p => (p, m)
  | none =>
    let a := allocN m.store freshLeaf
    (a.2, { m with store := a.1, root := some a.2 })

/-- The lookup loop (mod.rs 460-489) on the store; it reads each node's
current length and never touches the stack. -/
def lookupF : Nat → Store → Nat → Nat → Option (Nat × Nat)
  | 0, _, _, _ => none
  | fuel+1, s, p, k =>
    match readN s p with
    | NodeD.intD len ks cs =>
      let child_idx :=
        match binary_search (ks.take len) k with
        | Sum.inl idx => idx + 1
        | Sum.inr idx => idx
      lookupF fuel s (cs.getD child_idx 0) k
    | NodeD.leafD len ks _ =>
      match binary_search (ks.take len) k with
      | Sum.inl idx => some (p, idx)
      | Sum.inr _ => none

/-- get_copy (mod.rs 442-447) on the store. -/
def get_copyF (fuel : Nat) (m : SMapF) (k : Nat) : Option Nat :=
  match m.root with
  | none => none
  | some rp =>
    (lookupF fuel m.store rp k).map (fun pi =>
      match readN m.store pi.1 with
      | NodeD.leafD _ _ vs => vs.getD pi.2 0
      | NodeD.intD _ _ _ => 0)

/-- The Result of insert_leaf: value replaced, inserted in place, or the
leaf split with a freshly allocated right half. -/
inductive LeafInsRes where
  | replacedF (old : Nat)
  | fitF
  | splitF (rightPtr : Nat)

/-- insert_leaf (mod.rs 491-554) on the store: replace on a hit; plain
slot insert below CAPACITY; otherwise split_max_len (the right slab takes
the upper slots) and insert into the side of the index, both halves ending
at length B. -/
def insert_leafF (s : Store) (p k v : Nat) : Store × LeafInsRes :=
  match readN s p with
  | NodeD.leafD len ks vs =>
    match binary_search (ks.take len) k with
    | Sum.inl idx =>
      (writeN s p (NodeD.leafD len ks (writeSlot vs idx v)),
       LeafInsRes.replacedF (vs.getD idx 0))
    | Sum.inr idx =>
      if len < CAPACITY then
        (writeN s p (NodeD.leafD (len + 1) (insSlot ks idx len k)
          (insSlot vs idx len v)), LeafInsRes.fitF)
      else
        if idx < B then
          let a := allocN s (NodeD.leafD B
            (padC (ks.drop MIN_LEN_AFTER_SPLIT))
            (padC (vs.drop MIN_LEN_AFTER_SPLIT)))
          (writeN a.1 p (NodeD.leafD B
            (insSlot ks idx MIN_LEN_AFTER_SPLIT k)
            (insSlot vs idx MIN_LEN_AFTER_SPLIT v)), LeafInsRes.splitF a.2)
        else
          let a := allocN s (NodeD.leafD B
            (insSlot (padC (ks.drop B)) (idx - B) MIN_LEN_AFTER_SPLIT k)
            (insSlot (padC (vs.drop B)) (idx - B) MIN_LEN_AFTER_SPLIT v))
          (writeN a.1 p (NodeD.leafD B ks vs), LeafInsRes.splitF a.2)
  | NodeD.intD _ _ _ => (s, LeafInsRes.fitF)

/-- insert_internal (mod.rs 556-589) on the store.  The length it trusts
is the caller's `len` argument - the frame's length as read at push time -
not the slab's current header: a stale frame with len = CAPACITY makes it
split the node again, reading the mid key and upper slots from whatever
the slab currently holds. -/
def insert_internalF (s : Store) (p len idx k cp : Nat) :
    Store × Option (Nat × Nat) :=
  match readN s p with
  | NodeD.intD _cur ks cs =>
    if len < CAPACITY then
      (writeN s p (NodeD.intD (len + 1) (insSlot ks idx len k)
        (insSlot cs (idx + 1) (len + 1) cp)), none)
    else
      let mid := ks.getD MIN_LEN_AFTER_SPLIT 0
      if idx ≤ MIN_LEN_AFTER_SPLIT then
        let a := allocN s (NodeD.intD MIN_LEN_AFTER_SPLIT
          (padC (ks.drop B)) (padCh (cs.drop B)))
        (writeN a.1 p (NodeD.intD B (insSlot ks idx MIN_LEN_AFTER_SPLIT k)
          (insSlot cs (idx + 1) B cp)), some (a.2, mid))
      else
        let a := allocN s (NodeD.intD B
          (insSlot (padC (ks.drop B)) (idx - B) MIN_LEN_AFTER_SPLIT k)
          (insSlot (padCh (cs.drop B)) (idx - B + 1) B cp))
        (writeN a.1 p (NodeD.intD MIN_LEN_AFTER_SPLIT ks cs), some (a.2, mid))
  | NodeD.leafD _ _ _ => (s, none)

/-- insert's descent loop (mod.rs 377-393): route by binary search,
push a frame per internal node onto the persistent stack. -/
def insDescend : Nat → SMapF → Nat → Nat → SMapF × Nat
  | 0, m, p, _ => (m, p)
  | fuel+1, m, p, k =>
    match readN m.store p with
    | NodeD.intD len ks cs =>
      let child_idx :=
        match binary_search (ks.take len) k with
        | Sum.inl idx => idx + 1
        | Sum.inr idx => idx
      insDescend fuel { m with stack := (p, len, child_idx) :: m.stack }
        (cs.getD child_idx 0) k
    | NodeD.leafD _ _ _ => (m, p)

/-- insert's split-propagation loop (mod.rs 413-427): pop a frame -
whoever pushed it - and insert the separator; an absorbing parent returns
with the remaining frames still pushed (mod.rs 423-427); only an empty
stack creates a new root (mod.rs 429-434). -/
def insPropagate : Nat → SMapF → Nat → Nat → Nat → SMapF
  | 0, m, _, _, _ => m
  | fuel+1, m, node, kti, ptr =>
    match m.stack with
    | [] =>
      let a := allocN m.store (createInternal kti node ptr)
      { m with store := a.1, root := some a.2, len := m.len + 1 }
    | (parent, plen, idx) :: rest =>
      let m2 := { m with stack := rest }
      match insert_internalF m2.store parent plen idx kti ptr with
      | (s2, some rm) =>
        insPropagate fuel { m2 with store := s2 } parent rm.2 rm.1
      | (s2, none) => { m2 with store := s2, len := m2.len + 1 }

/-- SBTreeMap::insert (mod.rs 375-437) on the store: descend, insert at
the leaf (clearing the stack on the replace and fit paths, mod.rs 396-408),
else propagate the split through whatever the stack holds. -/
def insertF (fuel : Nat) (m0 : SMapF) (k v : Nat) : SMapF × Option Nat :=
  let rm := get_or_create_rootF m0
  let dl := insDescend fuel rm.2 rm.1 k
  let m2 := dl.1
  match insert_leafF m2.store dl.2 k v with
  | (s2, LeafInsRes.replacedF old) =>
    ({ m2 with store := s2, stack := [] }, some old)
  | (s2, LeafInsRes.fitF) =>
    ({ m2 with store := s2, stack := [], len := m2.len + 1 }, none)
  | (s2, LeafInsRes.splitF rp) =>
    let kti :=
      match readN s2 rp with
      | NodeD.leafD _ ks _ => ks.getD 0 0
      | NodeD.intD _ ks _ => ks.getD 0 0
    (insPropagate fuel { m2 with store := s2 } dl.2 kti rp, none)

/-- The found_internal_node fix of remove (mod.rs 85-87 etc.): write the
updated leaf's key 0 over the separator that matched the removed key. -/
def applyFinF (s : Store) (fin : Option (Nat × Nat)) (k0 : Nat) : Store :=
  match fin with
  | none => s
  | some pi =>
    match readN s pi.1 with
    | NodeD.intD len ks cs =>
      writeN s pi.1 (NodeD.intD len (writeSlot ks pi.2 k0) cs)
    | nd => writeN s pi.1 nd

/-- remove's descent loop (mod.rs 50-71): like insert's, but an exact
separator hit records the found_internal_node fix and routes right. -/
def remDescend : Nat → SMapF → Nat → Nat → Option (Nat × Nat) →
    SMapF × Nat × Option (Nat × Nat)
  | 0, m, p, _, fin => (m, p, fin)
  | fuel+1, m, p, k, fin =>
    match readN m.store p with
    | NodeD.intD len ks cs =>
      let res := binary_search (ks.take len) k
      let fin2 := match res with | Sum.inl idx => some (p, idx) | Sum.inr _ => fin
      let child_idx := match res with | Sum.inl idx => idx + 1 | Sum.inr idx => idx
      remDescend fuel { m with stack := (p, len, child_idx) :: m.stack }
        (cs.getD child_idx 0) k fin2
    | NodeD.leafD _ _ _ => (m, p, fin)

-- leaf-level spec-modelled node primitives for remove
/-- LeafBTreeNode::steal_from_left (spec-modelled, leaf_node.rs is not in
src/): the left sibling's last entry moves to the leaf's front and becomes
the separator. -/
def leafStealFromLeft (s : Store) (leafP leftP lslen parentP pkIdx : Nat) :
    Store :=
  match readN s leftP, readN s leafP, readN s parentP with
  | NodeD.leafD _ lk lv, NodeD.leafD len ks vs, NodeD.intD plen pk pc =>
    let mk := lk.getD (lslen - 1) 0
    let mv := lv.getD (lslen - 1) 0
    let s1 := writeN s leafP (NodeD.leafD len
      (insSlot ks 0 MIN_LEN_AFTER_SPLIT mk)
      (insSlot vs 0 MIN_LEN_AFTER_SPLIT mv))
    let s2 := writeN s1 leftP (NodeD.leafD (lslen - 1) lk lv)
    writeN s2 parentP (NodeD.intD plen (writeSlot pk pkIdx mk) pc)
  | _, _, _ => s

/-- LeafBTreeNode::steal_from_right (spec-modelled): the right sibling's
first entry moves to the leaf's end; the separator becomes the right
sibling's new first key. -/
def leafStealFromRight (s : Store) (leafP rightP rslen parentP pkIdx : Nat) :
    Store :=
  match readN s rightP, readN s leafP, readN s parentP with
  | NodeD.leafD _ rk rv, NodeD.leafD len ks vs, NodeD.intD plen pk pc =>
    let mk := rk.getD 0 0
    let mv := rv.getD 0 0
    let s1 := writeN s leafP (NodeD.leafD len
      (insSlot ks MIN_LEN_AFTER_SPLIT MIN_LEN_AFTER_SPLIT mk)
      (insSlot vs MIN_LEN_AFTER_SPLIT MIN_LEN_AFTER_SPLIT mv))
    let s2 := writeN s1 rightP (NodeD.leafD (rslen - 1)
      (remSlot rk 0 rslen) (remSlot rv 0 rslen))
    writeN s2 parentP (NodeD.intD plen
      (writeSlot pk pkIdx (rk.getD 1 0)) pc)
  | _, _, _ => s

/-- LeafBTreeNode::merge_min_len (spec-modelled): the right sibling's
live entries are appended into the leaf's slots; lengths are written by
the caller. -/
def leafMerge (s : Store) (leafP rightP : Nat) : Store :=
  match readN s leafP, readN s rightP with
  | NodeD.leafD _ ks vs, NodeD.leafD rlen rk rv =>
    writeN s leafP (NodeD.leafD (2 * MIN_LEN_AFTER_SPLIT)
      (ks.take MIN_LEN_AFTER_SPLIT ++ rk.take rlen ++
        ks.drop (MIN_LEN_AFTER_SPLIT + rlen))
      (vs.take MIN_LEN_AFTER_SPLIT ++ rv.take rlen ++
        vs.drop (MIN_LEN_AFTER_SPLIT + rlen)))
  | _, _ => s

/-- remove_by_idx on a leaf slab at an explicit length. -/
def leafRemoveAt (s : Store) (p idx len : Nat) : Store :=
  match readN s p with
  | NodeD.leafD l ks vs =>
    writeN s p (NodeD.leafD l (remSlot ks idx len) (remSlot vs idx len))
  | nd => writeN s p nd

/-- write_len: update the slab's length header only. -/
def leafWriteLen (s : Store) (p len : Nat) : Store :=
  match readN s p with
  | NodeD.leafD _ ks vs => writeN s p (NodeD.leafD len ks vs)
  | NodeD.intD _ ks cs => writeN s p (NodeD.intD len ks cs)

-- internal-level spec-modelled primitives for handle_stack_after_merge
/-- InternalBTreeNode::steal_from_left (spec-modelled, internal_node.rs
is not in src/): the separator comes down in front of the node's keys, the
left sibling's last child moves over, its last key goes up. -/
def intStealFromLeft (s : Store) (nodeP leftP lslen parentP pkIdx : Nat) :
    Store :=
  match readN s leftP, readN s nodeP, readN s parentP with
  | NodeD.intD _ lk lc, NodeD.intD len ks cs, NodeD.intD plen pk pc =>
    let downKey := pk.getD pkIdx 0
    let upKey := lk.getD (lslen - 1) 0
    let movedChild := lc.getD lslen 0
    let s1 := writeN s nodeP (NodeD.intD len
      (insSlot ks 0 MIN_LEN_AFTER_SPLIT downKey)
      (insSlot cs 0 B movedChild))
    let s2 := writeN s1 leftP (NodeD.intD (lslen - 1) lk lc)
    writeN s2 parentP (NodeD.intD plen (writeSlot pk pkIdx upKey) pc)
  | _, _, _ => s

/-- InternalBTreeNode::steal_from_right (spec-modelled): the separator
comes down at the node's end, the right sibling's first child moves over,
its first key goes up. -/
def intStealFromRight (s : Store) (nodeP rightP rslen parentP pkIdx : Nat) :
    Store :=
  match readN s rightP, readN s nodeP, readN s parentP with
  | NodeD.intD _ rk rc, NodeD.intD len ks cs, NodeD.intD plen pk pc =>
    let downKey := pk.getD pkIdx 0
    let upKey := rk.getD 0 0
    let movedChild := rc.getD 0 0
    let s1 := writeN s nodeP (NodeD.intD len
      (insSlot ks MIN_LEN_AFTER_SPLIT MIN_LEN_AFTER_SPLIT downKey)
      (insSlot cs B B movedChild))
    let s2 := writeN s1 rightP (NodeD.intD (rslen - 1)
      (remSlot rk 0 rslen) (remSlot rc 0 (rslen + 1)))
    writeN s2 parentP (NodeD.intD plen (writeSlot pk pkIdx upKey) pc)
  | _, _, _ => s

/-- InternalBTreeNode::merge_min_len (spec-modelled): keys become
left ++ separator ++ right, children concatenate; the length is written by
the caller. -/
def intMerge (s : Store) (nodeP : Nat) (mid : Nat) (rightP : Nat) : Store :=
  match readN s nodeP, readN s rightP with
  | NodeD.intD _ ks cs, NodeD.intD rlen rk rc =>
    writeN s nodeP (NodeD.intD CAPACITY
      (ks.take MIN_LEN_AFTER_SPLIT ++ mid :: rk.take rlen ++
        ks.drop (MIN_LEN_AFTER_SPLIT + 1 + rlen))
      (cs.take B ++ rc.take (rlen + 1) ++ cs.drop (B + rlen + 1)))
  | _, _ => s

/-- remove_key and remove_child_ptr of an internal slab at explicit
lengths. -/
def intRemoveKeyChild (s : Store) (p kIdx klen cIdx clen : Nat) : Store :=
  match readN s p with
  | NodeD.intD l ks cs =>
    writeN s p (NodeD.intD l (remSlot ks kIdx klen) (remSlot cs cIdx clen))
  | nd => writeN s p nd

/-- handle_stack_after_merge (mod.rs 230-366) on the store: pop a frame,
drop the merged-away separator and child; a node above the minimum, a
root, or a steal resolves and returns with the deeper frames still pushed
(mod.rs 241-247, 252-266, 280-291, 300-313, 346-355); a merge continues
up. -/
def handleF : Nat → SMapF → Bool → Nat → SMapF
  | 0, m, _, _ => m
  | fuel+1, m, merged_right, prevP =>
    match m.stack with
    | [] => m
    | (nodeP, node_len, remove_idx) :: rest =>
      let m1 := { m with stack := rest }
      let idx_to_remove := if merged_right then remove_idx else remove_idx - 1
      let child_idx_to_remove :=
        if merged_right then remove_idx + 1 else remove_idx
      if MIN_LEN_AFTER_SPLIT < node_len then
        let s2 := intRemoveKeyChild m1.store nodeP idx_to_remove node_len
          child_idx_to_remove (node_len + 1)
        { m1 with store := leafWriteLen s2 nodeP (node_len - 1) }
      else
        match m1.stack with
        | [] =>
          if node_len == 1 then
            { m1 with root := some prevP }
          else
            let s2 := intRemoveKeyChild m1.store nodeP idx_to_remove node_len
              child_idx_to_remove (node_len + 1)
            { m1 with store := leafWriteLen s2 nodeP (node_len - 1) }
        | (parentP, parent_len, parent_idx) :: _ =>
          match readN m1.store parentP with
          | NodeD.leafD _ _ _ => m1
          | NodeD.intD _ pk pc =>
            if 0 < parent_idx then
              let leftP := pc.getD (parent_idx - 1) 0
              let lslen :=
                match readN m1.store leftP with
                | NodeD.intD l _ _ => l
                | NodeD.leafD l _ _ => l
              if MIN_LEN_AFTER_SPLIT < lslen then
                let s2 := intStealFromLeft m1.store nodeP leftP lslen parentP
                  (parent_idx - 1)
                let s3 := intRemoveKeyChild s2 nodeP (idx_to_remove + 1) B
                  (child_idx_to_remove + 1) (B + 1)
                { m1 with store := s3 }
              else
                if parent_idx < parent_len - 1 then
                  let rightP := pc.getD (parent_idx + 1) 0
                  let rslen :=
                    match readN m1.store rightP with
                    | NodeD.intD l _ _ => l
                    | NodeD.leafD l _ _ => l
                  if MIN_LEN_AFTER_SPLIT < rslen then
                    let s2 := intStealFromRight m1.store nodeP rightP rslen
                      parentP parent_idx
                    let s3 := intRemoveKeyChild s2 nodeP idx_to_remove B
                      child_idx_to_remove (B + 1)
                    { m1 with store := s3 }
                  else
                    let mid := pk.getD parent_idx 0
                    let s2 := intMerge m1.store nodeP mid rightP
                    let s3 := intRemoveKeyChild s2 nodeP idx_to_remove CAPACITY
                      child_idx_to_remove CHILDREN_CAPACITY
                    let s4 := leafWriteLen s3 nodeP (CAPACITY - 1)
                    handleF fuel { m1 with store := s4 } true nodeP
                else
                  let mid := pk.getD (parent_idx - 1) 0
                  let s2 := intMerge m1.store leftP mid nodeP
                  let s3 := intRemoveKeyChild s2 leftP (idx_to_remove + B)
                    CAPACITY (child_idx_to_remove + B) CHILDREN_CAPACITY
                  let s4 := leafWriteLen s3 leftP (CAPACITY - 1)
                  handleF fuel { m1 with store := s4 } false leftP
            else
              let rightP := pc.getD 1 0
              let rslen :=
                match readN m1.store rightP with
                | NodeD.intD l _ _ => l
                | NodeD.leafD l _ _ => l
              if MIN_LEN_AFTER_SPLIT < rslen then
                let s2 := intStealFromRight m1.store nodeP rightP rslen
                  parentP 0
                let s3 := intRemoveKeyChild s2 nodeP idx_to_remove B
                  child_idx_to_remove (B + 1)
                { m1 with store := s3 }
              else
                let mid := pk.getD parent_idx 0
                let s2 := intMerge m1.store nodeP mid rightP
                let s3 := intRemoveKeyChild s2 nodeP idx_to_remove CAPACITY
                  child_idx_to_remove CHILDREN_CAPACITY
                let s4 := leafWriteLen s3 nodeP (CAPACITY - 1)
                handleF fuel { m1 with store := s4 } true nodeP


/-- read_len of a slab. -/
def ndLen : NodeD → Nat
  | NodeD.leafD len _ _ => len
  | NodeD.intD len _ _ => len

/-- read_key(0) of a slab. -/
def leafKey0 (s : Store) (p : Nat) : Nat :=
  match readN s p with
  | NodeD.leafD _ ks _ => ks.getD 0 0
  | NodeD.intD _ ks _ => ks.getD 0 0

/-- SBTreeMap::remove (mod.rs 46-228) on the store: descend pushing
frames, then: an absent key returns through `.ok()?` with the frames
still pushed (mod.rs 74); a leaf above the minimum removes in place and
clears the stack; a root leaf removes; otherwise steal from the left or
right sibling (clearing the stack) or merge (handing the parent frames to
handle_stack_after_merge). -/
def removeF (fuel : Nat) (m0 : SMapF) (k : Nat) : SMapF × Option Nat :=
  let rm := get_or_create_rootF m0
  let dl := remDescend fuel rm.2 rm.1 k none
  let m2 := dl.1
  let leafP := dl.2.1
  let fin := dl.2.2
  match readN m2.store leafP with
  | NodeD.intD _ _ _ => (m2, none)
  | NodeD.leafD leaf_len lk lv =>
    match binary_search (lk.take leaf_len) k with
    | Sum.inr _ => (m2, none)
    | Sum.inl idx =>
      let v := lv.getD idx 0
      let m3 := { m2 with len := m2.len - 1 }
      if MIN_LEN_AFTER_SPLIT < leaf_len then
        let m4 := { m3 with stack := [] }
        let s2 := leafRemoveAt m4.store leafP idx leaf_len
        let s3 := leafWriteLen s2 leafP (leaf_len - 1)
        ({ m4 with store := applyFinF s3 fin (leafKey0 s3 leafP) }, some v)
      else
        match m3.stack with
        | [] =>
          let s2 := leafRemoveAt m3.store leafP idx leaf_len
          ({ m3 with store := leafWriteLen s2 leafP (leaf_len - 1) }, some v)
        | (parentP, parent_len, parent_idx) :: _ =>
          match readN m3.store parentP with
          | NodeD.leafD _ _ _ => (m3, none)
          | NodeD.intD _ pk pc =>
            if 0 < parent_idx then
              let leftP := pc.getD (parent_idx - 1) 0
              let lslen := ndLen (readN m3.store leftP)
              if MIN_LEN_AFTER_SPLIT < lslen then
                let s2 := leafStealFromLeft m3.store leafP leftP lslen parentP
                  (parent_idx - 1)
                let s3 := leafRemoveAt s2 leafP (idx + 1) B
                let s4 := applyFinF s3 fin (leafKey0 s3 leafP)
                ({ m3 with store := s4, stack := [] }, some v)
              else
                if parent_idx < parent_len - 1 then
                  let rightP := pc.getD (parent_idx + 1) 0
                  let rslen := ndLen (readN m3.store rightP)
                  if MIN_LEN_AFTER_SPLIT < rslen then
                    let s2 := leafStealFromRight m3.store leafP rightP rslen
                      parentP parent_idx
                    let s3 := leafRemoveAt s2 leafP idx B
                    let s4 := applyFinF s3 fin (leafKey0 s3 leafP)
                    ({ m3 with store := s4, stack := [] }, some v)
                  else
                    let s2 := leafMerge m3.store leafP rightP
                    let s3 := leafRemoveAt s2 leafP idx (CAPACITY - 1)
                    let s4 := leafWriteLen s3 leafP (CAPACITY - 2)
                    let s5 := applyFinF s4 fin (leafKey0 s4 leafP)
                    (handleF fuel { m3 with store := s5 } true leafP, some v)
                else
                  let leftP2 := pc.getD (parent_idx - 1) 0
                  let s2 := leafMerge m3.store leftP2 leafP
                  let s3 := leafRemoveAt s2 leftP2
                    (idx + MIN_LEN_AFTER_SPLIT) (CAPACITY - 1)
                  let s4 := leafWriteLen s3 leftP2 (CAPACITY - 2)
                  (handleF fuel { m3 with store := s4 } false leftP2, some v)
            else
              let rightP := pc.getD 1 0
              let rslen := ndLen (readN m3.store rightP)
              if MIN_LEN_AFTER_SPLIT < rslen then
                let s2 := leafStealFromRight m3.store leafP rightP rslen
                  parentP 0
                let s3 := leafRemoveAt s2 leafP idx B
                let s4 := applyFinF s3 fin (leafKey0 s3 leafP)
                ({ m3 with store := s4, stack := [] }, some v)
              else
                let s2 := leafMerge m3.store leafP rightP
                let s3 := leafRemoveAt s2 leafP idx (CAPACITY - 1)
                let s4 := leafWriteLen s3 leafP (CAPACITY - 2)
                let s5 := applyFinF s4 fin (leafKey0 s4 leafP)
                (handleF fuel { m3 with store := s5 } true leafP, some v)

/-- Read the value-level tree out of the store: each node's live prefix,
children recursively. -/
def toTreeF : Nat → Store → Nat → BT
  | 0, _, _ => BT.leaf []
  | fuel+1, s, p =>
    match readN s p with
    | NodeD.leafD len ks vs => BT.leaf ((ks.take len).zip (vs.take len))
    | NodeD.intD len ks cs =>
      BT.internal (ks.take len)
        ((cs.take (len + 1)).map (fun c => toTreeF fuel s c))

/-- A concrete reachable build: 72 ascending multiples of ten, then the
five fillers 371..375 that bring the leaf covering (370, 430) to CAPACITY
without splitting. -/
def buildKey (i : Nat) : Nat := if i < 72 then 10 * (i + 1) else 299 + i

/-- The pointer-level map built by the 77 concrete inserts from the
empty map. -/
def buildF (n : Nat) : SMapF :=
  (List.range n).foldl
    (fun m i => (insertF 9 m (buildKey i) (buildKey i + 1000)).1) emptyF

/-- The same 77 inserts through the value-level model. -/
def buildR (n : Nat) : SMap :=
  (List.range n).foldl
    (fun m i => (insert 9 m (buildKey i) (buildKey i + 1000)).1) empty


-- sanity: removeF on clean stack agrees with recursive remove (a couple of cases)

/-- A chain of pointer-level removes. -/
def chainF (ops : List Nat) (m : SMapF) : SMapF :=
  ops.foldl (fun m k => (removeF 9 m k).1) m

/-- The same removes through the value-level model. -/
def chainR (ops : List Nat) (m : SMap) : SMap :=
  ops.foldl (fun m k => (remove 9 m k).1) m




set_option maxRecDepth 200000 in
/-- The pointer-level model and the value-level model agree call by call
on empty-stack states: the 77-insert build (leaf splits, root creation,
root splits) and a remove chain through steal, merge and root collapse
(on the 12-entry two-leaf tree) produce the same trees. -/
theorem pointer_model_matches_recursive :
    toTreeF 9 (buildF 77).store ((buildF 77).root.getD 0) =
      (buildR 77).root.getD (BT.leaf []) ∧
    toTreeF 9 (chainF [10, 20, 30] (buildF 12)).store
      ((chainF [10, 20, 30] (buildF 12)).root.getD 0) =
      (chainR [10, 20, 30] (buildR 12)).root.getD (BT.leaf []) :=
  ⟨rfl, rfl⟩

set_option maxRecDepth 200000 in
/-- C7 counterexample: a reachable state on which insert-then-get fails.
The 77 concrete inserts from the empty map build a two-level tree with a
full root and an empty stack.  Removing the absent key 9999 descends,
misses, and returns through `.ok()?` (mod.rs 74), leaving the frame
(root, 11, 11) pushed.  The next insert, of key 376 below the full leaf
covering (370, 430), splits that leaf and then the full root; its
propagation loop (mod.rs 416) then pops the stale frame instead of
creating a new root and splits the already-split root again at the stale
length 11, hanging the first split's right half under wrongly ordered
separators.  The map counts the insert (len becomes 78), but get_copy of
376 returns none - and the formerly present key 380 is lost as well. -/
theorem btree_stale_stack_breaks_insert_get :
    (buildF 77).stack = [] ∧
    get_copyF 9 (buildF 77) 380 = some 1380 ∧
    (removeF 9 (buildF 77) 9999).2 = none ∧
    (removeF 9 (buildF 77) 9999).1.stack =
      [((buildF 77).root.getD 0, 11, 11)] ∧
    (insertF 9 (removeF 9 (buildF 77) 9999).1 376 1376).1.len = 78 ∧
    get_copyF 9 (insertF 9 (removeF 9 (buildF 77) 9999).1 376 1376).1 376
      = none ∧
    get_copyF 9 (insertF 9 (removeF 9 (buildF 77) 9999).1 376 1376).1 380
      = none :=
  ⟨rfl, rfl, rfl, rfl, rfl, rfl, rfl⟩

end BTreeMap


end ICStableMemory
